import Mathlib

/-!
# Day 23 (amphipod sorting): a shallow embedding of `day23/main.go`

The Go program keeps its search state in package-level variables (`m`, `stack`,
`visited`, `target`, `experimental`).  Here they are the fields of `Globals`, passed
explicitly.  Machine integers are natural numbers reduced modulo `2^8` or `2^32` where
the Go code computes on `uint8` or `uint32`.  An index that is out of range makes the Go
program panic; the embedding returns `Err.panic` there.  The two unbounded loops
(`for !done` in `run`, `for len(stack) > 0` in `processInput`) take a step budget and
return `Err.fuel` when it runs out.
-/

namespace Day23

/-! ## Machine arithmetic -/

/-- Truncation to `uint8`. -/
def u8 (n : Nat) : Nat := n % 256

/-- Truncation to `uint32`. -/
def u32 (n : Nat) : Nat := n % 4294967296

/-- Subtraction on `uint8` (wraps around below zero). -/
def sub8 (a b : Nat) : Nat := (a % 256 + 256 - b % 256) % 256

/-- Subtraction on `uint32` (wraps around below zero). -/
def sub32 (a b : Nat) : Nat := (a % 4294967296 + 4294967296 - b % 4294967296) % 4294967296

/-- Go `absDiff` on `uint8` values. -/
def absDiff (a b : Nat) : Nat := if a < b then sub8 b a else sub8 a b

/-! ## Data model -/

/-- Go `State`: hallway (11 cells), per-room `mobile` and `empty` counts, cost, remaining. -/
structure State where
  h : List Nat
  mobile : List Nat
  empty : List Nat
  cost : Nat
  remaining : Nat
  deriving DecidableEq

/-- Go `Key`: the part of a `State` used as memoization fingerprint. -/
structure Key where
  h : List Nat
  mobile : List Nat
  empty : List Nat
  deriving DecidableEq

/-- Go constant `free`. -/
def free : Nat := 4

/-- Go `spots`: the hallway cells where a piece may stop. -/
def spots : List Nat := [0, 1, 3, 5, 7, 9, 10]

/-- Go `minCosts`. -/
def minCosts : List (List Nat) :=
  [[0, 2, 5, 10, 17], [0, 20, 50, 110, 180], [0, 200, 500, 1100, 1800],
   [0, 2000, 5000, 10000, 17000]]

/-- Go `weights`. -/
def weights : List Nat := [1, 10, 100, 1000]

/-- The ways the embedding can fail: a Go runtime panic, or the step budget ran out. -/
inductive Err where
  | panic
  | fuel
  deriving DecidableEq

/-- Checked indexing: Go panics when the index is out of range. -/
def idx (xs : List Nat) (i : Nat) : Except Err Nat :=
  match xs[i]? with
  | some x => .ok x
  | none => .error .panic

/-- The composite literal `Key{h: next.h, empty: next.empty, mobile: next.mobile}`. -/
def keyOf (s : State) : Key := { h := s.h, mobile := s.mobile, empty := s.empty }

/-- The package-level variables of the Go program. The stack's head is its top;
`visited` is an association list read by `visitedGet` (latest write first). -/
structure Globals where
  experimental : Bool
  m : List (List Nat)
  stack : List State
  visited : List (Key × Nat)
  target : Nat

/-- Map lookup `visited[key]`. -/
def visitedGet : List (Key × Nat) → Key → Option Nat
  | [], _ => none
  | (k, c) :: rest, key => if k = key then some c else visitedGet rest key

/-- Map store `visited[key] = cost`. -/
def visitedSet (vis : List (Key × Nat)) (key : Key) (cost : Nat) : List (Key × Nat) :=
  (key, cost) :: vis

/-! ## `pathClear` -/

/-- The loop `for c := lo; c < lo + k; c++ { if s.h[c] != free { return false } }`. -/
def scan (h : List Nat) : Nat → Nat → Except Err Bool
  | _, 0 => .ok true
  | c, k + 1 =>
    match h[c]? with
    | none => .error .panic
    | some x => if x ≠ free then .ok false else scan h (c + 1) k

/-- Go `(*State).pathClear`. -/
def pathClear (s : State) (src dst : Nat) : Except Err Bool :=
  if src > dst then scan s.h (dst + 1) (src - (dst + 1))
  else scan s.h (src + 1) (dst - (src + 1))

/-! ## `processInput`: building `m` and the initial state -/

/-- The statement `m[len(m)-1][c] = v`. -/
def setLast (m : List (List Nat)) (c v : Nat) : List (List Nat) :=
  m.set (m.length - 1) ((m.getD (m.length - 1) []).set c v)

/-- The loop `for i, v := range chars` that fills `m`, started at index `i`. -/
def buildRows : List (List Nat) → Nat → List Nat → List (List Nat)
  | m, _, [] => m
  | m, i, v :: rest =>
    buildRows (setLast (if i % 4 = 0 then m ++ [[0, 0, 0, 0]] else m) (i % 4) (sub8 v 65))
      (i + 1) rest

/-- The body of the counting loop for the cell in column `c` holding `v`. -/
def countCell (s : State) (c v : Nat) : State :=
  if v = c ∧ s.mobile.getD c 0 = 0 then { s with remaining := sub8 s.remaining 1 }
  else { s with mobile := s.mobile.set c (u8 (s.mobile.getD c 0 + 1)) }

/-- The loop `for c, v := range m[r]`, started at column `c`. -/
def countRow : State → Nat → List Nat → State
  | s, _, [] => s
  | s, c, v :: rest => countRow (countCell s c v) (c + 1) rest

/-- The loop `for r := len(m) - 1; r >= 0; r--`, given the rows from the last to the first. -/
def countRows : State → List (List Nat) → State
  | s, [] => s
  | s, row :: rest => countRows (countRow s 0 row) rest

/-- The initial state that `processInput` builds from `chars` and `m`. -/
def initState (chars : List Nat) (m : List (List Nat)) : State :=
  countRows
    { h := [free, free, free, free, free, free, free, free, free, free, free],
      mobile := [0, 0, 0, 0], empty := [0, 0, 0, 0], cost := 0,
      remaining := u8 chars.length }
    m.reverse

/-! ## `run` -/

/-- Control flow of the first phase of `run`: it has returned (leaving `target` with the
given value), or it goes on with the working state and the `done` flag. -/
inductive Flow where
  | ret (target : Nat)
  | go (s : State) (done : Bool)
  deriving DecidableEq

/-- Body of the loop `for _, src := range spots` (in-place hallway -> room). -/
def hallStep (target : Nat) (s : State) (done : Bool) (src : Nat) : Except Err Flow :=
  match idx s.h src with
  | .error e => .error e
  | .ok v =>
    if v = free then .ok (.go s done) else
    match idx s.mobile v with
    | .error e => .error e
    | .ok mv =>
      if mv ≠ 0 then .ok (.go s done) else
      match pathClear s src (u8 ((v + 1) * 2)) with
      | .error e => .error e
      | .ok false => .ok (.go s done)
      | .ok true =>
        match idx s.empty v, idx weights v with
        | .ok ev, .ok w =>
          let cost := u32 (s.cost + u32 (u8 (absDiff (u8 ((v + 1) * 2)) src + ev) * w))
          if cost ≥ target ∧ target ≠ 0 then .ok (.ret target)
          else if s.remaining = 1 then .ok (.ret cost)
          else .ok (.go { s with h := s.h.set src free, empty := s.empty.set v (sub8 ev 1),
                                 cost := cost, remaining := sub8 s.remaining 1 } false)
        | _, _ => .error .panic

/-- The loop `for _, src := range spots`, over the cells still to visit. -/
def hallLoop (target : Nat) : List Nat → State → Bool → Except Err Flow
  | [], s, done => .ok (.go s done)
  | src :: rest, s, done =>
    match hallStep target s done src with
    | .ok (.go s1 d1) => hallLoop target rest s1 d1
    | r => r

/-- Checked `m[r][c]`. -/
def cell (m : List (List Nat)) (r c : Nat) : Except Err Nat :=
  match m[r]? with
  | none => .error .panic
  | some row => idx row c

/-- Body of the loop `for c := uint8(0); c < 4; c++` (in-place room -> room). -/
def roomStep (m : List (List Nat)) (target : Nat) (s : State) (done : Bool) (c : Nat) :
    Except Err Flow :=
  match idx s.mobile c with
  | .error e => .error e
  | .ok mc =>
    if mc = 0 then .ok (.go s done) else
    match idx s.empty c with
    | .error e => .error e
    | .ok r =>
      match cell m r c with
      | .error e => .error e
      | .ok v =>
        match idx s.mobile v with
        | .error e => .error e
        | .ok mv =>
          if mv ≠ 0 then .ok (.go s done) else
          match pathClear s (u8 ((c + 1) * 2)) (u8 ((v + 1) * 2)) with
          | .error e => .error e
          | .ok false => .ok (.go s done)
          | .ok true =>
            match idx s.empty v, idx weights v with
            | .ok ev, .ok w =>
              let cost := u32 (s.cost +
                u32 (u8 (absDiff (u8 ((v + 1) * 2)) (u8 ((c + 1) * 2)) + r + 1 + ev) * w))
              if cost ≥ target ∧ target ≠ 0 then .ok (.ret target)
              else
                let e1 := s.empty.set c (u8 (r + 1))
                let m1 := s.mobile.set c (sub8 mc 1)
                .ok (.go { s with empty := e1.set v (sub8 (e1.getD v 0) 1), mobile := m1,
                                  cost := cost, remaining := sub8 s.remaining 1 } false)
            | _, _ => .error .panic

/-- The loop `for c := uint8(0); c < 4; c++` of the in-place phase, over the rooms still
to visit. -/
def roomLoop (m : List (List Nat)) (target : Nat) : List Nat → State → Bool → Except Err Flow
  | [], s, done => .ok (.go s done)
  | c :: rest, s, done =>
    match roomStep m target s done c with
    | .ok (.go s1 d1) => roomLoop m target rest s1 d1
    | r => r

/-- The loop `for !done` of `run`, with a step budget. It ends with `Flow.ret` when `run`
returned from inside it, and with `Flow.go s true` when no in-place move applies. -/
def inplace (m : List (List Nat)) (target : Nat) : Nat → State → Except Err Flow
  | 0, _ => .error .fuel
  | fuel + 1, s =>
    match hallLoop target spots s true with
    | .ok (.go s1 d1) =>
      match roomLoop m target [0, 1, 2, 3] s1 d1 with
      | .ok (.go s2 d2) => if d2 then .ok (.go s2 true) else inplace m target fuel s2
      | r => r
    | r => r

/-- One summand `minCosts[c][s.mobile[c]+s.empty[c]]`. -/
def roomBound (s : State) (c : Nat) : Except Err Nat :=
  match idx s.mobile c, idx s.empty c with
  | .ok mc, .ok ec =>
    match minCosts[c]? with
    | none => .error .panic
    | some row => idx row (u8 (mc + ec))
  | _, _ => .error .panic

/-- The value of the local `min` of `run`. -/
def minBound (experimental : Bool) (target : Nat) (s : State) : Except Err Nat :=
  if experimental ∧ target ≠ 0 then
    match roomBound s 0, roomBound s 1, roomBound s 2, roomBound s 3 with
    | .ok a, .ok b, .ok c, .ok d => .ok (u32 (u32 (u32 (a + b) + c) + d))
    | _, _, _, _ => .error .panic
  else .ok 0

/-- The value of the local `forecast` of `run`. -/
def forecastOf (experimental : Bool) (dst v w : Nat) : Nat :=
  if experimental then u32 (sub32 (absDiff dst (u8 ((v + 1) * 2))) 1 * w) else 0

/-- Body of the loop `for _, dst := range spots` of the branching phase, for room `c`
whose `empty` count is `r`; `min` is the local of that name. -/
def branchStep (g : Globals) (s : State) (min c r dst : Nat) : Except Err Globals :=
  match idx s.h dst with
  | .error e => .error e
  | .ok x =>
    if x ≠ free then .ok g else
    match pathClear s (u8 ((c + 1) * 2)) dst with
    | .error e => .error e
    | .ok false => .ok g
    | .ok true =>
      match cell g.m r c with
      | .error e => .error e
      | .ok v =>
        match idx weights v with
        | .error e => .error e
        | .ok w =>
          let cost := u32 (s.cost + u32 (u8 (absDiff dst (u8 ((c + 1) * 2)) + r + 1) * w))
          let forecast := forecastOf g.experimental dst v w
          if u32 (u32 (cost + min) + forecast) < g.target ∨ g.target = 0 then
            let next : State :=
              { s with h := s.h.set dst v, empty := s.empty.set c (u8 (r + 1)),
                       mobile := s.mobile.set c (sub8 (s.mobile.getD c 0) 1), cost := cost }
            let key : Key := keyOf next
            match visitedGet g.visited key with
            | none =>
              .ok { g with stack := next :: g.stack, visited := visitedSet g.visited key cost }
            | some value =>
              if cost < value then
                .ok { g with stack := next :: g.stack,
                             visited := visitedSet g.visited key cost }
              else .ok g
          else .ok g

/-- The loop `for _, dst := range spots` of the branching phase. -/
def branchSpots (s : State) (min c r : Nat) : List Nat → Globals → Except Err Globals
  | [], g => .ok g
  | dst :: rest, g =>
    match branchStep g s min c r dst with
    | .ok g1 => branchSpots s min c r rest g1
    | .error e => .error e

/-- The loop `for c := uint8(0); c < 4; c++` of the branching phase. -/
def branchRooms (s : State) (min : Nat) : List Nat → Globals → Except Err Globals
  | [], g => .ok g
  | c :: rest, g =>
    match idx s.mobile c with
    | .error e => .error e
    | .ok mc =>
      if mc = 0 then branchRooms s min rest g else
      match idx s.empty c with
      | .error e => .error e
      | .ok r =>
        match branchSpots s min c r spots g with
        | .ok g1 => branchRooms s min rest g1
        | .error e => .error e

/-- Go `run`, applied to the popped state `s`. -/
def run (fuel : Nat) (g : Globals) (s : State) : Except Err Globals :=
  match inplace g.m g.target fuel s with
  | .error e => .error e
  | .ok (.ret t) => .ok { g with target := t }
  | .ok (.go s1 _) =>
    match minBound g.experimental g.target s1 with
    | .error e => .error e
    | .ok min => branchRooms s1 min [0, 1, 2, 3] g

/-- The loop `for len(stack) > 0` of `processInput`, with a step budget. -/
def drain : Nat → Globals → Except Err Globals
  | 0, _ => .error .fuel
  | fuel + 1, g =>
    match g.stack with
    | [] => .ok g
    | s :: rest =>
      match run (fuel + 1) { g with stack := rest } s with
      | .ok g1 => drain fuel g1
      | .error e => .error e

/-- The globals as `processInput` sets them before the work-list loop starts. -/
def startGlobals (g : Globals) (chars : List Nat) : Globals :=
  let m := buildRows [] 0 chars
  { g with m := m, target := 0, stack := [initState chars m], visited := [] }

/-- Go `processInput`: the globals it leaves behind. -/
def processGlobals (fuel : Nat) (g : Globals) (chars : List Nat) : Except Err Globals :=
  drain fuel (startGlobals g chars)

/-- Go `processInput`: the returned cost (the elapsed time is not modelled). -/
def processInput (fuel : Nat) (g : Globals) (chars : List Nat) : Except Err Nat :=
  match processGlobals fuel g chars with
  | .ok g1 => .ok g1.target
  | .error e => .error e

/-! ## Specification-side definitions for the initial state -/

/-- One step of the counting loop seen from one room: the new `mobile` count. -/
def colStep (c mob v : Nat) : Nat := if v = c ∧ mob = 0 then mob else mob + 1

/-- Sum of the four per-room counts. -/
def sum4 (l : List Nat) : Nat := l.getD 0 0 + l.getD 1 0 + l.getD 2 0 + l.getD 3 0

/-- The counting loop seen from one room: the `mobile` count after the cells `col`. -/
def colFold (c : Nat) : Nat → List Nat → Nat
  | mob, [] => mob
  | mob, v :: rest => colFold c (colStep c mob v) rest

/-- The table `m` that the parsing loop builds from complete rows of four tokens. -/
def rowsOf : List Nat → List (List Nat)
  | a :: b :: c :: d :: rest => [sub8 a 65, sub8 b 65, sub8 c 65, sub8 d 65] :: rowsOf rest
  | _ => []

/-- The cells of a room column `col` (top first) from row `r` down all carry label `c`. -/
def settledFrom (c : Nat) (col : List Nat) (r : Nat) : Prop :=
  ∀ r', r ≤ r' → r' < col.length → col.getD r' 0 = c

instance (c : Nat) (col : List Nat) (r : Nat) : Decidable (settledFrom c col r) := by
  unfold settledFrom; infer_instance

/-- Number of cells of the column that are not settled. -/
def unsettled (c : Nat) (col : List Nat) : Nat :=
  (List.range col.length).countP (fun r => !decide (settledFrom c col r))

/-- Label (0 for A, ..., 3 for D) of the token in row `r` (from the top) of room `c`, the
tokens being given row by row. -/
def labelAt (chars : List Nat) (r c : Nat) : Nat := chars.getD (4 * r + c) 0 - 65

/-- Spec: the piece in row `r` of room `c` is already placed iff it and every piece below
it in the same room carry that room's label (`n` rows). -/
def alreadyPlaced (chars : List Nat) (n r c : Nat) : Bool :=
  decide (∀ r', r ≤ r' → r' < n → labelAt chars r' c = c)

/-- Spec: number of pieces of room `c` that are not already placed. -/
def notPlacedCount (chars : List Nat) (n c : Nat) : Nat :=
  (List.range n).countP (fun r => !alreadyPlaced chars n r c)

/-- Spec: number of already-placed pieces, over the four rooms. -/
def placedCount (chars : List Nat) (n : Nat) : Nat :=
  ((List.range 4).map (fun c => (List.range n).countP (fun r => alreadyPlaced chars n r c))).sum

/-! ## The puzzle (specification side)

A configuration lists the hallway cells and, for each room, the labels of the pieces inside
(topmost first). The two kinds of legal move are those of the puzzle: the top piece of a room
goes to a free parking cell along a clear path, and a parked piece goes into its own room
when that room holds no misplaced piece and the path is clear. -/

/-- Configuration of the puzzle: hallway cells (a label `0..3` or `free`) and, per room, the
labels of its pieces, topmost first. -/
structure Config where
  hall : List Nat
  rooms : List (List Nat)
  deriving DecidableEq

/-- Hallway cell above room `c`. -/
def col (c : Nat) : Nat := 2 * (c + 1)

/-- Number of hallway steps between two cells. -/
def dist (a b : Nat) : Nat := if a < b then b - a else a - b

/-- Every hallway cell strictly between `a` and `b` is free. -/
def clearBetween (hall : List Nat) (a b : Nat) : Prop :=
  ∀ x, (a < x ∧ x < b) ∨ (b < x ∧ x < a) → hall.getD x free = free

/-- One legal move of the puzzle with rooms of `n` cells, and its cost. -/
inductive Step (n : Nat) : Config → Nat → Config → Prop where
  | park (cfg : Config) (c dst p : Nat) (rest : List Nat) :
      c < 4 → cfg.rooms.getD c [] = p :: rest → dst ∈ spots →
      cfg.hall.getD dst free = free → clearBetween cfg.hall (col c) dst →
      Step n cfg ((dist dst (col c) + (n - rest.length)) * weights.getD p 0)
        ⟨cfg.hall.set dst p, cfg.rooms.set c rest⟩
  | home (cfg : Config) (src v : Nat) :
      cfg.hall.getD src free = v → v < 4 →
      (∀ x, x ∈ cfg.rooms.getD v [] → x = v) → (cfg.rooms.getD v []).length < n →
      clearBetween cfg.hall src (col v) →
      Step n cfg ((dist src (col v) + (n - (cfg.rooms.getD v []).length)) * weights.getD v 0)
        ⟨cfg.hall.set src free, cfg.rooms.set v (v :: cfg.rooms.getD v [])⟩

/-- A sequence of `k` legal moves of total cost `cost`. -/
inductive Path (n : Nat) : Nat → Config → Nat → Config → Prop where
  | nil (cfg : Config) : Path n 0 cfg 0 cfg
  | cons {k : Nat} {a b d : Config} {c1 c2 : Nat} :
      Step n a c1 b → Path n k b c2 d → Path n (k + 1) a (c1 + c2) d

/-- Every piece is in its destination room. -/
def Solved (n : Nat) (cfg : Config) : Prop :=
  (∀ x, x ∈ cfg.hall → x = free) ∧
  cfg.rooms = [List.replicate n 0, List.replicate n 1, List.replicate n 2, List.replicate n 3]

/-- `t` is the cost of some sequence of legal moves that sorts `cfg`. -/
def SolvableAt (n : Nat) (cfg : Config) (t : Nat) : Prop :=
  ∃ k goal, Path n k cfg t goal ∧ Solved n goal

/-- `t` is the minimum total cost over all sequences of legal moves that sort `cfg`. -/
def IsMinCost (n : Nat) (cfg : Config) (t : Nat) : Prop :=
  SolvableAt n cfg t ∧ ∀ t', SolvableAt n cfg t' → t ≤ t'

/-- The initial configuration given by the tokens (row by row from the top, `n` rows). -/
def startConfig (chars : List Nat) (n : Nat) : Config :=
  { hall := List.replicate 11 free,
    rooms := (List.range 4).map (fun c => (List.range n).map (fun r => labelAt chars r c)) }

/-- A well-formed input: `4 * n` tokens A..D with `n` in `{2, 4}`, each label `n` times. -/
def WellFormed (chars : List Nat) (n : Nat) : Prop :=
  (n = 2 ∨ n = 4) ∧ chars.length = 4 * n ∧ (∀ x, x ∈ chars → 65 ≤ x ∧ x ≤ 68) ∧
  ∀ v, v < 4 → chars.count (65 + v) = n

/-! ## From a search state to the configuration it stands for -/

/-- The pieces of room `c` in state `s`: the `mobile[c]` cells of `m` from row `empty[c]`
down, then the settled pieces (all of label `c`) that fill the room up to `n` cells. -/
def roomOf (m : List (List Nat)) (n : Nat) (s : State) (c : Nat) : List Nat :=
  (List.range (s.mobile.getD c 0)).map (fun j => (m.getD (s.empty.getD c 0 + j) []).getD c 0)
    ++ List.replicate (n - s.empty.getD c 0 - s.mobile.getD c 0) c

/-- The configuration that state `s` stands for. -/
def cfgOf (m : List (List Nat)) (n : Nat) (s : State) : Config :=
  { hall := s.h, rooms := (List.range 4).map (roomOf m n s) }

/-- Number of pieces of label `v` in a configuration. -/
def countLabel (v : Nat) (cfg : Config) : Nat :=
  cfg.hall.count v + (cfg.rooms.getD 0 []).count v + (cfg.rooms.getD 1 []).count v +
    (cfg.rooms.getD 2 []).count v + (cfg.rooms.getD 3 []).count v

/-- Number of occupied hallway cells. -/
def occupied (h : List Nat) : Nat := h.countP (fun x => x != free)

/-- The table `m` is well formed: `n` rows (`1 ≤ n ≤ 4`) of four labels. -/
def TableOK (m : List (List Nat)) (n : Nat) : Prop :=
  1 ≤ n ∧ n ≤ 4 ∧ m.length = n ∧ ∀ row, row ∈ m → row.length = 4 ∧ ∀ x, x ∈ row → x < 4

/-- Invariant of the search states reached from a well-formed input. -/
structure Inv (m : List (List Nat)) (n : Nat) (s : State) : Prop where
  hlen : s.h.length = 11
  mlen : s.mobile.length = 4
  elen : s.empty.length = 4
  hval : ∀ i, s.h.getD i free ≤ 4
  hspot : ∀ i, s.h.getD i free ≠ free → i ∈ spots
  cap : ∀ c, c < 4 → s.empty.getD c 0 + s.mobile.getD c 0 ≤ n
  cnt : ∀ v, v < 4 → countLabel v (cfgOf m n s) = n
  rem : s.remaining = sum4 s.mobile + occupied s.h
  costb : s.cost + 20000 * (2 * sum4 s.mobile + occupied s.h) ≤ 640000
  bot : ∀ c, c < 4 → s.mobile.getD c 0 ≠ 0 →
    (m.getD (s.empty.getD c 0 + s.mobile.getD c 0 - 1) []).getD c 0 ≠ c
  occ : occupied s.h = sum4 s.empty

/-! ## The three moves of `run`, without machine arithmetic -/

/-- The in-place hallway -> room rule applies to the piece parked at `src`. -/
def CanEnter (s : State) (src : Nat) : Prop :=
  s.h.getD src free ≠ free ∧ s.mobile.getD (s.h.getD src free) 0 = 0 ∧
  clearBetween s.h src (col (s.h.getD src free))

/-- Cost of the hallway -> room move of the piece parked at `src`. -/
def enterCost (s : State) (src : Nat) : Nat :=
  (dist (col (s.h.getD src free)) src + s.empty.getD (s.h.getD src free) 0) *
    weights.getD (s.h.getD src free) 0

/-- State after the hallway -> room move of the piece parked at `src`. -/
def enterState (s : State) (src : Nat) : State :=
  { s with h := s.h.set src free,
           empty := s.empty.set (s.h.getD src free) (s.empty.getD (s.h.getD src free) 0 - 1),
           cost := s.cost + enterCost s src, remaining := s.remaining - 1 }

/-- Label of the topmost mobile piece of room `c`. -/
def topOf (m : List (List Nat)) (s : State) (c : Nat) : Nat :=
  (m.getD (s.empty.getD c 0) []).getD c 0

/-- The in-place room -> room rule applies to the top piece of room `c`. -/
def CanCross (m : List (List Nat)) (s : State) (c : Nat) : Prop :=
  s.mobile.getD c 0 ≠ 0 ∧ s.mobile.getD (topOf m s c) 0 = 0 ∧
  clearBetween s.h (col c) (col (topOf m s c))

/-- Cost of the room -> room move of the top piece of room `c`. -/
def crossCost (m : List (List Nat)) (s : State) (c : Nat) : Nat :=
  (dist (col (topOf m s c)) (col c) + s.empty.getD c 0 + 1 + s.empty.getD (topOf m s c) 0) *
    weights.getD (topOf m s c) 0

/-- State after the room -> room move of the top piece of room `c`. -/
def crossState (m : List (List Nat)) (s : State) (c : Nat) : State :=
  { s with empty := (s.empty.set c (s.empty.getD c 0 + 1)).set (topOf m s c)
                      (s.empty.getD (topOf m s c) 0 - 1),
           mobile := s.mobile.set c (s.mobile.getD c 0 - 1),
           cost := s.cost + crossCost m s c, remaining := s.remaining - 1 }

/-- The top piece of room `c` may park in cell `dst`. -/
def CanPark (s : State) (c dst : Nat) : Prop :=
  s.h.getD dst free = free ∧ clearBetween s.h (col c) dst

/-- Cost of parking the top piece of room `c` in cell `dst`. -/
def parkCost (m : List (List Nat)) (s : State) (c dst : Nat) : Nat :=
  (dist dst (col c) + s.empty.getD c 0 + 1) * weights.getD (topOf m s c) 0

/-- State after parking the top piece of room `c` in cell `dst`. -/
def parkState (m : List (List Nat)) (s : State) (c dst : Nat) : State :=
  { s with h := s.h.set dst (topOf m s c), empty := s.empty.set c (s.empty.getD c 0 + 1),
           mobile := s.mobile.set c (s.mobile.getD c 0 - 1), cost := s.cost + parkCost m s c dst }

/-- The parking cell next to the column of room `c` on the side of room `v`. -/
def toward (c v : Nat) : Nat := if col c < col v then col c + 1 else col c - 1

/-- `Reduces m s s1`: the working state `s1` is obtained from `s` by in-place moves of `run`
(hallway -> room from a parking cell, not taken when it is the last move, and room ->
room). -/
inductive Reduces (m : List (List Nat)) : State → State → Prop where
  | refl (s : State) : Reduces m s s
  | enter {s s1 : State} (src : Nat) :
      src ∈ spots → CanEnter s src → s.remaining ≠ 1 → Reduces m (enterState s src) s1 →
      Reduces m s s1
  | cross {s s1 : State} (c : Nat) :
      c < 4 → CanCross m s c → Reduces m (crossState m s c) s1 → Reduces m s s1

/-- No in-place move applies in state `s`. -/
def NoMove (m : List (List Nat)) (s : State) : Prop :=
  (∀ src, src ∈ spots → ¬ CanEnter s src) ∧ ∀ c, c < 4 → ¬ CanCross m s c

/-- How `run` may return from its in-place loop when the working state is `s1`, the bound is
`t` and the value left in `target` is `t'`: the branch is cut because an in-place move brings
the cost to `t` or more, or the move of the last parked piece gives a new, smaller bound. -/
def RetOK (m : List (List Nat)) (t t' : Nat) (s1 : State) : Prop :=
  (t' = t ∧ t ≠ 0 ∧
    ((∃ src, src ∈ spots ∧ CanEnter s1 src ∧ t ≤ (enterState s1 src).cost) ∨
     (∃ c, c < 4 ∧ CanCross m s1 c ∧ t ≤ (crossState m s1 c).cost))) ∨
  (∃ src, src ∈ spots ∧ CanEnter s1 src ∧ s1.remaining = 1 ∧
    t' = (enterState s1 src).cost ∧ (t = 0 ∨ t' < t))

/-- What the in-place phase of `run` guarantees about its outcome `r`, started in state `s`
with flag `d` and bound `t`, for the hallway cells `cells` and rooms `rooms` still to visit
in the current pass. -/
def FlowOK (m : List (List Nat)) (n : Nat) (t : Nat) (s : State) (d : Bool)
    (cells rooms : List Nat) (r : Flow) : Prop :=
  match r with
  | .go s1 d1 =>
    Inv m n s1 ∧ Reduces m s s1 ∧
    (d1 = true → d = true ∧ s1 = s ∧ (∀ src, src ∈ cells → ¬ CanEnter s src) ∧
      ∀ c, c ∈ rooms → ¬ CanCross m s c) ∧
    s1.remaining + (if d1 then 0 else 1) ≤ s.remaining + (if d then 0 else 1)
  | .ret t' => ∃ s1, Inv m n s1 ∧ Reduces m s s1 ∧ RetOK m t t' s1

/-- What the in-place loop of `run` guarantees about its outcome: it ends in a state where
no in-place move applies, or `run` returns as described by `RetOK`. -/
def InplaceOK (m : List (List Nat)) (n : Nat) (t : Nat) (s : State) (r : Flow) : Prop :=
  match r with
  | .go s1 d1 => d1 = true ∧ Inv m n s1 ∧ Reduces m s s1 ∧ NoMove m s1
  | .ret t' => ∃ s1, Inv m n s1 ∧ Reduces m s s1 ∧ RetOK m t t' s1

/-- The pruning test of the branching phase fails for parking the top piece of room `c` of
state `s` in cell `dst` (`min` is the local of that name): the successor is not built. -/
def Pruned (g : Globals) (min : Nat) (s : State) (c dst : Nat) : Prop :=
  ¬ (u32 (u32 ((parkState g.m s c dst).cost + min) +
        forecastOf g.experimental dst (topOf g.m s c) (weights.getD (topOf g.m s c) 0))
      < g.target ∨ g.target = 0)

/-- `Grow s k g g1`: the branching phase for state `s` took the globals from `g` to `g1` by
pushing at most `k` successors of `s`; the stored costs in `visited` only went down, and
every new entry is the cost of a pushed successor. -/
structure Grow (s : State) (k : Nat) (g g1 : Globals) : Prop where
  exp : g1.experimental = g.experimental
  mm : g1.m = g.m
  tgt : g1.target = g.target
  stk : ∃ new, g1.stack = new ++ g.stack ∧ new.length ≤ k ∧
    (∀ x, x ∈ new → ∃ c dst, c < 4 ∧ s.mobile.getD c 0 ≠ 0 ∧ dst ∈ spots ∧ CanPark s c dst ∧
      x = parkState g.m s c dst) ∧
    ∀ K v, visitedGet g1.visited K = some v →
      visitedGet g.visited K = some v ∨ ∃ x, x ∈ new ∧ keyOf x = K ∧ x.cost = v
  mono : ∀ K v, visitedGet g.visited K = some v →
    ∃ v', v' ≤ v ∧ visitedGet g1.visited K = some v'

/-- The successor of `s` by parking the top piece of room `c` in `dst` is accounted for in
`g1`: it was pruned, or `visited` holds a cost for its key that is not larger than its own. -/
def Covered (g g1 : Globals) (min : Nat) (s : State) (c dst : Nat) : Prop :=
  Pruned g min s c dst ∨
  ∃ v, v ≤ (parkState g.m s c dst).cost ∧
    visitedGet g1.visited (keyOf (parkState g.m s c dst)) = some v

/-- What a call of `run` on the popped state `s` guarantees about the globals `g1` it leaves:
it returned from the in-place loop, writing `target` as `RetOK` says, or it reduced `s` to a
state `s1` where no in-place move applies and ran the branching phase on it, every
successor of `s1` being accounted for. -/
def RunOK (n : Nat) (g : Globals) (s : State) (g1 : Globals) : Prop :=
  (∃ t' s1, g1 = { g with target := t' } ∧ Inv g.m n s1 ∧ Reduces g.m s s1 ∧
    RetOK g.m g.target t' s1) ∨
  (∃ s1 min, Inv g.m n s1 ∧ Reduces g.m s s1 ∧ NoMove g.m s1 ∧
    minBound g.experimental g.target s1 = .ok min ∧ Grow s1 28 g g1 ∧
    ∀ c dst, c < 4 → s1.mobile.getD c 0 ≠ 0 → dst ∈ spots → CanPark s1 c dst →
      Covered g g1 min s1 c dst)

/-- Bound on the number of states that the search yet pops because of one stacked state
whose `mobile` counts sum to `k`. -/
def wt : Nat → Nat
  | 0 => 1
  | k + 1 => 28 * wt k + 1

/-- Bound on the number of pops still to come, given the stack. -/
def work (stack : List State) : Nat := (stack.map (fun s => wt (sum4 s.mobile))).sum

/-- `Visits g0 g`: the work-list loop of `processInput`, started with the globals `g0`,
reaches the globals `g` at the head of an iteration (each iteration pops the top of the
stack and calls `run` on it). -/
inductive Visits (g0 : Globals) : Globals → Prop where
  | start : Visits g0 g0
  | step {g g1 : Globals} {s : State} {rest : List State} (fuel : Nat) :
      Visits g0 g → g.stack = s :: rest → run fuel { g with stack := rest } s = .ok g1 →
      Visits g0 g1

/-! ## Exchange arguments on the puzzle -/

/-- A configuration has its 11 hallway cells and 4 rooms, and `n` pieces of each label. -/
def WFC (n : Nat) (a : Config) : Prop :=
  a.hall.length = 11 ∧ a.rooms.length = 4 ∧ ∀ v, v < 4 → countLabel v a = n

/-- The configuration `a` with the piece parked at `x`, of label `v`, put into room `v`. -/
def homeCfg (a : Config) (x v : Nat) : Config :=
  ⟨a.hall.set x free, a.rooms.set v (v :: a.rooms.getD v [])⟩

/-- A piece of label `v` is parked at `x`, and room `v` holds only pieces of label `v` and
has a free cell. -/
def HomeOK (n : Nat) (a : Config) (x v : Nat) : Prop :=
  a.hall.getD x free = v ∧ v < 4 ∧ (∀ y, y ∈ a.rooms.getD v [] → y = v) ∧
  (a.rooms.getD v []).length < n

/-- The configuration `a` with the top piece of room `c`, of label `v`, put into room `v`
(`restc` are the other pieces of room `c`). -/
def crossCfg (a : Config) (c v : Nat) (restc : List Nat) : Config :=
  ⟨a.hall, (a.rooms.set c restc).set v (v :: a.rooms.getD v [])⟩

/-- The top piece of room `c` has label `v`, another room, and room `v` holds only pieces of
label `v` and has a free cell. -/
def CrossOK (n : Nat) (a : Config) (c v : Nat) (restc : List Nat) : Prop :=
  c < 4 ∧ v < 4 ∧ v ≠ c ∧ a.rooms.getD c [] = v :: restc ∧
  (∀ y, y ∈ a.rooms.getD v [] → y = v) ∧ (a.rooms.getD v []).length < n

/-! ## What the finished search has explored -/

/-- The successor `y` is accounted for by the bound `T` and the memo table `vis`: no
solution through `y` costs less than the bound, or the table holds a cost for the key of `y`
that is not larger than its own. -/
def CovF (m : List (List Nat)) (n : Nat) (T : Nat) (vis : List (Key × Nat)) (y : State) :
    Prop :=
  (T ≠ 0 ∧ ∀ (k C : Nat) (goal : Config), Path n k (cfgOf m n y) C goal → Solved n goal →
    T ≤ y.cost + C) ∨
  ∃ v, v ≤ y.cost ∧ visitedGet vis (keyOf y) = some v

/-- The state `x` has been explored with respect to the bound `T` and the memo table `vis`:
its in-place reduction reaches a state `s1` where a further in-place move brings the cost to
`T` or more, or where no in-place move applies and every successor is accounted for. -/
def Expl (m : List (List Nat)) (n : Nat) (T : Nat) (vis : List (Key × Nat)) (x : State) :
    Prop :=
  ∃ s1, Reduces m x s1 ∧
    ((T ≠ 0 ∧
      ((∃ src, src ∈ spots ∧ CanEnter s1 src ∧ T ≤ (enterState s1 src).cost) ∨
       (∃ c, c < 4 ∧ CanCross m s1 c ∧ T ≤ (crossState m s1 c).cost))) ∨
     (NoMove m s1 ∧ ∀ c dst, c < 4 → s1.mobile.getD c 0 ≠ 0 → dst ∈ spots → CanPark s1 c dst →
        CovF m n T vis (parkState m s1 c dst)))

/-- Every entry of the memo table is the cost of an explored state with that key. -/
def Closed (m : List (List Nat)) (n : Nat) (T : Nat) (vis : List (Key × Nat)) : Prop :=
  ∀ K v, visitedGet vis K = some v →
    ∃ x, Inv m n x ∧ keyOf x = K ∧ x.cost = v ∧ Expl m n T vis x

/-- The lower-bound property for solutions of `k` moves: from an explored, unsolved state, a
solution of `k` moves and cost `C` gives a total that is not below the final bound `T`. -/
def LowerAt (m : List (List Nat)) (n : Nat) (T : Nat) (vis : List (Key × Nat)) (k : Nat) :
    Prop :=
  ∀ (x : State) (C : Nat) (goal : Config), Inv m n x → Expl m n T vis x → 1 ≤ x.remaining →
    Path n k (cfgOf m n x) C goal → Solved n goal → T ≠ 0 ∧ T ≤ x.cost + C

/-- Invariant of the work-list loop of `processInput` (experimental flag off or on), for
the initial state `s0` standing for the configuration `start`: `s0` and every state whose
cost is stored in `visited` are on the stack or explored; `target`, when set, is the cost
of a solution; every stacked state is reached from `start` by moves that cost its `cost`;
when `s0` has nothing left to move, `target` stays 0 and nothing else is stacked. -/
def SearchInv (n : Nat) (start : Config) (s0 : State) (g : Globals) : Prop :=
  (s0 ∈ g.stack ∨ Expl g.m n g.target g.visited s0) ∧
  (∀ K v, visitedGet g.visited K = some v →
    ∃ x, Inv g.m n x ∧ keyOf x = K ∧ x.cost = v ∧
      (x ∈ g.stack ∨ Expl g.m n g.target g.visited x)) ∧
  (g.target ≠ 0 → SolvableAt n start g.target) ∧
  (∀ x, x ∈ g.stack → ∃ k, Path n k start x.cost (cfgOf g.m n x)) ∧
  (s0.remaining = 0 → g.target = 0 ∧ ∀ x, x ∈ g.stack → x = s0)

/-! ## Reachable states -/

/-- `Working m t s w`: `w` is a working state of a call of `run` on `s` with bound `t`: the
state `s` itself, or the state with which an iteration of one of the two in-place loops
(hallway -> room over `spots`, room -> room over the four rooms) goes on. -/
inductive Working (m : List (List Nat)) (t : Nat) (s : State) : State → Prop where
  | start : Working m t s s
  | hall {w w1 : State} {d d1 : Bool} {src : Nat} :
      Working m t s w → src ∈ spots → hallStep t w d src = .ok (.go w1 d1) →
      Working m t s w1
  | room {w w1 : State} {d d1 : Bool} {c : Nat} :
      Working m t s w → c < 4 → roomStep m t w d c = .ok (.go w1 d1) → Working m t s w1

/-- `Reach g0 chars w`: in the search that `processInput chars` runs from the globals `g0`,
`w` is on the stack at the head of an iteration of the work-list loop (the initial state
or a pushed state), or is a working state of `run` called on such a state with some bound. -/
def Reach (g0 : Globals) (chars : List Nat) (w : State) : Prop :=
  ∃ g s t, Visits (startGlobals g0 chars) g ∧ s ∈ g.stack ∧ Working g.m t s w

/-! ## A lower bound on the cost of sorting a configuration -/

/-- The sum `1 + 2 + ... + k`. -/
def tri : Nat → Nat
  | 0 => 0
  | k + 1 => tri k + (k + 1)

/-- Hallway part of the bound for label `v`: the sum of `|x - col v|` over the cells `x`
holding `v`, for the cells listed from index `i` on. -/
def hallPot (v : Nat) : Nat → List Nat → Nat
  | _, [] => 0
  | i, x :: rest => (if x = v then dist i (col v) else 0) + hallPot v (i + 1) rest

/-- Room part of the bound for label `v` and the pieces (topmost first) of room `c`: a piece
`v` that is not settled has to climb out of its cell and, from another room, reach column
`col v`; from room `v` itself it has to leave the column and come back. -/
def roomPot (n v c : Nat) : List Nat → Nat
  | [] => 0
  | x :: rest =>
    (if x = v ∧ (c ≠ v ∨ rest.all (fun y => y == v) = false) then
      (n - rest.length) + (if c = v then 2 else dist (col c) (col v)) else 0) +
    roomPot n v c rest

/-- Number of settled pieces in room `v`: the length of the longest bottom segment of
pieces of label `v`. -/
def settledLen (v : Nat) : List Nat → Nat
  | [] => 0
  | x :: rest =>
    if x = v ∧ rest.all (fun y => y == v) = true then rest.length + 1 else settledLen v rest

/-- Lower bound on the number of steps that the pieces of label `v` still make. -/
def labelPot (n v : Nat) (a : Config) : Nat :=
  hallPot v 0 a.hall +
    (roomPot n v 0 (a.rooms.getD 0 []) + roomPot n v 1 (a.rooms.getD 1 []) +
      roomPot n v 2 (a.rooms.getD 2 []) + roomPot n v 3 (a.rooms.getD 3 [])) +
    tri (n - settledLen v (a.rooms.getD v []))

/-- Lower bound on the cost of sorting the configuration `a`. -/
def pot (n : Nat) (a : Config) : Nat :=
  labelPot n 0 a + 10 * labelPot n 1 a + 100 * labelPot n 2 a + 1000 * labelPot n 3 a

/-- Both cells next to the column of room `v` hold a piece `v` while room `v` holds a piece
of another label: no piece can leave or enter room `v` any more. -/
def Deadlock (v : Nat) (a : Config) : Prop :=
  a.hall.getD (col v - 1) free = v ∧ a.hall.getD (col v + 1) free = v ∧
  ∃ x, x ∈ a.rooms.getD v [] ∧ x ≠ v

/-! ## The passes of the in-place loop -/

/-- `Passes m t s w`: in a call of `run` on `s` with bound `t`, the `for !done` loop starts a
pass in state `w`: `w` is `s`, or the state left by a full pass (hallway loop over `spots`,
then room loop over the four rooms) that neither returned nor left `done` set. -/
inductive Passes (m : List (List Nat)) (t : Nat) : State → State → Prop where
  | start (s : State) : Passes m t s s
  | next {s s1 s2 w : State} {d1 : Bool} :
      hallLoop t spots s true = .ok (.go s1 d1) →
      roomLoop m t [0, 1, 2, 3] s1 d1 = .ok (.go s2 false) →
      Passes m t s2 w → Passes m t s w

/-! ## `pathClear` is a test of the cells strictly between its arguments -/

theorem scan_spec (h : List Nat) : ∀ (k lo : Nat), lo + k ≤ h.length →
    scan h lo k = .ok (decide (∀ c, lo ≤ c → c < lo + k → h.getD c free = free)) := by
  intro k
  induction k with
  | zero =>
    intro lo _
    simp [scan]
    intro c h1 h2; omega
  | succ k ih =>
    intro lo hlen
    have hlt : lo < h.length := by omega
    simp only [scan, List.getElem?_eq_getElem hlt]
    by_cases hx : h[lo] = free
    · simp only [hx, ne_eq, not_true_eq_false, if_false]
      rw [ih (lo + 1) (by omega)]
      congr 1
      apply decide_eq_decide.mpr
      constructor
      · intro H c h1 h2
        rcases Nat.eq_or_lt_of_le h1 with h3 | h3
        · subst h3; simp [List.getElem?_eq_getElem hlt, hx]
        · exact H c h3 (by omega)
      · intro H c h1 h2
        exact H c (by omega) (by omega)
    · simp only [ne_eq, hx, not_false_eq_true, if_true]
      congr 1
      symm
      apply decide_eq_false
      intro H
      have := H lo (le_refl _) (by omega)
      simp [List.getElem?_eq_getElem hlt] at this
      exact hx this

theorem pathClear_spec (s : State) (src dst : Nat) (hlen : s.h.length = 11)
    (hs : src ≤ 10) (hd : dst ≤ 10) :
    ∃ b, pathClear s src dst = .ok b ∧
      (b = true ↔
        ∀ c, (src < c ∧ c < dst) ∨ (dst < c ∧ c < src) → s.h.getD c free = free) := by
  unfold pathClear
  split
  · rw [scan_spec s.h _ _ (by omega)]
    refine ⟨_, rfl, ?_⟩
    rw [decide_eq_true_iff]
    constructor
    · intro H c hc
      rcases hc with ⟨h1, h2⟩ | ⟨h1, h2⟩
      · omega
      · exact H c (by omega) (by omega)
    · intro H c h1 h2
      exact H c (Or.inr ⟨by omega, by omega⟩)
  · rw [scan_spec s.h _ _ (by omega)]
    refine ⟨_, rfl, ?_⟩
    rw [decide_eq_true_iff]
    constructor
    · intro H c hc
      rcases hc with ⟨h1, h2⟩ | ⟨h1, h2⟩
      · exact H c (by omega) (by omega)
      · omega
    · intro H c h1 h2
      exact H c (Or.inl ⟨by omega, by omega⟩)

/-- C4: on a state with its 11 hallway cells and for `src`, `dst` in `0..10`, `pathClear`
returns (without panicking) `true` exactly when every cell strictly between `src` and `dst`
is free, in either direction and for spans of any length; one occupied cell in between makes
it `false`; and overwriting the two end cells does not change the answer. -/
theorem pathClear_iff_between_free (s : State) (src dst : Nat) (hlen : s.h.length = 11)
    (hs : src ≤ 10) (hd : dst ≤ 10) :
    (∃ b, pathClear s src dst = .ok b ∧
      (b = true ↔
        ∀ c, (src < c ∧ c < dst) ∨ (dst < c ∧ c < src) → s.h.getD c free = free)) ∧
    (∀ c, ((src < c ∧ c < dst) ∨ (dst < c ∧ c < src)) → s.h.getD c free ≠ free →
      pathClear s src dst = .ok false) ∧
    (∀ x y, pathClear { s with h := (s.h.set src x).set dst y } src dst =
      pathClear s src dst) := by
  refine ⟨pathClear_spec s src dst hlen hs hd, ?_, ?_⟩
  · intro c hc hne
    obtain ⟨b, hb, hiff⟩ := pathClear_spec s src dst hlen hs hd
    rw [hb]
    cases b with
    | false => rfl
    | true => exact absurd (hiff.mp rfl c hc) hne
  · intro x y
    obtain ⟨b, hb, hiff⟩ := pathClear_spec s src dst hlen hs hd
    obtain ⟨b', hb', hiff'⟩ :=
      pathClear_spec { s with h := (s.h.set src x).set dst y } src dst (by simp [hlen]) hs hd
    rw [hb, hb']
    have key : ∀ c, ((src < c ∧ c < dst) ∨ (dst < c ∧ c < src)) →
        ((s.h.set src x).set dst y).getD c free = s.h.getD c free := by
      intro c hc
      have h1 : dst ≠ c := by omega
      have h2 : src ≠ c := by omega
      simp [List.getElem?_set, h1, h2]
    have hbb : b' = true ↔ b = true := by
      rw [hiff, hiff']
      constructor
      · intro H c hc
        rw [← key c hc]; exact H c hc
      · intro H c hc
        show ((s.h.set src x).set dst y).getD c free = free
        rw [key c hc]; exact H c hc
    cases b <;> cases b' <;> simp_all

/-- Witness for C4: cell 5 occupied between 2 and 8, end cells occupied as well. -/
theorem pathClear_iff_between_free_witness :
    (∃ b, pathClear ⟨[4, 4, 1, 4, 4, 0, 4, 4, 2, 4, 4], [0, 0, 0, 0], [0, 0, 0, 0], 0, 3⟩ 8 2
        = .ok b ∧
      (b = true ↔
        ∀ c, (8 < c ∧ c < 2) ∨ (2 < c ∧ c < 8) →
          [4, 4, 1, 4, 4, 0, 4, 4, 2, 4, 4].getD c free = free)) ∧
    (∀ c, ((8 < c ∧ c < 2) ∨ (2 < c ∧ c < 8)) →
      [4, 4, 1, 4, 4, 0, 4, 4, 2, 4, 4].getD c free ≠ free →
      pathClear ⟨[4, 4, 1, 4, 4, 0, 4, 4, 2, 4, 4], [0, 0, 0, 0], [0, 0, 0, 0], 0, 3⟩ 8 2
        = .ok false) ∧
    (∀ x y,
      pathClear { (⟨[4, 4, 1, 4, 4, 0, 4, 4, 2, 4, 4], [0, 0, 0, 0], [0, 0, 0, 0], 0, 3⟩ :
          State) with
          h := (([4, 4, 1, 4, 4, 0, 4, 4, 2, 4, 4] : List Nat).set 8 x).set 2 y } 8 2 =
      pathClear ⟨[4, 4, 1, 4, 4, 0, 4, 4, 2, 4, 4], [0, 0, 0, 0], [0, 0, 0, 0], 0, 3⟩ 8 2) :=
  pathClear_iff_between_free
    ⟨[4, 4, 1, 4, 4, 0, 4, 4, 2, 4, 4], [0, 0, 0, 0], [0, 0, 0, 0], 0, 3⟩ 8 2
    (by decide) (by decide) (by decide)

/-! ## The initial state built by `processInput` -/

theorem countCell_mobile_same (s : State) (c v : Nat) (hc : c < s.mobile.length)
    (hb : s.mobile.getD c 0 < 255) :
    (countCell s c v).mobile.getD c 0 = colStep c (s.mobile.getD c 0) v := by
  unfold countCell colStep
  split
  · rfl
  · simp only [List.getD_eq_getElem?_getD, List.getElem?_eq_getElem hc, Option.getD_some] at hb ⊢
    simp [List.getElem?_set, hc, u8]
    omega

theorem countCell_mobile_other (s : State) (c c' v : Nat) (hne : c ≠ c') :
    (countCell s c v).mobile.getD c' 0 = s.mobile.getD c' 0 := by
  unfold countCell
  split
  · rfl
  · simp [List.getElem?_set, hne]

theorem countCell_frame (s : State) (c v : Nat) :
    (countCell s c v).h = s.h ∧ (countCell s c v).empty = s.empty ∧
    (countCell s c v).cost = s.cost ∧ (countCell s c v).mobile.length = s.mobile.length := by
  unfold countCell
  split <;> simp

theorem countCell_remaining (s : State) (c v : Nat) (hc : c < s.mobile.length)
    (hb : s.mobile.getD c 0 < 255) (hr : 1 ≤ s.remaining) (hr2 : s.remaining < 256) :
    (countCell s c v).remaining + 1 + s.mobile.getD c 0 =
      s.remaining + (countCell s c v).mobile.getD c 0 := by
  unfold countCell
  split
  · simp [sub8]; omega
  · simp only [List.getD_eq_getElem?_getD, List.getElem?_eq_getElem hc, Option.getD_some] at hb ⊢
    simp [List.getElem?_set, hc, u8]
    omega

theorem countRow_spec (s : State) (v0 v1 v2 v3 : Nat) (hm : s.mobile.length = 4)
    (hb : ∀ c, c < 4 → s.mobile.getD c 0 < 255) (hr : 4 ≤ s.remaining)
    (hr2 : s.remaining < 256) :
    (countRow s 0 [v0, v1, v2, v3]).h = s.h ∧
    (countRow s 0 [v0, v1, v2, v3]).empty = s.empty ∧
    (countRow s 0 [v0, v1, v2, v3]).cost = s.cost ∧
    (countRow s 0 [v0, v1, v2, v3]).mobile.length = 4 ∧
    (∀ c, c < 4 → (countRow s 0 [v0, v1, v2, v3]).mobile.getD c 0 =
      colStep c (s.mobile.getD c 0) ([v0, v1, v2, v3].getD c 0)) ∧
    (countRow s 0 [v0, v1, v2, v3]).remaining + 4 + sum4 s.mobile =
      s.remaining + sum4 (countRow s 0 [v0, v1, v2, v3]).mobile := by
  simp only [countRow, Nat.zero_add, Nat.reduceAdd]
  obtain ⟨f0h, f0e, f0c, f0l⟩ := countCell_frame s 0 v0
  obtain ⟨f1h, f1e, f1c, f1l⟩ := countCell_frame (countCell s 0 v0) 1 v1
  obtain ⟨f2h, f2e, f2c, f2l⟩ := countCell_frame (countCell (countCell s 0 v0) 1 v1) 2 v2
  obtain ⟨f3h, f3e, f3c, f3l⟩ :=
    countCell_frame (countCell (countCell (countCell s 0 v0) 1 v1) 2 v2) 3 v3
  have a0 := countCell_mobile_same s 0 v0 (by omega) (hb 0 (by omega))
  have r0 := countCell_remaining s 0 v0 (by omega) (hb 0 (by omega)) (by omega) hr2
  have o01 := countCell_mobile_other s 0 1 v0 (by omega)
  have o02 := countCell_mobile_other s 0 2 v0 (by omega)
  have o03 := countCell_mobile_other s 0 3 v0 (by omega)
  set s1 := countCell s 0 v0 with hs1
  have hs1r : s1.remaining + 1 ≥ s.remaining ∧ s1.remaining ≤ s.remaining := by
    rw [hs1]; unfold countCell; split <;> simp [sub8] <;> omega
  have a1 := countCell_mobile_same s1 1 v1 (by omega) (by rw [o01]; exact hb 1 (by omega))
  have r1 := countCell_remaining s1 1 v1 (by omega) (by rw [o01]; exact hb 1 (by omega))
    (by omega) (by omega)
  have o10 := countCell_mobile_other s1 1 0 v1 (by omega)
  have o12 := countCell_mobile_other s1 1 2 v1 (by omega)
  have o13 := countCell_mobile_other s1 1 3 v1 (by omega)
  set s2 := countCell s1 1 v1 with hs2
  have hs2r : s2.remaining + 1 ≥ s1.remaining ∧ s2.remaining ≤ s1.remaining := by
    rw [hs2]; unfold countCell; split <;> simp [sub8] <;> omega
  have a2 := countCell_mobile_same s2 2 v2 (by omega)
    (by rw [o12, o02]; exact hb 2 (by omega))
  have r2 := countCell_remaining s2 2 v2 (by omega)
    (by rw [o12, o02]; exact hb 2 (by omega)) (by omega) (by omega)
  have o20 := countCell_mobile_other s2 2 0 v2 (by omega)
  have o21 := countCell_mobile_other s2 2 1 v2 (by omega)
  have o23 := countCell_mobile_other s2 2 3 v2 (by omega)
  set s3 := countCell s2 2 v2 with hs3
  have hs3r : s3.remaining + 1 ≥ s2.remaining ∧ s3.remaining ≤ s2.remaining := by
    rw [hs3]; unfold countCell; split <;> simp [sub8] <;> omega
  have a3 := countCell_mobile_same s3 3 v3 (by omega)
    (by rw [o23, o13, o03]; exact hb 3 (by omega))
  have r3 := countCell_remaining s3 3 v3 (by omega)
    (by rw [o23, o13, o03]; exact hb 3 (by omega)) (by omega) (by omega)
  have o30 := countCell_mobile_other s3 3 0 v3 (by omega)
  have o31 := countCell_mobile_other s3 3 1 v3 (by omega)
  have o32 := countCell_mobile_other s3 3 2 v3 (by omega)
  set s4 := countCell s3 3 v3 with hs4
  refine ⟨by rw [f3h, f2h, f1h, f0h], by rw [f3e, f2e, f1e, f0e], by rw [f3c, f2c, f1c, f0c],
    by omega, ?_, ?_⟩
  · intro c hc
    have hcases : c = 0 ∨ c = 1 ∨ c = 2 ∨ c = 3 := by omega
    rcases hcases with h | h | h | h <;> subst h
    · rw [o30, o20, o10, a0]; rfl
    · rw [o31, o21, a1, o01]; rfl
    · rw [o32, a2, o12, o02]; rfl
    · rw [a3, o23, o13, o03]; rfl
  · simp only [sum4]
    rw [o30, o20, o10, o31, o21, o32]
    omega

theorem colStep_bounds (c mob v : Nat) : mob ≤ colStep c mob v ∧ colStep c mob v ≤ mob + 1 := by
  unfold colStep; split <;> omega

theorem countRows_spec : ∀ (rows : List (List Nat)) (s : State),
    (∀ row, row ∈ rows → row.length = 4) → s.mobile.length = 4 →
    (∀ c, c < 4 → s.mobile.getD c 0 + rows.length < 256) →
    4 * rows.length ≤ s.remaining → s.remaining < 256 →
    (countRows s rows).h = s.h ∧ (countRows s rows).empty = s.empty ∧
    (countRows s rows).cost = s.cost ∧ (countRows s rows).mobile.length = 4 ∧
    (∀ c, c < 4 → (countRows s rows).mobile.getD c 0 =
      colFold c (s.mobile.getD c 0) (rows.map (fun row => row.getD c 0))) ∧
    (countRows s rows).remaining + 4 * rows.length + sum4 s.mobile =
      s.remaining + sum4 (countRows s rows).mobile := by
  intro rows
  induction rows with
  | nil =>
    intro s _ hm _ _ _
    simp [countRows, colFold, hm]
  | cons row rest ih =>
    intro s hrows hm hb hr hr2
    have hrow : row.length = 4 := hrows row (List.mem_cons_self _ _)
    obtain ⟨v0, v1, v2, v3, rfl⟩ : ∃ v0 v1 v2 v3, row = [v0, v1, v2, v3] := by
      match row, hrow with
      | [a, b, c, d], _ => exact ⟨a, b, c, d, rfl⟩
    simp only [List.length_cons] at hb hr
    obtain ⟨g1, g2, g3, g4, g5, g6⟩ := countRow_spec s v0 v1 v2 v3 hm
      (fun c hc => by have := hb c hc; omega) (by omega) hr2
    have hmono : ∀ c, c < 4 → s.mobile.getD c 0 ≤ (countRow s 0 [v0, v1, v2, v3]).mobile.getD c 0 ∧
        (countRow s 0 [v0, v1, v2, v3]).mobile.getD c 0 ≤ s.mobile.getD c 0 + 1 := by
      intro c hc
      rw [g5 c hc]
      exact colStep_bounds _ _ _
    have hsum : sum4 s.mobile ≤ sum4 (countRow s 0 [v0, v1, v2, v3]).mobile := by
      have h0 := (hmono 0 (by omega)).1
      have h1 := (hmono 1 (by omega)).1
      have h2 := (hmono 2 (by omega)).1
      have h3 := (hmono 3 (by omega)).1
      simp only [sum4]; omega
    have hsum2 : sum4 (countRow s 0 [v0, v1, v2, v3]).mobile ≤ sum4 s.mobile + 4 := by
      have h0 := (hmono 0 (by omega)).2
      have h1 := (hmono 1 (by omega)).2
      have h2 := (hmono 2 (by omega)).2
      have h3 := (hmono 3 (by omega)).2
      simp only [sum4]; omega
    obtain ⟨i1, i2, i3, i4, i5, i6⟩ := ih (countRow s 0 [v0, v1, v2, v3])
      (fun r hr' => hrows r (List.mem_cons_of_mem _ hr')) g4
      (fun c hc => by have := hb c hc; have := (hmono c hc).2; omega)
      (by omega) (by omega)
    simp only [countRows, List.length_cons, List.map_cons, colFold]
    refine ⟨by rw [i1, g1], by rw [i2, g2], by rw [i3, g3], i4, ?_, by omega⟩
    intro c hc
    rw [i5 c hc, g5 c hc]

theorem setLast_append (m : List (List Nat)) (row : List Nat) (c v : Nat) :
    setLast (m ++ [row]) c v = m ++ [row.set c v] := by
  simp [setLast, List.set_append]

theorem buildRows_four (m : List (List Nat)) (i a b c d : Nat) (rest : List Nat)
    (hi : i % 4 = 0) :
    buildRows m i (a :: b :: c :: d :: rest) =
      buildRows (m ++ [[sub8 a 65, sub8 b 65, sub8 c 65, sub8 d 65]]) (i + 4) rest := by
  have h1 : (i + 1) % 4 = 1 := by omega
  have h2 : (i + 1 + 1) % 4 = 2 := by omega
  have h3 : (i + 1 + 1 + 1) % 4 = 3 := by omega
  simp only [buildRows, hi, h1, h2, h3, if_true, setLast_append, List.set_cons_zero,
    List.set_cons_succ, Nat.add_assoc]
  simp [setLast_append]

theorem buildRows_eq : ∀ (n : Nat) (chars : List Nat) (m : List (List Nat)) (i : Nat),
    chars.length = 4 * n → i % 4 = 0 → buildRows m i chars = m ++ rowsOf chars := by
  intro n
  induction n with
  | zero =>
    intro chars m i hlen _
    have : chars = [] := List.length_eq_zero.mp (by omega)
    subst this
    simp [buildRows, rowsOf]
  | succ n ih =>
    intro chars m i hlen hi
    match chars, hlen with
    | a :: b :: c :: d :: rest, hlen =>
      rw [buildRows_four m i a b c d rest hi, ih rest _ (i + 4) (by simp at hlen; omega) (by omega)]
      simp [rowsOf]

theorem rowsOf_length : ∀ (n : Nat) (chars : List Nat), chars.length = 4 * n →
    (rowsOf chars).length = n ∧ ∀ row, row ∈ rowsOf chars → row.length = 4 := by
  intro n
  induction n with
  | zero =>
    intro chars hlen
    have : chars = [] := List.length_eq_zero.mp (by omega)
    subst this
    simp [rowsOf]
  | succ n ih =>
    intro chars hlen
    match chars, hlen with
    | a :: b :: c :: d :: rest, hlen =>
      obtain ⟨h1, h2⟩ := ih rest (by simp at hlen; omega)
      simp only [rowsOf, List.length_cons, h1, List.mem_cons, true_and]
      intro row hrow
      rcases hrow with h | h
      · subst h; rfl
      · exact h2 row h

theorem settledFrom_cons_zero (c x : Nat) (col : List Nat) :
    settledFrom c (x :: col) 0 ↔ x = c ∧ settledFrom c col 0 := by
  unfold settledFrom
  constructor
  · intro H
    refine ⟨by simpa using H 0 (le_refl _) (by simp), ?_⟩
    intro r' _ h2
    simpa using H (r' + 1) (by omega) (by simp; omega)
  · rintro ⟨hx, H⟩ r' _ h2
    cases r' with
    | zero => simpa using hx
    | succ k => simpa using H k (by omega) (by simp at h2; omega)

theorem settledFrom_cons_succ (c x : Nat) (col : List Nat) (r : Nat) :
    settledFrom c (x :: col) (r + 1) ↔ settledFrom c col r := by
  unfold settledFrom
  constructor
  · intro H r' h1 h2
    simpa using H (r' + 1) (by omega) (by simp; omega)
  · intro H r' h1 h2
    cases r' with
    | zero => omega
    | succ k => simpa using H k (by omega) (by simp at h2; omega)

theorem unsettled_cons (c x : Nat) (col : List Nat) :
    unsettled c (x :: col) =
      unsettled c col + if x = c ∧ settledFrom c col 0 then 0 else 1 := by
  unfold unsettled
  rw [List.length_cons, List.range_succ_eq_map, List.countP_cons, List.countP_map]
  congr 1
  · apply List.countP_congr
    intro r _
    simp [settledFrom_cons_succ]
  · by_cases h : x = c ∧ settledFrom c col 0
    · simp [settledFrom_cons_zero, h]
    · simp only [settledFrom_cons_zero, h, decide_False, Bool.not_false, if_true, if_false]

theorem unsettled_eq_zero (c : Nat) (col : List Nat) :
    unsettled c col = 0 ↔ settledFrom c col 0 := by
  unfold unsettled
  rw [List.countP_eq_zero]
  constructor
  · intro H
    cases col with
    | nil => intro r' _ h2; simp at h2
    | cons x rest =>
      have := H 0 (by simp)
      simpa using this
  · intro H r _
    simp only [Bool.not_eq_true', decide_eq_false_iff_not, not_not]
    intro r' _ h2
    exact H r' (Nat.zero_le _) h2

theorem colFold_append (c : Nat) : ∀ (col : List Nat) (mob x : Nat),
    colFold c mob (col ++ [x]) = colStep c (colFold c mob col) x := by
  intro col
  induction col with
  | nil => intro mob x; rfl
  | cons y rest ih => intro mob x; simp only [List.cons_append, colFold]; exact ih _ _

theorem colFold_reverse (c : Nat) : ∀ col : List Nat,
    colFold c 0 col.reverse = unsettled c col := by
  intro col
  induction col with
  | nil => rfl
  | cons x rest ih =>
    rw [List.reverse_cons, colFold_append, ih, unsettled_cons]
    unfold colStep
    by_cases h : x = c ∧ settledFrom c rest 0
    · rw [if_pos ⟨h.1, (unsettled_eq_zero c rest).mpr h.2⟩, if_pos h]; rfl
    · rw [if_neg h, if_neg]
      intro h'
      exact h ⟨h'.1, (unsettled_eq_zero c rest).mp h'.2⟩

theorem rowsOf_column (c : Nat) (hc : c < 4) : ∀ (n : Nat) (chars : List Nat),
    chars.length = 4 * n → (∀ x, x ∈ chars → 65 ≤ x ∧ x ≤ 68) →
    (rowsOf chars).map (fun row => row.getD c 0) =
      (List.range n).map (fun r => labelAt chars r c) := by
  intro n
  induction n with
  | zero =>
    intro chars hlen _
    have : chars = [] := List.length_eq_zero.mp (by omega)
    subst this
    simp [rowsOf]
  | succ n ih =>
    intro chars hlen hlab
    match chars, hlen, hlab with
    | x0 :: x1 :: x2 :: x3 :: rest, hlen, hlab =>
      have hrest := ih rest (by simp at hlen; omega)
        (fun x hx => hlab x (by simp [hx]))
      rw [List.range_succ_eq_map, List.map_cons, List.map_map]
      simp only [rowsOf, List.map_cons, hrest]
      congr 1
      · have h0 := hlab x0 (by simp)
        have h1 := hlab x1 (by simp)
        have h2 := hlab x2 (by simp)
        have h3 := hlab x3 (by simp)
        have hcases : c = 0 ∨ c = 1 ∨ c = 2 ∨ c = 3 := by omega
        rcases hcases with h | h | h | h <;> subst h <;> simp [labelAt, sub8] <;> omega
      · apply List.map_congr_left
        intro r _
        simp only [Function.comp, labelAt]
        have : 4 * Nat.succ r + c = (4 * r + c) + 4 := by omega
        rw [this]
        simp

theorem unsettled_column (chars : List Nat) (n c : Nat) :
    unsettled c ((List.range n).map (fun r => labelAt chars r c)) = notPlacedCount chars n c := by
  unfold unsettled notPlacedCount
  rw [List.length_map, List.length_range]
  apply List.countP_congr
  intro r _
  have key : settledFrom c ((List.range n).map (fun r => labelAt chars r c)) r ↔
      ∀ r', r ≤ r' → r' < n → labelAt chars r' c = c := by
    unfold settledFrom
    rw [List.length_map, List.length_range]
    constructor
    · intro H r' h1 h2
      have := H r' h1 h2
      simpa [List.getElem?_map, List.getElem?_range h2] using this
    · intro H r' h1 h2
      simpa [List.getElem?_map, List.getElem?_range h2] using H r' h1 h2
  simp only [alreadyPlaced, key]

theorem placedCount_add (chars : List Nat) (n : Nat) :
    placedCount chars n + (notPlacedCount chars n 0 + notPlacedCount chars n 1 +
      notPlacedCount chars n 2 + notPlacedCount chars n 3) = 4 * n := by
  have key : ∀ c, (List.range n).countP (fun r => alreadyPlaced chars n r c) +
      notPlacedCount chars n c = n := by
    intro c
    have := List.length_eq_countP_add_countP (fun r => alreadyPlaced chars n r c) (List.range n)
    rw [List.length_range] at this
    unfold notPlacedCount
    have e : (List.range n).countP (fun r => !alreadyPlaced chars n r c) =
        (List.range n).countP (fun r => decide ¬(alreadyPlaced chars n r c = true)) := by
      apply List.countP_congr
      intro r _
      simp
    rw [e]; omega
  have k0 := key 0
  have k1 := key 1
  have k2 := key 2
  have k3 := key 3
  simp only [placedCount, List.range_succ, List.range_zero, List.nil_append, List.cons_append,
    List.map_cons, List.map_nil, List.sum_cons, List.sum_nil]
  omega

/-- The fields of the initial state built by `processInput` from `4 * n` tokens. -/
theorem initState_fields (chars : List Nat) (n : Nat) (hn : 1 ≤ n) (hn4 : n ≤ 4)
    (hlen : chars.length = 4 * n) (hlab : ∀ x, x ∈ chars → 65 ≤ x ∧ x ≤ 68) :
    (initState chars (buildRows [] 0 chars)).h = List.replicate 11 free ∧
    (initState chars (buildRows [] 0 chars)).empty = [0, 0, 0, 0] ∧
    (initState chars (buildRows [] 0 chars)).cost = 0 ∧
    (initState chars (buildRows [] 0 chars)).mobile.length = 4 ∧
    (∀ c, c < 4 → (initState chars (buildRows [] 0 chars)).mobile.getD c 0 =
      notPlacedCount chars n c) ∧
    (initState chars (buildRows [] 0 chars)).remaining = 4 * n - placedCount chars n := by
  have hm : buildRows [] 0 chars = rowsOf chars := by
    rw [buildRows_eq n chars [] 0 hlen (by decide)]; simp
  obtain ⟨hrl, hrows⟩ := rowsOf_length n chars hlen
  rw [hm]
  unfold initState
  obtain ⟨g1, g2, g3, g4, g5, g6⟩ := countRows_spec (rowsOf chars).reverse
    { h := [free, free, free, free, free, free, free, free, free, free, free],
      mobile := [0, 0, 0, 0], empty := [0, 0, 0, 0], cost := 0,
      remaining := u8 chars.length }
    (fun row hrow => hrows row (List.mem_reverse.mp hrow)) rfl
    (fun c hc => by
      have hcases : c = 0 ∨ c = 1 ∨ c = 2 ∨ c = 3 := by omega
      rcases hcases with h | h | h | h <;> subst h <;> simp [hrl] <;> omega)
    (by simp [hrl, hlen, u8]; omega) (by simp [u8]; omega)
  have hmob : ∀ c, c < 4 → (countRows
      { h := [free, free, free, free, free, free, free, free, free, free, free],
        mobile := [0, 0, 0, 0], empty := [0, 0, 0, 0], cost := 0,
        remaining := u8 chars.length } (rowsOf chars).reverse).mobile.getD c 0 =
      notPlacedCount chars n c := by
    intro c hc
    rw [g5 c hc, List.map_reverse, rowsOf_column c hc n chars hlen hlab]
    have h0 : ([0, 0, 0, 0] : List Nat).getD c 0 = 0 := by
      have hcases : c = 0 ∨ c = 1 ∨ c = 2 ∨ c = 3 := by omega
      rcases hcases with h | h | h | h <;> subst h <;> rfl
    show colFold c (([0, 0, 0, 0] : List Nat).getD c 0) _ = _
    rw [h0, colFold_reverse, unsettled_column]
  refine ⟨by rw [g1]; rfl, g2, g3, g4, hmob, ?_⟩
  have hsum := placedCount_add chars n
  have e0 := hmob 0 (by omega)
  have e1 := hmob 1 (by omega)
  have e2 := hmob 2 (by omega)
  have e3 := hmob 3 (by omega)
  have hu : u8 chars.length = 4 * n := by simp [u8, hlen]; omega
  have hz : sum4 ([0, 0, 0, 0] : List Nat) = 0 := rfl
  simp only [sum4, List.length_reverse, hrl] at g6
  rw [e0, e1, e2, e3] at g6
  change _ + 4 * n + sum4 [0, 0, 0, 0] = u8 chars.length + _ at g6
  rw [hz] at g6
  rw [hu] at g6 ⊢
  omega

/-- C3: for a token sequence of `4 * n` labels A..D (bytes 65..68), `1 ≤ n ≤ 4`, given row
by row from the top, the initial state built by `processInput` has every hallway cell free,
`empty = 0` for every room and `cost = 0`, `mobile[c]` is the number of pieces of room `c`
that are not already placed, and `remaining` is `4 * n` minus the number of already-placed
pieces. -/
theorem initState_counts (chars : List Nat) (n : Nat) (hn : 1 ≤ n) (hn4 : n ≤ 4)
    (hlen : chars.length = 4 * n) (hlab : ∀ x, x ∈ chars → 65 ≤ x ∧ x ≤ 68) :
    (initState chars (buildRows [] 0 chars)).h = List.replicate 11 free ∧
    (initState chars (buildRows [] 0 chars)).empty = [0, 0, 0, 0] ∧
    (initState chars (buildRows [] 0 chars)).cost = 0 ∧
    (initState chars (buildRows [] 0 chars)).mobile.length = 4 ∧
    (∀ c, c < 4 → (initState chars (buildRows [] 0 chars)).mobile.getD c 0 =
      notPlacedCount chars n c) ∧
    (initState chars (buildRows [] 0 chars)).remaining = 4 * n - placedCount chars n :=
  initState_fields chars n hn hn4 hlen hlab

/-- Witness for C3: the tokens `BCBDADCA`. -/
theorem initState_counts_witness :
    (initState [66, 67, 66, 68, 65, 68, 67, 65]
        (buildRows [] 0 [66, 67, 66, 68, 65, 68, 67, 65])).h = List.replicate 11 free ∧
    (initState [66, 67, 66, 68, 65, 68, 67, 65]
        (buildRows [] 0 [66, 67, 66, 68, 65, 68, 67, 65])).empty = [0, 0, 0, 0] ∧
    (initState [66, 67, 66, 68, 65, 68, 67, 65]
        (buildRows [] 0 [66, 67, 66, 68, 65, 68, 67, 65])).cost = 0 ∧
    (initState [66, 67, 66, 68, 65, 68, 67, 65]
        (buildRows [] 0 [66, 67, 66, 68, 65, 68, 67, 65])).mobile.length = 4 ∧
    (∀ c, c < 4 → (initState [66, 67, 66, 68, 65, 68, 67, 65]
        (buildRows [] 0 [66, 67, 66, 68, 65, 68, 67, 65])).mobile.getD c 0 =
      notPlacedCount [66, 67, 66, 68, 65, 68, 67, 65] 2 c) ∧
    (initState [66, 67, 66, 68, 65, 68, 67, 65]
        (buildRows [] 0 [66, 67, 66, 68, 65, 68, 67, 65])).remaining =
      4 * 2 - placedCount [66, 67, 66, 68, 65, 68, 67, 65] 2 :=
  initState_counts [66, 67, 66, 68, 65, 68, 67, 65] 2 (by decide) (by decide) (by decide)
    (by decide)

/-! ## The step budget: more fuel never changes a result -/

theorem inplace_mono (m : List (List Nat)) (target : Nat) : ∀ (fuel : Nat) (s : State) (r : Flow),
    inplace m target fuel s = .ok r → ∀ k, inplace m target (fuel + k) s = .ok r := by
  intro fuel
  induction fuel with
  | zero => intro s r h; simp [inplace] at h
  | succ fuel ih =>
    intro s r h k
    rw [show fuel + 1 + k = (fuel + k) + 1 by omega]
    simp only [inplace] at h ⊢
    cases hh : hallLoop target spots s true with
    | error e => rw [hh] at h; exact h
    | ok f =>
      rw [hh] at h
      cases f with
      | ret t => exact h
      | go s1 d1 =>
        simp only at h ⊢
        cases hr : roomLoop m target [0, 1, 2, 3] s1 d1 with
        | error e => rw [hr] at h; exact h
        | ok f2 =>
          rw [hr] at h
          cases f2 with
          | ret t => exact h
          | go s2 d2 =>
            simp only at h ⊢
            cases d2 with
            | true => exact h
            | false => exact ih s2 r h k

theorem run_mono (fuel : Nat) (g g1 : Globals) (s : State) (h : run fuel g s = .ok g1) (k : Nat) :
    run (fuel + k) g s = .ok g1 := by
  unfold run at h ⊢
  cases hi : inplace g.m g.target fuel s with
  | error e => rw [hi] at h; cases h
  | ok f =>
    rw [inplace_mono g.m g.target fuel s f hi k]
    rw [hi] at h
    exact h

theorem drain_mono : ∀ (fuel : Nat) (g g1 : Globals),
    drain fuel g = .ok g1 → ∀ k, drain (fuel + k) g = .ok g1 := by
  intro fuel
  induction fuel with
  | zero => intro g g1 h; simp [drain] at h
  | succ fuel ih =>
    intro g g1 h k
    rw [show fuel + 1 + k = (fuel + k) + 1 by omega]
    simp only [drain] at h ⊢
    cases hs : g.stack with
    | nil => rw [hs] at h; exact h
    | cons s rest =>
      rw [hs] at h
      simp only at h ⊢
      cases hr : run (fuel + 1) { g with stack := rest } s with
      | error e => rw [hr] at h; cases h
      | ok g2 =>
        rw [hr] at h
        have := run_mono (fuel + 1) _ g2 s hr k
        rw [show fuel + 1 + k = fuel + k + 1 by omega] at this
        rw [this]
        exact ih g2 g1 h k

theorem processGlobals_mono (fuel : Nat) (g g1 : Globals) (chars : List Nat)
    (h : processGlobals fuel g chars = .ok g1) (k : Nat) :
    processGlobals (fuel + k) g chars = .ok g1 :=
  drain_mono fuel _ g1 h k

theorem processInput_mono (fuel : Nat) (g : Globals) (chars : List Nat) (t : Nat)
    (h : processInput fuel g chars = .ok t) (k : Nat) :
    processInput (fuel + k) g chars = .ok t := by
  unfold processInput at h ⊢
  cases hp : processGlobals fuel g chars with
  | error e => rw [hp] at h; cases h
  | ok g1 =>
    rw [processGlobals_mono fuel g g1 chars hp k]
    rw [hp] at h
    exact h

/-! ## The memo check before a push (branching phase) -/

/-- C5: the loop body of the branching phase is the only place where `run` changes `stack`
or `visited`. Whenever it pushes, it pushes exactly one successor `next` whose `Key` had no
entry in `visited`, or an entry strictly greater than `next.cost`, immediately before the
push, and `visited[Key]` equals `next.cost` immediately after; when it does not push,
`stack` and `visited` are unchanged. Hence no state is pushed whose `Key` has a stored cost
less than or equal to its own cost. -/
theorem branchStep_push_dominance (g g1 : Globals) (s : State) (min c r dst : Nat)
    (h : branchStep g s min c r dst = .ok g1) :
    (g1.stack = g.stack ∧ g1.visited = g.visited) ∨
    ∃ next : State, g1.stack = next :: g.stack ∧
      (visitedGet g.visited (keyOf next) = none ∨
        ∃ value, visitedGet g.visited (keyOf next) = some value ∧ next.cost < value) ∧
      visitedGet g1.visited (keyOf next) = some next.cost ∧
      ¬ ∃ value, visitedGet g.visited (keyOf next) = some value ∧ value ≤ next.cost := by
  unfold branchStep at h
  split at h
  · cases h
  · split at h
    · cases h; exact Or.inl ⟨rfl, rfl⟩
    · split at h
      · cases h
      · cases h; exact Or.inl ⟨rfl, rfl⟩
      · split at h
        · cases h
        · split at h
          · cases h
          · simp only at h
            split at h
            · split at h
              · rename_i hnone
                cases h
                refine Or.inr ⟨_, rfl, Or.inl hnone, ?_, ?_⟩
                · simp [visitedSet, visitedGet, keyOf]
                · rintro ⟨value, hv, _⟩
                  have e := hnone.symm.trans hv
                  cases e
              · rename_i value hsome
                split at h
                · rename_i hlt
                  cases h
                  refine Or.inr ⟨_, rfl, Or.inr ⟨value, hsome, hlt⟩, ?_, ?_⟩
                  · simp [visitedSet, visitedGet, keyOf]
                  · rintro ⟨value', hv, hle⟩
                    have e := hsome.symm.trans hv
                    cases e
                    exact absurd hlt (Nat.not_lt.mpr hle)
                · cases h; exact Or.inl ⟨rfl, rfl⟩
            · cases h; exact Or.inl ⟨rfl, rfl⟩

/-- Witness for C5: the first push of the search on `BACDABCD` (the B on top of room A
parks in cell 0 for 30). -/
theorem branchStep_push_dominance_witness :
    ((⟨false, [[1, 0, 2, 3], [0, 1, 2, 3]],
        [⟨[1, 4, 4, 4, 4, 4, 4, 4, 4, 4, 4], [0, 1, 0, 0], [1, 0, 0, 0], 30, 2⟩],
        [(⟨[1, 4, 4, 4, 4, 4, 4, 4, 4, 4, 4], [0, 1, 0, 0], [1, 0, 0, 0]⟩, 30)], 0⟩ :
          Globals).stack =
        (⟨false, [[1, 0, 2, 3], [0, 1, 2, 3]], [], [], 0⟩ : Globals).stack ∧
      (⟨false, [[1, 0, 2, 3], [0, 1, 2, 3]],
        [⟨[1, 4, 4, 4, 4, 4, 4, 4, 4, 4, 4], [0, 1, 0, 0], [1, 0, 0, 0], 30, 2⟩],
        [(⟨[1, 4, 4, 4, 4, 4, 4, 4, 4, 4, 4], [0, 1, 0, 0], [1, 0, 0, 0]⟩, 30)], 0⟩ :
          Globals).visited =
        (⟨false, [[1, 0, 2, 3], [0, 1, 2, 3]], [], [], 0⟩ : Globals).visited) ∨
    ∃ next : State,
      (⟨false, [[1, 0, 2, 3], [0, 1, 2, 3]],
        [⟨[1, 4, 4, 4, 4, 4, 4, 4, 4, 4, 4], [0, 1, 0, 0], [1, 0, 0, 0], 30, 2⟩],
        [(⟨[1, 4, 4, 4, 4, 4, 4, 4, 4, 4, 4], [0, 1, 0, 0], [1, 0, 0, 0]⟩, 30)], 0⟩ :
          Globals).stack =
        next :: (⟨false, [[1, 0, 2, 3], [0, 1, 2, 3]], [], [], 0⟩ : Globals).stack ∧
      (visitedGet (⟨false, [[1, 0, 2, 3], [0, 1, 2, 3]], [], [], 0⟩ : Globals).visited
          (keyOf next) = none ∨
        ∃ value,
          visitedGet (⟨false, [[1, 0, 2, 3], [0, 1, 2, 3]], [], [], 0⟩ : Globals).visited
            (keyOf next) = some value ∧ next.cost < value) ∧
      visitedGet (⟨false, [[1, 0, 2, 3], [0, 1, 2, 3]],
        [⟨[1, 4, 4, 4, 4, 4, 4, 4, 4, 4, 4], [0, 1, 0, 0], [1, 0, 0, 0], 30, 2⟩],
        [(⟨[1, 4, 4, 4, 4, 4, 4, 4, 4, 4, 4], [0, 1, 0, 0], [1, 0, 0, 0]⟩, 30)], 0⟩ :
          Globals).visited (keyOf next) = some next.cost ∧
      ¬ ∃ value,
        visitedGet (⟨false, [[1, 0, 2, 3], [0, 1, 2, 3]], [], [], 0⟩ : Globals).visited
          (keyOf next) = some value ∧ value ≤ next.cost :=
  branchStep_push_dominance ⟨false, [[1, 0, 2, 3], [0, 1, 2, 3]], [], [], 0⟩
    ⟨false, [[1, 0, 2, 3], [0, 1, 2, 3]],
      [⟨[1, 4, 4, 4, 4, 4, 4, 4, 4, 4, 4], [0, 1, 0, 0], [1, 0, 0, 0], 30, 2⟩],
      [(⟨[1, 4, 4, 4, 4, 4, 4, 4, 4, 4, 4], [0, 1, 0, 0], [1, 0, 0, 0]⟩, 30)], 0⟩
    ⟨[4, 4, 4, 4, 4, 4, 4, 4, 4, 4, 4], [1, 1, 0, 0], [0, 0, 0, 0], 0, 2⟩ 0 0 0 0 rfl

/-! ## Two concrete searches -/

theorem startGlobals_eq (g : Globals) (chars : List Nat) :
    startGlobals g chars =
      startGlobals { experimental := g.experimental, m := [], stack := [], visited := [],
                     target := 0 } chars := rfl

/-- C8: on the two-row input `BACDABCD` (top row B A C D, bottom row A B C D), which needs
one exchange between rooms A and B by pieces of weights 1 and 10, `processInput` returns 46
(= 2 for parking the A, 40 for the B going room to room, 4 for the A entering its room),
with the experimental flag off or on, whatever the globals held before, once the step budget
is at least 22. -/
theorem processInput_swap (g : Globals) (fuel : Nat) (hf : 22 ≤ fuel) :
    processInput fuel g [66, 65, 67, 68, 65, 66, 67, 68] = .ok 46 := by
  obtain ⟨k, rfl⟩ : ∃ k, fuel = 22 + k := ⟨fuel - 22, by omega⟩
  apply processInput_mono
  unfold processInput processGlobals
  rw [startGlobals_eq]
  cases g.experimental
  · rfl
  · rfl

/-- Witness for C8. -/
theorem processInput_swap_witness :
    processInput 22 ⟨false, [], [], [], 0⟩ [66, 65, 67, 68, 65, 66, 67, 68] = .ok 46 :=
  processInput_swap ⟨false, [], [], [], 0⟩ 22 (by decide)

/-- C9: on the two-row input `ABCDABCD`, where every piece is already in its destination
room, `processInput` returns 0 (flag off or on, any earlier globals, any step budget of at
least 2); the work-list loop makes a single call of `run`, on the initial state; in that call
the in-place loop ends after one pass with the state unchanged (no in-place move, no early
return), and the call pushes nothing: it leaves the stack empty, `visited` empty and
`target` 0. -/
theorem processInput_all_placed (g : Globals) (fuel : Nat) (hf : 2 ≤ fuel) :
    processInput fuel g [65, 66, 67, 68, 65, 66, 67, 68] = .ok 0 ∧
    (startGlobals g [65, 66, 67, 68, 65, 66, 67, 68]).stack =
      [⟨[4, 4, 4, 4, 4, 4, 4, 4, 4, 4, 4], [0, 0, 0, 0], [0, 0, 0, 0], 0, 0⟩] ∧
    inplace (startGlobals g [65, 66, 67, 68, 65, 66, 67, 68]).m 0 fuel
        ⟨[4, 4, 4, 4, 4, 4, 4, 4, 4, 4, 4], [0, 0, 0, 0], [0, 0, 0, 0], 0, 0⟩ =
      .ok (.go ⟨[4, 4, 4, 4, 4, 4, 4, 4, 4, 4, 4], [0, 0, 0, 0], [0, 0, 0, 0], 0, 0⟩ true) ∧
    (∃ g1, run fuel { startGlobals g [65, 66, 67, 68, 65, 66, 67, 68] with stack := [] }
        ⟨[4, 4, 4, 4, 4, 4, 4, 4, 4, 4, 4], [0, 0, 0, 0], [0, 0, 0, 0], 0, 0⟩ = .ok g1 ∧
      g1.stack = [] ∧ g1.visited = [] ∧ g1.target = 0 ∧
      processGlobals fuel g [65, 66, 67, 68, 65, 66, 67, 68] = .ok g1) := by
  obtain ⟨k, rfl⟩ : ∃ k, fuel = 2 + k := ⟨fuel - 2, by omega⟩
  refine ⟨?_, rfl, ?_, ?_⟩
  · apply processInput_mono
    unfold processInput processGlobals
    rw [startGlobals_eq]
    cases g.experimental <;> rfl
  · apply inplace_mono
    rfl
  · refine ⟨{ startGlobals g [65, 66, 67, 68, 65, 66, 67, 68] with stack := [] }, ?_, rfl, rfl,
      rfl, ?_⟩
    · apply run_mono
      cases g with
      | mk e m st vis t => cases e <;> rfl
    · apply processGlobals_mono
      cases g with
      | mk e m st vis t => cases e <;> rfl

/-- Witness for C9. -/
theorem processInput_all_placed_witness :
    processInput 2 ⟨true, [], [], [], 7⟩ [65, 66, 67, 68, 65, 66, 67, 68] = .ok 0 ∧
    (startGlobals ⟨true, [], [], [], 7⟩ [65, 66, 67, 68, 65, 66, 67, 68]).stack =
      [⟨[4, 4, 4, 4, 4, 4, 4, 4, 4, 4, 4], [0, 0, 0, 0], [0, 0, 0, 0], 0, 0⟩] ∧
    inplace (startGlobals ⟨true, [], [], [], 7⟩ [65, 66, 67, 68, 65, 66, 67, 68]).m 0 2
        ⟨[4, 4, 4, 4, 4, 4, 4, 4, 4, 4, 4], [0, 0, 0, 0], [0, 0, 0, 0], 0, 0⟩ =
      .ok (.go ⟨[4, 4, 4, 4, 4, 4, 4, 4, 4, 4, 4], [0, 0, 0, 0], [0, 0, 0, 0], 0, 0⟩ true) ∧
    (∃ g1, run 2 { startGlobals ⟨true, [], [], [], 7⟩ [65, 66, 67, 68, 65, 66, 67, 68] with
          stack := [] }
        ⟨[4, 4, 4, 4, 4, 4, 4, 4, 4, 4, 4], [0, 0, 0, 0], [0, 0, 0, 0], 0, 0⟩ = .ok g1 ∧
      g1.stack = [] ∧ g1.visited = [] ∧ g1.target = 0 ∧
      processGlobals 2 ⟨true, [], [], [], 7⟩ [65, 66, 67, 68, 65, 66, 67, 68] = .ok g1) :=
  processInput_all_placed ⟨true, [], [], [], 7⟩ 2 (by decide)

/-! ## Machine arithmetic on the values that occur -/

theorem u8_of_lt {n : Nat} (h : n < 256) : u8 n = n := Nat.mod_eq_of_lt h

theorem u32_of_lt {n : Nat} (h : n < 4294967296) : u32 n = n := Nat.mod_eq_of_lt h

theorem sub8_of_le {a b : Nat} (h : b ≤ a) (ha : a < 256) : sub8 a b = a - b := by
  unfold sub8
  rw [Nat.mod_eq_of_lt ha, Nat.mod_eq_of_lt (show b < 256 by omega)]
  omega

theorem absDiff_eq_dist {a b : Nat} (ha : a < 256) (hb : b < 256) : absDiff a b = dist a b := by
  unfold absDiff dist
  split
  · rw [sub8_of_le (by omega) hb]
  · rw [sub8_of_le (by omega) ha]

theorem u8_col {v : Nat} (hv : v < 4) : u8 ((v + 1) * 2) = col v := by
  unfold u8 col; omega

theorem col_le {v : Nat} (hv : v < 4) : col v ≤ 8 := by unfold col; omega

theorem dist_le {a b : Nat} (ha : a ≤ 10) (hb : b ≤ 10) : dist a b ≤ 10 := by
  unfold dist; split <;> omega

theorem dist_comm (a b : Nat) : dist a b = dist b a := by
  unfold dist; split <;> split <;> omega

theorem mem_spots_le {i : Nat} (h : i ∈ spots) : i ≤ 10 := by
  simp [spots] at h; omega

theorem weights_getD_le {v : Nat} : weights.getD v 0 ≤ 1000 := by
  match v with
  | 0 => decide
  | 1 => decide
  | 2 => decide
  | 3 => decide
  | k + 4 => simp [weights]

theorem idx_weights {v : Nat} (hv : v < 4) : idx weights v = .ok (weights.getD v 0) := by
  match v, hv with
  | 0, _ => rfl
  | 1, _ => rfl
  | 2, _ => rfl
  | 3, _ => rfl

theorem idx_of_lt {xs : List Nat} {i : Nat} (h : i < xs.length) (d : Nat) :
    idx xs i = .ok (xs.getD i d) := by
  simp [idx, List.getElem?_eq_getElem h]

theorem pathClear_of_inv (s : State) (a b : Nat) (hlen : s.h.length = 11) (ha : a ≤ 10)
    (hb : b ≤ 10) :
    (pathClear s a b = .ok true ∧ clearBetween s.h a b) ∨
    (pathClear s a b = .ok false ∧ ¬ clearBetween s.h a b) := by
  obtain ⟨r, hr, hiff⟩ := pathClear_spec s a b hlen ha hb
  cases r with
  | true => exact Or.inl ⟨hr, hiff.mp rfl⟩
  | false => exact Or.inr ⟨hr, fun hc => by have := hiff.mpr hc; cases this⟩

/-! ## Configurations of search states -/

theorem cfgOf_room (m : List (List Nat)) (n : Nat) (s : State) {c : Nat} (hc : c < 4) :
    (cfgOf m n s).rooms.getD c [] = roomOf m n s c := by
  match c, hc with
  | 0, _ => rfl
  | 1, _ => rfl
  | 2, _ => rfl
  | 3, _ => rfl

theorem cfgOf_rooms_length (m : List (List Nat)) (n : Nat) (s : State) :
    (cfgOf m n s).rooms.length = 4 := rfl

theorem roomOf_settled (m : List (List Nat)) (n : Nat) (s : State) (c : Nat)
    (h : s.mobile.getD c 0 = 0) :
    roomOf m n s c = List.replicate (n - s.empty.getD c 0) c := by
  unfold roomOf
  rw [h]
  simp

theorem roomOf_top (m : List (List Nat)) (n : Nat) (s : State) (c : Nat)
    (h : s.mobile.getD c 0 ≠ 0) :
    roomOf m n s c = topOf m s c ::
      ((List.range (s.mobile.getD c 0 - 1)).map
          (fun j => (m.getD (s.empty.getD c 0 + 1 + j) []).getD c 0)
        ++ List.replicate (n - s.empty.getD c 0 - s.mobile.getD c 0) c) := by
  unfold roomOf topOf
  obtain ⟨k, hk⟩ : ∃ k, s.mobile.getD c 0 = k + 1 := ⟨s.mobile.getD c 0 - 1, by omega⟩
  rw [hk, List.range_succ_eq_map]
  simp only [List.map_cons, List.map_map, List.cons_append, Nat.add_zero, Nat.add_sub_cancel]
  congr 2
  apply List.map_congr_left
  intro j _
  simp only [Function.comp, Nat.succ_eq_add_one]
  rw [show s.empty.getD c 0 + (j + 1) = s.empty.getD c 0 + 1 + j by omega]

theorem countLabel_ge_hall (v : Nat) (cfg : Config) : cfg.hall.count v ≤ countLabel v cfg := by
  unfold countLabel; omega

theorem countLabel_ge_room (v : Nat) (cfg : Config) {c : Nat} (hc : c < 4) :
    (cfg.rooms.getD c []).count v ≤ countLabel v cfg := by
  unfold countLabel
  match c, hc with
  | 0, _ => omega
  | 1, _ => omega
  | 2, _ => omega
  | 3, _ => omega

theorem countLabel_ge_hall_room (v : Nat) (cfg : Config) {c : Nat} (hc : c < 4) :
    cfg.hall.count v + (cfg.rooms.getD c []).count v ≤ countLabel v cfg := by
  unfold countLabel
  match c, hc with
  | 0, _ => omega
  | 1, _ => omega
  | 2, _ => omega
  | 3, _ => omega

theorem countLabel_ge_two_rooms (v : Nat) (cfg : Config) {c d : Nat} (hc : c < 4) (hd : d < 4)
    (hne : c ≠ d) :
    (cfg.rooms.getD c []).count v + (cfg.rooms.getD d []).count v ≤ countLabel v cfg := by
  unfold countLabel
  match c, hc, d, hd with
  | 0, _, 0, _ => exact absurd rfl hne
  | 0, _, 1, _ => omega
  | 0, _, 2, _ => omega
  | 0, _, 3, _ => omega
  | 1, _, 0, _ => omega
  | 1, _, 1, _ => exact absurd rfl hne
  | 1, _, 2, _ => omega
  | 1, _, 3, _ => omega
  | 2, _, 0, _ => omega
  | 2, _, 1, _ => omega
  | 2, _, 2, _ => exact absurd rfl hne
  | 2, _, 3, _ => omega
  | 3, _, 0, _ => omega
  | 3, _, 1, _ => omega
  | 3, _, 2, _ => omega
  | 3, _, 3, _ => exact absurd rfl hne

theorem getD_mem_count {h : List Nat} {i v : Nat} (hv : h.getD i free = v) (hne : v ≠ free) :
    1 ≤ h.count v := by
  have hi : i < h.length := by
    by_contra hcon
    have : h.getD i free = free := by
      simp [List.getElem?_eq_none (Nat.le_of_not_lt hcon)]
    exact hne (hv ▸ this)
  have hmem : v ∈ h := by
    have : h.getD i free = h[i] := by simp [List.getElem?_eq_getElem hi]
    rw [← hv, this]
    exact List.getElem_mem hi
  exact List.count_pos_iff.mpr hmem

theorem Inv.label_lt {m : List (List Nat)} {n : Nat} {s : State} (inv : Inv m n s) {i : Nat}
    (h : s.h.getD i free ≠ free) : s.h.getD i free < 4 := by
  have := inv.hval i
  have h' : s.h.getD i free ≠ 4 := h
  omega

theorem Inv.enter_empty_pos {m : List (List Nat)} {n : Nat} {s : State} (inv : Inv m n s)
    {src : Nat} (hne : s.h.getD src free ≠ free)
    (hmob : s.mobile.getD (s.h.getD src free) 0 = 0) :
    1 ≤ s.empty.getD (s.h.getD src free) 0 := by
  have hv := inv.label_lt hne
  have hcnt := inv.cnt _ hv
  have h1 := countLabel_ge_hall_room (s.h.getD src free) (cfgOf m n s) hv
  rw [cfgOf_room m n s hv, roomOf_settled m n s _ hmob, List.count_replicate_self] at h1
  have h2 : 1 ≤ (cfgOf m n s).hall.count (s.h.getD src free) := getD_mem_count rfl hne
  have h3 := inv.cap _ hv
  omega

/-! ## The in-place hallway -> room rule -/

theorem Inv.sum4_mobile_le {m : List (List Nat)} {n : Nat} {s : State} (inv : Inv m n s) :
    sum4 s.mobile ≤ 4 * n := by
  have h0 := inv.cap 0 (by omega)
  have h1 := inv.cap 1 (by omega)
  have h2 := inv.cap 2 (by omega)
  have h3 := inv.cap 3 (by omega)
  unfold sum4; omega

theorem occupied_le (h : List Nat) : occupied h ≤ h.length := List.countP_le_length _

theorem occupied_pos {h : List Nat} {i : Nat} (hne : h.getD i free ≠ free) : 1 ≤ occupied h := by
  have hi : i < h.length := by
    by_contra hcon
    exact hne (by simp [List.getElem?_eq_none (Nat.le_of_not_lt hcon)])
  have : h.getD i free = h[i] := by simp [List.getElem?_eq_getElem hi]
  unfold occupied
  apply List.countP_pos_iff.mpr
  exact ⟨h[i], List.getElem_mem hi, by rw [this] at hne; simpa using hne⟩

theorem Inv.remaining_lt {m : List (List Nat)} {n : Nat} {s : State} (inv : Inv m n s)
    (tab : TableOK m n) : s.remaining ≤ 27 := by
  have h1 := inv.sum4_mobile_le
  have h2 := occupied_le s.h
  have h3 := inv.rem
  have h4 := inv.hlen
  have h5 := tab.2.1
  omega

theorem Inv.cost_le {m : List (List Nat)} {n : Nat} {s : State} (inv : Inv m n s) :
    s.cost ≤ 640000 := by
  have := inv.costb; omega

theorem Inv.empty_le {m : List (List Nat)} {n : Nat} {s : State} (inv : Inv m n s)
    (tab : TableOK m n) {c : Nat} (hc : c < 4) : s.empty.getD c 0 ≤ 4 := by
  have := inv.cap c hc
  have := tab.2.1
  omega

theorem enterCost_le {m : List (List Nat)} {n : Nat} {s : State} (inv : Inv m n s)
    (tab : TableOK m n) {src : Nat} (hsrc : src ∈ spots) (hne : s.h.getD src free ≠ free) :
    enterCost s src ≤ 14000 := by
  unfold enterCost
  have hv := inv.label_lt hne
  have h1 := dist_le (Nat.le_trans (col_le hv) (by omega)) (mem_spots_le hsrc)
  have h2 := inv.empty_le tab hv
  have h3 : weights.getD (s.h.getD src free) 0 ≤ 1000 := weights_getD_le
  calc _ ≤ 14 * 1000 := Nat.mul_le_mul (by omega) h3
    _ = 14000 := by norm_num

theorem hallStep_spec {m : List (List Nat)} {n : Nat} {s : State} (inv : Inv m n s)
    (tab : TableOK m n) (t : Nat) (d : Bool) {src : Nat} (hsrc : src ∈ spots) :
    (¬ CanEnter s src ∧ hallStep t s d src = .ok (.go s d)) ∨
    (CanEnter s src ∧ hallStep t s d src = .ok (
      if (enterState s src).cost ≥ t ∧ t ≠ 0 then .ret t
      else if s.remaining = 1 then .ret (enterState s src).cost
      else .go (enterState s src) false)) := by
  have hsrc10 := mem_spots_le hsrc
  have hidx : idx s.h src = .ok (s.h.getD src free) := idx_of_lt (by rw [inv.hlen]; omega) _
  unfold hallStep
  rw [hidx]
  simp only
  by_cases hfree : s.h.getD src free = free
  · rw [if_pos hfree]
    exact Or.inl ⟨fun hc => hc.1 hfree, rfl⟩
  · rw [if_neg hfree]
    have hv := inv.label_lt hfree
    rw [idx_of_lt (show s.h.getD src free < s.mobile.length by rw [inv.mlen]; exact hv) 0]
    simp only
    by_cases hmob : s.mobile.getD (s.h.getD src free) 0 = 0
    · rw [if_neg (by simpa using hmob)]
      rw [u8_col hv]
      rcases pathClear_of_inv s src (col (s.h.getD src free)) inv.hlen hsrc10
        (Nat.le_trans (col_le hv) (by omega)) with ⟨hp, hclear⟩ | ⟨hp, hclear⟩
      · rw [hp]
        simp only
        rw [idx_of_lt (show s.h.getD src free < s.empty.length by rw [inv.elen]; exact hv) 0,
          idx_weights hv]
        simp only
        have hcol := col_le hv
        have hd := dist_le (Nat.le_trans (col_le hv) (by omega)) hsrc10
        have he := inv.empty_le tab hv
        have hw : weights.getD (s.h.getD src free) 0 ≤ 1000 := weights_getD_le
        have hec := enterCost_le inv tab hsrc hfree
        have hcost := inv.cost_le
        have hepos := inv.enter_empty_pos hfree hmob
        have hrem := inv.remaining_lt tab
        have hrpos : 1 ≤ s.remaining := by
          have := occupied_pos hfree
          have := inv.rem
          omega
        have e1 : absDiff (col (s.h.getD src free)) src = dist (col (s.h.getD src free)) src :=
          absDiff_eq_dist (by omega) (by omega)
        have e2 : u8 (dist (col (s.h.getD src free)) src + s.empty.getD (s.h.getD src free) 0) =
            dist (col (s.h.getD src free)) src + s.empty.getD (s.h.getD src free) 0 :=
          u8_of_lt (by omega)
        have e3 : u32 (s.cost + u32 ((dist (col (s.h.getD src free)) src +
            s.empty.getD (s.h.getD src free) 0) * weights.getD (s.h.getD src free) 0)) =
            s.cost + enterCost s src := by
          have : (dist (col (s.h.getD src free)) src +
            s.empty.getD (s.h.getD src free) 0) * weights.getD (s.h.getD src free) 0 =
            enterCost s src := rfl
          rw [this, u32_of_lt (show enterCost s src < 4294967296 by omega),
            u32_of_lt (show s.cost + enterCost s src < 4294967296 by omega)]
        have e4 : sub8 (s.empty.getD (s.h.getD src free) 0) 1 =
            s.empty.getD (s.h.getD src free) 0 - 1 := sub8_of_le hepos (by omega)
        have e5 : sub8 s.remaining 1 = s.remaining - 1 := sub8_of_le hrpos (by omega)
        rw [e1, e2, e3, e4, e5]
        refine Or.inr ⟨⟨hfree, hmob, hclear⟩, ?_⟩
        show _ = Except.ok (if s.cost + enterCost s src ≥ t ∧ t ≠ 0 then Flow.ret t
          else if s.remaining = 1 then Flow.ret (s.cost + enterCost s src)
          else Flow.go (enterState s src) false)
        split
        · rfl
        · split <;> rfl
      · rw [hp]
        exact Or.inl ⟨fun hc => hclear hc.2.2, rfl⟩
    · rw [if_pos (by simpa using hmob)]
      exact Or.inl ⟨fun hc => hmob hc.2.1, rfl⟩

/-! ## Legal moves keep the number of pieces of each label -/

theorem rooms_map_set (f g : Nat → List Nat) {v : Nat} (hv : v < 4)
    (h : ∀ c, c < 4 → c ≠ v → g c = f c) :
    (List.range 4).map g = ((List.range 4).map f).set v (g v) := by
  have h0 := h 0 (by omega)
  have h1 := h 1 (by omega)
  have h2 := h 2 (by omega)
  have h3 := h 3 (by omega)
  match v, hv with
  | 0, _ => simp [List.range_succ, h1, h2, h3]
  | 1, _ => simp [List.range_succ, h0, h2, h3]
  | 2, _ => simp [List.range_succ, h0, h1, h3]
  | 3, _ => simp [List.range_succ, h0, h1, h2]

theorem roomOf_congr (m : List (List Nat)) (n : Nat) (s s' : State) (c : Nat)
    (hm : s'.mobile.getD c 0 = s.mobile.getD c 0) (he : s'.empty.getD c 0 = s.empty.getD c 0) :
    roomOf m n s' c = roomOf m n s c := by
  unfold roomOf
  rw [hm, he]

theorem getD_set_ne (l : List Nat) {i j : Nat} (x d : Nat) (h : i ≠ j) :
    (l.set i x).getD j d = l.getD j d := by
  simp [List.getElem?_set, h]

theorem getD_set_eq (l : List Nat) {i : Nat} (x d : Nat) (h : i < l.length) :
    (l.set i x).getD i d = x := by
  simp [List.getElem?_set, h]

theorem rooms_count_set (v : Nat) (rooms : List (List Nat)) (hr : rooms.length = 4) {c : Nat}
    (hc : c < 4) (room : List Nat) :
    ((rooms.set c room).getD 0 []).count v + ((rooms.set c room).getD 1 []).count v +
      ((rooms.set c room).getD 2 []).count v + ((rooms.set c room).getD 3 []).count v +
      (rooms.getD c []).count v =
    (rooms.getD 0 []).count v + (rooms.getD 1 []).count v + (rooms.getD 2 []).count v +
      (rooms.getD 3 []).count v + room.count v := by
  match rooms, hr with
  | [r0, r1, r2, r3], _ =>
    match c, hc with
    | 0, _ => simp; omega
    | 1, _ => simp; omega
    | 2, _ => simp; omega
    | 3, _ => simp; omega

theorem Step.countLabel_eq {n : Nat} {a b : Config} {cost : Nat} (st : Step n a cost b)
    (hh : a.hall.length = 11) (hr : a.rooms.length = 4) {v : Nat} (hv : v < 4) :
    countLabel v b = countLabel v a := by
  have hvf : v ≠ free := by unfold free; omega
  cases st with
  | park c dst p rest hc hroom hdst hfree hclear =>
    have hd : dst < a.hall.length := by have := mem_spots_le hdst; omega
    have hcell : a.hall[dst] = free := by
      simpa [List.getElem?_eq_getElem hd] using hfree
    have h1 := rooms_count_set v a.rooms hr hc rest
    rw [hroom, List.count_cons] at h1
    unfold countLabel
    simp only [List.count_set _ _ _ _ hd, hcell]
    have hfv : (free == v) = false := by simpa using fun h => hvf h.symm
    rw [hfv]
    simp only [Bool.false_eq_true, if_false, Nat.sub_zero]
    omega
  | home src v' hsrc hv' hall hlen hclear =>
    have hd : src < a.hall.length := by
      by_contra hcon
      have : a.hall.getD src free = free := by
        simp [List.getElem?_eq_none (Nat.le_of_not_lt hcon)]
      rw [hsrc] at this
      unfold free at this
      omega
    have hcell : a.hall[src] = v' := by
      simpa [List.getElem?_eq_getElem hd] using hsrc
    have h1 := rooms_count_set v a.rooms hr hv' (v' :: a.rooms.getD v' [])
    rw [List.count_cons] at h1
    have h2 : 1 ≤ a.hall.count v' := List.count_pos_iff.mpr (hcell ▸ List.getElem_mem hd)
    unfold countLabel
    simp only [List.count_set _ _ _ _ hd, hcell]
    have hfv : (free == v) = false := by simpa using fun h => hvf h.symm
    rw [hfv]
    by_cases hvv : v' = v
    · subst hvv
      simp only [beq_self_eq_true, if_true, Bool.false_eq_true, if_false] at h1 ⊢
      omega
    · have hb : (v' == v) = false := by simpa using hvv
      rw [hb] at h1 ⊢
      simp only [Bool.false_eq_true, if_false] at h1 ⊢
      omega

/-! ## The hallway -> room move is a legal move and keeps the invariant -/

theorem cfgOf_enterState {m : List (List Nat)} {n : Nat} {s : State} (inv : Inv m n s)
    {src : Nat} (hc : CanEnter s src) :
    cfgOf m n (enterState s src) =
      ⟨(cfgOf m n s).hall.set src free,
        (cfgOf m n s).rooms.set (s.h.getD src free)
          (s.h.getD src free :: (cfgOf m n s).rooms.getD (s.h.getD src free) [])⟩ := by
  obtain ⟨hne, hmob, _⟩ := hc
  have hv := inv.label_lt hne
  have hpos := inv.enter_empty_pos hne hmob
  have hcap := inv.cap _ hv
  have hve : s.h.getD src free < s.empty.length := by rw [inv.elen]; exact hv
  rw [cfgOf_room m n s hv]
  unfold cfgOf
  congr 1
  have key : roomOf m n (enterState s src) (s.h.getD src free) =
      s.h.getD src free :: roomOf m n s (s.h.getD src free) := by
    rw [roomOf_settled m n s _ hmob, roomOf_settled m n (enterState s src) _ hmob]
    simp only [enterState, getD_set_eq _ _ _ hve]
    rw [show n - (s.empty.getD (s.h.getD src free) 0 - 1) =
      (n - s.empty.getD (s.h.getD src free) 0) + 1 by omega, List.replicate_succ]
  rw [← key]
  apply rooms_map_set _ _ hv
  intro c _ hcne
  apply roomOf_congr
  · rfl
  · simp only [enterState]
    exact getD_set_ne _ _ _ (Ne.symm hcne)

theorem enter_step {m : List (List Nat)} {n : Nat} {s : State} (inv : Inv m n s)
    {src : Nat} (hc : CanEnter s src) :
    Step n (cfgOf m n s) (enterCost s src) (cfgOf m n (enterState s src)) := by
  have hc' := hc
  obtain ⟨hne, hmob, hclear⟩ := hc'
  have hv := inv.label_lt hne
  have hpos := inv.enter_empty_pos hne hmob
  have hcap := inv.cap _ hv
  have hroom : (cfgOf m n s).rooms.getD (s.h.getD src free) [] =
      List.replicate (n - s.empty.getD (s.h.getD src free) 0) (s.h.getD src free) := by
    rw [cfgOf_room m n s hv, roomOf_settled m n s _ hmob]
  have hstep := Step.home (n := n) (cfgOf m n s) src (s.h.getD src free) rfl hv
    (by rw [hroom]; intro x hx; exact (List.mem_replicate.mp hx).2)
    (by rw [hroom, List.length_replicate]; omega) hclear
  rw [cfgOf_enterState inv hc]
  have hcost : enterCost s src = (dist src (col (s.h.getD src free)) +
      (n - ((cfgOf m n s).rooms.getD (s.h.getD src free) []).length)) *
      weights.getD (s.h.getD src free) 0 := by
    rw [hroom, List.length_replicate]
    unfold enterCost
    rw [dist_comm, show n - (n - s.empty.getD (s.h.getD src free) 0) =
      s.empty.getD (s.h.getD src free) 0 by omega]
  rw [hcost]
  exact hstep

theorem occupied_set_free {h : List Nat} {i : Nat} (hne : h.getD i free ≠ free) :
    occupied (h.set i free) + 1 = occupied h := by
  have hi : i < h.length := by
    by_contra hcon
    exact hne (by simp [List.getElem?_eq_none (Nat.le_of_not_lt hcon)])
  have hcell : h.getD i free = h[i] := by simp [List.getElem?_eq_getElem hi]
  have hpos := occupied_pos hne
  unfold occupied at hpos ⊢
  rw [List.countP_set _ _ _ _ hi]
  rw [hcell] at hne
  simp [hne]
  omega

theorem getD_set_le (h : List Nat) (i x j d b : Nat) (hx : x ≤ b) (hd : d ≤ b)
    (hall : ∀ k, h.getD k d ≤ b) : (h.set i x).getD j d ≤ b := by
  by_cases hij : i = j
  · subst hij
    by_cases hi : i < h.length
    · rw [getD_set_eq _ _ _ hi]; exact hx
    · have hlen : (h.set i x).length ≤ i := by rw [List.length_set]; omega
      have : (h.set i x).getD i d = d := by
        rw [List.getD_eq_getElem?_getD, List.getElem?_eq_none hlen]; rfl
      rw [this]; exact hd
  · rw [getD_set_ne _ _ _ hij]; exact hall j

theorem sum4_set (l : List Nat) (hl : l.length = 4) {c : Nat} (hc : c < 4) (x : Nat) :
    sum4 (l.set c x) + l.getD c 0 = sum4 l + x := by
  match l, hl with
  | [a0, a1, a2, a3], _ =>
    match c, hc with
    | 0, _ => simp [sum4]; omega
    | 1, _ => simp [sum4]; omega
    | 2, _ => simp [sum4]; omega
    | 3, _ => simp [sum4]; omega

theorem Inv.enter {m : List (List Nat)} {n : Nat} {s : State} (inv : Inv m n s)
    (tab : TableOK m n) {src : Nat} (hsrc : src ∈ spots) (hc : CanEnter s src) :
    Inv m n (enterState s src) := by
  have hc' := hc
  obtain ⟨hne, hmob, hclear⟩ := hc'
  have hv := inv.label_lt hne
  have hpos := inv.enter_empty_pos hne hmob
  have hocc := occupied_set_free hne
  have hec := enterCost_le inv tab hsrc hne
  refine ⟨?_, inv.mlen, ?_, ?_, ?_, ?_, ?_, ?_, ?_, ?_, ?_⟩
  · simp [enterState, inv.hlen]
  · simp [enterState, inv.elen]
  · intro i
    exact getD_set_le _ _ _ _ _ _ (by unfold free; omega) (by unfold free; omega) inv.hval
  · intro i hi
    apply inv.hspot
    by_cases hsi : src = i
    · subst hsi; exact hne
    · simp only [enterState, getD_set_ne _ _ _ hsi] at hi; exact hi
  · intro c hc4
    have := inv.cap c hc4
    by_cases hcv : s.h.getD src free = c
    · subst hcv
      simp only [enterState, getD_set_eq _ _ _ (show s.h.getD src free < s.empty.length by
        rw [inv.elen]; exact hv)]
      omega
    · simp only [enterState, getD_set_ne _ _ _ hcv]
      exact this
  · intro v hv4
    rw [(enter_step inv hc).countLabel_eq inv.hlen rfl hv4]
    exact inv.cnt v hv4
  · have := inv.rem
    simp only [enterState]
    omega
  · have := inv.costb
    simp only [enterState]
    omega
  · intro c hc4 hm
    have hb := inv.bot c hc4 hm
    by_cases hcv : s.h.getD src free = c
    · subst hcv; exact absurd hmob hm
    · simp only [enterState, getD_set_ne _ _ _ hcv]
      exact hb
  · have h1 := inv.occ
    have h2 := sum4_set s.empty inv.elen hv (s.empty.getD (s.h.getD src free) 0 - 1)
    simp only [enterState]
    omega

/-! ## The in-place room -> room rule -/

theorem TableOK.cell_ok {m : List (List Nat)} {n : Nat} (tab : TableOK m n) {r c : Nat}
    (hr : r < n) (hc : c < 4) :
    cell m r c = .ok ((m.getD r []).getD c 0) ∧ (m.getD r []).getD c 0 < 4 := by
  obtain ⟨_, _, hlen, hrows⟩ := tab
  have hr' : r < m.length := by omega
  have hrow := hrows m[r] (List.getElem_mem hr')
  have hgd : m.getD r [] = m[r] := by simp [List.getElem?_eq_getElem hr']
  have hc' : c < m[r].length := by rw [hrow.1]; exact hc
  unfold cell
  rw [List.getElem?_eq_getElem hr', hgd]
  refine ⟨idx_of_lt hc' 0, ?_⟩
  have : m[r].getD c 0 = m[r][c] := by simp [List.getElem?_eq_getElem hc']
  rw [this]
  exact hrow.2 _ (List.getElem_mem hc')

theorem Inv.top_row_lt {m : List (List Nat)} {n : Nat} {s : State} (inv : Inv m n s) {c : Nat}
    (hc : c < 4) (hmob : s.mobile.getD c 0 ≠ 0) : s.empty.getD c 0 < n := by
  have := inv.cap c hc
  omega

theorem Inv.top_lt {m : List (List Nat)} {n : Nat} {s : State} (inv : Inv m n s)
    (tab : TableOK m n) {c : Nat} (hc : c < 4) (hmob : s.mobile.getD c 0 ≠ 0) :
    topOf m s c < 4 :=
  (tab.cell_ok (inv.top_row_lt hc hmob) hc).2

theorem Inv.cross_empty_pos {m : List (List Nat)} {n : Nat} {s : State} (inv : Inv m n s)
    (tab : TableOK m n) {c : Nat} (hc : c < 4) (hmob : s.mobile.getD c 0 ≠ 0)
    (hmv : s.mobile.getD (topOf m s c) 0 = 0) :
    topOf m s c ≠ c ∧ 1 ≤ s.empty.getD (topOf m s c) 0 := by
  have hv := inv.top_lt tab hc hmob
  have hne : topOf m s c ≠ c := by
    intro h; rw [h] at hmv; exact hmob hmv
  refine ⟨hne, ?_⟩
  have hcnt := inv.cnt _ hv
  have h1 := countLabel_ge_two_rooms (topOf m s c) (cfgOf m n s) hc hv (Ne.symm hne)
  rw [cfgOf_room m n s hv, cfgOf_room m n s hc, roomOf_settled m n s _ hmv,
    List.count_replicate_self, roomOf_top m n s c hmob, List.count_cons_self] at h1
  have h3 := inv.cap _ hv
  omega

theorem crossCost_le {m : List (List Nat)} {n : Nat} {s : State} (inv : Inv m n s)
    (tab : TableOK m n) {c : Nat} (hc : c < 4) (hmob : s.mobile.getD c 0 ≠ 0) :
    crossCost m s c ≤ 19000 := by
  unfold crossCost
  have hv := inv.top_lt tab hc hmob
  have h1 := dist_le (Nat.le_trans (col_le hv) (by omega)) (Nat.le_trans (col_le hc) (by omega))
  have h2 := inv.empty_le tab hv
  have h3 : weights.getD (topOf m s c) 0 ≤ 1000 := weights_getD_le
  have h4 := inv.empty_le tab hc
  calc _ ≤ 19 * 1000 := Nat.mul_le_mul (by omega) h3
    _ = 19000 := by norm_num

theorem roomStep_spec {m : List (List Nat)} {n : Nat} {s : State} (inv : Inv m n s)
    (tab : TableOK m n) (t : Nat) (d : Bool) {c : Nat} (hc : c < 4) :
    (¬ CanCross m s c ∧ roomStep m t s d c = .ok (.go s d)) ∨
    (CanCross m s c ∧ roomStep m t s d c = .ok (
      if (crossState m s c).cost ≥ t ∧ t ≠ 0 then .ret t
      else .go (crossState m s c) false)) := by
  unfold roomStep
  rw [idx_of_lt (show c < s.mobile.length by rw [inv.mlen]; exact hc) 0]
  simp only
  by_cases hmob : s.mobile.getD c 0 = 0
  · rw [if_pos hmob]
    exact Or.inl ⟨fun h => h.1 hmob, rfl⟩
  · rw [if_neg hmob]
    rw [idx_of_lt (show c < s.empty.length by rw [inv.elen]; exact hc) 0]
    simp only
    have hcell := tab.cell_ok (inv.top_row_lt hc hmob) hc
    have hv : topOf m s c < 4 := hcell.2
    rw [show cell m (s.empty.getD c 0) c = .ok (topOf m s c) from hcell.1]
    simp only
    rw [idx_of_lt (show topOf m s c < s.mobile.length by rw [inv.mlen]; exact hv) 0]
    simp only
    by_cases hmv : s.mobile.getD (topOf m s c) 0 = 0
    · rw [if_neg (by simpa using hmv)]
      rw [u8_col hv, u8_col hc]
      rcases pathClear_of_inv s (col c) (col (topOf m s c)) inv.hlen
        (Nat.le_trans (col_le hc) (by omega))
        (Nat.le_trans (col_le hv) (by omega)) with ⟨hp, hclear⟩ | ⟨hp, hclear⟩
      · rw [hp]
        simp only
        rw [idx_of_lt (show topOf m s c < s.empty.length by rw [inv.elen]; exact hv) 0,
          idx_weights hv]
        simp only
        obtain ⟨hne, hepos⟩ := inv.cross_empty_pos tab hc hmob hmv
        have hcolv := col_le hv
        have hcolc := col_le hc
        have hd := dist_le (Nat.le_trans (col_le hv) (by omega))
          (Nat.le_trans (col_le hc) (by omega))
        have he := inv.empty_le tab hv
        have hec := inv.empty_le tab hc
        have hcc := crossCost_le inv tab hc hmob
        have hcost := inv.cost_le
        have hrem := inv.remaining_lt tab
        have hcap := inv.cap c hc
        have hn4 := tab.2.1
        have hrpos : 1 ≤ s.remaining := by
          have := inv.rem
          have : s.mobile.getD c 0 ≤ sum4 s.mobile := by
            unfold sum4
            match c, hc with
            | 0, _ => omega
            | 1, _ => omega
            | 2, _ => omega
            | 3, _ => omega
          omega
        have e1 : absDiff (col (topOf m s c)) (col c) = dist (col (topOf m s c)) (col c) :=
          absDiff_eq_dist (by omega) (by omega)
        have e2 : u8 (dist (col (topOf m s c)) (col c) + s.empty.getD c 0 + 1 +
            s.empty.getD (topOf m s c) 0) =
            dist (col (topOf m s c)) (col c) + s.empty.getD c 0 + 1 +
            s.empty.getD (topOf m s c) 0 := u8_of_lt (by omega)
        have e3 : u32 (s.cost + u32 ((dist (col (topOf m s c)) (col c) + s.empty.getD c 0 + 1 +
            s.empty.getD (topOf m s c) 0) * weights.getD (topOf m s c) 0)) =
            s.cost + crossCost m s c := by
          have : (dist (col (topOf m s c)) (col c) + s.empty.getD c 0 + 1 +
            s.empty.getD (topOf m s c) 0) * weights.getD (topOf m s c) 0 =
            crossCost m s c := rfl
          rw [this, u32_of_lt (show crossCost m s c < 4294967296 by omega),
            u32_of_lt (show s.cost + crossCost m s c < 4294967296 by omega)]
        have e4 : u8 (s.empty.getD c 0 + 1) = s.empty.getD c 0 + 1 := u8_of_lt (by omega)
        have e5 : sub8 ((s.empty.set c (s.empty.getD c 0 + 1)).getD (topOf m s c) 0) 1 =
            s.empty.getD (topOf m s c) 0 - 1 := by
          rw [getD_set_ne _ _ _ (Ne.symm hne)]
          exact sub8_of_le hepos (by omega)
        have e6 : sub8 (s.mobile.getD c 0) 1 = s.mobile.getD c 0 - 1 :=
          sub8_of_le (by omega) (by omega)
        have e7 : sub8 s.remaining 1 = s.remaining - 1 := sub8_of_le hrpos (by omega)
        rw [e1, e2, e3, e4, e5, e6, e7]
        refine Or.inr ⟨⟨hmob, hmv, hclear⟩, ?_⟩
        show _ = Except.ok (if s.cost + crossCost m s c ≥ t ∧ t ≠ 0 then Flow.ret t
          else Flow.go (crossState m s c) false)
        split <;> rfl
      · rw [hp]
        exact Or.inl ⟨fun h => hclear h.2.2, rfl⟩
    · rw [if_pos (by simpa using hmv)]
      exact Or.inl ⟨fun h => hmv h.2.1, rfl⟩

/-! ## Parking the top piece of a room is a legal move and keeps the invariant -/

theorem Inv.room_split {m : List (List Nat)} {n : Nat} {s : State} (inv : Inv m n s) {c : Nat}
    (hc : c < 4) (hmob : s.mobile.getD c 0 ≠ 0) (dst : Nat) :
    roomOf m n s c = topOf m s c :: roomOf m n (parkState m s c dst) c ∧
    (roomOf m n (parkState m s c dst) c).length + 1 + s.empty.getD c 0 = n := by
  have hcap := inv.cap c hc
  have hcm : c < s.mobile.length := by rw [inv.mlen]; exact hc
  have hce : c < s.empty.length := by rw [inv.elen]; exact hc
  have hrest : roomOf m n (parkState m s c dst) c =
      (List.range (s.mobile.getD c 0 - 1)).map
          (fun j => (m.getD (s.empty.getD c 0 + 1 + j) []).getD c 0)
        ++ List.replicate (n - s.empty.getD c 0 - s.mobile.getD c 0) c := by
    unfold roomOf
    simp only [parkState, getD_set_eq _ _ _ hcm, getD_set_eq _ _ _ hce]
    rw [show n - (s.empty.getD c 0 + 1) - (s.mobile.getD c 0 - 1) =
      n - s.empty.getD c 0 - s.mobile.getD c 0 by omega]
  refine ⟨by rw [hrest]; exact roomOf_top m n s c hmob, ?_⟩
  rw [hrest]
  simp only [List.length_append, List.length_map, List.length_range, List.length_replicate]
  omega

theorem cfgOf_parkState {m : List (List Nat)} {n : Nat} {s : State} (inv : Inv m n s)
    {c : Nat} (hc : c < 4) (dst : Nat) :
    cfgOf m n (parkState m s c dst) =
      ⟨(cfgOf m n s).hall.set dst (topOf m s c),
        (cfgOf m n s).rooms.set c (roomOf m n (parkState m s c dst) c)⟩ := by
  unfold cfgOf
  congr 1
  apply rooms_map_set _ _ hc
  intro c' _ hne
  apply roomOf_congr
  · simp only [parkState]; exact getD_set_ne _ _ _ (Ne.symm hne)
  · simp only [parkState]; exact getD_set_ne _ _ _ (Ne.symm hne)

theorem park_step {m : List (List Nat)} {n : Nat} {s : State} (inv : Inv m n s)
    {c dst : Nat} (hc : c < 4) (hmob : s.mobile.getD c 0 ≠ 0) (hdst : dst ∈ spots)
    (hp : CanPark s c dst) :
    Step n (cfgOf m n s) (parkCost m s c dst) (cfgOf m n (parkState m s c dst)) := by
  obtain ⟨hsplit, hlen⟩ := inv.room_split hc hmob dst
  have hstep := Step.park (n := n) (cfgOf m n s) c dst (topOf m s c)
    (roomOf m n (parkState m s c dst) c) hc (by rw [cfgOf_room m n s hc]; exact hsplit) hdst
    hp.1 hp.2
  rw [cfgOf_parkState inv hc dst]
  have hcost : parkCost m s c dst = (dist dst (col c) +
      (n - (roomOf m n (parkState m s c dst) c).length)) * weights.getD (topOf m s c) 0 := by
    unfold parkCost
    rw [show n - (roomOf m n (parkState m s c dst) c).length = s.empty.getD c 0 + 1 by omega]
    rfl
  rw [hcost]
  exact hstep

theorem occupied_set_label {h : List Nat} {i v : Nat} (hi : i < h.length)
    (hfree : h.getD i free = free) (hv : v ≠ free) :
    occupied (h.set i v) = occupied h + 1 := by
  have hcell : h[i] = free := by simpa [List.getElem?_eq_getElem hi] using hfree
  unfold occupied
  rw [List.countP_set _ _ _ _ hi, hcell]
  simp [hv]

theorem parkCost_le {m : List (List Nat)} {n : Nat} {s : State} (inv : Inv m n s)
    (tab : TableOK m n) {c dst : Nat} (hc : c < 4) (hmob : s.mobile.getD c 0 ≠ 0)
    (hdst : dst ∈ spots) : parkCost m s c dst ≤ 14000 := by
  unfold parkCost
  have h1 := dist_le (mem_spots_le hdst) (Nat.le_trans (col_le hc) (by omega))
  have h2 := inv.top_row_lt hc hmob
  have h3 : weights.getD (topOf m s c) 0 ≤ 1000 := weights_getD_le
  have h4 := tab.2.1
  calc _ ≤ 14 * 1000 := Nat.mul_le_mul (by omega) h3
    _ = 14000 := by norm_num

theorem getD_le_sum4 (l : List Nat) {c : Nat} (hc : c < 4) : l.getD c 0 ≤ sum4 l := by
  unfold sum4
  match c, hc with
  | 0, _ => omega
  | 1, _ => omega
  | 2, _ => omega
  | 3, _ => omega

theorem Inv.park {m : List (List Nat)} {n : Nat} {s : State} (inv : Inv m n s)
    (tab : TableOK m n) {c dst : Nat} (hc : c < 4) (hmob : s.mobile.getD c 0 ≠ 0)
    (hdst : dst ∈ spots) (hp : CanPark s c dst) :
    Inv m n (parkState m s c dst) := by
  have hv := inv.top_lt tab hc hmob
  have hd : dst < s.h.length := by have := mem_spots_le hdst; rw [inv.hlen]; omega
  have hocc := occupied_set_label hd hp.1 (show topOf m s c ≠ free by unfold free; omega)
  have hpc := parkCost_le inv tab hc hmob hdst
  have hsum := sum4_set s.mobile inv.mlen hc (s.mobile.getD c 0 - 1)
  have hge := getD_le_sum4 s.mobile hc
  have hcm : c < s.mobile.length := by rw [inv.mlen]; exact hc
  have hce : c < s.empty.length := by rw [inv.elen]; exact hc
  refine ⟨?_, ?_, ?_, ?_, ?_, ?_, ?_, ?_, ?_, ?_, ?_⟩
  · simp [parkState, inv.hlen]
  · simp [parkState, inv.mlen]
  · simp [parkState, inv.elen]
  · intro i
    exact getD_set_le _ _ _ _ _ _ (by omega) (by unfold free; omega) inv.hval
  · intro i hi
    by_cases hsi : dst = i
    · subst hsi; exact hdst
    · simp only [parkState, getD_set_ne _ _ _ hsi] at hi
      exact inv.hspot i hi
  · intro c' hc4
    have := inv.cap c' hc4
    by_cases hcc : c = c'
    · subst hcc
      simp only [parkState, getD_set_eq _ _ _ hcm, getD_set_eq _ _ _ hce]
      omega
    · simp only [parkState, getD_set_ne _ _ _ hcc]
      exact this
  · intro v hv4
    rw [(park_step inv hc hmob hdst hp).countLabel_eq inv.hlen rfl hv4]
    exact inv.cnt v hv4
  · have := inv.rem
    simp only [parkState]
    omega
  · have := inv.costb
    simp only [parkState]
    omega
  · intro c' hc4 hm
    by_cases hcc : c = c'
    · subst hcc
      simp only [parkState, getD_set_eq _ _ _ hcm, getD_set_eq _ _ _ hce] at hm ⊢
      have hb := inv.bot c hc4 hmob
      rw [show s.empty.getD c 0 + 1 + (s.mobile.getD c 0 - 1) - 1 =
        s.empty.getD c 0 + s.mobile.getD c 0 - 1 by omega]
      exact hb
    · simp only [parkState, getD_set_ne _ _ _ hcc] at hm ⊢
      exact inv.bot c' hc4 hm
  · have h1 := inv.occ
    have h2 := sum4_set s.empty inv.elen hc (s.empty.getD c 0 + 1)
    simp only [parkState]
    omega

/-! ## The room -> room move is a parking move followed by a hallway -> room move -/

theorem toward_mem {c v : Nat} (hc : c < 4) (hv : v < 4) (hne : v ≠ c) : toward c v ∈ spots := by
  unfold toward col spots
  match c, hc, v, hv with
  | 0, _, 0, _ => exact absurd rfl hne
  | 0, _, 1, _ => decide
  | 0, _, 2, _ => decide
  | 0, _, 3, _ => decide
  | 1, _, 0, _ => decide
  | 1, _, 1, _ => exact absurd rfl hne
  | 1, _, 2, _ => decide
  | 1, _, 3, _ => decide
  | 2, _, 0, _ => decide
  | 2, _, 1, _ => decide
  | 2, _, 2, _ => exact absurd rfl hne
  | 2, _, 3, _ => decide
  | 3, _, 0, _ => decide
  | 3, _, 1, _ => decide
  | 3, _, 2, _ => decide
  | 3, _, 3, _ => exact absurd rfl hne

theorem toward_between {c v : Nat} (hne : v ≠ c) :
    (col c < toward c v ∧ toward c v < col v) ∨ (col v < toward c v ∧ toward c v < col c) := by
  unfold toward col
  split <;> omega

theorem toward_dist {c v : Nat} (hne : v ≠ c) :
    dist (toward c v) (col c) + dist (col v) (toward c v) = dist (col v) (col c) := by
  unfold toward col dist
  split <;> split <;> split <;> split <;> omega

theorem CanCross.canPark {m : List (List Nat)} {s : State} {c : Nat}
    (hx : CanCross m s c) (hne : topOf m s c ≠ c) : CanPark s c (toward c (topOf m s c)) := by
  obtain ⟨_, _, hclear⟩ := hx
  refine ⟨hclear _ (toward_between hne), ?_⟩
  intro x hxb
  apply hclear
  have := toward_between (c := c) hne
  omega

theorem set_set_free {h : List Nat} {i : Nat} (v : Nat) (hfree : h.getD i free = free) :
    (h.set i v).set i free = h := by
  rw [List.set_set]
  apply List.ext_getElem?
  intro j
  rw [List.getElem?_set]
  split
  · rename_i hij
    subst hij
    split
    · rename_i hi
      simp [List.getElem?_eq_getElem hi] at hfree ⊢
      exact hfree.symm
    · rename_i hi
      exact (List.getElem?_eq_none (Nat.le_of_not_lt hi)).symm
  · rfl

theorem crossState_eq {m : List (List Nat)} {n : Nat} {s : State} (inv : Inv m n s)
    (tab : TableOK m n) {c : Nat} (hc : c < 4) (hx : CanCross m s c) :
    crossState m s c =
      enterState (parkState m s c (toward c (topOf m s c))) (toward c (topOf m s c)) := by
  have hx' := hx
  obtain ⟨hmob, hmv, hclear⟩ := hx'
  obtain ⟨hne, hepos⟩ := inv.cross_empty_pos tab hc hmob hmv
  have hv := inv.top_lt tab hc hmob
  have hy := toward_mem hc hv hne
  have hyl : toward c (topOf m s c) < s.h.length := by
    have := mem_spots_le hy; rw [inv.hlen]; omega
  have hpark := hx.canPark hne
  have hlab : (s.h.set (toward c (topOf m s c)) (topOf m s c)).getD
      (toward c (topOf m s c)) free = topOf m s c := getD_set_eq _ _ _ hyl
  unfold crossState enterState enterCost
  simp only [parkState, hlab, set_set_free _ hpark.1, getD_set_ne _ _ _ (Ne.symm hne)]
  congr 1
  unfold crossCost parkCost
  have hd := toward_dist (c := c) hne
  have key : (dist (toward c (topOf m s c)) (col c) + s.empty.getD c 0 + 1) *
        weights.getD (topOf m s c) 0 +
      (dist (col (topOf m s c)) (toward c (topOf m s c)) + s.empty.getD (topOf m s c) 0) *
        weights.getD (topOf m s c) 0 =
      (dist (col (topOf m s c)) (col c) + s.empty.getD c 0 + 1 +
        s.empty.getD (topOf m s c) 0) * weights.getD (topOf m s c) 0 := by
    rw [← Nat.add_mul]
    congr 1
    omega
  rw [Nat.add_assoc s.cost, key]

theorem CanCross.canEnter {m : List (List Nat)} {n : Nat} {s : State} (inv : Inv m n s)
    (tab : TableOK m n) {c : Nat} (hc : c < 4) (hx : CanCross m s c) :
    CanEnter (parkState m s c (toward c (topOf m s c))) (toward c (topOf m s c)) := by
  have hx' := hx
  obtain ⟨hmob, hmv, hclear⟩ := hx'
  obtain ⟨hne, hepos⟩ := inv.cross_empty_pos tab hc hmob hmv
  have hv := inv.top_lt tab hc hmob
  have hy := toward_mem hc hv hne
  have hyl : toward c (topOf m s c) < s.h.length := by
    have := mem_spots_le hy; rw [inv.hlen]; omega
  have hlab : (s.h.set (toward c (topOf m s c)) (topOf m s c)).getD
      (toward c (topOf m s c)) free = topOf m s c := getD_set_eq _ _ _ hyl
  unfold CanEnter
  simp only [parkState, hlab]
  refine ⟨by unfold free; omega, ?_, ?_⟩
  · rw [getD_set_ne _ _ _ (Ne.symm hne)]; exact hmv
  · intro x hxb
    have hb := toward_between (c := c) hne
    rw [getD_set_ne _ _ _ (by omega)]
    apply hclear
    omega

theorem Inv.cross {m : List (List Nat)} {n : Nat} {s : State} (inv : Inv m n s)
    (tab : TableOK m n) {c : Nat} (hc : c < 4) (hx : CanCross m s c) :
    Inv m n (crossState m s c) := by
  obtain ⟨hne, _⟩ := inv.cross_empty_pos tab hc hx.1 hx.2.1
  have hy := toward_mem hc (inv.top_lt tab hc hx.1) hne
  rw [crossState_eq inv tab hc hx]
  exact (inv.park tab hc hx.1 hy (hx.canPark hne)).enter tab hy (hx.canEnter inv tab hc)

theorem cross_path {m : List (List Nat)} {n : Nat} {s : State} (inv : Inv m n s)
    (tab : TableOK m n) {c : Nat} (hc : c < 4) (hx : CanCross m s c) :
    Path n 2 (cfgOf m n s) (crossCost m s c) (cfgOf m n (crossState m s c)) := by
  obtain ⟨hne, _⟩ := inv.cross_empty_pos tab hc hx.1 hx.2.1
  have hy := toward_mem hc (inv.top_lt tab hc hx.1) hne
  have hpark := hx.canPark hne
  have s1 := park_step inv hc hx.1 hy hpark
  have s2 := enter_step (inv.park tab hc hx.1 hy hpark) (hx.canEnter inv tab hc)
  have hcost : crossCost m s c = parkCost m s c (toward c (topOf m s c)) +
      (enterCost (parkState m s c (toward c (topOf m s c))) (toward c (topOf m s c)) + 0) := by
    have h := congrArg State.cost (crossState_eq inv tab hc hx)
    simp only [crossState, enterState, parkState] at h
    simp only [parkState, Nat.add_zero]
    omega
  rw [hcost, crossState_eq inv tab hc hx]
  exact Path.cons s1 (Path.cons s2 (Path.nil _))

/-! ## The in-place loops -/

theorem Reduces.append {m : List (List Nat)} {a b c : State} (h1 : Reduces m a b)
    (h2 : Reduces m b c) : Reduces m a c := by
  induction h1 with
  | refl => exact h2
  | enter src hs hc hr _ ih => exact Reduces.enter src hs hc hr (ih h2)
  | cross c' hc hx _ ih => exact Reduces.cross c' hc hx (ih h2)

theorem FlowOK.of_step {m : List (List Nat)} {n : Nat} {t : Nat} {s s1 : State} {d d1 : Bool}
    {cells rooms cells1 rooms1 : List Nat} {r : Flow}
    (hred : Reduces m s s1)
    (hd : d1 = true → d = true ∧ s1 = s ∧ (∀ src, src ∈ cells → src ∉ cells1 → ¬ CanEnter s src)
      ∧ ∀ c, c ∈ rooms → c ∉ rooms1 → ¬ CanCross m s c)
    (hrem : s1.remaining + (if d1 then 0 else 1) ≤ s.remaining + (if d then 0 else 1))
    (h : FlowOK m n t s1 d1 cells1 rooms1 r) : FlowOK m n t s d cells rooms r := by
  cases r with
  | ret t' =>
    obtain ⟨s2, i2, r2, ok⟩ := h
    exact ⟨s2, i2, hred.append r2, ok⟩
  | go s2 d2 =>
    obtain ⟨i2, r2, hd2, hrem2⟩ := h
    refine ⟨i2, hred.append r2, ?_, by omega⟩
    intro h2
    obtain ⟨e1, e2, e3, e4⟩ := hd2 h2
    obtain ⟨f1, f2, f3, f4⟩ := hd e1
    rw [f2] at e2 e3 e4
    refine ⟨f1, e2, ?_, ?_⟩
    · intro src hsrc
      by_cases hm : src ∈ cells1
      · exact e3 src hm
      · exact f3 src hsrc hm
    · intro c hc
      by_cases hm : c ∈ rooms1
      · exact e4 c hm
      · exact f4 c hc hm

theorem hallLoop_ok {m : List (List Nat)} {n : Nat} (tab : TableOK m n) (t : Nat) :
    ∀ (cells : List Nat) (s : State) (d : Bool), Inv m n s → (∀ x, x ∈ cells → x ∈ spots) →
    ∃ r, hallLoop t cells s d = .ok r ∧ FlowOK m n t s d cells [] r := by
  intro cells
  induction cells with
  | nil =>
    intro s d inv _
    refine ⟨.go s d, rfl, inv, Reduces.refl s, ?_, le_refl _⟩
    intro hd
    refine ⟨hd, rfl, ?_, ?_⟩ <;> simp
  | cons src rest ih =>
    intro s d inv hcells
    have hsrc := hcells src (List.mem_cons_self _ _)
    have hrest : ∀ x, x ∈ rest → x ∈ spots := fun x hx => hcells x (List.mem_cons_of_mem _ hx)
    unfold hallLoop
    rcases hallStep_spec inv tab t d hsrc with ⟨hno, hstep⟩ | ⟨hcan, hstep⟩
    · rw [hstep]
      simp only
      obtain ⟨r, hr, hok⟩ := ih s d inv hrest
      refine ⟨r, hr, FlowOK.of_step (Reduces.refl s) ?_ (le_refl _) hok⟩
      intro hd
      refine ⟨hd, rfl, ?_, by simp⟩
      intro x hx hnx
      rcases List.mem_cons.mp hx with h | h
      · subst h; exact hno
      · exact absurd h hnx
    · rw [hstep]
      by_cases hcut : (enterState s src).cost ≥ t ∧ t ≠ 0
      · rw [if_pos hcut]
        exact ⟨.ret t, rfl, s, inv, Reduces.refl s,
          Or.inl ⟨rfl, hcut.2, Or.inl ⟨src, hsrc, hcan, hcut.1⟩⟩⟩
      · rw [if_neg hcut]
        by_cases hlast : s.remaining = 1
        · rw [if_pos hlast]
          refine ⟨.ret (enterState s src).cost, rfl, s, inv, Reduces.refl s,
            Or.inr ⟨src, hsrc, hcan, hlast, rfl, ?_⟩⟩
          by_cases ht : t = 0
          · exact Or.inl ht
          · exact Or.inr (by
              have : ¬ (enterState s src).cost ≥ t := fun h => hcut ⟨h, ht⟩
              omega)
        · rw [if_neg hlast]
          simp only
          have inv1 := inv.enter tab hsrc hcan
          obtain ⟨r, hr, hok⟩ := ih (enterState s src) false inv1 hrest
          refine ⟨r, hr, FlowOK.of_step
            (Reduces.enter src hsrc hcan hlast (Reduces.refl _)) ?_ ?_ hok⟩
          · intro hd; cases hd
          · have hpos : 1 ≤ s.remaining := by
              have := occupied_pos hcan.1
              have := inv.rem
              omega
            simp only [enterState, Bool.false_eq_true, if_false]
            split <;> omega

theorem roomLoop_ok {m : List (List Nat)} {n : Nat} (tab : TableOK m n) (t : Nat) :
    ∀ (rooms : List Nat) (s : State) (d : Bool), Inv m n s → (∀ x, x ∈ rooms → x < 4) →
    ∃ r, roomLoop m t rooms s d = .ok r ∧ FlowOK m n t s d [] rooms r := by
  intro rooms
  induction rooms with
  | nil =>
    intro s d inv _
    refine ⟨.go s d, rfl, inv, Reduces.refl s, ?_, le_refl _⟩
    intro hd
    refine ⟨hd, rfl, ?_, ?_⟩ <;> simp
  | cons c rest ih =>
    intro s d inv hrooms
    have hc := hrooms c (List.mem_cons_self _ _)
    have hrest : ∀ x, x ∈ rest → x < 4 := fun x hx => hrooms x (List.mem_cons_of_mem _ hx)
    unfold roomLoop
    rcases roomStep_spec inv tab t d hc with ⟨hno, hstep⟩ | ⟨hcan, hstep⟩
    · rw [hstep]
      simp only
      obtain ⟨r, hr, hok⟩ := ih s d inv hrest
      refine ⟨r, hr, FlowOK.of_step (Reduces.refl s) ?_ (le_refl _) hok⟩
      intro hd
      refine ⟨hd, rfl, by simp, ?_⟩
      intro x hx hnx
      rcases List.mem_cons.mp hx with h | h
      · subst h; exact hno
      · exact absurd h hnx
    · rw [hstep]
      by_cases hcut : (crossState m s c).cost ≥ t ∧ t ≠ 0
      · rw [if_pos hcut]
        exact ⟨.ret t, rfl, s, inv, Reduces.refl s,
          Or.inl ⟨rfl, hcut.2, Or.inr ⟨c, hc, hcan, hcut.1⟩⟩⟩
      · rw [if_neg hcut]
        simp only
        have inv1 := inv.cross tab hc hcan
        obtain ⟨r, hr, hok⟩ := ih (crossState m s c) false inv1 hrest
        refine ⟨r, hr, FlowOK.of_step
          (Reduces.cross c hc hcan (Reduces.refl _)) ?_ ?_ hok⟩
        · intro hd; cases hd
        · have hpos : 1 ≤ s.remaining := by
            have := getD_le_sum4 s.mobile hc
            have := inv.rem
            have := hcan.1
            omega
          simp only [crossState, Bool.false_eq_true, if_false]
          split <;> omega

theorem inplace_ok {m : List (List Nat)} {n : Nat} (tab : TableOK m n) (t : Nat) :
    ∀ (fuel : Nat) (s : State), Inv m n s → s.remaining < fuel →
    ∃ r, inplace m t fuel s = .ok r ∧ InplaceOK m n t s r := by
  intro fuel
  induction fuel with
  | zero => intro s _ h; omega
  | succ fuel ih =>
    intro s inv hfuel
    unfold inplace
    obtain ⟨r1, hr1, ok1⟩ := hallLoop_ok tab t spots s true inv (fun _ h => h)
    rw [hr1]
    cases r1 with
    | ret t' => exact ⟨.ret t', rfl, ok1⟩
    | go s1 d1 =>
      obtain ⟨inv1, red1, hd1, hrem1⟩ := ok1
      obtain ⟨r2, hr2, ok2⟩ := roomLoop_ok tab t [0, 1, 2, 3] s1 d1 inv1
        (fun x hx => by simp at hx; omega)
      simp only
      rw [hr2]
      cases r2 with
      | ret t' =>
        obtain ⟨s2, i2, red2, ok⟩ := ok2
        exact ⟨.ret t', rfl, s2, i2, red1.append red2, ok⟩
      | go s2 d2 =>
        obtain ⟨inv2, red2, hd2, hrem2⟩ := ok2
        simp only
        cases d2 with
        | true =>
          simp only [if_true]
          obtain ⟨e1, e2, _, e4⟩ := hd2 rfl
          obtain ⟨_, f2, f3, _⟩ := hd1 e1
          refine ⟨.go s2 true, rfl, rfl, inv2, red1.append red2, ?_⟩
          rw [e2, f2]
          rw [f2] at e4
          exact ⟨f3, fun c hc => e4 c (by simp; omega)⟩
        | false =>
          simp only [Bool.false_eq_true, if_false]
          simp only [Bool.false_eq_true, if_false, if_true] at hrem1 hrem2
          have hlt : s2.remaining < fuel := by
            cases d1 <;> simp at hrem1 hrem2 <;> omega
          obtain ⟨r, hr, ok⟩ := ih s2 inv2 hlt
          refine ⟨r, hr, ?_⟩
          cases r with
          | ret t' =>
            obtain ⟨s3, i3, red3, ok3⟩ := ok
            exact ⟨s3, i3, (red1.append red2).append red3, ok3⟩
          | go s3 d3 =>
            obtain ⟨hd3, i3, red3, nm⟩ := ok
            exact ⟨hd3, i3, (red1.append red2).append red3, nm⟩

/-! ## The branching phase -/

theorem Grow.refl (s : State) (g : Globals) : Grow s 0 g g := by
  refine ⟨rfl, rfl, rfl, ⟨[], rfl, le_refl _, ?_, ?_⟩, fun _ v h => ⟨v, le_refl _, h⟩⟩
  · intro x hx; cases hx
  · intro K v h; exact Or.inl h

theorem Grow.compose {s : State} {k1 k2 : Nat} {g g1 g2 : Globals} (h1 : Grow s k1 g g1)
    (h2 : Grow s k2 g1 g2) : Grow s (k1 + k2) g g2 := by
  obtain ⟨new1, hs1, hl1, hp1, hv1⟩ := h1.stk
  obtain ⟨new2, hs2, hl2, hp2, hv2⟩ := h2.stk
  refine ⟨h2.exp.trans h1.exp, h2.mm.trans h1.mm, h2.tgt.trans h1.tgt, ?_, ?_⟩
  · refine ⟨new2 ++ new1, by rw [hs2, hs1, List.append_assoc], by simp; omega, ?_, ?_⟩
    · intro x hx
      rcases List.mem_append.mp hx with h | h
      · have := hp2 x h
        rw [h1.mm] at this
        exact this
      · exact hp1 x h
    · intro K v hK
      rcases hv2 K v hK with h | ⟨x, hx, hk⟩
      · rcases hv1 K v h with h' | ⟨x, hx, hk⟩
        · exact Or.inl h'
        · exact Or.inr ⟨x, List.mem_append.mpr (Or.inr hx), hk⟩
      · exact Or.inr ⟨x, List.mem_append.mpr (Or.inl hx), hk⟩
  · intro K v hK
    obtain ⟨v1, hle1, hg1⟩ := h1.mono K v hK
    obtain ⟨v2, hle2, hg2⟩ := h2.mono K v1 hg1
    exact ⟨v2, by omega, hg2⟩

theorem Grow.weaken {s : State} {k k' : Nat} {g g1 : Globals} (h : Grow s k g g1)
    (hk : k ≤ k') : Grow s k' g g1 := by
  obtain ⟨new, hs, hl, hp, hv⟩ := h.stk
  exact ⟨h.exp, h.mm, h.tgt, ⟨new, hs, by omega, hp, hv⟩, h.mono⟩

theorem Covered.later {s : State} {k : Nat} {g1 g2 g0 : Globals} {min c dst : Nat}
    (hc : Covered g0 g1 min s c dst) (h : Grow s k g1 g2) : Covered g0 g2 min s c dst := by
  rcases hc with hp | ⟨v, hle, hv⟩
  · exact Or.inl hp
  · obtain ⟨v', hle', hv'⟩ := h.mono _ v hv
    exact Or.inr ⟨v', by omega, hv'⟩

theorem visitedGet_set_self (vis : List (Key × Nat)) (K : Key) (c : Nat) :
    visitedGet (visitedSet vis K c) K = some c := by
  simp [visitedSet, visitedGet]

theorem visitedGet_set (vis : List (Key × Nat)) (K K' : Key) (c : Nat) :
    visitedGet (visitedSet vis K c) K' = if K = K' then some c else visitedGet vis K' := by
  simp [visitedSet, visitedGet]

theorem Grow.push {s : State} {g : Globals} {c dst : Nat} (hc : c < 4)
    (hmob : s.mobile.getD c 0 ≠ 0) (hdst : dst ∈ spots) (hp : CanPark s c dst)
    (hvis : ∀ v, visitedGet g.visited (keyOf (parkState g.m s c dst)) = some v →
      (parkState g.m s c dst).cost < v) :
    Grow s 1 g { g with stack := parkState g.m s c dst :: g.stack,
                        visited := visitedSet g.visited (keyOf (parkState g.m s c dst))
                          (parkState g.m s c dst).cost } := by
  refine ⟨rfl, rfl, rfl, ⟨[parkState g.m s c dst], rfl, le_refl _, ?_, ?_⟩, ?_⟩
  · intro x hx
    simp only [List.mem_singleton] at hx
    exact ⟨c, dst, hc, hmob, hdst, hp, hx⟩
  · intro K v hK
    simp only [visitedGet_set] at hK
    split at hK
    · rename_i hkk
      cases hK
      exact Or.inr ⟨_, List.mem_singleton.mpr rfl, hkk, rfl⟩
    · exact Or.inl hK
  · intro K v hK
    simp only [visitedGet_set]
    split
    · rename_i hkk
      subst hkk
      exact ⟨_, Nat.le_of_lt (hvis v hK), rfl⟩
    · exact ⟨v, le_refl _, hK⟩

theorem branchStep_spec {n : Nat} {s : State} (g : Globals) (inv : Inv g.m n s)
    (tab : TableOK g.m n) (min : Nat) {c dst : Nat} (hc : c < 4)
    (hmob : s.mobile.getD c 0 ≠ 0) (hdst : dst ∈ spots) :
    ∃ g1, branchStep g s min c (s.empty.getD c 0) dst = .ok g1 ∧ Grow s 1 g g1 ∧
      (CanPark s c dst → Covered g g1 min s c dst) := by
  have hdst10 := mem_spots_le hdst
  unfold branchStep
  rw [idx_of_lt (show dst < s.h.length by rw [inv.hlen]; omega) free]
  simp only
  by_cases hfree : s.h.getD dst free = free
  · rw [if_neg (by simpa using hfree)]
    rw [u8_col hc]
    rcases pathClear_of_inv s (col c) dst inv.hlen (Nat.le_trans (col_le hc) (by omega)) hdst10
      with ⟨hp, hclear⟩ | ⟨hp, hclear⟩
    · rw [hp]
      simp only
      have hcell := tab.cell_ok (inv.top_row_lt hc hmob) hc
      have hv : topOf g.m s c < 4 := hcell.2
      rw [show cell g.m (s.empty.getD c 0) c = .ok (topOf g.m s c) from hcell.1]
      simp only
      rw [idx_weights hv]
      simp only
      have hcan : CanPark s c dst := ⟨hfree, hclear⟩
      have hcolc := col_le hc
      have hd := dist_le hdst10 (Nat.le_trans (col_le hc) (by omega))
      have hec := inv.empty_le tab hc
      have hrow := inv.top_row_lt hc hmob
      have hpc := parkCost_le inv tab hc hmob hdst
      have hcost := inv.cost_le
      have hcap := inv.cap c hc
      have hn4 := tab.2.1
      have e1 : absDiff dst (col c) = dist dst (col c) := absDiff_eq_dist (by omega) (by omega)
      have e2 : u8 (dist dst (col c) + s.empty.getD c 0 + 1) =
          dist dst (col c) + s.empty.getD c 0 + 1 := u8_of_lt (by omega)
      have e3 : u32 (s.cost + u32 ((dist dst (col c) + s.empty.getD c 0 + 1) *
          weights.getD (topOf g.m s c) 0)) = s.cost + parkCost g.m s c dst := by
        have : (dist dst (col c) + s.empty.getD c 0 + 1) * weights.getD (topOf g.m s c) 0 =
            parkCost g.m s c dst := rfl
        rw [this, u32_of_lt (show parkCost g.m s c dst < 4294967296 by omega),
          u32_of_lt (show s.cost + parkCost g.m s c dst < 4294967296 by omega)]
      have e4 : u8 (s.empty.getD c 0 + 1) = s.empty.getD c 0 + 1 := u8_of_lt (by omega)
      have e5 : sub8 (s.mobile.getD c 0) 1 = s.mobile.getD c 0 - 1 :=
        sub8_of_le (by omega) (by omega)
      rw [e1, e2, e3, e4, e5]
      have hnext : State.mk (s.h.set dst (topOf g.m s c))
          (s.mobile.set c (s.mobile.getD c 0 - 1)) (s.empty.set c (s.empty.getD c 0 + 1))
          (s.cost + parkCost g.m s c dst) s.remaining = parkState g.m s c dst := rfl
      simp only [hnext]
      by_cases hpass : u32 (u32 (s.cost + parkCost g.m s c dst + min) +
          forecastOf g.experimental dst (topOf g.m s c) (weights.getD (topOf g.m s c) 0))
          < g.target ∨ g.target = 0
      · rw [if_pos hpass]
        cases hget : visitedGet g.visited (keyOf (parkState g.m s c dst)) with
        | none =>
          simp only
          refine ⟨_, rfl, Grow.push hc hmob hdst hcan (by rw [hget]; intro v h; cases h), ?_⟩
          intro _
          exact Or.inr ⟨_, le_refl _, visitedGet_set_self _ _ _⟩
        | some value =>
          simp only
          by_cases hlt : s.cost + parkCost g.m s c dst < value
          · rw [if_pos hlt]
            refine ⟨_, rfl, Grow.push hc hmob hdst hcan
              (by rw [hget]; intro v h; cases h; exact hlt), ?_⟩
            intro _
            exact Or.inr ⟨_, le_refl _, visitedGet_set_self _ _ _⟩
          · rw [if_neg hlt]
            refine ⟨g, rfl, (Grow.refl s g).weaken (by omega), ?_⟩
            intro _
            exact Or.inr ⟨value, by simp only [parkState]; omega, hget⟩
      · rw [if_neg hpass]
        exact ⟨g, rfl, (Grow.refl s g).weaken (by omega), fun _ => Or.inl hpass⟩
    · rw [hp]
      exact ⟨g, rfl, (Grow.refl s g).weaken (by omega), fun h => absurd h.2 hclear⟩
  · rw [if_pos (by simpa using hfree)]
    exact ⟨g, rfl, (Grow.refl s g).weaken (by omega), fun h => absurd h.1 hfree⟩

theorem Covered.rebase {s : State} {k : Nat} {g g1 g2 : Globals} {min c dst : Nat}
    (h : Grow s k g g1) (hc : Covered g1 g2 min s c dst) : Covered g g2 min s c dst := by
  unfold Covered Pruned at hc ⊢
  rw [h.mm, h.exp, h.tgt] at hc
  exact hc

theorem branchSpots_ok {n : Nat} {s : State} (min : Nat) {c : Nat} (hc : c < 4)
    (hmob : s.mobile.getD c 0 ≠ 0) :
    ∀ (cells : List Nat) (g : Globals), Inv g.m n s → TableOK g.m n →
    (∀ x, x ∈ cells → x ∈ spots) →
    ∃ g1, branchSpots s min c (s.empty.getD c 0) cells g = .ok g1 ∧
      Grow s cells.length g g1 ∧
      ∀ dst, dst ∈ cells → CanPark s c dst → Covered g g1 min s c dst := by
  intro cells
  induction cells with
  | nil =>
    intro g _ _ _
    exact ⟨g, rfl, Grow.refl s g, fun _ h => by cases h⟩
  | cons dst rest ih =>
    intro g inv tab hcells
    obtain ⟨g1, h1, gr1, cov1⟩ := branchStep_spec g inv tab min hc hmob
      (hcells dst (List.mem_cons_self _ _))
    obtain ⟨g2, h2, gr2, cov2⟩ := ih g1 (by rw [gr1.mm]; exact inv) (by rw [gr1.mm]; exact tab)
      (fun x hx => hcells x (List.mem_cons_of_mem _ hx))
    unfold branchSpots
    rw [h1]
    simp only
    refine ⟨g2, h2, ?_, ?_⟩
    · have := gr1.compose gr2
      rw [List.length_cons, Nat.add_comm]
      exact this
    · intro d hd hp
      rcases List.mem_cons.mp hd with h | h
      · subst h
        exact (cov1 hp).later gr2
      · exact Covered.rebase gr1 (cov2 d h hp)

theorem branchRooms_ok {n : Nat} {s : State} (min : Nat) :
    ∀ (rooms : List Nat) (g : Globals), Inv g.m n s → TableOK g.m n →
    (∀ x, x ∈ rooms → x < 4) →
    ∃ g1, branchRooms s min rooms g = .ok g1 ∧ Grow s (7 * rooms.length) g g1 ∧
      ∀ c dst, c ∈ rooms → s.mobile.getD c 0 ≠ 0 → dst ∈ spots → CanPark s c dst →
        Covered g g1 min s c dst := by
  intro rooms
  induction rooms with
  | nil =>
    intro g _ _ _
    refine ⟨g, rfl, Grow.refl s g, ?_⟩
    intro c dst h
    cases h
  | cons c rest ih =>
    intro g inv tab hrooms
    have hc := hrooms c (List.mem_cons_self _ _)
    have hrest : ∀ x, x ∈ rest → x < 4 := fun x hx => hrooms x (List.mem_cons_of_mem _ hx)
    unfold branchRooms
    rw [idx_of_lt (show c < s.mobile.length by rw [inv.mlen]; exact hc) 0]
    simp only
    by_cases hmob : s.mobile.getD c 0 = 0
    · rw [if_pos hmob]
      obtain ⟨g2, h2, gr2, cov2⟩ := ih g inv tab hrest
      refine ⟨g2, h2, gr2.weaken (by rw [List.length_cons]; omega), ?_⟩
      intro c' dst hc' hm' hdst hp
      rcases List.mem_cons.mp hc' with h | h
      · subst h; exact absurd hmob hm'
      · exact cov2 c' dst h hm' hdst hp
    · rw [if_neg hmob]
      rw [idx_of_lt (show c < s.empty.length by rw [inv.elen]; exact hc) 0]
      simp only
      obtain ⟨g1, h1, gr1, cov1⟩ := branchSpots_ok min hc hmob spots g inv tab (fun _ h => h)
      rw [h1]
      simp only
      obtain ⟨g2, h2, gr2, cov2⟩ := ih g1 (by rw [gr1.mm]; exact inv)
        (by rw [gr1.mm]; exact tab) hrest
      refine ⟨g2, h2, ?_, ?_⟩
      · have := gr1.compose gr2
        refine this.weaken ?_
        rw [List.length_cons]
        simp only [spots, List.length_cons, List.length_nil]
        omega
      · intro c' dst hc' hm' hdst hp
        rcases List.mem_cons.mp hc' with h | h
        · subst h
          exact (cov1 dst hdst hp).later gr2
        · exact Covered.rebase gr1 (cov2 c' dst h hm' hdst hp)

theorem roomBound_ok {m : List (List Nat)} {n : Nat} {s : State} (inv : Inv m n s)
    (tab : TableOK m n) {c : Nat} (hc : c < 4) : ∃ b, roomBound s c = .ok b := by
  unfold roomBound
  rw [idx_of_lt (show c < s.mobile.length by rw [inv.mlen]; exact hc) 0,
    idx_of_lt (show c < s.empty.length by rw [inv.elen]; exact hc) 0]
  simp only
  have hcap := inv.cap c hc
  have hn4 := tab.2.1
  have hu : u8 (s.mobile.getD c 0 + s.empty.getD c 0) = s.mobile.getD c 0 + s.empty.getD c 0 :=
    u8_of_lt (by omega)
  rw [hu]
  have hlt : s.mobile.getD c 0 + s.empty.getD c 0 < 5 := by omega
  match c, hc with
  | 0, _ => exact ⟨_, idx_of_lt (by simpa [minCosts] using hlt) 0⟩
  | 1, _ => exact ⟨_, idx_of_lt (by simpa [minCosts] using hlt) 0⟩
  | 2, _ => exact ⟨_, idx_of_lt (by simpa [minCosts] using hlt) 0⟩
  | 3, _ => exact ⟨_, idx_of_lt (by simpa [minCosts] using hlt) 0⟩

theorem minBound_ok {m : List (List Nat)} {n : Nat} {s : State} (inv : Inv m n s)
    (tab : TableOK m n) (e : Bool) (t : Nat) : ∃ b, minBound e t s = .ok b := by
  unfold minBound
  split
  · obtain ⟨b0, h0⟩ := roomBound_ok inv tab (show 0 < 4 by omega)
    obtain ⟨b1, h1⟩ := roomBound_ok inv tab (show 1 < 4 by omega)
    obtain ⟨b2, h2⟩ := roomBound_ok inv tab (show 2 < 4 by omega)
    obtain ⟨b3, h3⟩ := roomBound_ok inv tab (show 3 < 4 by omega)
    rw [h0, h1, h2, h3]
    exact ⟨_, rfl⟩
  · exact ⟨0, rfl⟩

theorem run_ok {n : Nat} (g : Globals) (tab : TableOK g.m n) {s : State} (inv : Inv g.m n s)
    {fuel : Nat} (hfuel : s.remaining < fuel) :
    ∃ g1, run fuel g s = .ok g1 ∧ RunOK n g s g1 := by
  obtain ⟨r, hr, ok⟩ := inplace_ok tab g.target fuel s inv hfuel
  unfold run
  rw [hr]
  cases r with
  | ret t' =>
    obtain ⟨s1, i1, red, rok⟩ := ok
    exact ⟨_, rfl, Or.inl ⟨t', s1, rfl, i1, red, rok⟩⟩
  | go s1 d1 =>
    obtain ⟨_, i1, red, nm⟩ := ok
    obtain ⟨b, hb⟩ := minBound_ok i1 tab g.experimental g.target
    simp only
    rw [hb]
    simp only
    obtain ⟨g1, h1, gr, cov⟩ := branchRooms_ok b [0, 1, 2, 3] g i1 tab
      (fun x hx => by simp at hx; omega)
    refine ⟨g1, h1, Or.inr ⟨s1, b, i1, red, nm, hb, gr, ?_⟩⟩
    intro c dst hc hm hdst hp
    exact cov c dst (by simp; omega) hm hdst hp

/-! ## The initial state satisfies the invariant -/

theorem unsettled_le (c : Nat) (col : List Nat) : unsettled c col ≤ col.length := by
  unfold unsettled
  have := List.countP_le_length (fun r => !decide (settledFrom c col r)) (l := List.range col.length)
  rw [List.length_range] at this
  exact this

theorem settled_above (c : Nat) : ∀ (col : List Nat) (r : Nat),
    unsettled c col ≤ r → r < col.length → col.getD r 0 = c := by
  intro col
  induction col with
  | nil => intro r _ h; simp at h
  | cons x rest ih =>
    intro r hr hlen
    rw [unsettled_cons] at hr
    by_cases hs : x = c ∧ settledFrom c rest 0
    · have := (settledFrom_cons_zero c x rest).mpr hs
      exact this r (Nat.zero_le _) hlen
    · rw [if_neg hs] at hr
      cases r with
      | zero => omega
      | succ k =>
        have := ih k (by omega) (by simp at hlen; omega)
        simpa using this

theorem last_unsettled (c : Nat) : ∀ (col : List Nat), unsettled c col ≠ 0 →
    col.getD (unsettled c col - 1) 0 ≠ c := by
  intro col
  induction col with
  | nil => intro h; exact absurd rfl h
  | cons x rest ih =>
    intro hne
    rw [unsettled_cons] at hne ⊢
    by_cases hs : x = c ∧ settledFrom c rest 0
    · rw [if_pos hs] at hne
      exact absurd ((unsettled_eq_zero c rest).mpr hs.2) (by omega)
    · rw [if_neg hs]
      by_cases hu : unsettled c rest = 0
      · rw [hu]
        have hsr := (unsettled_eq_zero c rest).mp hu
        intro hx
        exact hs ⟨by simpa using hx, hsr⟩
      · have := ih hu
        rw [show unsettled c rest + 1 - 1 = (unsettled c rest - 1) + 1 by omega]
        simpa using this

theorem table_getD {chars : List Nat} {n : Nat} (hlen : chars.length = 4 * n)
    (hlab : ∀ x, x ∈ chars → 65 ≤ x ∧ x ≤ 68) {r c : Nat} (hr : r < n) (hc : c < 4) :
    ((rowsOf chars).getD r []).getD c 0 = labelAt chars r c := by
  have hcol := rowsOf_column c hc n chars hlen hlab
  have hrl := (rowsOf_length n chars hlen).1
  have h1 := congrArg (fun l => l.getD r 0) hcol
  simp only at h1
  rw [List.getD_eq_getElem?_getD, List.getD_eq_getElem?_getD, List.getElem?_map,
    List.getElem?_map, List.getElem?_range hr,
    List.getElem?_eq_getElem (show r < (rowsOf chars).length by omega)] at h1
  simp only [Option.map_some', Option.getD_some] at h1
  rw [← h1]
  simp [List.getElem?_eq_getElem (show r < (rowsOf chars).length by omega)]

theorem roomOf_init {chars : List Nat} {n : Nat} (hn : 1 ≤ n) (hn4 : n ≤ 4)
    (hlen : chars.length = 4 * n) (hlab : ∀ x, x ∈ chars → 65 ≤ x ∧ x ≤ 68) {c : Nat}
    (hc : c < 4) :
    roomOf (rowsOf chars) n (initState chars (rowsOf chars)) c =
      (List.range n).map (fun r => labelAt chars r c) := by
  have hm : buildRows [] 0 chars = rowsOf chars := by
    rw [buildRows_eq n chars [] 0 hlen (by decide)]; simp
  obtain ⟨_, he, _, _, hmob, _⟩ := initState_fields chars n hn hn4 hlen hlab
  rw [hm] at he hmob
  have hmc := hmob c hc
  have hec : (initState chars (rowsOf chars)).empty.getD c 0 = 0 := by
    rw [he]
    match c, hc with
    | 0, _ => rfl
    | 1, _ => rfl
    | 2, _ => rfl
    | 3, _ => rfl
  have hu := unsettled_column chars n c
  have hule := unsettled_le c ((List.range n).map (fun r => labelAt chars r c))
  rw [List.length_map, List.length_range, hu] at hule
  unfold roomOf
  rw [hmc, hec]
  obtain ⟨k, hk⟩ : ∃ k, n = notPlacedCount chars n c + k := ⟨n - notPlacedCount chars n c, by omega⟩
  have hsplit : List.range n = List.range (notPlacedCount chars n c) ++
      (List.range k).map (notPlacedCount chars n c + ·) := by
    conv_lhs => rw [hk]
    exact List.range_add _ _
  rw [hsplit, List.map_append]
  congr 1
  · apply List.map_congr_left
    intro j hj
    have hj' : j < notPlacedCount chars n c := List.mem_range.mp hj
    rw [Nat.zero_add]
    exact table_getD hlen hlab (by omega) hc
  · rw [show n - 0 - notPlacedCount chars n c = k by omega, List.map_map]
    symm
    rw [List.eq_replicate_iff]
    refine ⟨by simp, ?_⟩
    intro b hb
    obtain ⟨j, hj, rfl⟩ := List.mem_map.mp hb
    have hj' : j < k := List.mem_range.mp hj
    have := settled_above c ((List.range n).map (fun r => labelAt chars r c))
      (notPlacedCount chars n c + j) (by rw [hu]; omega)
      (by rw [List.length_map, List.length_range]; omega)
    rw [List.getD_eq_getElem?_getD, List.getElem?_map,
      List.getElem?_range (show notPlacedCount chars n c + j < n by omega)] at this
    simpa using this

theorem cfgOf_init {chars : List Nat} {n : Nat} (hn : 1 ≤ n) (hn4 : n ≤ 4)
    (hlen : chars.length = 4 * n) (hlab : ∀ x, x ∈ chars → 65 ≤ x ∧ x ≤ 68) :
    cfgOf (rowsOf chars) n (initState chars (rowsOf chars)) = startConfig chars n := by
  have hm : buildRows [] 0 chars = rowsOf chars := by
    rw [buildRows_eq n chars [] 0 hlen (by decide)]; simp
  obtain ⟨hh, _⟩ := initState_fields chars n hn hn4 hlen hlab
  rw [hm] at hh
  unfold cfgOf startConfig
  rw [hh]
  congr 1
  apply List.map_congr_left
  intro c hc
  exact roomOf_init hn hn4 hlen hlab (List.mem_range.mp hc)

theorem column_cons (x0 x1 x2 x3 : Nat) (rest : List Nat) (n c : Nat) :
    (List.range (n + 1)).map (fun r => labelAt (x0 :: x1 :: x2 :: x3 :: rest) r c) =
      labelAt (x0 :: x1 :: x2 :: x3 :: rest) 0 c ::
        (List.range n).map (fun r => labelAt rest r c) := by
  rw [List.range_succ_eq_map, List.map_cons, List.map_map]
  congr 1
  apply List.map_congr_left
  intro r _
  simp only [Function.comp, labelAt]
  have : 4 * Nat.succ r + c = (4 * r + c) + 4 := by omega
  rw [this]
  simp

theorem count_columns (v : Nat) : ∀ (n : Nat) (chars : List Nat),
    chars.length = 4 * n → (∀ x, x ∈ chars → 65 ≤ x ∧ x ≤ 68) →
    ((List.range n).map (fun r => labelAt chars r 0)).count v +
      ((List.range n).map (fun r => labelAt chars r 1)).count v +
      ((List.range n).map (fun r => labelAt chars r 2)).count v +
      ((List.range n).map (fun r => labelAt chars r 3)).count v = chars.count (65 + v) := by
  intro n
  induction n with
  | zero =>
    intro chars hlen _
    have : chars = [] := List.length_eq_zero.mp (by omega)
    subst this
    simp
  | succ n ih =>
    intro chars hlen hlab
    match chars, hlen, hlab with
    | x0 :: x1 :: x2 :: x3 :: rest, hlen, hlab =>
      have hrest := ih rest (by simp at hlen; omega) (fun x hx => hlab x (by simp [hx]))
      have h0 := hlab x0 (by simp)
      have h1 := hlab x1 (by simp)
      have h2 := hlab x2 (by simp)
      have h3 := hlab x3 (by simp)
      simp only [column_cons, List.count_cons]
      have e0 : labelAt (x0 :: x1 :: x2 :: x3 :: rest) 0 0 = x0 - 65 := by simp [labelAt]
      have e1 : labelAt (x0 :: x1 :: x2 :: x3 :: rest) 0 1 = x1 - 65 := by simp [labelAt]
      have e2 : labelAt (x0 :: x1 :: x2 :: x3 :: rest) 0 2 = x2 - 65 := by simp [labelAt]
      have e3 : labelAt (x0 :: x1 :: x2 :: x3 :: rest) 0 3 = x3 - 65 := by simp [labelAt]
      rw [e0, e1, e2, e3]
      have f : ∀ x, 65 ≤ x → ((x - 65 == v) = (x == 65 + v)) := by
        intro x hx
        by_cases h : x = 65 + v
        · subst h; simp
        · have h' : x - 65 ≠ v := by omega
          simp [h, h']
      rw [f x0 h0.1, f x1 h1.1, f x2 h2.1, f x3 h3.1]
      omega

theorem countLabel_start {chars : List Nat} {n : Nat} (hlen : chars.length = 4 * n)
    (hlab : ∀ x, x ∈ chars → 65 ≤ x ∧ x ≤ 68) {v : Nat} (hv : v < 4) :
    countLabel v (startConfig chars n) = chars.count (65 + v) := by
  have h := count_columns v n chars hlen hlab
  have hh : (List.replicate 11 free).count v = 0 := by
    rw [List.count_replicate]
    have : (free == v) = false := by
      have : free ≠ v := by unfold free; omega
      simpa using this
    rw [this]; rfl
  unfold countLabel startConfig
  simp only [hh, List.range_succ, List.range_zero, List.nil_append, List.cons_append,
    List.map_cons, List.map_nil, List.getD_cons_zero, List.getD_cons_succ]
  simp only [List.range_zero, List.nil_append] at h
  omega

theorem tableOK_rows : ∀ (n : Nat) (chars : List Nat), chars.length = 4 * n →
    (∀ x, x ∈ chars → 65 ≤ x ∧ x ≤ 68) →
    ∀ row, row ∈ rowsOf chars → row.length = 4 ∧ ∀ x, x ∈ row → x < 4 := by
  intro n
  induction n with
  | zero =>
    intro chars hlen _
    have : chars = [] := List.length_eq_zero.mp (by omega)
    subst this
    simp [rowsOf]
  | succ n ih =>
    intro chars hlen hlab
    match chars, hlen, hlab with
    | x0 :: x1 :: x2 :: x3 :: rest, hlen, hlab =>
      have hrest := ih rest (by simp at hlen; omega) (fun x hx => hlab x (by simp [hx]))
      have h0 := hlab x0 (by simp)
      have h1 := hlab x1 (by simp)
      have h2 := hlab x2 (by simp)
      have h3 := hlab x3 (by simp)
      intro row hrow
      simp only [rowsOf, List.mem_cons] at hrow
      rcases hrow with h | h
      · subst h
        refine ⟨rfl, ?_⟩
        intro x hx
        simp only [List.mem_cons, List.mem_singleton, List.not_mem_nil, or_false] at hx
        rcases hx with h | h | h | h <;> subst h <;> simp [sub8] <;> omega
      · exact hrest row h

theorem tableOK_of_wf {chars : List Nat} {n : Nat} (hn : 1 ≤ n) (hn4 : n ≤ 4)
    (hlen : chars.length = 4 * n) (hlab : ∀ x, x ∈ chars → 65 ≤ x ∧ x ≤ 68) :
    TableOK (rowsOf chars) n :=
  ⟨hn, hn4, (rowsOf_length n chars hlen).1, tableOK_rows n chars hlen hlab⟩

theorem notPlacedCount_le (chars : List Nat) (n c : Nat) : notPlacedCount chars n c ≤ n := by
  unfold notPlacedCount
  have := List.countP_le_length (fun r => !alreadyPlaced chars n r c) (l := List.range n)
  rw [List.length_range] at this
  exact this

theorem inv_init {chars : List Nat} {n : Nat} (hn : 1 ≤ n) (hn4 : n ≤ 4)
    (hlen : chars.length = 4 * n) (hlab : ∀ x, x ∈ chars → 65 ≤ x ∧ x ≤ 68)
    (hcount : ∀ v, v < 4 → chars.count (65 + v) = n) :
    Inv (rowsOf chars) n (initState chars (rowsOf chars)) := by
  have hm : buildRows [] 0 chars = rowsOf chars := by
    rw [buildRows_eq n chars [] 0 hlen (by decide)]; simp
  obtain ⟨hh, he, hcost, hml, hmob, hrem⟩ := initState_fields chars n hn hn4 hlen hlab
  rw [hm] at hh he hcost hml hmob hrem
  have hocc : occupied (initState chars (rowsOf chars)).h = 0 := by
    rw [hh]; rfl
  have hsum : sum4 (initState chars (rowsOf chars)).mobile =
      notPlacedCount chars n 0 + notPlacedCount chars n 1 + notPlacedCount chars n 2 +
      notPlacedCount chars n 3 := by
    unfold sum4
    rw [hmob 0 (by omega), hmob 1 (by omega), hmob 2 (by omega), hmob 3 (by omega)]
  have hadd := placedCount_add chars n
  have l0 := notPlacedCount_le chars n 0
  have l1 := notPlacedCount_le chars n 1
  have l2 := notPlacedCount_le chars n 2
  have l3 := notPlacedCount_le chars n 3
  have hfree : ∀ i, (initState chars (rowsOf chars)).h.getD i free = free := by
    intro i
    rw [hh, List.getD_eq_getElem?_getD]
    by_cases hi : i < 11
    · rw [List.getElem?_eq_getElem (by simpa using hi)]
      simp only [List.getElem_replicate, Option.getD_some]
    · rw [List.getElem?_eq_none (by simpa using hi)]; rfl
  refine ⟨by rw [hh]; rfl, hml, by rw [he]; rfl, ?_, ?_, ?_, ?_, ?_, ?_, ?_, ?_⟩
  · intro i; rw [hfree i]; unfold free; omega
  · intro i hi; exact absurd (hfree i) hi
  · intro c hc
    rw [hmob c hc, he]
    have := notPlacedCount_le chars n c
    match c, hc with
    | 0, _ => simpa using this
    | 1, _ => simpa using this
    | 2, _ => simpa using this
    | 3, _ => simpa using this
  · intro v hv
    rw [cfgOf_init hn hn4 hlen hlab, countLabel_start hlen hlab hv]
    exact hcount v hv
  · rw [hrem, hocc, hsum]; omega
  · rw [hcost, hocc, hsum]; omega
  · intro c hc hm
    have hec : (initState chars (rowsOf chars)).empty.getD c 0 = 0 := by
      rw [he]
      match c, hc with
      | 0, _ => rfl
      | 1, _ => rfl
      | 2, _ => rfl
      | 3, _ => rfl
    rw [hmob c hc] at hm ⊢
    rw [hec, Nat.zero_add]
    have hu := unsettled_column chars n c
    have hlast := last_unsettled c ((List.range n).map (fun r => labelAt chars r c))
      (by rw [hu]; exact hm)
    rw [hu] at hlast
    have hlt : notPlacedCount chars n c - 1 < n := by
      have := notPlacedCount_le chars n c
      omega
    rw [table_getD hlen hlab hlt hc]
    rw [List.getD_eq_getElem?_getD, List.getElem?_map, List.getElem?_range hlt] at hlast
    simpa using hlast
  · rw [hocc, he]; rfl

/-! ## The work-list loop -/

theorem wt_mono : ∀ {a b : Nat}, a ≤ b → wt a ≤ wt b := by
  intro a b h
  induction b with
  | zero =>
    have : a = 0 := by omega
    subst this; exact le_refl _
  | succ k ih =>
    by_cases hk : a ≤ k
    · have := ih hk
      simp only [wt]
      omega
    · have : a = k + 1 := by omega
      subst this; exact le_refl _

theorem wt_pos (k : Nat) : 1 ≤ wt k := by
  cases k <;> simp [wt]

theorem Reduces.keeps_inv {m : List (List Nat)} {n : Nat} (tab : TableOK m n) {s s1 : State}
    (h : Reduces m s s1) (inv : Inv m n s) : Inv m n s1 := by
  induction h with
  | refl => exact inv
  | enter src hs hc _ _ ih => exact ih (inv.enter tab hs hc)
  | cross c hc hx _ ih => exact ih (inv.cross tab hc hx)

theorem Reduces.sum4_le {m : List (List Nat)} {n : Nat} (tab : TableOK m n) {s s1 : State}
    (h : Reduces m s s1) (inv : Inv m n s) : sum4 s1.mobile ≤ sum4 s.mobile := by
  induction h with
  | refl => exact le_refl _
  | enter src hs hc _ _ ih => exact ih (inv.enter tab hs hc)
  | @cross sa sb c hc hx _ ih =>
    have h1 := ih (inv.cross tab hc hx)
    have h2 := sum4_set sa.mobile inv.mlen hc (sa.mobile.getD c 0 - 1)
    have h3 := getD_le_sum4 sa.mobile hc
    simp only [crossState] at h1
    omega

theorem Reduces.cost_mono {m : List (List Nat)} {s s1 : State} (h : Reduces m s s1) :
    s.cost ≤ s1.cost := by
  induction h with
  | refl => exact le_refl _
  | enter src _ _ _ _ ih => simp only [enterState] at ih; omega
  | cross c _ _ _ ih => simp only [crossState] at ih; omega

theorem work_new_le {m : List (List Nat)} {n : Nat} {s1 : State} (inv : Inv m n s1) (k : Nat)
    (hk : sum4 s1.mobile ≤ k) :
    ∀ new : List State,
    (∀ x, x ∈ new → ∃ c dst, c < 4 ∧ s1.mobile.getD c 0 ≠ 0 ∧ dst ∈ spots ∧ CanPark s1 c dst ∧
      x = parkState m s1 c dst) →
    work new + new.length * 1 ≤ new.length * wt k ∧ (new ≠ [] → 1 ≤ k) ∧
    work new ≤ new.length * wt (k - 1) := by
  intro new
  induction new with
  | nil => intro _; simp [work]
  | cons x rest ih =>
    intro hall
    obtain ⟨c, dst, hc, hmob, _, _, hx⟩ := hall x (List.mem_cons_self _ _)
    obtain ⟨h1, _, h3⟩ := ih (fun y hy => hall y (List.mem_cons_of_mem _ hy))
    have hs := sum4_set _ inv.mlen hc (s1.mobile.getD c 0 - 1)
    have hg := getD_le_sum4 s1.mobile hc
    have hxm : sum4 x.mobile + 1 = sum4 s1.mobile := by
      rw [hx]; simp only [parkState]; omega
    have hw1 : wt (sum4 x.mobile) ≤ wt (k - 1) := wt_mono (by omega)
    have hw2 : wt (k - 1) + 1 ≤ wt k := by
      obtain ⟨j, hj⟩ : ∃ j, k = j + 1 := ⟨k - 1, by omega⟩
      rw [hj]; simp only [wt, Nat.add_sub_cancel]; have := wt_pos j; omega
    have hwork : work (x :: rest) = wt (sum4 x.mobile) + work rest := by
      simp [work]
    rw [hwork, List.length_cons, Nat.add_mul, Nat.add_mul, Nat.add_mul]
    refine ⟨by omega, fun _ => by omega, by omega⟩

theorem RunOK.stack_effect {n : Nat} {g g1 : Globals} {s : State} (tab : TableOK g.m n)
    (inv : Inv g.m n s) (h : RunOK n g s g1) :
    g1.m = g.m ∧ g1.experimental = g.experimental ∧
    ∃ new, g1.stack = new ++ g.stack ∧ (∀ x, x ∈ new → Inv g.m n x) ∧
      work new + 1 ≤ wt (sum4 s.mobile) := by
  rcases h with ⟨t', s1, hg, _, _, _⟩ | ⟨s1, min, i1, red, _, _, gr, _⟩
  · subst hg
    refine ⟨rfl, rfl, [], rfl, ?_, ?_⟩
    · intro x hx; cases hx
    · simpa [work] using wt_pos (sum4 s.mobile)
  · obtain ⟨new, hs, hl, hp, _⟩ := gr.stk
    refine ⟨gr.mm, gr.exp, new, hs, ?_, ?_⟩
    · intro x hx
      obtain ⟨c, dst, hc, hmob, hdst, hcan, hxe⟩ := hp x hx
      rw [hxe]
      exact i1.park tab hc hmob hdst hcan
    · have hsum := red.sum4_le tab inv
      obtain ⟨_, h2, h3⟩ := work_new_le i1 (sum4 s.mobile) hsum new hp
      by_cases hnew : new = []
      · subst hnew; simpa [work] using wt_pos (sum4 s.mobile)
      · have hk := h2 hnew
        obtain ⟨j, hj⟩ : ∃ j, sum4 s.mobile = j + 1 := ⟨sum4 s.mobile - 1, by omega⟩
        rw [hj] at h3 ⊢
        simp only [wt, Nat.add_sub_cancel] at h3 ⊢
        have : new.length * wt j ≤ 28 * wt j := Nat.mul_le_mul_right _ hl
        omega

theorem drain_induct {n : Nat} (P : Globals → Prop)
    (hstep : ∀ (g : Globals) (s : State) (rest : List State) (g1 : Globals), P g →
      TableOK g.m n → g.stack = s :: rest → (∀ x, x ∈ g.stack → Inv g.m n x) →
      RunOK n { g with stack := rest } s g1 → P g1) :
    ∀ (fuel : Nat) (g : Globals), TableOK g.m n → (∀ x, x ∈ g.stack → Inv g.m n x) → P g →
    work g.stack + 28 ≤ fuel →
    ∃ g1, drain fuel g = .ok g1 ∧ P g1 ∧ g1.stack = [] ∧ g1.m = g.m ∧
      g1.experimental = g.experimental := by
  intro fuel
  induction fuel with
  | zero => intro g _ _ _ h; omega
  | succ fuel ih =>
    intro g tab hinv hP hfuel
    unfold drain
    cases hs : g.stack with
    | nil => exact ⟨g, rfl, hP, hs, rfl, rfl⟩
    | cons s rest =>
      simp only
      have invs : Inv g.m n s := hinv s (by rw [hs]; exact List.mem_cons_self _ _)
      have hrem := invs.remaining_lt tab
      obtain ⟨g1, hrun, ok⟩ := run_ok { g with stack := rest } tab invs
        (show s.remaining < fuel + 1 by omega)
      rw [hrun]
      simp only
      obtain ⟨hm1, he1, new, hst, hnew, hw⟩ :=
        RunOK.stack_effect (g := { g with stack := rest }) tab invs ok
      simp only at hm1 he1 hst hnew
      have hP1 := hstep g s rest g1 hP tab hs hinv ok
      have hinv1 : ∀ x, x ∈ g1.stack → Inv g1.m n x := by
        intro x hx
        rw [hm1]
        rw [hst] at hx
        rcases List.mem_append.mp hx with h | h
        · exact hnew x h
        · exact hinv x (by rw [hs]; exact List.mem_cons_of_mem _ h)
      have hwork : work g1.stack + 28 ≤ fuel := by
        rw [hst]
        rw [hs] at hfuel
        simp only [work, List.map_append, List.sum_append, List.map_cons, List.sum_cons]
          at hfuel hw ⊢
        omega
      obtain ⟨g2, hd, hP2, hst2, hm2, he2⟩ := ih g1 (by rw [hm1]; exact tab) hinv1 hP1 hwork
      exact ⟨g2, hd, hP2, hst2, hm2.trans hm1, he2.trans he1⟩

/-! ## Every visited configuration of the globals satisfies the invariant -/

theorem run_ok_of_eq {n : Nat} {g g1 : Globals} (tab : TableOK g.m n) {s : State}
    (inv : Inv g.m n s) {fuel : Nat} (h : run fuel g s = .ok g1) : RunOK n g s g1 := by
  obtain ⟨g2, h2, ok⟩ := run_ok g tab inv (show s.remaining < fuel + (s.remaining + 1) by omega)
  have := run_mono fuel g g1 s h (s.remaining + 1)
  rw [this] at h2
  cases h2
  exact ok

theorem WellFormed.bounds {chars : List Nat} {n : Nat} (wf : WellFormed chars n) :
    1 ≤ n ∧ n ≤ 4 := by
  rcases wf.1 with h | h <;> omega

theorem startGlobals_m {chars : List Nat} {n : Nat} (wf : WellFormed chars n) (g : Globals) :
    (startGlobals g chars).m = rowsOf chars := by
  unfold startGlobals
  simp only
  rw [buildRows_eq n chars [] 0 wf.2.1 (by decide)]
  simp

theorem startGlobals_stack {chars : List Nat} {n : Nat} (wf : WellFormed chars n)
    (g : Globals) :
    (startGlobals g chars).stack = [initState chars (rowsOf chars)] := by
  have := startGlobals_m wf g
  unfold startGlobals at this ⊢
  simp only at this ⊢
  rw [this]

theorem start_tableOK {chars : List Nat} {n : Nat} (wf : WellFormed chars n) (g : Globals) :
    TableOK (startGlobals g chars).m n := by
  rw [startGlobals_m wf g]
  exact tableOK_of_wf wf.bounds.1 wf.bounds.2 wf.2.1 wf.2.2.1

theorem start_inv {chars : List Nat} {n : Nat} (wf : WellFormed chars n) (g : Globals) :
    ∀ x, x ∈ (startGlobals g chars).stack → Inv (startGlobals g chars).m n x := by
  intro x hx
  rw [startGlobals_stack wf g] at hx
  rw [startGlobals_m wf g, List.mem_singleton.mp hx]
  exact inv_init wf.bounds.1 wf.bounds.2 wf.2.1 wf.2.2.1 wf.2.2.2

theorem Visits.stack_inv {chars : List Nat} {n : Nat} (wf : WellFormed chars n) {g0 g : Globals}
    (h : Visits (startGlobals g0 chars) g) :
    g.m = rowsOf chars ∧ g.experimental = g0.experimental ∧ TableOK g.m n ∧
    ∀ x, x ∈ g.stack → Inv g.m n x := by
  induction h with
  | start => exact ⟨startGlobals_m wf g0, rfl, start_tableOK wf g0, start_inv wf g0⟩
  | @step g g1 s rest fuel _ hs hrun ih =>
    obtain ⟨hm, he, tab, hinv⟩ := ih
    have invs : Inv g.m n s := hinv s (by rw [hs]; exact List.mem_cons_self _ _)
    have ok := run_ok_of_eq (g := { g with stack := rest }) tab invs hrun
    obtain ⟨hm1, he1, new, hst, hnew, _⟩ :=
      RunOK.stack_effect (g := { g with stack := rest }) tab invs ok
    simp only at hm1 he1 hst hnew
    refine ⟨hm1.trans hm, he1.trans he, by rw [hm1]; exact tab, ?_⟩
    intro x hx
    rw [hm1]
    rw [hst] at hx
    rcases List.mem_append.mp hx with h | h
    · exact hnew x h
    · exact hinv x (by rw [hs]; exact List.mem_cons_of_mem _ h)

/-! ## Termination -/

theorem pass_decreases {m : List (List Nat)} {n : Nat} (tab : TableOK m n) {w : State}
    (inv : Inv m n w) {t : Nat} {s1 s2 : State} {d1 : Bool}
    (h1 : hallLoop t spots w true = .ok (.go s1 d1))
    (h2 : roomLoop m t [0, 1, 2, 3] s1 d1 = .ok (.go s2 false)) :
    s2.remaining < w.remaining := by
  obtain ⟨r1, hr1, ok1⟩ := hallLoop_ok tab t spots w true inv (fun _ h => h)
  rw [h1] at hr1
  cases hr1
  obtain ⟨inv1, _, _, hrem1⟩ := ok1
  obtain ⟨r2, hr2, ok2⟩ := roomLoop_ok tab t [0, 1, 2, 3] s1 d1 inv1
    (fun x hx => by simp at hx; omega)
  rw [h2] at hr2
  cases hr2
  obtain ⟨_, _, _, hrem2⟩ := ok2
  simp only [Bool.false_eq_true, if_false, if_true] at hrem1 hrem2
  cases d1 <;> simp at hrem1 hrem2 <;> omega

theorem RunOK.pushed_lt {n : Nat} {g g1 : Globals} {s : State} (tab : TableOK g.m n)
    (inv : Inv g.m n s) (h : RunOK n g s g1) :
    ∃ new, g1.stack = new ++ g.stack ∧ ∀ x, x ∈ new → sum4 x.mobile < sum4 s.mobile := by
  rcases h with ⟨t', s1, hg, _, _, _⟩ | ⟨s1, min, i1, red, _, _, gr, _⟩
  · subst hg
    refine ⟨[], rfl, ?_⟩
    intro x hx; cases hx
  · obtain ⟨new, hs, _, hp, _⟩ := gr.stk
    refine ⟨new, hs, ?_⟩
    intro x hx
    obtain ⟨c, dst, hc, hmob, _, _, hxe⟩ := hp x hx
    have hsum := red.sum4_le tab inv
    have hs := sum4_set _ i1.mlen hc (s1.mobile.getD c 0 - 1)
    have hg := getD_le_sum4 s1.mobile hc
    rw [hxe]
    simp only [parkState]
    omega

theorem sum4_init_le {chars : List Nat} {n : Nat} (wf : WellFormed chars n) :
    sum4 (initState chars (rowsOf chars)).mobile ≤ 16 := by
  have inv := inv_init wf.bounds.1 wf.bounds.2 wf.2.1 wf.2.2.1 wf.2.2.2
  have := inv.sum4_mobile_le
  have := wf.bounds.2
  omega

/-- C10: for every well-formed input the search terminates: with a step budget of at least
`wt 16 + 28`, `processInput` returns a cost (no panic, budget not exhausted), with the
experimental flag off or on. At every iteration of the work-list loop, with `s` the popped
state: a pass of the fixed-point loop of `run` that asks for another pass (`done` false), from
any working state `w` reached from `s` by in-place moves, has strictly decreased `remaining`;
and the call of `run` on `s` only pushes states whose sum of `mobile` counts is strictly
smaller than that of `s`. -/
theorem search_terminates (chars : List Nat) (n : Nat) (wf : WellFormed chars n)
    (g : Globals) :
    (∀ fuel, wt 16 + 28 ≤ fuel → ∃ t, processInput fuel g chars = .ok t) ∧
    (∀ (g' : Globals) (s : State) (rest : List State), Visits (startGlobals g chars) g' →
      g'.stack = s :: rest →
      (∀ (w : State) (t : Nat) (s1 s2 : State) (d1 : Bool), Reduces g'.m s w →
        hallLoop t spots w true = .ok (.go s1 d1) →
        roomLoop g'.m t [0, 1, 2, 3] s1 d1 = .ok (.go s2 false) →
        s2.remaining < w.remaining) ∧
      (∀ (fuel : Nat) (g1 : Globals), run fuel { g' with stack := rest } s = .ok g1 →
        ∃ new, g1.stack = new ++ rest ∧ ∀ x, x ∈ new → sum4 x.mobile < sum4 s.mobile)) := by
  constructor
  · intro fuel hfuel
    have hwork : work (startGlobals g chars).stack + 28 ≤ fuel := by
      rw [startGlobals_stack wf g]
      have := wt_mono (sum4_init_le wf)
      simp only [work, List.map_cons, List.map_nil, List.sum_cons, List.sum_nil]
      omega
    obtain ⟨g1, hd, _⟩ := drain_induct (n := n) (fun _ => True)
      (fun _ _ _ _ _ _ _ _ _ => trivial) fuel (startGlobals g chars) (start_tableOK wf g)
      (start_inv wf g) trivial hwork
    refine ⟨g1.target, ?_⟩
    unfold processInput processGlobals
    rw [hd]
  · intro g' s rest hv hs
    obtain ⟨_, _, tab, hinv⟩ := hv.stack_inv wf
    have invs : Inv g'.m n s := hinv s (by rw [hs]; exact List.mem_cons_self _ _)
    constructor
    · intro w t s1 s2 d1 hred h1 h2
      exact pass_decreases tab (hred.keeps_inv tab invs) h1 h2
    · intro fuel g1 hrun
      have ok := run_ok_of_eq (g := { g' with stack := rest }) tab invs hrun
      exact RunOK.pushed_lt (g := { g' with stack := rest }) tab invs ok

/-- Witness for C10: the input `BACDABCD`. -/
theorem search_terminates_witness :
    (∀ fuel, wt 16 + 28 ≤ fuel →
      ∃ t, processInput fuel ⟨false, [], [], [], 0⟩ [66, 65, 67, 68, 65, 66, 67, 68] = .ok t) ∧
    (∀ (g' : Globals) (s : State) (rest : List State),
      Visits (startGlobals ⟨false, [], [], [], 0⟩ [66, 65, 67, 68, 65, 66, 67, 68]) g' →
      g'.stack = s :: rest →
      (∀ (w : State) (t : Nat) (s1 s2 : State) (d1 : Bool), Reduces g'.m s w →
        hallLoop t spots w true = .ok (.go s1 d1) →
        roomLoop g'.m t [0, 1, 2, 3] s1 d1 = .ok (.go s2 false) →
        s2.remaining < w.remaining) ∧
      (∀ (fuel : Nat) (g1 : Globals), run fuel { g' with stack := rest } s = .ok g1 →
        ∃ new, g1.stack = new ++ rest ∧ ∀ x, x ∈ new → sum4 x.mobile < sum4 s.mobile)) :=
  search_terminates [66, 65, 67, 68, 65, 66, 67, 68] 2
    ⟨Or.inl rfl, by decide, by decide, by decide⟩ ⟨false, [], [], [], 0⟩

/-! ## The first iterations of the search on the input `BACDABCD` -/

theorem sample_visits_one :
    Visits (startGlobals ⟨false, [], [], [], 0⟩ [66, 65, 67, 68, 65, 66, 67, 68])
      (⟨false, [[1, 0, 2, 3], [0, 1, 2, 3]],
        [⟨[4, 4, 4, 4, 4, 4, 4, 4, 4, 4, 0], [1, 0, 0, 0], [0, 1, 0, 0], 7, 2⟩,
         ⟨[4, 4, 4, 4, 4, 4, 4, 4, 4, 0, 4], [1, 0, 0, 0], [0, 1, 0, 0], 6, 2⟩,
         ⟨[4, 4, 4, 4, 4, 4, 4, 0, 4, 4, 4], [1, 0, 0, 0], [0, 1, 0, 0], 4, 2⟩,
         ⟨[4, 4, 4, 4, 4, 0, 4, 4, 4, 4, 4], [1, 0, 0, 0], [0, 1, 0, 0], 2, 2⟩,
         ⟨[4, 4, 4, 0, 4, 4, 4, 4, 4, 4, 4], [1, 0, 0, 0], [0, 1, 0, 0], 2, 2⟩,
         ⟨[4, 0, 4, 4, 4, 4, 4, 4, 4, 4, 4], [1, 0, 0, 0], [0, 1, 0, 0], 4, 2⟩,
         ⟨[0, 4, 4, 4, 4, 4, 4, 4, 4, 4, 4], [1, 0, 0, 0], [0, 1, 0, 0], 5, 2⟩,
         ⟨[4, 4, 4, 4, 4, 4, 4, 4, 4, 4, 1], [0, 1, 0, 0], [1, 0, 0, 0], 90, 2⟩,
         ⟨[4, 4, 4, 4, 4, 4, 4, 4, 4, 1, 4], [0, 1, 0, 0], [1, 0, 0, 0], 80, 2⟩,
         ⟨[4, 4, 4, 4, 4, 4, 4, 1, 4, 4, 4], [0, 1, 0, 0], [1, 0, 0, 0], 60, 2⟩,
         ⟨[4, 4, 4, 4, 4, 1, 4, 4, 4, 4, 4], [0, 1, 0, 0], [1, 0, 0, 0], 40, 2⟩,
         ⟨[4, 4, 4, 1, 4, 4, 4, 4, 4, 4, 4], [0, 1, 0, 0], [1, 0, 0, 0], 20, 2⟩,
         ⟨[4, 1, 4, 4, 4, 4, 4, 4, 4, 4, 4], [0, 1, 0, 0], [1, 0, 0, 0], 20, 2⟩,
         ⟨[1, 4, 4, 4, 4, 4, 4, 4, 4, 4, 4], [0, 1, 0, 0], [1, 0, 0, 0], 30, 2⟩],
        [(⟨[4, 4, 4, 4, 4, 4, 4, 4, 4, 4, 0], [1, 0, 0, 0], [0, 1, 0, 0]⟩, 7),
         (⟨[4, 4, 4, 4, 4, 4, 4, 4, 4, 0, 4], [1, 0, 0, 0], [0, 1, 0, 0]⟩, 6),
         (⟨[4, 4, 4, 4, 4, 4, 4, 0, 4, 4, 4], [1, 0, 0, 0], [0, 1, 0, 0]⟩, 4),
         (⟨[4, 4, 4, 4, 4, 0, 4, 4, 4, 4, 4], [1, 0, 0, 0], [0, 1, 0, 0]⟩, 2),
         (⟨[4, 4, 4, 0, 4, 4, 4, 4, 4, 4, 4], [1, 0, 0, 0], [0, 1, 0, 0]⟩, 2),
         (⟨[4, 0, 4, 4, 4, 4, 4, 4, 4, 4, 4], [1, 0, 0, 0], [0, 1, 0, 0]⟩, 4),
         (⟨[0, 4, 4, 4, 4, 4, 4, 4, 4, 4, 4], [1, 0, 0, 0], [0, 1, 0, 0]⟩, 5),
         (⟨[4, 4, 4, 4, 4, 4, 4, 4, 4, 4, 1], [0, 1, 0, 0], [1, 0, 0, 0]⟩, 90),
         (⟨[4, 4, 4, 4, 4, 4, 4, 4, 4, 1, 4], [0, 1, 0, 0], [1, 0, 0, 0]⟩, 80),
         (⟨[4, 4, 4, 4, 4, 4, 4, 1, 4, 4, 4], [0, 1, 0, 0], [1, 0, 0, 0]⟩, 60),
         (⟨[4, 4, 4, 4, 4, 1, 4, 4, 4, 4, 4], [0, 1, 0, 0], [1, 0, 0, 0]⟩, 40),
         (⟨[4, 4, 4, 1, 4, 4, 4, 4, 4, 4, 4], [0, 1, 0, 0], [1, 0, 0, 0]⟩, 20),
         (⟨[4, 1, 4, 4, 4, 4, 4, 4, 4, 4, 4], [0, 1, 0, 0], [1, 0, 0, 0]⟩, 20),
         (⟨[1, 4, 4, 4, 4, 4, 4, 4, 4, 4, 4], [0, 1, 0, 0], [1, 0, 0, 0]⟩, 30)],
        0⟩ : Globals) :=
  @Visits.step (startGlobals ⟨false, [], [], [], 0⟩ [66, 65, 67, 68, 65, 66, 67, 68])
    (startGlobals ⟨false, [], [], [], 0⟩ [66, 65, 67, 68, 65, 66, 67, 68])
    (⟨false, [[1, 0, 2, 3], [0, 1, 2, 3]],
        [⟨[4, 4, 4, 4, 4, 4, 4, 4, 4, 4, 0], [1, 0, 0, 0], [0, 1, 0, 0], 7, 2⟩,
         ⟨[4, 4, 4, 4, 4, 4, 4, 4, 4, 0, 4], [1, 0, 0, 0], [0, 1, 0, 0], 6, 2⟩,
         ⟨[4, 4, 4, 4, 4, 4, 4, 0, 4, 4, 4], [1, 0, 0, 0], [0, 1, 0, 0], 4, 2⟩,
         ⟨[4, 4, 4, 4, 4, 0, 4, 4, 4, 4, 4], [1, 0, 0, 0], [0, 1, 0, 0], 2, 2⟩,
         ⟨[4, 4, 4, 0, 4, 4, 4, 4, 4, 4, 4], [1, 0, 0, 0], [0, 1, 0, 0], 2, 2⟩,
         ⟨[4, 0, 4, 4, 4, 4, 4, 4, 4, 4, 4], [1, 0, 0, 0], [0, 1, 0, 0], 4, 2⟩,
         ⟨[0, 4, 4, 4, 4, 4, 4, 4, 4, 4, 4], [1, 0, 0, 0], [0, 1, 0, 0], 5, 2⟩,
         ⟨[4, 4, 4, 4, 4, 4, 4, 4, 4, 4, 1], [0, 1, 0, 0], [1, 0, 0, 0], 90, 2⟩,
         ⟨[4, 4, 4, 4, 4, 4, 4, 4, 4, 1, 4], [0, 1, 0, 0], [1, 0, 0, 0], 80, 2⟩,
         ⟨[4, 4, 4, 4, 4, 4, 4, 1, 4, 4, 4], [0, 1, 0, 0], [1, 0, 0, 0], 60, 2⟩,
         ⟨[4, 4, 4, 4, 4, 1, 4, 4, 4, 4, 4], [0, 1, 0, 0], [1, 0, 0, 0], 40, 2⟩,
         ⟨[4, 4, 4, 1, 4, 4, 4, 4, 4, 4, 4], [0, 1, 0, 0], [1, 0, 0, 0], 20, 2⟩,
         ⟨[4, 1, 4, 4, 4, 4, 4, 4, 4, 4, 4], [0, 1, 0, 0], [1, 0, 0, 0], 20, 2⟩,
         ⟨[1, 4, 4, 4, 4, 4, 4, 4, 4, 4, 4], [0, 1, 0, 0], [1, 0, 0, 0], 30, 2⟩],
        [(⟨[4, 4, 4, 4, 4, 4, 4, 4, 4, 4, 0], [1, 0, 0, 0], [0, 1, 0, 0]⟩, 7),
         (⟨[4, 4, 4, 4, 4, 4, 4, 4, 4, 0, 4], [1, 0, 0, 0], [0, 1, 0, 0]⟩, 6),
         (⟨[4, 4, 4, 4, 4, 4, 4, 0, 4, 4, 4], [1, 0, 0, 0], [0, 1, 0, 0]⟩, 4),
         (⟨[4, 4, 4, 4, 4, 0, 4, 4, 4, 4, 4], [1, 0, 0, 0], [0, 1, 0, 0]⟩, 2),
         (⟨[4, 4, 4, 0, 4, 4, 4, 4, 4, 4, 4], [1, 0, 0, 0], [0, 1, 0, 0]⟩, 2),
         (⟨[4, 0, 4, 4, 4, 4, 4, 4, 4, 4, 4], [1, 0, 0, 0], [0, 1, 0, 0]⟩, 4),
         (⟨[0, 4, 4, 4, 4, 4, 4, 4, 4, 4, 4], [1, 0, 0, 0], [0, 1, 0, 0]⟩, 5),
         (⟨[4, 4, 4, 4, 4, 4, 4, 4, 4, 4, 1], [0, 1, 0, 0], [1, 0, 0, 0]⟩, 90),
         (⟨[4, 4, 4, 4, 4, 4, 4, 4, 4, 1, 4], [0, 1, 0, 0], [1, 0, 0, 0]⟩, 80),
         (⟨[4, 4, 4, 4, 4, 4, 4, 1, 4, 4, 4], [0, 1, 0, 0], [1, 0, 0, 0]⟩, 60),
         (⟨[4, 4, 4, 4, 4, 1, 4, 4, 4, 4, 4], [0, 1, 0, 0], [1, 0, 0, 0]⟩, 40),
         (⟨[4, 4, 4, 1, 4, 4, 4, 4, 4, 4, 4], [0, 1, 0, 0], [1, 0, 0, 0]⟩, 20),
         (⟨[4, 1, 4, 4, 4, 4, 4, 4, 4, 4, 4], [0, 1, 0, 0], [1, 0, 0, 0]⟩, 20),
         (⟨[1, 4, 4, 4, 4, 4, 4, 4, 4, 4, 4], [0, 1, 0, 0], [1, 0, 0, 0]⟩, 30)],
        0⟩ : Globals)
    ⟨[4, 4, 4, 4, 4, 4, 4, 4, 4, 4, 4], [1, 1, 0, 0], [0, 0, 0, 0], 0, 2⟩
    [] 5 Visits.start rfl rfl

theorem sample_visits_two :
    Visits (startGlobals ⟨false, [], [], [], 0⟩ [66, 65, 67, 68, 65, 66, 67, 68])
      (⟨false, [[1, 0, 2, 3], [0, 1, 2, 3]],
        [⟨[4, 4, 4, 4, 4, 4, 4, 4, 4, 0, 4], [1, 0, 0, 0], [0, 1, 0, 0], 6, 2⟩,
         ⟨[4, 4, 4, 4, 4, 4, 4, 0, 4, 4, 4], [1, 0, 0, 0], [0, 1, 0, 0], 4, 2⟩,
         ⟨[4, 4, 4, 4, 4, 0, 4, 4, 4, 4, 4], [1, 0, 0, 0], [0, 1, 0, 0], 2, 2⟩,
         ⟨[4, 4, 4, 0, 4, 4, 4, 4, 4, 4, 4], [1, 0, 0, 0], [0, 1, 0, 0], 2, 2⟩,
         ⟨[4, 0, 4, 4, 4, 4, 4, 4, 4, 4, 4], [1, 0, 0, 0], [0, 1, 0, 0], 4, 2⟩,
         ⟨[0, 4, 4, 4, 4, 4, 4, 4, 4, 4, 4], [1, 0, 0, 0], [0, 1, 0, 0], 5, 2⟩,
         ⟨[4, 4, 4, 4, 4, 4, 4, 4, 4, 4, 1], [0, 1, 0, 0], [1, 0, 0, 0], 90, 2⟩,
         ⟨[4, 4, 4, 4, 4, 4, 4, 4, 4, 1, 4], [0, 1, 0, 0], [1, 0, 0, 0], 80, 2⟩,
         ⟨[4, 4, 4, 4, 4, 4, 4, 1, 4, 4, 4], [0, 1, 0, 0], [1, 0, 0, 0], 60, 2⟩,
         ⟨[4, 4, 4, 4, 4, 1, 4, 4, 4, 4, 4], [0, 1, 0, 0], [1, 0, 0, 0], 40, 2⟩,
         ⟨[4, 4, 4, 1, 4, 4, 4, 4, 4, 4, 4], [0, 1, 0, 0], [1, 0, 0, 0], 20, 2⟩,
         ⟨[4, 1, 4, 4, 4, 4, 4, 4, 4, 4, 4], [0, 1, 0, 0], [1, 0, 0, 0], 20, 2⟩,
         ⟨[1, 4, 4, 4, 4, 4, 4, 4, 4, 4, 4], [0, 1, 0, 0], [1, 0, 0, 0], 30, 2⟩],
        [(⟨[4, 4, 4, 4, 4, 4, 4, 4, 4, 4, 0], [1, 0, 0, 0], [0, 1, 0, 0]⟩, 7),
         (⟨[4, 4, 4, 4, 4, 4, 4, 4, 4, 0, 4], [1, 0, 0, 0], [0, 1, 0, 0]⟩, 6),
         (⟨[4, 4, 4, 4, 4, 4, 4, 0, 4, 4, 4], [1, 0, 0, 0], [0, 1, 0, 0]⟩, 4),
         (⟨[4, 4, 4, 4, 4, 0, 4, 4, 4, 4, 4], [1, 0, 0, 0], [0, 1, 0, 0]⟩, 2),
         (⟨[4, 4, 4, 0, 4, 4, 4, 4, 4, 4, 4], [1, 0, 0, 0], [0, 1, 0, 0]⟩, 2),
         (⟨[4, 0, 4, 4, 4, 4, 4, 4, 4, 4, 4], [1, 0, 0, 0], [0, 1, 0, 0]⟩, 4),
         (⟨[0, 4, 4, 4, 4, 4, 4, 4, 4, 4, 4], [1, 0, 0, 0], [0, 1, 0, 0]⟩, 5),
         (⟨[4, 4, 4, 4, 4, 4, 4, 4, 4, 4, 1], [0, 1, 0, 0], [1, 0, 0, 0]⟩, 90),
         (⟨[4, 4, 4, 4, 4, 4, 4, 4, 4, 1, 4], [0, 1, 0, 0], [1, 0, 0, 0]⟩, 80),
         (⟨[4, 4, 4, 4, 4, 4, 4, 1, 4, 4, 4], [0, 1, 0, 0], [1, 0, 0, 0]⟩, 60),
         (⟨[4, 4, 4, 4, 4, 1, 4, 4, 4, 4, 4], [0, 1, 0, 0], [1, 0, 0, 0]⟩, 40),
         (⟨[4, 4, 4, 1, 4, 4, 4, 4, 4, 4, 4], [0, 1, 0, 0], [1, 0, 0, 0]⟩, 20),
         (⟨[4, 1, 4, 4, 4, 4, 4, 4, 4, 4, 4], [0, 1, 0, 0], [1, 0, 0, 0]⟩, 20),
         (⟨[1, 4, 4, 4, 4, 4, 4, 4, 4, 4, 4], [0, 1, 0, 0], [1, 0, 0, 0]⟩, 30)],
        56⟩ : Globals) :=
  @Visits.step (startGlobals ⟨false, [], [], [], 0⟩ [66, 65, 67, 68, 65, 66, 67, 68])
    (⟨false, [[1, 0, 2, 3], [0, 1, 2, 3]],
        [⟨[4, 4, 4, 4, 4, 4, 4, 4, 4, 4, 0], [1, 0, 0, 0], [0, 1, 0, 0], 7, 2⟩,
         ⟨[4, 4, 4, 4, 4, 4, 4, 4, 4, 0, 4], [1, 0, 0, 0], [0, 1, 0, 0], 6, 2⟩,
         ⟨[4, 4, 4, 4, 4, 4, 4, 0, 4, 4, 4], [1, 0, 0, 0], [0, 1, 0, 0], 4, 2⟩,
         ⟨[4, 4, 4, 4, 4, 0, 4, 4, 4, 4, 4], [1, 0, 0, 0], [0, 1, 0, 0], 2, 2⟩,
         ⟨[4, 4, 4, 0, 4, 4, 4, 4, 4, 4, 4], [1, 0, 0, 0], [0, 1, 0, 0], 2, 2⟩,
         ⟨[4, 0, 4, 4, 4, 4, 4, 4, 4, 4, 4], [1, 0, 0, 0], [0, 1, 0, 0], 4, 2⟩,
         ⟨[0, 4, 4, 4, 4, 4, 4, 4, 4, 4, 4], [1, 0, 0, 0], [0, 1, 0, 0], 5, 2⟩,
         ⟨[4, 4, 4, 4, 4, 4, 4, 4, 4, 4, 1], [0, 1, 0, 0], [1, 0, 0, 0], 90, 2⟩,
         ⟨[4, 4, 4, 4, 4, 4, 4, 4, 4, 1, 4], [0, 1, 0, 0], [1, 0, 0, 0], 80, 2⟩,
         ⟨[4, 4, 4, 4, 4, 4, 4, 1, 4, 4, 4], [0, 1, 0, 0], [1, 0, 0, 0], 60, 2⟩,
         ⟨[4, 4, 4, 4, 4, 1, 4, 4, 4, 4, 4], [0, 1, 0, 0], [1, 0, 0, 0], 40, 2⟩,
         ⟨[4, 4, 4, 1, 4, 4, 4, 4, 4, 4, 4], [0, 1, 0, 0], [1, 0, 0, 0], 20, 2⟩,
         ⟨[4, 1, 4, 4, 4, 4, 4, 4, 4, 4, 4], [0, 1, 0, 0], [1, 0, 0, 0], 20, 2⟩,
         ⟨[1, 4, 4, 4, 4, 4, 4, 4, 4, 4, 4], [0, 1, 0, 0], [1, 0, 0, 0], 30, 2⟩],
        [(⟨[4, 4, 4, 4, 4, 4, 4, 4, 4, 4, 0], [1, 0, 0, 0], [0, 1, 0, 0]⟩, 7),
         (⟨[4, 4, 4, 4, 4, 4, 4, 4, 4, 0, 4], [1, 0, 0, 0], [0, 1, 0, 0]⟩, 6),
         (⟨[4, 4, 4, 4, 4, 4, 4, 0, 4, 4, 4], [1, 0, 0, 0], [0, 1, 0, 0]⟩, 4),
         (⟨[4, 4, 4, 4, 4, 0, 4, 4, 4, 4, 4], [1, 0, 0, 0], [0, 1, 0, 0]⟩, 2),
         (⟨[4, 4, 4, 0, 4, 4, 4, 4, 4, 4, 4], [1, 0, 0, 0], [0, 1, 0, 0]⟩, 2),
         (⟨[4, 0, 4, 4, 4, 4, 4, 4, 4, 4, 4], [1, 0, 0, 0], [0, 1, 0, 0]⟩, 4),
         (⟨[0, 4, 4, 4, 4, 4, 4, 4, 4, 4, 4], [1, 0, 0, 0], [0, 1, 0, 0]⟩, 5),
         (⟨[4, 4, 4, 4, 4, 4, 4, 4, 4, 4, 1], [0, 1, 0, 0], [1, 0, 0, 0]⟩, 90),
         (⟨[4, 4, 4, 4, 4, 4, 4, 4, 4, 1, 4], [0, 1, 0, 0], [1, 0, 0, 0]⟩, 80),
         (⟨[4, 4, 4, 4, 4, 4, 4, 1, 4, 4, 4], [0, 1, 0, 0], [1, 0, 0, 0]⟩, 60),
         (⟨[4, 4, 4, 4, 4, 1, 4, 4, 4, 4, 4], [0, 1, 0, 0], [1, 0, 0, 0]⟩, 40),
         (⟨[4, 4, 4, 1, 4, 4, 4, 4, 4, 4, 4], [0, 1, 0, 0], [1, 0, 0, 0]⟩, 20),
         (⟨[4, 1, 4, 4, 4, 4, 4, 4, 4, 4, 4], [0, 1, 0, 0], [1, 0, 0, 0]⟩, 20),
         (⟨[1, 4, 4, 4, 4, 4, 4, 4, 4, 4, 4], [0, 1, 0, 0], [1, 0, 0, 0]⟩, 30)],
        0⟩ : Globals)
    (⟨false, [[1, 0, 2, 3], [0, 1, 2, 3]],
        [⟨[4, 4, 4, 4, 4, 4, 4, 4, 4, 0, 4], [1, 0, 0, 0], [0, 1, 0, 0], 6, 2⟩,
         ⟨[4, 4, 4, 4, 4, 4, 4, 0, 4, 4, 4], [1, 0, 0, 0], [0, 1, 0, 0], 4, 2⟩,
         ⟨[4, 4, 4, 4, 4, 0, 4, 4, 4, 4, 4], [1, 0, 0, 0], [0, 1, 0, 0], 2, 2⟩,
         ⟨[4, 4, 4, 0, 4, 4, 4, 4, 4, 4, 4], [1, 0, 0, 0], [0, 1, 0, 0], 2, 2⟩,
         ⟨[4, 0, 4, 4, 4, 4, 4, 4, 4, 4, 4], [1, 0, 0, 0], [0, 1, 0, 0], 4, 2⟩,
         ⟨[0, 4, 4, 4, 4, 4, 4, 4, 4, 4, 4], [1, 0, 0, 0], [0, 1, 0, 0], 5, 2⟩,
         ⟨[4, 4, 4, 4, 4, 4, 4, 4, 4, 4, 1], [0, 1, 0, 0], [1, 0, 0, 0], 90, 2⟩,
         ⟨[4, 4, 4, 4, 4, 4, 4, 4, 4, 1, 4], [0, 1, 0, 0], [1, 0, 0, 0], 80, 2⟩,
         ⟨[4, 4, 4, 4, 4, 4, 4, 1, 4, 4, 4], [0, 1, 0, 0], [1, 0, 0, 0], 60, 2⟩,
         ⟨[4, 4, 4, 4, 4, 1, 4, 4, 4, 4, 4], [0, 1, 0, 0], [1, 0, 0, 0], 40, 2⟩,
         ⟨[4, 4, 4, 1, 4, 4, 4, 4, 4, 4, 4], [0, 1, 0, 0], [1, 0, 0, 0], 20, 2⟩,
         ⟨[4, 1, 4, 4, 4, 4, 4, 4, 4, 4, 4], [0, 1, 0, 0], [1, 0, 0, 0], 20, 2⟩,
         ⟨[1, 4, 4, 4, 4, 4, 4, 4, 4, 4, 4], [0, 1, 0, 0], [1, 0, 0, 0], 30, 2⟩],
        [(⟨[4, 4, 4, 4, 4, 4, 4, 4, 4, 4, 0], [1, 0, 0, 0], [0, 1, 0, 0]⟩, 7),
         (⟨[4, 4, 4, 4, 4, 4, 4, 4, 4, 0, 4], [1, 0, 0, 0], [0, 1, 0, 0]⟩, 6),
         (⟨[4, 4, 4, 4, 4, 4, 4, 0, 4, 4, 4], [1, 0, 0, 0], [0, 1, 0, 0]⟩, 4),
         (⟨[4, 4, 4, 4, 4, 0, 4, 4, 4, 4, 4], [1, 0, 0, 0], [0, 1, 0, 0]⟩, 2),
         (⟨[4, 4, 4, 0, 4, 4, 4, 4, 4, 4, 4], [1, 0, 0, 0], [0, 1, 0, 0]⟩, 2),
         (⟨[4, 0, 4, 4, 4, 4, 4, 4, 4, 4, 4], [1, 0, 0, 0], [0, 1, 0, 0]⟩, 4),
         (⟨[0, 4, 4, 4, 4, 4, 4, 4, 4, 4, 4], [1, 0, 0, 0], [0, 1, 0, 0]⟩, 5),
         (⟨[4, 4, 4, 4, 4, 4, 4, 4, 4, 4, 1], [0, 1, 0, 0], [1, 0, 0, 0]⟩, 90),
         (⟨[4, 4, 4, 4, 4, 4, 4, 4, 4, 1, 4], [0, 1, 0, 0], [1, 0, 0, 0]⟩, 80),
         (⟨[4, 4, 4, 4, 4, 4, 4, 1, 4, 4, 4], [0, 1, 0, 0], [1, 0, 0, 0]⟩, 60),
         (⟨[4, 4, 4, 4, 4, 1, 4, 4, 4, 4, 4], [0, 1, 0, 0], [1, 0, 0, 0]⟩, 40),
         (⟨[4, 4, 4, 1, 4, 4, 4, 4, 4, 4, 4], [0, 1, 0, 0], [1, 0, 0, 0]⟩, 20),
         (⟨[4, 1, 4, 4, 4, 4, 4, 4, 4, 4, 4], [0, 1, 0, 0], [1, 0, 0, 0]⟩, 20),
         (⟨[1, 4, 4, 4, 4, 4, 4, 4, 4, 4, 4], [0, 1, 0, 0], [1, 0, 0, 0]⟩, 30)],
        56⟩ : Globals)
    ⟨[4, 4, 4, 4, 4, 4, 4, 4, 4, 4, 0], [1, 0, 0, 0], [0, 1, 0, 0], 7, 2⟩
    [⟨[4, 4, 4, 4, 4, 4, 4, 4, 4, 0, 4], [1, 0, 0, 0], [0, 1, 0, 0], 6, 2⟩,
     ⟨[4, 4, 4, 4, 4, 4, 4, 0, 4, 4, 4], [1, 0, 0, 0], [0, 1, 0, 0], 4, 2⟩,
     ⟨[4, 4, 4, 4, 4, 0, 4, 4, 4, 4, 4], [1, 0, 0, 0], [0, 1, 0, 0], 2, 2⟩,
     ⟨[4, 4, 4, 0, 4, 4, 4, 4, 4, 4, 4], [1, 0, 0, 0], [0, 1, 0, 0], 2, 2⟩,
     ⟨[4, 0, 4, 4, 4, 4, 4, 4, 4, 4, 4], [1, 0, 0, 0], [0, 1, 0, 0], 4, 2⟩,
     ⟨[0, 4, 4, 4, 4, 4, 4, 4, 4, 4, 4], [1, 0, 0, 0], [0, 1, 0, 0], 5, 2⟩,
     ⟨[4, 4, 4, 4, 4, 4, 4, 4, 4, 4, 1], [0, 1, 0, 0], [1, 0, 0, 0], 90, 2⟩,
     ⟨[4, 4, 4, 4, 4, 4, 4, 4, 4, 1, 4], [0, 1, 0, 0], [1, 0, 0, 0], 80, 2⟩,
     ⟨[4, 4, 4, 4, 4, 4, 4, 1, 4, 4, 4], [0, 1, 0, 0], [1, 0, 0, 0], 60, 2⟩,
     ⟨[4, 4, 4, 4, 4, 1, 4, 4, 4, 4, 4], [0, 1, 0, 0], [1, 0, 0, 0], 40, 2⟩,
     ⟨[4, 4, 4, 1, 4, 4, 4, 4, 4, 4, 4], [0, 1, 0, 0], [1, 0, 0, 0], 20, 2⟩,
     ⟨[4, 1, 4, 4, 4, 4, 4, 4, 4, 4, 4], [0, 1, 0, 0], [1, 0, 0, 0], 20, 2⟩,
     ⟨[1, 4, 4, 4, 4, 4, 4, 4, 4, 4, 4], [0, 1, 0, 0], [1, 0, 0, 0], 30, 2⟩]
    5 sample_visits_one rfl rfl

/-! ## The best-known bound -/

theorem enterCost_pos {m : List (List Nat)} {n : Nat} {s : State} (inv : Inv m n s)
    {src : Nat} (hsrc : src ∈ spots) (hne : s.h.getD src free ≠ free) :
    1 ≤ enterCost s src := by
  have hv := inv.label_lt hne
  unfold enterCost
  have hd : 1 ≤ dist (col (s.h.getD src free)) src := by
    generalize s.h.getD src free = v at hv
    unfold dist col
    simp only [spots, List.mem_cons, List.mem_singleton, List.not_mem_nil, or_false] at hsrc
    split <;> omega
  have hw : 1 ≤ weights.getD (s.h.getD src free) 0 := by
    generalize s.h.getD src free = v at hv
    match v, hv with
    | 0, _ => decide
    | 1, _ => decide
    | 2, _ => decide
    | 3, _ => decide
  calc 1 = 1 * 1 := rfl
    _ ≤ _ := Nat.mul_le_mul (by omega) hw

theorem RunOK.target {n : Nat} {g g1 : Globals} {s : State} (h : RunOK n g s g1) :
    g1.target = g.target ∨ (g1.target ≠ 0 ∧ (g.target ≠ 0 → g1.target < g.target)) := by
  rcases h with ⟨t', s1, hg, i1, _, rok⟩ | ⟨s1, min, _, _, _, _, gr, _⟩
  · subst hg
    rcases rok with ⟨ht, _, _⟩ | ⟨src, hsrc, hcan, _, ht, hlt⟩
    · exact Or.inl ht
    · right
      have hpos := enterCost_pos i1 hsrc hcan.1
      simp only [enterState] at ht
      refine ⟨by simp only; omega, ?_⟩
      intro hne
      rcases hlt with h0 | hlt
      · exact absurd h0 hne
      · exact hlt
  · exact Or.inl gr.tgt

/-- C6: during a `processInput` invocation on a well-formed input, at every iteration of the
work-list loop the call of `run` leaves `target` unchanged or writes a value that is non-zero
and, if `target` was already non-zero, strictly smaller than the previous value; in
particular `target` never returns to 0 once it is set, and never grows once set. -/
theorem target_monotone (chars : List Nat) (n : Nat) (wf : WellFormed chars n) (g : Globals)
    (g' g1 : Globals) (s : State) (rest : List State) (fuel : Nat)
    (hv : Visits (startGlobals g chars) g') (hs : g'.stack = s :: rest)
    (hrun : run fuel { g' with stack := rest } s = .ok g1) :
    (g1.target = g'.target ∨ (g1.target ≠ 0 ∧ (g'.target ≠ 0 → g1.target < g'.target))) ∧
    (g'.target ≠ 0 → g1.target ≠ 0 ∧ g1.target ≤ g'.target) := by
  obtain ⟨_, _, tab, hinv⟩ := hv.stack_inv wf
  have invs : Inv g'.m n s := hinv s (by rw [hs]; exact List.mem_cons_self _ _)
  have ok := run_ok_of_eq (g := { g' with stack := rest }) tab invs hrun
  have ht := ok.target
  simp only at ht
  refine ⟨ht, ?_⟩
  intro hne
  rcases ht with h | ⟨h0, hlt⟩
  · rw [h]; exact ⟨hne, le_refl _⟩
  · exact ⟨h0, Nat.le_of_lt (hlt hne)⟩

/-- Witness for C6: the third iteration of the work-list loop on the input `BACDABCD`. The
first solution found (A parked in cell 10) has set `target` to 56; the popped state (A parked
in cell 9) gives a solution of cost 54, and `run` lowers `target` from 56 to 54. -/
theorem target_monotone_witness :
    Visits (startGlobals ⟨false, [], [], [], 0⟩ [66, 65, 67, 68, 65, 66, 67, 68])
      (⟨false, [[1, 0, 2, 3], [0, 1, 2, 3]],
        [⟨[4, 4, 4, 4, 4, 4, 4, 4, 4, 0, 4], [1, 0, 0, 0], [0, 1, 0, 0], 6, 2⟩,
         ⟨[4, 4, 4, 4, 4, 4, 4, 0, 4, 4, 4], [1, 0, 0, 0], [0, 1, 0, 0], 4, 2⟩,
         ⟨[4, 4, 4, 4, 4, 0, 4, 4, 4, 4, 4], [1, 0, 0, 0], [0, 1, 0, 0], 2, 2⟩,
         ⟨[4, 4, 4, 0, 4, 4, 4, 4, 4, 4, 4], [1, 0, 0, 0], [0, 1, 0, 0], 2, 2⟩,
         ⟨[4, 0, 4, 4, 4, 4, 4, 4, 4, 4, 4], [1, 0, 0, 0], [0, 1, 0, 0], 4, 2⟩,
         ⟨[0, 4, 4, 4, 4, 4, 4, 4, 4, 4, 4], [1, 0, 0, 0], [0, 1, 0, 0], 5, 2⟩,
         ⟨[4, 4, 4, 4, 4, 4, 4, 4, 4, 4, 1], [0, 1, 0, 0], [1, 0, 0, 0], 90, 2⟩,
         ⟨[4, 4, 4, 4, 4, 4, 4, 4, 4, 1, 4], [0, 1, 0, 0], [1, 0, 0, 0], 80, 2⟩,
         ⟨[4, 4, 4, 4, 4, 4, 4, 1, 4, 4, 4], [0, 1, 0, 0], [1, 0, 0, 0], 60, 2⟩,
         ⟨[4, 4, 4, 4, 4, 1, 4, 4, 4, 4, 4], [0, 1, 0, 0], [1, 0, 0, 0], 40, 2⟩,
         ⟨[4, 4, 4, 1, 4, 4, 4, 4, 4, 4, 4], [0, 1, 0, 0], [1, 0, 0, 0], 20, 2⟩,
         ⟨[4, 1, 4, 4, 4, 4, 4, 4, 4, 4, 4], [0, 1, 0, 0], [1, 0, 0, 0], 20, 2⟩,
         ⟨[1, 4, 4, 4, 4, 4, 4, 4, 4, 4, 4], [0, 1, 0, 0], [1, 0, 0, 0], 30, 2⟩],
        [(⟨[4, 4, 4, 4, 4, 4, 4, 4, 4, 4, 0], [1, 0, 0, 0], [0, 1, 0, 0]⟩, 7),
         (⟨[4, 4, 4, 4, 4, 4, 4, 4, 4, 0, 4], [1, 0, 0, 0], [0, 1, 0, 0]⟩, 6),
         (⟨[4, 4, 4, 4, 4, 4, 4, 0, 4, 4, 4], [1, 0, 0, 0], [0, 1, 0, 0]⟩, 4),
         (⟨[4, 4, 4, 4, 4, 0, 4, 4, 4, 4, 4], [1, 0, 0, 0], [0, 1, 0, 0]⟩, 2),
         (⟨[4, 4, 4, 0, 4, 4, 4, 4, 4, 4, 4], [1, 0, 0, 0], [0, 1, 0, 0]⟩, 2),
         (⟨[4, 0, 4, 4, 4, 4, 4, 4, 4, 4, 4], [1, 0, 0, 0], [0, 1, 0, 0]⟩, 4),
         (⟨[0, 4, 4, 4, 4, 4, 4, 4, 4, 4, 4], [1, 0, 0, 0], [0, 1, 0, 0]⟩, 5),
         (⟨[4, 4, 4, 4, 4, 4, 4, 4, 4, 4, 1], [0, 1, 0, 0], [1, 0, 0, 0]⟩, 90),
         (⟨[4, 4, 4, 4, 4, 4, 4, 4, 4, 1, 4], [0, 1, 0, 0], [1, 0, 0, 0]⟩, 80),
         (⟨[4, 4, 4, 4, 4, 4, 4, 1, 4, 4, 4], [0, 1, 0, 0], [1, 0, 0, 0]⟩, 60),
         (⟨[4, 4, 4, 4, 4, 1, 4, 4, 4, 4, 4], [0, 1, 0, 0], [1, 0, 0, 0]⟩, 40),
         (⟨[4, 4, 4, 1, 4, 4, 4, 4, 4, 4, 4], [0, 1, 0, 0], [1, 0, 0, 0]⟩, 20),
         (⟨[4, 1, 4, 4, 4, 4, 4, 4, 4, 4, 4], [0, 1, 0, 0], [1, 0, 0, 0]⟩, 20),
         (⟨[1, 4, 4, 4, 4, 4, 4, 4, 4, 4, 4], [0, 1, 0, 0], [1, 0, 0, 0]⟩, 30)],
        56⟩ : Globals) ∧
    (⟨false, [[1, 0, 2, 3], [0, 1, 2, 3]],
        [⟨[4, 4, 4, 4, 4, 4, 4, 4, 4, 0, 4], [1, 0, 0, 0], [0, 1, 0, 0], 6, 2⟩,
         ⟨[4, 4, 4, 4, 4, 4, 4, 0, 4, 4, 4], [1, 0, 0, 0], [0, 1, 0, 0], 4, 2⟩,
         ⟨[4, 4, 4, 4, 4, 0, 4, 4, 4, 4, 4], [1, 0, 0, 0], [0, 1, 0, 0], 2, 2⟩,
         ⟨[4, 4, 4, 0, 4, 4, 4, 4, 4, 4, 4], [1, 0, 0, 0], [0, 1, 0, 0], 2, 2⟩,
         ⟨[4, 0, 4, 4, 4, 4, 4, 4, 4, 4, 4], [1, 0, 0, 0], [0, 1, 0, 0], 4, 2⟩,
         ⟨[0, 4, 4, 4, 4, 4, 4, 4, 4, 4, 4], [1, 0, 0, 0], [0, 1, 0, 0], 5, 2⟩,
         ⟨[4, 4, 4, 4, 4, 4, 4, 4, 4, 4, 1], [0, 1, 0, 0], [1, 0, 0, 0], 90, 2⟩,
         ⟨[4, 4, 4, 4, 4, 4, 4, 4, 4, 1, 4], [0, 1, 0, 0], [1, 0, 0, 0], 80, 2⟩,
         ⟨[4, 4, 4, 4, 4, 4, 4, 1, 4, 4, 4], [0, 1, 0, 0], [1, 0, 0, 0], 60, 2⟩,
         ⟨[4, 4, 4, 4, 4, 1, 4, 4, 4, 4, 4], [0, 1, 0, 0], [1, 0, 0, 0], 40, 2⟩,
         ⟨[4, 4, 4, 1, 4, 4, 4, 4, 4, 4, 4], [0, 1, 0, 0], [1, 0, 0, 0], 20, 2⟩,
         ⟨[4, 1, 4, 4, 4, 4, 4, 4, 4, 4, 4], [0, 1, 0, 0], [1, 0, 0, 0], 20, 2⟩,
         ⟨[1, 4, 4, 4, 4, 4, 4, 4, 4, 4, 4], [0, 1, 0, 0], [1, 0, 0, 0], 30, 2⟩],
        [(⟨[4, 4, 4, 4, 4, 4, 4, 4, 4, 4, 0], [1, 0, 0, 0], [0, 1, 0, 0]⟩, 7),
         (⟨[4, 4, 4, 4, 4, 4, 4, 4, 4, 0, 4], [1, 0, 0, 0], [0, 1, 0, 0]⟩, 6),
         (⟨[4, 4, 4, 4, 4, 4, 4, 0, 4, 4, 4], [1, 0, 0, 0], [0, 1, 0, 0]⟩, 4),
         (⟨[4, 4, 4, 4, 4, 0, 4, 4, 4, 4, 4], [1, 0, 0, 0], [0, 1, 0, 0]⟩, 2),
         (⟨[4, 4, 4, 0, 4, 4, 4, 4, 4, 4, 4], [1, 0, 0, 0], [0, 1, 0, 0]⟩, 2),
         (⟨[4, 0, 4, 4, 4, 4, 4, 4, 4, 4, 4], [1, 0, 0, 0], [0, 1, 0, 0]⟩, 4),
         (⟨[0, 4, 4, 4, 4, 4, 4, 4, 4, 4, 4], [1, 0, 0, 0], [0, 1, 0, 0]⟩, 5),
         (⟨[4, 4, 4, 4, 4, 4, 4, 4, 4, 4, 1], [0, 1, 0, 0], [1, 0, 0, 0]⟩, 90),
         (⟨[4, 4, 4, 4, 4, 4, 4, 4, 4, 1, 4], [0, 1, 0, 0], [1, 0, 0, 0]⟩, 80),
         (⟨[4, 4, 4, 4, 4, 4, 4, 1, 4, 4, 4], [0, 1, 0, 0], [1, 0, 0, 0]⟩, 60),
         (⟨[4, 4, 4, 4, 4, 1, 4, 4, 4, 4, 4], [0, 1, 0, 0], [1, 0, 0, 0]⟩, 40),
         (⟨[4, 4, 4, 1, 4, 4, 4, 4, 4, 4, 4], [0, 1, 0, 0], [1, 0, 0, 0]⟩, 20),
         (⟨[4, 1, 4, 4, 4, 4, 4, 4, 4, 4, 4], [0, 1, 0, 0], [1, 0, 0, 0]⟩, 20),
         (⟨[1, 4, 4, 4, 4, 4, 4, 4, 4, 4, 4], [0, 1, 0, 0], [1, 0, 0, 0]⟩, 30)],
        56⟩ : Globals).stack =
      ⟨[4, 4, 4, 4, 4, 4, 4, 4, 4, 0, 4], [1, 0, 0, 0], [0, 1, 0, 0], 6, 2⟩ ::
        [⟨[4, 4, 4, 4, 4, 4, 4, 0, 4, 4, 4], [1, 0, 0, 0], [0, 1, 0, 0], 4, 2⟩,
         ⟨[4, 4, 4, 4, 4, 0, 4, 4, 4, 4, 4], [1, 0, 0, 0], [0, 1, 0, 0], 2, 2⟩,
         ⟨[4, 4, 4, 0, 4, 4, 4, 4, 4, 4, 4], [1, 0, 0, 0], [0, 1, 0, 0], 2, 2⟩,
         ⟨[4, 0, 4, 4, 4, 4, 4, 4, 4, 4, 4], [1, 0, 0, 0], [0, 1, 0, 0], 4, 2⟩,
         ⟨[0, 4, 4, 4, 4, 4, 4, 4, 4, 4, 4], [1, 0, 0, 0], [0, 1, 0, 0], 5, 2⟩,
         ⟨[4, 4, 4, 4, 4, 4, 4, 4, 4, 4, 1], [0, 1, 0, 0], [1, 0, 0, 0], 90, 2⟩,
         ⟨[4, 4, 4, 4, 4, 4, 4, 4, 4, 1, 4], [0, 1, 0, 0], [1, 0, 0, 0], 80, 2⟩,
         ⟨[4, 4, 4, 4, 4, 4, 4, 1, 4, 4, 4], [0, 1, 0, 0], [1, 0, 0, 0], 60, 2⟩,
         ⟨[4, 4, 4, 4, 4, 1, 4, 4, 4, 4, 4], [0, 1, 0, 0], [1, 0, 0, 0], 40, 2⟩,
         ⟨[4, 4, 4, 1, 4, 4, 4, 4, 4, 4, 4], [0, 1, 0, 0], [1, 0, 0, 0], 20, 2⟩,
         ⟨[4, 1, 4, 4, 4, 4, 4, 4, 4, 4, 4], [0, 1, 0, 0], [1, 0, 0, 0], 20, 2⟩,
         ⟨[1, 4, 4, 4, 4, 4, 4, 4, 4, 4, 4], [0, 1, 0, 0], [1, 0, 0, 0], 30, 2⟩] ∧
    run 5 { (⟨false, [[1, 0, 2, 3], [0, 1, 2, 3]],
        [⟨[4, 4, 4, 4, 4, 4, 4, 4, 4, 0, 4], [1, 0, 0, 0], [0, 1, 0, 0], 6, 2⟩,
         ⟨[4, 4, 4, 4, 4, 4, 4, 0, 4, 4, 4], [1, 0, 0, 0], [0, 1, 0, 0], 4, 2⟩,
         ⟨[4, 4, 4, 4, 4, 0, 4, 4, 4, 4, 4], [1, 0, 0, 0], [0, 1, 0, 0], 2, 2⟩,
         ⟨[4, 4, 4, 0, 4, 4, 4, 4, 4, 4, 4], [1, 0, 0, 0], [0, 1, 0, 0], 2, 2⟩,
         ⟨[4, 0, 4, 4, 4, 4, 4, 4, 4, 4, 4], [1, 0, 0, 0], [0, 1, 0, 0], 4, 2⟩,
         ⟨[0, 4, 4, 4, 4, 4, 4, 4, 4, 4, 4], [1, 0, 0, 0], [0, 1, 0, 0], 5, 2⟩,
         ⟨[4, 4, 4, 4, 4, 4, 4, 4, 4, 4, 1], [0, 1, 0, 0], [1, 0, 0, 0], 90, 2⟩,
         ⟨[4, 4, 4, 4, 4, 4, 4, 4, 4, 1, 4], [0, 1, 0, 0], [1, 0, 0, 0], 80, 2⟩,
         ⟨[4, 4, 4, 4, 4, 4, 4, 1, 4, 4, 4], [0, 1, 0, 0], [1, 0, 0, 0], 60, 2⟩,
         ⟨[4, 4, 4, 4, 4, 1, 4, 4, 4, 4, 4], [0, 1, 0, 0], [1, 0, 0, 0], 40, 2⟩,
         ⟨[4, 4, 4, 1, 4, 4, 4, 4, 4, 4, 4], [0, 1, 0, 0], [1, 0, 0, 0], 20, 2⟩,
         ⟨[4, 1, 4, 4, 4, 4, 4, 4, 4, 4, 4], [0, 1, 0, 0], [1, 0, 0, 0], 20, 2⟩,
         ⟨[1, 4, 4, 4, 4, 4, 4, 4, 4, 4, 4], [0, 1, 0, 0], [1, 0, 0, 0], 30, 2⟩],
        [(⟨[4, 4, 4, 4, 4, 4, 4, 4, 4, 4, 0], [1, 0, 0, 0], [0, 1, 0, 0]⟩, 7),
         (⟨[4, 4, 4, 4, 4, 4, 4, 4, 4, 0, 4], [1, 0, 0, 0], [0, 1, 0, 0]⟩, 6),
         (⟨[4, 4, 4, 4, 4, 4, 4, 0, 4, 4, 4], [1, 0, 0, 0], [0, 1, 0, 0]⟩, 4),
         (⟨[4, 4, 4, 4, 4, 0, 4, 4, 4, 4, 4], [1, 0, 0, 0], [0, 1, 0, 0]⟩, 2),
         (⟨[4, 4, 4, 0, 4, 4, 4, 4, 4, 4, 4], [1, 0, 0, 0], [0, 1, 0, 0]⟩, 2),
         (⟨[4, 0, 4, 4, 4, 4, 4, 4, 4, 4, 4], [1, 0, 0, 0], [0, 1, 0, 0]⟩, 4),
         (⟨[0, 4, 4, 4, 4, 4, 4, 4, 4, 4, 4], [1, 0, 0, 0], [0, 1, 0, 0]⟩, 5),
         (⟨[4, 4, 4, 4, 4, 4, 4, 4, 4, 4, 1], [0, 1, 0, 0], [1, 0, 0, 0]⟩, 90),
         (⟨[4, 4, 4, 4, 4, 4, 4, 4, 4, 1, 4], [0, 1, 0, 0], [1, 0, 0, 0]⟩, 80),
         (⟨[4, 4, 4, 4, 4, 4, 4, 1, 4, 4, 4], [0, 1, 0, 0], [1, 0, 0, 0]⟩, 60),
         (⟨[4, 4, 4, 4, 4, 1, 4, 4, 4, 4, 4], [0, 1, 0, 0], [1, 0, 0, 0]⟩, 40),
         (⟨[4, 4, 4, 1, 4, 4, 4, 4, 4, 4, 4], [0, 1, 0, 0], [1, 0, 0, 0]⟩, 20),
         (⟨[4, 1, 4, 4, 4, 4, 4, 4, 4, 4, 4], [0, 1, 0, 0], [1, 0, 0, 0]⟩, 20),
         (⟨[1, 4, 4, 4, 4, 4, 4, 4, 4, 4, 4], [0, 1, 0, 0], [1, 0, 0, 0]⟩, 30)],
        56⟩ : Globals) with
        stack := [⟨[4, 4, 4, 4, 4, 4, 4, 0, 4, 4, 4], [1, 0, 0, 0], [0, 1, 0, 0], 4, 2⟩,
         ⟨[4, 4, 4, 4, 4, 0, 4, 4, 4, 4, 4], [1, 0, 0, 0], [0, 1, 0, 0], 2, 2⟩,
         ⟨[4, 4, 4, 0, 4, 4, 4, 4, 4, 4, 4], [1, 0, 0, 0], [0, 1, 0, 0], 2, 2⟩,
         ⟨[4, 0, 4, 4, 4, 4, 4, 4, 4, 4, 4], [1, 0, 0, 0], [0, 1, 0, 0], 4, 2⟩,
         ⟨[0, 4, 4, 4, 4, 4, 4, 4, 4, 4, 4], [1, 0, 0, 0], [0, 1, 0, 0], 5, 2⟩,
         ⟨[4, 4, 4, 4, 4, 4, 4, 4, 4, 4, 1], [0, 1, 0, 0], [1, 0, 0, 0], 90, 2⟩,
         ⟨[4, 4, 4, 4, 4, 4, 4, 4, 4, 1, 4], [0, 1, 0, 0], [1, 0, 0, 0], 80, 2⟩,
         ⟨[4, 4, 4, 4, 4, 4, 4, 1, 4, 4, 4], [0, 1, 0, 0], [1, 0, 0, 0], 60, 2⟩,
         ⟨[4, 4, 4, 4, 4, 1, 4, 4, 4, 4, 4], [0, 1, 0, 0], [1, 0, 0, 0], 40, 2⟩,
         ⟨[4, 4, 4, 1, 4, 4, 4, 4, 4, 4, 4], [0, 1, 0, 0], [1, 0, 0, 0], 20, 2⟩,
         ⟨[4, 1, 4, 4, 4, 4, 4, 4, 4, 4, 4], [0, 1, 0, 0], [1, 0, 0, 0], 20, 2⟩,
         ⟨[1, 4, 4, 4, 4, 4, 4, 4, 4, 4, 4], [0, 1, 0, 0], [1, 0, 0, 0], 30, 2⟩] }
        ⟨[4, 4, 4, 4, 4, 4, 4, 4, 4, 0, 4], [1, 0, 0, 0], [0, 1, 0, 0], 6, 2⟩ =
      .ok (⟨false, [[1, 0, 2, 3], [0, 1, 2, 3]],
        [⟨[4, 4, 4, 4, 4, 4, 4, 0, 4, 4, 4], [1, 0, 0, 0], [0, 1, 0, 0], 4, 2⟩,
         ⟨[4, 4, 4, 4, 4, 0, 4, 4, 4, 4, 4], [1, 0, 0, 0], [0, 1, 0, 0], 2, 2⟩,
         ⟨[4, 4, 4, 0, 4, 4, 4, 4, 4, 4, 4], [1, 0, 0, 0], [0, 1, 0, 0], 2, 2⟩,
         ⟨[4, 0, 4, 4, 4, 4, 4, 4, 4, 4, 4], [1, 0, 0, 0], [0, 1, 0, 0], 4, 2⟩,
         ⟨[0, 4, 4, 4, 4, 4, 4, 4, 4, 4, 4], [1, 0, 0, 0], [0, 1, 0, 0], 5, 2⟩,
         ⟨[4, 4, 4, 4, 4, 4, 4, 4, 4, 4, 1], [0, 1, 0, 0], [1, 0, 0, 0], 90, 2⟩,
         ⟨[4, 4, 4, 4, 4, 4, 4, 4, 4, 1, 4], [0, 1, 0, 0], [1, 0, 0, 0], 80, 2⟩,
         ⟨[4, 4, 4, 4, 4, 4, 4, 1, 4, 4, 4], [0, 1, 0, 0], [1, 0, 0, 0], 60, 2⟩,
         ⟨[4, 4, 4, 4, 4, 1, 4, 4, 4, 4, 4], [0, 1, 0, 0], [1, 0, 0, 0], 40, 2⟩,
         ⟨[4, 4, 4, 1, 4, 4, 4, 4, 4, 4, 4], [0, 1, 0, 0], [1, 0, 0, 0], 20, 2⟩,
         ⟨[4, 1, 4, 4, 4, 4, 4, 4, 4, 4, 4], [0, 1, 0, 0], [1, 0, 0, 0], 20, 2⟩,
         ⟨[1, 4, 4, 4, 4, 4, 4, 4, 4, 4, 4], [0, 1, 0, 0], [1, 0, 0, 0], 30, 2⟩],
        [(⟨[4, 4, 4, 4, 4, 4, 4, 4, 4, 4, 0], [1, 0, 0, 0], [0, 1, 0, 0]⟩, 7),
         (⟨[4, 4, 4, 4, 4, 4, 4, 4, 4, 0, 4], [1, 0, 0, 0], [0, 1, 0, 0]⟩, 6),
         (⟨[4, 4, 4, 4, 4, 4, 4, 0, 4, 4, 4], [1, 0, 0, 0], [0, 1, 0, 0]⟩, 4),
         (⟨[4, 4, 4, 4, 4, 0, 4, 4, 4, 4, 4], [1, 0, 0, 0], [0, 1, 0, 0]⟩, 2),
         (⟨[4, 4, 4, 0, 4, 4, 4, 4, 4, 4, 4], [1, 0, 0, 0], [0, 1, 0, 0]⟩, 2),
         (⟨[4, 0, 4, 4, 4, 4, 4, 4, 4, 4, 4], [1, 0, 0, 0], [0, 1, 0, 0]⟩, 4),
         (⟨[0, 4, 4, 4, 4, 4, 4, 4, 4, 4, 4], [1, 0, 0, 0], [0, 1, 0, 0]⟩, 5),
         (⟨[4, 4, 4, 4, 4, 4, 4, 4, 4, 4, 1], [0, 1, 0, 0], [1, 0, 0, 0]⟩, 90),
         (⟨[4, 4, 4, 4, 4, 4, 4, 4, 4, 1, 4], [0, 1, 0, 0], [1, 0, 0, 0]⟩, 80),
         (⟨[4, 4, 4, 4, 4, 4, 4, 1, 4, 4, 4], [0, 1, 0, 0], [1, 0, 0, 0]⟩, 60),
         (⟨[4, 4, 4, 4, 4, 1, 4, 4, 4, 4, 4], [0, 1, 0, 0], [1, 0, 0, 0]⟩, 40),
         (⟨[4, 4, 4, 1, 4, 4, 4, 4, 4, 4, 4], [0, 1, 0, 0], [1, 0, 0, 0]⟩, 20),
         (⟨[4, 1, 4, 4, 4, 4, 4, 4, 4, 4, 4], [0, 1, 0, 0], [1, 0, 0, 0]⟩, 20),
         (⟨[1, 4, 4, 4, 4, 4, 4, 4, 4, 4, 4], [0, 1, 0, 0], [1, 0, 0, 0]⟩, 30)],
        54⟩ : Globals) ∧
    (((54 : Nat) = 56 ∨ ((54 : Nat) ≠ 0 ∧ ((56 : Nat) ≠ 0 → (54 : Nat) < 56))) ∧
      ((56 : Nat) ≠ 0 → (54 : Nat) ≠ 0 ∧ (54 : Nat) ≤ 56)) :=
  ⟨sample_visits_two, rfl, rfl,
   target_monotone [66, 65, 67, 68, 65, 66, 67, 68] 2
     ⟨Or.inl rfl, by decide, by decide, by decide⟩ ⟨false, [], [], [], 0⟩
     (⟨false, [[1, 0, 2, 3], [0, 1, 2, 3]],
        [⟨[4, 4, 4, 4, 4, 4, 4, 4, 4, 0, 4], [1, 0, 0, 0], [0, 1, 0, 0], 6, 2⟩,
         ⟨[4, 4, 4, 4, 4, 4, 4, 0, 4, 4, 4], [1, 0, 0, 0], [0, 1, 0, 0], 4, 2⟩,
         ⟨[4, 4, 4, 4, 4, 0, 4, 4, 4, 4, 4], [1, 0, 0, 0], [0, 1, 0, 0], 2, 2⟩,
         ⟨[4, 4, 4, 0, 4, 4, 4, 4, 4, 4, 4], [1, 0, 0, 0], [0, 1, 0, 0], 2, 2⟩,
         ⟨[4, 0, 4, 4, 4, 4, 4, 4, 4, 4, 4], [1, 0, 0, 0], [0, 1, 0, 0], 4, 2⟩,
         ⟨[0, 4, 4, 4, 4, 4, 4, 4, 4, 4, 4], [1, 0, 0, 0], [0, 1, 0, 0], 5, 2⟩,
         ⟨[4, 4, 4, 4, 4, 4, 4, 4, 4, 4, 1], [0, 1, 0, 0], [1, 0, 0, 0], 90, 2⟩,
         ⟨[4, 4, 4, 4, 4, 4, 4, 4, 4, 1, 4], [0, 1, 0, 0], [1, 0, 0, 0], 80, 2⟩,
         ⟨[4, 4, 4, 4, 4, 4, 4, 1, 4, 4, 4], [0, 1, 0, 0], [1, 0, 0, 0], 60, 2⟩,
         ⟨[4, 4, 4, 4, 4, 1, 4, 4, 4, 4, 4], [0, 1, 0, 0], [1, 0, 0, 0], 40, 2⟩,
         ⟨[4, 4, 4, 1, 4, 4, 4, 4, 4, 4, 4], [0, 1, 0, 0], [1, 0, 0, 0], 20, 2⟩,
         ⟨[4, 1, 4, 4, 4, 4, 4, 4, 4, 4, 4], [0, 1, 0, 0], [1, 0, 0, 0], 20, 2⟩,
         ⟨[1, 4, 4, 4, 4, 4, 4, 4, 4, 4, 4], [0, 1, 0, 0], [1, 0, 0, 0], 30, 2⟩],
        [(⟨[4, 4, 4, 4, 4, 4, 4, 4, 4, 4, 0], [1, 0, 0, 0], [0, 1, 0, 0]⟩, 7),
         (⟨[4, 4, 4, 4, 4, 4, 4, 4, 4, 0, 4], [1, 0, 0, 0], [0, 1, 0, 0]⟩, 6),
         (⟨[4, 4, 4, 4, 4, 4, 4, 0, 4, 4, 4], [1, 0, 0, 0], [0, 1, 0, 0]⟩, 4),
         (⟨[4, 4, 4, 4, 4, 0, 4, 4, 4, 4, 4], [1, 0, 0, 0], [0, 1, 0, 0]⟩, 2),
         (⟨[4, 4, 4, 0, 4, 4, 4, 4, 4, 4, 4], [1, 0, 0, 0], [0, 1, 0, 0]⟩, 2),
         (⟨[4, 0, 4, 4, 4, 4, 4, 4, 4, 4, 4], [1, 0, 0, 0], [0, 1, 0, 0]⟩, 4),
         (⟨[0, 4, 4, 4, 4, 4, 4, 4, 4, 4, 4], [1, 0, 0, 0], [0, 1, 0, 0]⟩, 5),
         (⟨[4, 4, 4, 4, 4, 4, 4, 4, 4, 4, 1], [0, 1, 0, 0], [1, 0, 0, 0]⟩, 90),
         (⟨[4, 4, 4, 4, 4, 4, 4, 4, 4, 1, 4], [0, 1, 0, 0], [1, 0, 0, 0]⟩, 80),
         (⟨[4, 4, 4, 4, 4, 4, 4, 1, 4, 4, 4], [0, 1, 0, 0], [1, 0, 0, 0]⟩, 60),
         (⟨[4, 4, 4, 4, 4, 1, 4, 4, 4, 4, 4], [0, 1, 0, 0], [1, 0, 0, 0]⟩, 40),
         (⟨[4, 4, 4, 1, 4, 4, 4, 4, 4, 4, 4], [0, 1, 0, 0], [1, 0, 0, 0]⟩, 20),
         (⟨[4, 1, 4, 4, 4, 4, 4, 4, 4, 4, 4], [0, 1, 0, 0], [1, 0, 0, 0]⟩, 20),
         (⟨[1, 4, 4, 4, 4, 4, 4, 4, 4, 4, 4], [0, 1, 0, 0], [1, 0, 0, 0]⟩, 30)],
        56⟩ : Globals)
     (⟨false, [[1, 0, 2, 3], [0, 1, 2, 3]],
        [⟨[4, 4, 4, 4, 4, 4, 4, 0, 4, 4, 4], [1, 0, 0, 0], [0, 1, 0, 0], 4, 2⟩,
         ⟨[4, 4, 4, 4, 4, 0, 4, 4, 4, 4, 4], [1, 0, 0, 0], [0, 1, 0, 0], 2, 2⟩,
         ⟨[4, 4, 4, 0, 4, 4, 4, 4, 4, 4, 4], [1, 0, 0, 0], [0, 1, 0, 0], 2, 2⟩,
         ⟨[4, 0, 4, 4, 4, 4, 4, 4, 4, 4, 4], [1, 0, 0, 0], [0, 1, 0, 0], 4, 2⟩,
         ⟨[0, 4, 4, 4, 4, 4, 4, 4, 4, 4, 4], [1, 0, 0, 0], [0, 1, 0, 0], 5, 2⟩,
         ⟨[4, 4, 4, 4, 4, 4, 4, 4, 4, 4, 1], [0, 1, 0, 0], [1, 0, 0, 0], 90, 2⟩,
         ⟨[4, 4, 4, 4, 4, 4, 4, 4, 4, 1, 4], [0, 1, 0, 0], [1, 0, 0, 0], 80, 2⟩,
         ⟨[4, 4, 4, 4, 4, 4, 4, 1, 4, 4, 4], [0, 1, 0, 0], [1, 0, 0, 0], 60, 2⟩,
         ⟨[4, 4, 4, 4, 4, 1, 4, 4, 4, 4, 4], [0, 1, 0, 0], [1, 0, 0, 0], 40, 2⟩,
         ⟨[4, 4, 4, 1, 4, 4, 4, 4, 4, 4, 4], [0, 1, 0, 0], [1, 0, 0, 0], 20, 2⟩,
         ⟨[4, 1, 4, 4, 4, 4, 4, 4, 4, 4, 4], [0, 1, 0, 0], [1, 0, 0, 0], 20, 2⟩,
         ⟨[1, 4, 4, 4, 4, 4, 4, 4, 4, 4, 4], [0, 1, 0, 0], [1, 0, 0, 0], 30, 2⟩],
        [(⟨[4, 4, 4, 4, 4, 4, 4, 4, 4, 4, 0], [1, 0, 0, 0], [0, 1, 0, 0]⟩, 7),
         (⟨[4, 4, 4, 4, 4, 4, 4, 4, 4, 0, 4], [1, 0, 0, 0], [0, 1, 0, 0]⟩, 6),
         (⟨[4, 4, 4, 4, 4, 4, 4, 0, 4, 4, 4], [1, 0, 0, 0], [0, 1, 0, 0]⟩, 4),
         (⟨[4, 4, 4, 4, 4, 0, 4, 4, 4, 4, 4], [1, 0, 0, 0], [0, 1, 0, 0]⟩, 2),
         (⟨[4, 4, 4, 0, 4, 4, 4, 4, 4, 4, 4], [1, 0, 0, 0], [0, 1, 0, 0]⟩, 2),
         (⟨[4, 0, 4, 4, 4, 4, 4, 4, 4, 4, 4], [1, 0, 0, 0], [0, 1, 0, 0]⟩, 4),
         (⟨[0, 4, 4, 4, 4, 4, 4, 4, 4, 4, 4], [1, 0, 0, 0], [0, 1, 0, 0]⟩, 5),
         (⟨[4, 4, 4, 4, 4, 4, 4, 4, 4, 4, 1], [0, 1, 0, 0], [1, 0, 0, 0]⟩, 90),
         (⟨[4, 4, 4, 4, 4, 4, 4, 4, 4, 1, 4], [0, 1, 0, 0], [1, 0, 0, 0]⟩, 80),
         (⟨[4, 4, 4, 4, 4, 4, 4, 1, 4, 4, 4], [0, 1, 0, 0], [1, 0, 0, 0]⟩, 60),
         (⟨[4, 4, 4, 4, 4, 1, 4, 4, 4, 4, 4], [0, 1, 0, 0], [1, 0, 0, 0]⟩, 40),
         (⟨[4, 4, 4, 1, 4, 4, 4, 4, 4, 4, 4], [0, 1, 0, 0], [1, 0, 0, 0]⟩, 20),
         (⟨[4, 1, 4, 4, 4, 4, 4, 4, 4, 4, 4], [0, 1, 0, 0], [1, 0, 0, 0]⟩, 20),
         (⟨[1, 4, 4, 4, 4, 4, 4, 4, 4, 4, 4], [0, 1, 0, 0], [1, 0, 0, 0]⟩, 30)],
        54⟩ : Globals)
     ⟨[4, 4, 4, 4, 4, 4, 4, 4, 4, 0, 4], [1, 0, 0, 0], [0, 1, 0, 0], 6, 2⟩
     [⟨[4, 4, 4, 4, 4, 4, 4, 0, 4, 4, 4], [1, 0, 0, 0], [0, 1, 0, 0], 4, 2⟩,
     ⟨[4, 4, 4, 4, 4, 0, 4, 4, 4, 4, 4], [1, 0, 0, 0], [0, 1, 0, 0], 2, 2⟩,
     ⟨[4, 4, 4, 0, 4, 4, 4, 4, 4, 4, 4], [1, 0, 0, 0], [0, 1, 0, 0], 2, 2⟩,
     ⟨[4, 0, 4, 4, 4, 4, 4, 4, 4, 4, 4], [1, 0, 0, 0], [0, 1, 0, 0], 4, 2⟩,
     ⟨[0, 4, 4, 4, 4, 4, 4, 4, 4, 4, 4], [1, 0, 0, 0], [0, 1, 0, 0], 5, 2⟩,
     ⟨[4, 4, 4, 4, 4, 4, 4, 4, 4, 4, 1], [0, 1, 0, 0], [1, 0, 0, 0], 90, 2⟩,
     ⟨[4, 4, 4, 4, 4, 4, 4, 4, 4, 1, 4], [0, 1, 0, 0], [1, 0, 0, 0], 80, 2⟩,
     ⟨[4, 4, 4, 4, 4, 4, 4, 1, 4, 4, 4], [0, 1, 0, 0], [1, 0, 0, 0], 60, 2⟩,
     ⟨[4, 4, 4, 4, 4, 1, 4, 4, 4, 4, 4], [0, 1, 0, 0], [1, 0, 0, 0], 40, 2⟩,
     ⟨[4, 4, 4, 1, 4, 4, 4, 4, 4, 4, 4], [0, 1, 0, 0], [1, 0, 0, 0], 20, 2⟩,
     ⟨[4, 1, 4, 4, 4, 4, 4, 4, 4, 4, 4], [0, 1, 0, 0], [1, 0, 0, 0], 20, 2⟩,
     ⟨[1, 4, 4, 4, 4, 4, 4, 4, 4, 4, 4], [0, 1, 0, 0], [1, 0, 0, 0], 30, 2⟩]
     5 sample_visits_two rfl rfl⟩

/-! ## Where `run` writes `target` -/

theorem roomStep_ret {m : List (List Nat)} {t t' : Nat} {s : State} {d : Bool} {c : Nat}
    (h : roomStep m t s d c = .ok (.ret t')) : t' = t := by
  unfold roomStep at h
  repeat' split at h
  all_goals first
    | (cases h; done)
    | (cases h; rfl)
    | (simp only at h; split at h <;> cases h; rfl)

theorem roomLoop_ret {m : List (List Nat)} {t t' : Nat} : ∀ (rooms : List Nat) (s : State)
    (d : Bool), roomLoop m t rooms s d = .ok (.ret t') → t' = t := by
  intro rooms
  induction rooms with
  | nil => intro s d h; simp [roomLoop] at h
  | cons c rest ih =>
    intro s d h
    unfold roomLoop at h
    cases hs : roomStep m t s d c with
    | error e => rw [hs] at h; cases h
    | ok f =>
      rw [hs] at h
      cases f with
      | ret t1 => cases h; exact roomStep_ret hs
      | go s1 d1 => exact ih s1 d1 h

theorem hallLoop_ret {t t' : Nat} : ∀ (cells : List Nat) (s : State) (d : Bool),
    hallLoop t cells s d = .ok (.ret t') →
    ∃ s1 d1 src, src ∈ cells ∧ hallStep t s1 d1 src = .ok (.ret t') := by
  intro cells
  induction cells with
  | nil => intro s d h; simp [hallLoop] at h
  | cons src rest ih =>
    intro s d h
    unfold hallLoop at h
    cases hs : hallStep t s d src with
    | error e => rw [hs] at h; cases h
    | ok f =>
      rw [hs] at h
      cases f with
      | ret t1 => cases h; exact ⟨s, d, src, List.mem_cons_self _ _, hs⟩
      | go s1 d1 =>
        obtain ⟨s2, d2, x, hx, hh⟩ := ih s1 d1 h
        exact ⟨s2, d2, x, List.mem_cons_of_mem _ hx, hh⟩

theorem inplace_ret {m : List (List Nat)} {t t' : Nat} : ∀ (fuel : Nat) (s : State),
    inplace m t fuel s = .ok (.ret t') →
    t' = t ∨ ∃ s1 d1 src, src ∈ spots ∧ hallStep t s1 d1 src = .ok (.ret t') := by
  intro fuel
  induction fuel with
  | zero => intro s h; simp [inplace] at h
  | succ fuel ih =>
    intro s h
    unfold inplace at h
    cases hh : hallLoop t spots s true with
    | error e => rw [hh] at h; cases h
    | ok f =>
      rw [hh] at h
      cases f with
      | ret t1 => cases h; exact Or.inr (hallLoop_ret spots s true hh)
      | go s1 d1 =>
        simp only at h
        cases hr : roomLoop m t [0, 1, 2, 3] s1 d1 with
        | error e => rw [hr] at h; cases h
        | ok f2 =>
          rw [hr] at h
          cases f2 with
          | ret t1 => cases h; exact Or.inl (roomLoop_ret _ s1 d1 hr)
          | go s2 d2 =>
            simp only at h
            cases d2 with
            | true => simp at h
            | false => exact ih s2 h

theorem branchStep_target {g g1 : Globals} {s : State} {min c r dst : Nat}
    (h : branchStep g s min c r dst = .ok g1) : g1.target = g.target := by
  unfold branchStep at h
  repeat' split at h
  all_goals first
    | (cases h; done)
    | (cases h; rfl)
    | (simp only at h; repeat' split at h
       all_goals first
         | (cases h; done)
         | (cases h; rfl))

theorem branchSpots_target {s : State} {min c r : Nat} : ∀ (cells : List Nat) (g g1 : Globals),
    branchSpots s min c r cells g = .ok g1 → g1.target = g.target := by
  intro cells
  induction cells with
  | nil => intro g g1 h; simp [branchSpots] at h; rw [h]
  | cons dst rest ih =>
    intro g g1 h
    unfold branchSpots at h
    cases hs : branchStep g s min c r dst with
    | error e => rw [hs] at h; cases h
    | ok g2 =>
      rw [hs] at h
      exact (ih g2 g1 h).trans (branchStep_target hs)

theorem branchRooms_target {s : State} {min : Nat} : ∀ (rooms : List Nat) (g g1 : Globals),
    branchRooms s min rooms g = .ok g1 → g1.target = g.target := by
  intro rooms
  induction rooms with
  | nil => intro g g1 h; simp [branchRooms] at h; rw [h]
  | cons c rest ih =>
    intro g g1 h
    unfold branchRooms at h
    split at h
    · cases h
    · split at h
      · exact ih g g1 h
      · split at h
        · cases h
        · split at h
          · rename_i g2 hs
            exact (ih g2 g1 h).trans (branchSpots_target _ _ _ hs)
          · cases h

theorem run_target_write {fuel : Nat} {g g1 : Globals} {s : State}
    (h : run fuel g s = .ok g1) (hne : g1.target ≠ g.target) :
    ∃ s1 d1 src, src ∈ spots ∧ hallStep g.target s1 d1 src = .ok (.ret g1.target) := by
  unfold run at h
  cases hi : inplace g.m g.target fuel s with
  | error e => rw [hi] at h; cases h
  | ok f =>
    rw [hi] at h
    cases f with
    | ret t' =>
      cases h
      rcases inplace_ret fuel s hi with h1 | h1
      · exact absurd h1 hne
      · exact h1
    | go s1 d1 =>
      simp only at h
      split at h
      · cases h
      · exact absurd (branchRooms_target _ _ _ h) hne

theorem hallStep_write_exact {t t' : Nat} {s : State} {d : Bool} {src : Nat}
    (hm : s.mobile.length = 4) (hsrc : src ≤ 10) (he : ∀ c, s.empty.getD c 0 ≤ 200)
    (hcost : s.cost ≤ 4000000000) (h : hallStep t s d src = .ok (.ret t')) (hne : t' ≠ t) :
    ∃ v, s.h[src]? = some v ∧ v < 4 ∧ s.remaining = 1 ∧
      t' = s.cost + (dist (col v) src + s.empty.getD v 0) * weights.getD v 0 := by
  unfold hallStep at h
  cases hx : s.h[src]? with
  | none => simp [idx, hx] at h
  | some v =>
    simp only [idx, hx] at h
    split at h
    · cases h
    · cases hmv : s.mobile[v]? with
      | none => simp [hmv] at h
      | some mv =>
        have hv : v < 4 := by
          have := (List.getElem?_eq_some_iff.mp hmv).1
          omega
        simp only [hmv] at h
        split at h
        · cases h
        · cases hp : pathClear s src (u8 ((v + 1) * 2)) with
          | error e => simp [hp] at h
          | ok b =>
            cases b with
            | false => simp [hp] at h
            | true =>
              simp only [hp] at h
              have hev := he v
              have hw : weights.getD v 0 ≤ 1000 := weights_getD_le
              have hcol := col_le hv
              have hd := dist_le (Nat.le_trans hcol (by omega)) hsrc
              cases hE : s.empty[v]? with
              | none => simp [hE] at h
              | some ev =>
                have hev' : s.empty.getD v 0 = ev := by simp [hE]
                have hW : weights[v]? = some (weights.getD v 0) := by
                  match v, hv with
                  | 0, _ => rfl
                  | 1, _ => rfl
                  | 2, _ => rfl
                  | 3, _ => rfl
                simp only [hE, hW] at h
                rw [u8_col hv, absDiff_eq_dist (by omega) (by omega),
                  u8_of_lt (show dist (col v) src + ev < 256 by omega)] at h
                have hprod : (dist (col v) src + ev) * weights.getD v 0 ≤ 210 * 1000 :=
                  Nat.mul_le_mul (by omega) hw
                rw [u32_of_lt (show (dist (col v) src + ev) * weights.getD v 0 < 4294967296 by
                  omega), u32_of_lt (show s.cost + (dist (col v) src + ev) * weights.getD v 0 <
                  4294967296 by omega)] at h
                split at h
                · cases h; exact absurd rfl hne
                · split at h
                  · rename_i hrem
                    cases h
                    exact ⟨v, rfl, hv, hrem, by rw [hev']⟩
                  · cases h

theorem hallLoop_ret_at {t t' : Nat} : ∀ (cells : List Nat) (s : State) (d : Bool),
    hallLoop t cells s d = .ok (.ret t') →
    ∃ pre src post s1 d1, cells = pre ++ src :: post ∧
      hallLoop t pre s d = .ok (.go s1 d1) ∧ hallStep t s1 d1 src = .ok (.ret t') := by
  intro cells
  induction cells with
  | nil => intro s d h; simp [hallLoop] at h
  | cons src rest ih =>
    intro s d h
    unfold hallLoop at h
    cases hs : hallStep t s d src with
    | error e => rw [hs] at h; cases h
    | ok f =>
      rw [hs] at h
      cases f with
      | ret t1 =>
        cases h
        exact ⟨[], src, rest, s, d, rfl, rfl, hs⟩
      | go s1 d1 =>
        obtain ⟨pre, x, post, s2, d2, e, hl, hh⟩ := ih s1 d1 h
        refine ⟨src :: pre, x, post, s2, d2, by rw [e]; rfl, ?_, hh⟩
        unfold hallLoop
        rw [hs]
        exact hl

theorem inplace_ret_at {m : List (List Nat)} {t t' : Nat} : ∀ (fuel : Nat) (s : State),
    inplace m t fuel s = .ok (.ret t') →
    t' = t ∨ ∃ w pre src post s1 d1, Passes m t s w ∧ spots = pre ++ src :: post ∧
      hallLoop t pre w true = .ok (.go s1 d1) ∧ hallStep t s1 d1 src = .ok (.ret t') := by
  intro fuel
  induction fuel with
  | zero => intro s h; simp [inplace] at h
  | succ fuel ih =>
    intro s h
    unfold inplace at h
    cases hh : hallLoop t spots s true with
    | error e => rw [hh] at h; cases h
    | ok f =>
      rw [hh] at h
      cases f with
      | ret t1 =>
        cases h
        obtain ⟨pre, src, post, s1, d1, e, hl, hs⟩ := hallLoop_ret_at spots s true hh
        exact Or.inr ⟨s, pre, src, post, s1, d1, Passes.start s, e, hl, hs⟩
      | go s1 d1 =>
        simp only at h
        cases hr : roomLoop m t [0, 1, 2, 3] s1 d1 with
        | error e => rw [hr] at h; cases h
        | ok f2 =>
          rw [hr] at h
          cases f2 with
          | ret t1 => cases h; exact Or.inl (roomLoop_ret _ s1 d1 hr)
          | go s2 d2 =>
            simp only at h
            cases d2 with
            | true => simp at h
            | false =>
              rcases ih s2 h with e | ⟨w, pre, src, post, s3, d3, hp, e, hl, hs⟩
              · exact Or.inl e
              · exact Or.inr ⟨w, pre, src, post, s3, d3, Passes.next hh hr hp, e, hl, hs⟩

theorem run_write_at {fuel : Nat} {g g1 : Globals} {s : State}
    (h : run fuel g s = .ok g1) (hne : g1.target ≠ g.target) :
    ∃ w pre src post s1 d1, Passes g.m g.target s w ∧ spots = pre ++ src :: post ∧
      hallLoop g.target pre w true = .ok (.go s1 d1) ∧
      hallStep g.target s1 d1 src = .ok (.ret g1.target) ∧
      g1 = { g with target := g1.target } := by
  unfold run at h
  cases hi : inplace g.m g.target fuel s with
  | error e => rw [hi] at h; cases h
  | ok f =>
    rw [hi] at h
    cases f with
    | ret t' =>
      cases h
      rcases inplace_ret_at fuel s hi with h1 | ⟨w, pre, src, post, s1, d1, hp, e, hl, hs⟩
      · exact absurd h1 hne
      · exact ⟨w, pre, src, post, s1, d1, hp, e, hl, hs, rfl⟩
    | go s1 d1 =>
      simp only at h
      split at h
      · cases h
      · exact absurd (branchRooms_target _ _ _ h) hne

theorem hallLoop_inv {m : List (List Nat)} {n : Nat} (tab : TableOK m n) {t : Nat}
    {cells : List Nat} {s s1 : State} {d d1 : Bool} (inv : Inv m n s)
    (hc : ∀ x, x ∈ cells → x ∈ spots) (h : hallLoop t cells s d = .ok (.go s1 d1)) :
    Inv m n s1 := by
  obtain ⟨r, hr, ok⟩ := hallLoop_ok tab t cells s d inv hc
  rw [h] at hr
  cases hr
  exact ok.1

theorem roomLoop_inv {m : List (List Nat)} {n : Nat} (tab : TableOK m n) {t : Nat}
    {s s1 : State} {d d1 : Bool} (inv : Inv m n s)
    (h : roomLoop m t [0, 1, 2, 3] s d = .ok (.go s1 d1)) : Inv m n s1 := by
  obtain ⟨r, hr, ok⟩ := roomLoop_ok tab t [0, 1, 2, 3] s d inv
    (fun x hx => by simp at hx; omega)
  rw [h] at hr
  cases hr
  exact ok.1

theorem Passes.stays {m : List (List Nat)} {n : Nat} (tab : TableOK m n) {t : Nat} {s w : State}
    (h : Passes m t s w) : Inv m n s → Inv m n w := by
  induction h with
  | start => exact id
  | next hh hr _ ih =>
    intro inv
    exact ih (roomLoop_inv tab (hallLoop_inv tab inv (fun _ hx => hx) hh) hr)

/-- C7: whenever a call of `run` on a popped state `s` leaves a new value in `target`, that
value was written at the `remaining == 1` check of the in-place hallway -> room rule, in the
working state `s1` that the call had reached: some pass of the `for !done` loop started in
`w`, the hallway loop had gone through the cells `pre` of `spots`, leaving `s1`, and the rule
for the next cell `src` returned the new value; nothing else in the globals changed. If `s1`
is in range (four rooms, `empty` counts at most 200, cost at most 4000000000), then
`s1.remaining = 1`, a piece `v` is parked at `src`, and the new `target` is the accumulated
cost of `s1` plus `(|2*(v+1) - src| + empty[v]) * weights[v]`: the last move is charged in
full. In a search on a well-formed input every such working state is in range, so there the
equation holds without a side condition, and the piece has `mobile[v] = 0` and
`pathClear(src, 2*(v+1))`. -/
theorem last_move_charged :
    (∀ (fuel : Nat) (g g1 : Globals) (s : State), run fuel g s = .ok g1 →
      g1.target ≠ g.target →
      ∃ w pre src post s1 d1, Passes g.m g.target s w ∧ spots = pre ++ src :: post ∧
        hallLoop g.target pre w true = .ok (.go s1 d1) ∧
        hallStep g.target s1 d1 src = .ok (.ret g1.target) ∧
        g1 = { g with target := g1.target } ∧
        (s1.mobile.length = 4 → (∀ c, s1.empty.getD c 0 ≤ 200) → s1.cost ≤ 4000000000 →
          ∃ v, s1.h[src]? = some v ∧ v < 4 ∧ s1.remaining = 1 ∧
            g1.target =
              s1.cost + (dist (2 * (v + 1)) src + s1.empty.getD v 0) * weights.getD v 0 ∧
            dist (2 * (v + 1)) src = (if src ≤ 2 * (v + 1) then 2 * (v + 1) - src
              else src - 2 * (v + 1)))) ∧
    (∀ (chars : List Nat) (n : Nat) (g0 g g1 : Globals) (s : State) (rest : List State)
      (fuel : Nat), WellFormed chars n → Visits (startGlobals g0 chars) g →
      g.stack = s :: rest → run fuel { g with stack := rest } s = .ok g1 →
      g1.target ≠ g.target →
      ∃ w pre src post s1 d1 v, Passes g.m g.target s w ∧ spots = pre ++ src :: post ∧
        hallLoop g.target pre w true = .ok (.go s1 d1) ∧
        hallStep g.target s1 d1 src = .ok (.ret g1.target) ∧
        g1 = { g with stack := rest, target := g1.target } ∧
        s1.h.getD src free = v ∧ v < 4 ∧ s1.mobile.getD v 0 = 0 ∧
        pathClear s1 src (2 * (v + 1)) = .ok true ∧ s1.remaining = 1 ∧
        g1.target =
          s1.cost + (dist (2 * (v + 1)) src + s1.empty.getD v 0) * weights.getD v 0) := by
  have part1 : ∀ (fuel : Nat) (g g1 : Globals) (s : State), run fuel g s = .ok g1 →
      g1.target ≠ g.target →
      ∃ w pre src post s1 d1, Passes g.m g.target s w ∧ spots = pre ++ src :: post ∧
        hallLoop g.target pre w true = .ok (.go s1 d1) ∧
        hallStep g.target s1 d1 src = .ok (.ret g1.target) ∧
        g1 = { g with target := g1.target } ∧
        (s1.mobile.length = 4 → (∀ c, s1.empty.getD c 0 ≤ 200) → s1.cost ≤ 4000000000 →
          ∃ v, s1.h[src]? = some v ∧ v < 4 ∧ s1.remaining = 1 ∧
            g1.target =
              s1.cost + (dist (2 * (v + 1)) src + s1.empty.getD v 0) * weights.getD v 0 ∧
            dist (2 * (v + 1)) src = (if src ≤ 2 * (v + 1) then 2 * (v + 1) - src
              else src - 2 * (v + 1))) := by
    intro fuel g g1 s h hne
    obtain ⟨w, pre, src, post, s1, d1, hp, e, hl, hs, hg⟩ := run_write_at h hne
    refine ⟨w, pre, src, post, s1, d1, hp, e, hl, hs, hg, ?_⟩
    intro hm he hcost
    have hsrc : src ≤ 10 :=
      mem_spots_le (by rw [e]; exact List.mem_append_right _ (List.mem_cons_self _ _))
    obtain ⟨v, h1, h2, h3, h4⟩ := hallStep_write_exact hm hsrc he hcost hs hne
    refine ⟨v, h1, h2, h3, h4, ?_⟩
    unfold dist
    split <;> split <;> omega
  refine ⟨part1, ?_⟩
  intro chars n g0 g g1 s rest fuel wf hv hst hrun hne
  obtain ⟨_, _, tab, hinv⟩ := hv.stack_inv wf
  have invs : Inv g.m n s := hinv s (by rw [hst]; exact List.mem_cons_self _ _)
  obtain ⟨w, pre, src, post, s1, d1, hp, e, hl, hs, hg, _⟩ :=
    part1 fuel { g with stack := rest } g1 s hrun hne
  simp only at hp hl hs
  have hsrc : src ∈ spots := by
    rw [e]; exact List.mem_append_right _ (List.mem_cons_self _ _)
  have hpre : ∀ x, x ∈ pre → x ∈ spots := by
    intro x hx
    rw [e]; exact List.mem_append_left _ hx
  have inv1 : Inv g.m n s1 := hallLoop_inv tab (hp.stays tab invs) hpre hl
  refine ⟨w, pre, src, post, s1, d1, s1.h.getD src free, hp, e, hl, hs, hg, rfl, ?_⟩
  rcases hallStep_spec inv1 tab g.target d1 hsrc with ⟨_, e1⟩ | ⟨hce, e1⟩
  · rw [e1] at hs
    cases hs
  · rw [e1] at hs
    split at hs
    · have h := Flow.ret.inj (Except.ok.inj hs)
      exact absurd h.symm hne
    · split at hs
      · rename_i hrem
        have h := Flow.ret.inj (Except.ok.inj hs)
        have hpc := pathClear_of_inv s1 src (col (s1.h.getD src free)) inv1.hlen
          (mem_spots_le hsrc) (Nat.le_trans (col_le (inv1.label_lt hce.1)) (by omega))
        have hclear : pathClear s1 src (2 * (s1.h.getD src free + 1)) = .ok true := by
          rcases hpc with ⟨h1, _⟩ | ⟨_, h2⟩
          · exact h1
          · exact absurd hce.2.2 h2
        exact ⟨inv1.label_lt hce.1, hce.2.1, hclear, hrem, h.symm⟩
      · cases hs

/-- Witness for C7: the second iteration of the work-list loop on the input `BACDABCD`. The
popped state has A parked in cell 10 at cost 7; B goes from room A to room B (cost 40), and
the last move of A into room A is charged in full: `target = 47 + (8 + 1) * 1 = 56`. -/
theorem last_move_charged_witness :
    WellFormed [66, 65, 67, 68, 65, 66, 67, 68] 2 ∧
    Visits (startGlobals ⟨false, [], [], [], 0⟩ [66, 65, 67, 68, 65, 66, 67, 68])
      (⟨false, [[1, 0, 2, 3], [0, 1, 2, 3]],
        [⟨[4, 4, 4, 4, 4, 4, 4, 4, 4, 4, 0], [1, 0, 0, 0], [0, 1, 0, 0], 7, 2⟩,
         ⟨[4, 4, 4, 4, 4, 4, 4, 4, 4, 0, 4], [1, 0, 0, 0], [0, 1, 0, 0], 6, 2⟩,
         ⟨[4, 4, 4, 4, 4, 4, 4, 0, 4, 4, 4], [1, 0, 0, 0], [0, 1, 0, 0], 4, 2⟩,
         ⟨[4, 4, 4, 4, 4, 0, 4, 4, 4, 4, 4], [1, 0, 0, 0], [0, 1, 0, 0], 2, 2⟩,
         ⟨[4, 4, 4, 0, 4, 4, 4, 4, 4, 4, 4], [1, 0, 0, 0], [0, 1, 0, 0], 2, 2⟩,
         ⟨[4, 0, 4, 4, 4, 4, 4, 4, 4, 4, 4], [1, 0, 0, 0], [0, 1, 0, 0], 4, 2⟩,
         ⟨[0, 4, 4, 4, 4, 4, 4, 4, 4, 4, 4], [1, 0, 0, 0], [0, 1, 0, 0], 5, 2⟩,
         ⟨[4, 4, 4, 4, 4, 4, 4, 4, 4, 4, 1], [0, 1, 0, 0], [1, 0, 0, 0], 90, 2⟩,
         ⟨[4, 4, 4, 4, 4, 4, 4, 4, 4, 1, 4], [0, 1, 0, 0], [1, 0, 0, 0], 80, 2⟩,
         ⟨[4, 4, 4, 4, 4, 4, 4, 1, 4, 4, 4], [0, 1, 0, 0], [1, 0, 0, 0], 60, 2⟩,
         ⟨[4, 4, 4, 4, 4, 1, 4, 4, 4, 4, 4], [0, 1, 0, 0], [1, 0, 0, 0], 40, 2⟩,
         ⟨[4, 4, 4, 1, 4, 4, 4, 4, 4, 4, 4], [0, 1, 0, 0], [1, 0, 0, 0], 20, 2⟩,
         ⟨[4, 1, 4, 4, 4, 4, 4, 4, 4, 4, 4], [0, 1, 0, 0], [1, 0, 0, 0], 20, 2⟩,
         ⟨[1, 4, 4, 4, 4, 4, 4, 4, 4, 4, 4], [0, 1, 0, 0], [1, 0, 0, 0], 30, 2⟩],
        [(⟨[4, 4, 4, 4, 4, 4, 4, 4, 4, 4, 0], [1, 0, 0, 0], [0, 1, 0, 0]⟩, 7),
         (⟨[4, 4, 4, 4, 4, 4, 4, 4, 4, 0, 4], [1, 0, 0, 0], [0, 1, 0, 0]⟩, 6),
         (⟨[4, 4, 4, 4, 4, 4, 4, 0, 4, 4, 4], [1, 0, 0, 0], [0, 1, 0, 0]⟩, 4),
         (⟨[4, 4, 4, 4, 4, 0, 4, 4, 4, 4, 4], [1, 0, 0, 0], [0, 1, 0, 0]⟩, 2),
         (⟨[4, 4, 4, 0, 4, 4, 4, 4, 4, 4, 4], [1, 0, 0, 0], [0, 1, 0, 0]⟩, 2),
         (⟨[4, 0, 4, 4, 4, 4, 4, 4, 4, 4, 4], [1, 0, 0, 0], [0, 1, 0, 0]⟩, 4),
         (⟨[0, 4, 4, 4, 4, 4, 4, 4, 4, 4, 4], [1, 0, 0, 0], [0, 1, 0, 0]⟩, 5),
         (⟨[4, 4, 4, 4, 4, 4, 4, 4, 4, 4, 1], [0, 1, 0, 0], [1, 0, 0, 0]⟩, 90),
         (⟨[4, 4, 4, 4, 4, 4, 4, 4, 4, 1, 4], [0, 1, 0, 0], [1, 0, 0, 0]⟩, 80),
         (⟨[4, 4, 4, 4, 4, 4, 4, 1, 4, 4, 4], [0, 1, 0, 0], [1, 0, 0, 0]⟩, 60),
         (⟨[4, 4, 4, 4, 4, 1, 4, 4, 4, 4, 4], [0, 1, 0, 0], [1, 0, 0, 0]⟩, 40),
         (⟨[4, 4, 4, 1, 4, 4, 4, 4, 4, 4, 4], [0, 1, 0, 0], [1, 0, 0, 0]⟩, 20),
         (⟨[4, 1, 4, 4, 4, 4, 4, 4, 4, 4, 4], [0, 1, 0, 0], [1, 0, 0, 0]⟩, 20),
         (⟨[1, 4, 4, 4, 4, 4, 4, 4, 4, 4, 4], [0, 1, 0, 0], [1, 0, 0, 0]⟩, 30)],
        0⟩ : Globals) ∧
    (⟨false, [[1, 0, 2, 3], [0, 1, 2, 3]],
        [⟨[4, 4, 4, 4, 4, 4, 4, 4, 4, 4, 0], [1, 0, 0, 0], [0, 1, 0, 0], 7, 2⟩,
         ⟨[4, 4, 4, 4, 4, 4, 4, 4, 4, 0, 4], [1, 0, 0, 0], [0, 1, 0, 0], 6, 2⟩,
         ⟨[4, 4, 4, 4, 4, 4, 4, 0, 4, 4, 4], [1, 0, 0, 0], [0, 1, 0, 0], 4, 2⟩,
         ⟨[4, 4, 4, 4, 4, 0, 4, 4, 4, 4, 4], [1, 0, 0, 0], [0, 1, 0, 0], 2, 2⟩,
         ⟨[4, 4, 4, 0, 4, 4, 4, 4, 4, 4, 4], [1, 0, 0, 0], [0, 1, 0, 0], 2, 2⟩,
         ⟨[4, 0, 4, 4, 4, 4, 4, 4, 4, 4, 4], [1, 0, 0, 0], [0, 1, 0, 0], 4, 2⟩,
         ⟨[0, 4, 4, 4, 4, 4, 4, 4, 4, 4, 4], [1, 0, 0, 0], [0, 1, 0, 0], 5, 2⟩,
         ⟨[4, 4, 4, 4, 4, 4, 4, 4, 4, 4, 1], [0, 1, 0, 0], [1, 0, 0, 0], 90, 2⟩,
         ⟨[4, 4, 4, 4, 4, 4, 4, 4, 4, 1, 4], [0, 1, 0, 0], [1, 0, 0, 0], 80, 2⟩,
         ⟨[4, 4, 4, 4, 4, 4, 4, 1, 4, 4, 4], [0, 1, 0, 0], [1, 0, 0, 0], 60, 2⟩,
         ⟨[4, 4, 4, 4, 4, 1, 4, 4, 4, 4, 4], [0, 1, 0, 0], [1, 0, 0, 0], 40, 2⟩,
         ⟨[4, 4, 4, 1, 4, 4, 4, 4, 4, 4, 4], [0, 1, 0, 0], [1, 0, 0, 0], 20, 2⟩,
         ⟨[4, 1, 4, 4, 4, 4, 4, 4, 4, 4, 4], [0, 1, 0, 0], [1, 0, 0, 0], 20, 2⟩,
         ⟨[1, 4, 4, 4, 4, 4, 4, 4, 4, 4, 4], [0, 1, 0, 0], [1, 0, 0, 0], 30, 2⟩],
        [(⟨[4, 4, 4, 4, 4, 4, 4, 4, 4, 4, 0], [1, 0, 0, 0], [0, 1, 0, 0]⟩, 7),
         (⟨[4, 4, 4, 4, 4, 4, 4, 4, 4, 0, 4], [1, 0, 0, 0], [0, 1, 0, 0]⟩, 6),
         (⟨[4, 4, 4, 4, 4, 4, 4, 0, 4, 4, 4], [1, 0, 0, 0], [0, 1, 0, 0]⟩, 4),
         (⟨[4, 4, 4, 4, 4, 0, 4, 4, 4, 4, 4], [1, 0, 0, 0], [0, 1, 0, 0]⟩, 2),
         (⟨[4, 4, 4, 0, 4, 4, 4, 4, 4, 4, 4], [1, 0, 0, 0], [0, 1, 0, 0]⟩, 2),
         (⟨[4, 0, 4, 4, 4, 4, 4, 4, 4, 4, 4], [1, 0, 0, 0], [0, 1, 0, 0]⟩, 4),
         (⟨[0, 4, 4, 4, 4, 4, 4, 4, 4, 4, 4], [1, 0, 0, 0], [0, 1, 0, 0]⟩, 5),
         (⟨[4, 4, 4, 4, 4, 4, 4, 4, 4, 4, 1], [0, 1, 0, 0], [1, 0, 0, 0]⟩, 90),
         (⟨[4, 4, 4, 4, 4, 4, 4, 4, 4, 1, 4], [0, 1, 0, 0], [1, 0, 0, 0]⟩, 80),
         (⟨[4, 4, 4, 4, 4, 4, 4, 1, 4, 4, 4], [0, 1, 0, 0], [1, 0, 0, 0]⟩, 60),
         (⟨[4, 4, 4, 4, 4, 1, 4, 4, 4, 4, 4], [0, 1, 0, 0], [1, 0, 0, 0]⟩, 40),
         (⟨[4, 4, 4, 1, 4, 4, 4, 4, 4, 4, 4], [0, 1, 0, 0], [1, 0, 0, 0]⟩, 20),
         (⟨[4, 1, 4, 4, 4, 4, 4, 4, 4, 4, 4], [0, 1, 0, 0], [1, 0, 0, 0]⟩, 20),
         (⟨[1, 4, 4, 4, 4, 4, 4, 4, 4, 4, 4], [0, 1, 0, 0], [1, 0, 0, 0]⟩, 30)],
        0⟩ : Globals).stack =
      ⟨[4, 4, 4, 4, 4, 4, 4, 4, 4, 4, 0], [1, 0, 0, 0], [0, 1, 0, 0], 7, 2⟩ ::
        [⟨[4, 4, 4, 4, 4, 4, 4, 4, 4, 0, 4], [1, 0, 0, 0], [0, 1, 0, 0], 6, 2⟩,
         ⟨[4, 4, 4, 4, 4, 4, 4, 0, 4, 4, 4], [1, 0, 0, 0], [0, 1, 0, 0], 4, 2⟩,
         ⟨[4, 4, 4, 4, 4, 0, 4, 4, 4, 4, 4], [1, 0, 0, 0], [0, 1, 0, 0], 2, 2⟩,
         ⟨[4, 4, 4, 0, 4, 4, 4, 4, 4, 4, 4], [1, 0, 0, 0], [0, 1, 0, 0], 2, 2⟩,
         ⟨[4, 0, 4, 4, 4, 4, 4, 4, 4, 4, 4], [1, 0, 0, 0], [0, 1, 0, 0], 4, 2⟩,
         ⟨[0, 4, 4, 4, 4, 4, 4, 4, 4, 4, 4], [1, 0, 0, 0], [0, 1, 0, 0], 5, 2⟩,
         ⟨[4, 4, 4, 4, 4, 4, 4, 4, 4, 4, 1], [0, 1, 0, 0], [1, 0, 0, 0], 90, 2⟩,
         ⟨[4, 4, 4, 4, 4, 4, 4, 4, 4, 1, 4], [0, 1, 0, 0], [1, 0, 0, 0], 80, 2⟩,
         ⟨[4, 4, 4, 4, 4, 4, 4, 1, 4, 4, 4], [0, 1, 0, 0], [1, 0, 0, 0], 60, 2⟩,
         ⟨[4, 4, 4, 4, 4, 1, 4, 4, 4, 4, 4], [0, 1, 0, 0], [1, 0, 0, 0], 40, 2⟩,
         ⟨[4, 4, 4, 1, 4, 4, 4, 4, 4, 4, 4], [0, 1, 0, 0], [1, 0, 0, 0], 20, 2⟩,
         ⟨[4, 1, 4, 4, 4, 4, 4, 4, 4, 4, 4], [0, 1, 0, 0], [1, 0, 0, 0], 20, 2⟩,
         ⟨[1, 4, 4, 4, 4, 4, 4, 4, 4, 4, 4], [0, 1, 0, 0], [1, 0, 0, 0], 30, 2⟩] ∧
    run 5 { (⟨false, [[1, 0, 2, 3], [0, 1, 2, 3]],
        [⟨[4, 4, 4, 4, 4, 4, 4, 4, 4, 4, 0], [1, 0, 0, 0], [0, 1, 0, 0], 7, 2⟩,
         ⟨[4, 4, 4, 4, 4, 4, 4, 4, 4, 0, 4], [1, 0, 0, 0], [0, 1, 0, 0], 6, 2⟩,
         ⟨[4, 4, 4, 4, 4, 4, 4, 0, 4, 4, 4], [1, 0, 0, 0], [0, 1, 0, 0], 4, 2⟩,
         ⟨[4, 4, 4, 4, 4, 0, 4, 4, 4, 4, 4], [1, 0, 0, 0], [0, 1, 0, 0], 2, 2⟩,
         ⟨[4, 4, 4, 0, 4, 4, 4, 4, 4, 4, 4], [1, 0, 0, 0], [0, 1, 0, 0], 2, 2⟩,
         ⟨[4, 0, 4, 4, 4, 4, 4, 4, 4, 4, 4], [1, 0, 0, 0], [0, 1, 0, 0], 4, 2⟩,
         ⟨[0, 4, 4, 4, 4, 4, 4, 4, 4, 4, 4], [1, 0, 0, 0], [0, 1, 0, 0], 5, 2⟩,
         ⟨[4, 4, 4, 4, 4, 4, 4, 4, 4, 4, 1], [0, 1, 0, 0], [1, 0, 0, 0], 90, 2⟩,
         ⟨[4, 4, 4, 4, 4, 4, 4, 4, 4, 1, 4], [0, 1, 0, 0], [1, 0, 0, 0], 80, 2⟩,
         ⟨[4, 4, 4, 4, 4, 4, 4, 1, 4, 4, 4], [0, 1, 0, 0], [1, 0, 0, 0], 60, 2⟩,
         ⟨[4, 4, 4, 4, 4, 1, 4, 4, 4, 4, 4], [0, 1, 0, 0], [1, 0, 0, 0], 40, 2⟩,
         ⟨[4, 4, 4, 1, 4, 4, 4, 4, 4, 4, 4], [0, 1, 0, 0], [1, 0, 0, 0], 20, 2⟩,
         ⟨[4, 1, 4, 4, 4, 4, 4, 4, 4, 4, 4], [0, 1, 0, 0], [1, 0, 0, 0], 20, 2⟩,
         ⟨[1, 4, 4, 4, 4, 4, 4, 4, 4, 4, 4], [0, 1, 0, 0], [1, 0, 0, 0], 30, 2⟩],
        [(⟨[4, 4, 4, 4, 4, 4, 4, 4, 4, 4, 0], [1, 0, 0, 0], [0, 1, 0, 0]⟩, 7),
         (⟨[4, 4, 4, 4, 4, 4, 4, 4, 4, 0, 4], [1, 0, 0, 0], [0, 1, 0, 0]⟩, 6),
         (⟨[4, 4, 4, 4, 4, 4, 4, 0, 4, 4, 4], [1, 0, 0, 0], [0, 1, 0, 0]⟩, 4),
         (⟨[4, 4, 4, 4, 4, 0, 4, 4, 4, 4, 4], [1, 0, 0, 0], [0, 1, 0, 0]⟩, 2),
         (⟨[4, 4, 4, 0, 4, 4, 4, 4, 4, 4, 4], [1, 0, 0, 0], [0, 1, 0, 0]⟩, 2),
         (⟨[4, 0, 4, 4, 4, 4, 4, 4, 4, 4, 4], [1, 0, 0, 0], [0, 1, 0, 0]⟩, 4),
         (⟨[0, 4, 4, 4, 4, 4, 4, 4, 4, 4, 4], [1, 0, 0, 0], [0, 1, 0, 0]⟩, 5),
         (⟨[4, 4, 4, 4, 4, 4, 4, 4, 4, 4, 1], [0, 1, 0, 0], [1, 0, 0, 0]⟩, 90),
         (⟨[4, 4, 4, 4, 4, 4, 4, 4, 4, 1, 4], [0, 1, 0, 0], [1, 0, 0, 0]⟩, 80),
         (⟨[4, 4, 4, 4, 4, 4, 4, 1, 4, 4, 4], [0, 1, 0, 0], [1, 0, 0, 0]⟩, 60),
         (⟨[4, 4, 4, 4, 4, 1, 4, 4, 4, 4, 4], [0, 1, 0, 0], [1, 0, 0, 0]⟩, 40),
         (⟨[4, 4, 4, 1, 4, 4, 4, 4, 4, 4, 4], [0, 1, 0, 0], [1, 0, 0, 0]⟩, 20),
         (⟨[4, 1, 4, 4, 4, 4, 4, 4, 4, 4, 4], [0, 1, 0, 0], [1, 0, 0, 0]⟩, 20),
         (⟨[1, 4, 4, 4, 4, 4, 4, 4, 4, 4, 4], [0, 1, 0, 0], [1, 0, 0, 0]⟩, 30)],
        0⟩ : Globals) with
        stack := [⟨[4, 4, 4, 4, 4, 4, 4, 4, 4, 0, 4], [1, 0, 0, 0], [0, 1, 0, 0], 6, 2⟩,
         ⟨[4, 4, 4, 4, 4, 4, 4, 0, 4, 4, 4], [1, 0, 0, 0], [0, 1, 0, 0], 4, 2⟩,
         ⟨[4, 4, 4, 4, 4, 0, 4, 4, 4, 4, 4], [1, 0, 0, 0], [0, 1, 0, 0], 2, 2⟩,
         ⟨[4, 4, 4, 0, 4, 4, 4, 4, 4, 4, 4], [1, 0, 0, 0], [0, 1, 0, 0], 2, 2⟩,
         ⟨[4, 0, 4, 4, 4, 4, 4, 4, 4, 4, 4], [1, 0, 0, 0], [0, 1, 0, 0], 4, 2⟩,
         ⟨[0, 4, 4, 4, 4, 4, 4, 4, 4, 4, 4], [1, 0, 0, 0], [0, 1, 0, 0], 5, 2⟩,
         ⟨[4, 4, 4, 4, 4, 4, 4, 4, 4, 4, 1], [0, 1, 0, 0], [1, 0, 0, 0], 90, 2⟩,
         ⟨[4, 4, 4, 4, 4, 4, 4, 4, 4, 1, 4], [0, 1, 0, 0], [1, 0, 0, 0], 80, 2⟩,
         ⟨[4, 4, 4, 4, 4, 4, 4, 1, 4, 4, 4], [0, 1, 0, 0], [1, 0, 0, 0], 60, 2⟩,
         ⟨[4, 4, 4, 4, 4, 1, 4, 4, 4, 4, 4], [0, 1, 0, 0], [1, 0, 0, 0], 40, 2⟩,
         ⟨[4, 4, 4, 1, 4, 4, 4, 4, 4, 4, 4], [0, 1, 0, 0], [1, 0, 0, 0], 20, 2⟩,
         ⟨[4, 1, 4, 4, 4, 4, 4, 4, 4, 4, 4], [0, 1, 0, 0], [1, 0, 0, 0], 20, 2⟩,
         ⟨[1, 4, 4, 4, 4, 4, 4, 4, 4, 4, 4], [0, 1, 0, 0], [1, 0, 0, 0], 30, 2⟩] }
        ⟨[4, 4, 4, 4, 4, 4, 4, 4, 4, 4, 0], [1, 0, 0, 0], [0, 1, 0, 0], 7, 2⟩ =
      .ok (⟨false, [[1, 0, 2, 3], [0, 1, 2, 3]],
        [⟨[4, 4, 4, 4, 4, 4, 4, 4, 4, 0, 4], [1, 0, 0, 0], [0, 1, 0, 0], 6, 2⟩,
         ⟨[4, 4, 4, 4, 4, 4, 4, 0, 4, 4, 4], [1, 0, 0, 0], [0, 1, 0, 0], 4, 2⟩,
         ⟨[4, 4, 4, 4, 4, 0, 4, 4, 4, 4, 4], [1, 0, 0, 0], [0, 1, 0, 0], 2, 2⟩,
         ⟨[4, 4, 4, 0, 4, 4, 4, 4, 4, 4, 4], [1, 0, 0, 0], [0, 1, 0, 0], 2, 2⟩,
         ⟨[4, 0, 4, 4, 4, 4, 4, 4, 4, 4, 4], [1, 0, 0, 0], [0, 1, 0, 0], 4, 2⟩,
         ⟨[0, 4, 4, 4, 4, 4, 4, 4, 4, 4, 4], [1, 0, 0, 0], [0, 1, 0, 0], 5, 2⟩,
         ⟨[4, 4, 4, 4, 4, 4, 4, 4, 4, 4, 1], [0, 1, 0, 0], [1, 0, 0, 0], 90, 2⟩,
         ⟨[4, 4, 4, 4, 4, 4, 4, 4, 4, 1, 4], [0, 1, 0, 0], [1, 0, 0, 0], 80, 2⟩,
         ⟨[4, 4, 4, 4, 4, 4, 4, 1, 4, 4, 4], [0, 1, 0, 0], [1, 0, 0, 0], 60, 2⟩,
         ⟨[4, 4, 4, 4, 4, 1, 4, 4, 4, 4, 4], [0, 1, 0, 0], [1, 0, 0, 0], 40, 2⟩,
         ⟨[4, 4, 4, 1, 4, 4, 4, 4, 4, 4, 4], [0, 1, 0, 0], [1, 0, 0, 0], 20, 2⟩,
         ⟨[4, 1, 4, 4, 4, 4, 4, 4, 4, 4, 4], [0, 1, 0, 0], [1, 0, 0, 0], 20, 2⟩,
         ⟨[1, 4, 4, 4, 4, 4, 4, 4, 4, 4, 4], [0, 1, 0, 0], [1, 0, 0, 0], 30, 2⟩],
        [(⟨[4, 4, 4, 4, 4, 4, 4, 4, 4, 4, 0], [1, 0, 0, 0], [0, 1, 0, 0]⟩, 7),
         (⟨[4, 4, 4, 4, 4, 4, 4, 4, 4, 0, 4], [1, 0, 0, 0], [0, 1, 0, 0]⟩, 6),
         (⟨[4, 4, 4, 4, 4, 4, 4, 0, 4, 4, 4], [1, 0, 0, 0], [0, 1, 0, 0]⟩, 4),
         (⟨[4, 4, 4, 4, 4, 0, 4, 4, 4, 4, 4], [1, 0, 0, 0], [0, 1, 0, 0]⟩, 2),
         (⟨[4, 4, 4, 0, 4, 4, 4, 4, 4, 4, 4], [1, 0, 0, 0], [0, 1, 0, 0]⟩, 2),
         (⟨[4, 0, 4, 4, 4, 4, 4, 4, 4, 4, 4], [1, 0, 0, 0], [0, 1, 0, 0]⟩, 4),
         (⟨[0, 4, 4, 4, 4, 4, 4, 4, 4, 4, 4], [1, 0, 0, 0], [0, 1, 0, 0]⟩, 5),
         (⟨[4, 4, 4, 4, 4, 4, 4, 4, 4, 4, 1], [0, 1, 0, 0], [1, 0, 0, 0]⟩, 90),
         (⟨[4, 4, 4, 4, 4, 4, 4, 4, 4, 1, 4], [0, 1, 0, 0], [1, 0, 0, 0]⟩, 80),
         (⟨[4, 4, 4, 4, 4, 4, 4, 1, 4, 4, 4], [0, 1, 0, 0], [1, 0, 0, 0]⟩, 60),
         (⟨[4, 4, 4, 4, 4, 1, 4, 4, 4, 4, 4], [0, 1, 0, 0], [1, 0, 0, 0]⟩, 40),
         (⟨[4, 4, 4, 1, 4, 4, 4, 4, 4, 4, 4], [0, 1, 0, 0], [1, 0, 0, 0]⟩, 20),
         (⟨[4, 1, 4, 4, 4, 4, 4, 4, 4, 4, 4], [0, 1, 0, 0], [1, 0, 0, 0]⟩, 20),
         (⟨[1, 4, 4, 4, 4, 4, 4, 4, 4, 4, 4], [0, 1, 0, 0], [1, 0, 0, 0]⟩, 30)],
        56⟩ : Globals) ∧
    (56 : Nat) ≠ 0 ∧
    ∃ w pre src post s1 d1 v,
      Passes [[1, 0, 2, 3], [0, 1, 2, 3]] 0
        ⟨[4, 4, 4, 4, 4, 4, 4, 4, 4, 4, 0], [1, 0, 0, 0], [0, 1, 0, 0], 7, 2⟩ w ∧
      spots = pre ++ src :: post ∧
      hallLoop 0 pre w true = .ok (.go s1 d1) ∧
      hallStep 0 s1 d1 src = .ok (.ret 56) ∧
      (⟨false, [[1, 0, 2, 3], [0, 1, 2, 3]],
        [⟨[4, 4, 4, 4, 4, 4, 4, 4, 4, 0, 4], [1, 0, 0, 0], [0, 1, 0, 0], 6, 2⟩,
         ⟨[4, 4, 4, 4, 4, 4, 4, 0, 4, 4, 4], [1, 0, 0, 0], [0, 1, 0, 0], 4, 2⟩,
         ⟨[4, 4, 4, 4, 4, 0, 4, 4, 4, 4, 4], [1, 0, 0, 0], [0, 1, 0, 0], 2, 2⟩,
         ⟨[4, 4, 4, 0, 4, 4, 4, 4, 4, 4, 4], [1, 0, 0, 0], [0, 1, 0, 0], 2, 2⟩,
         ⟨[4, 0, 4, 4, 4, 4, 4, 4, 4, 4, 4], [1, 0, 0, 0], [0, 1, 0, 0], 4, 2⟩,
         ⟨[0, 4, 4, 4, 4, 4, 4, 4, 4, 4, 4], [1, 0, 0, 0], [0, 1, 0, 0], 5, 2⟩,
         ⟨[4, 4, 4, 4, 4, 4, 4, 4, 4, 4, 1], [0, 1, 0, 0], [1, 0, 0, 0], 90, 2⟩,
         ⟨[4, 4, 4, 4, 4, 4, 4, 4, 4, 1, 4], [0, 1, 0, 0], [1, 0, 0, 0], 80, 2⟩,
         ⟨[4, 4, 4, 4, 4, 4, 4, 1, 4, 4, 4], [0, 1, 0, 0], [1, 0, 0, 0], 60, 2⟩,
         ⟨[4, 4, 4, 4, 4, 1, 4, 4, 4, 4, 4], [0, 1, 0, 0], [1, 0, 0, 0], 40, 2⟩,
         ⟨[4, 4, 4, 1, 4, 4, 4, 4, 4, 4, 4], [0, 1, 0, 0], [1, 0, 0, 0], 20, 2⟩,
         ⟨[4, 1, 4, 4, 4, 4, 4, 4, 4, 4, 4], [0, 1, 0, 0], [1, 0, 0, 0], 20, 2⟩,
         ⟨[1, 4, 4, 4, 4, 4, 4, 4, 4, 4, 4], [0, 1, 0, 0], [1, 0, 0, 0], 30, 2⟩],
        [(⟨[4, 4, 4, 4, 4, 4, 4, 4, 4, 4, 0], [1, 0, 0, 0], [0, 1, 0, 0]⟩, 7),
         (⟨[4, 4, 4, 4, 4, 4, 4, 4, 4, 0, 4], [1, 0, 0, 0], [0, 1, 0, 0]⟩, 6),
         (⟨[4, 4, 4, 4, 4, 4, 4, 0, 4, 4, 4], [1, 0, 0, 0], [0, 1, 0, 0]⟩, 4),
         (⟨[4, 4, 4, 4, 4, 0, 4, 4, 4, 4, 4], [1, 0, 0, 0], [0, 1, 0, 0]⟩, 2),
         (⟨[4, 4, 4, 0, 4, 4, 4, 4, 4, 4, 4], [1, 0, 0, 0], [0, 1, 0, 0]⟩, 2),
         (⟨[4, 0, 4, 4, 4, 4, 4, 4, 4, 4, 4], [1, 0, 0, 0], [0, 1, 0, 0]⟩, 4),
         (⟨[0, 4, 4, 4, 4, 4, 4, 4, 4, 4, 4], [1, 0, 0, 0], [0, 1, 0, 0]⟩, 5),
         (⟨[4, 4, 4, 4, 4, 4, 4, 4, 4, 4, 1], [0, 1, 0, 0], [1, 0, 0, 0]⟩, 90),
         (⟨[4, 4, 4, 4, 4, 4, 4, 4, 4, 1, 4], [0, 1, 0, 0], [1, 0, 0, 0]⟩, 80),
         (⟨[4, 4, 4, 4, 4, 4, 4, 1, 4, 4, 4], [0, 1, 0, 0], [1, 0, 0, 0]⟩, 60),
         (⟨[4, 4, 4, 4, 4, 1, 4, 4, 4, 4, 4], [0, 1, 0, 0], [1, 0, 0, 0]⟩, 40),
         (⟨[4, 4, 4, 1, 4, 4, 4, 4, 4, 4, 4], [0, 1, 0, 0], [1, 0, 0, 0]⟩, 20),
         (⟨[4, 1, 4, 4, 4, 4, 4, 4, 4, 4, 4], [0, 1, 0, 0], [1, 0, 0, 0]⟩, 20),
         (⟨[1, 4, 4, 4, 4, 4, 4, 4, 4, 4, 4], [0, 1, 0, 0], [1, 0, 0, 0]⟩, 30)],
        56⟩ : Globals) =
        { (⟨false, [[1, 0, 2, 3], [0, 1, 2, 3]],
        [⟨[4, 4, 4, 4, 4, 4, 4, 4, 4, 4, 0], [1, 0, 0, 0], [0, 1, 0, 0], 7, 2⟩,
         ⟨[4, 4, 4, 4, 4, 4, 4, 4, 4, 0, 4], [1, 0, 0, 0], [0, 1, 0, 0], 6, 2⟩,
         ⟨[4, 4, 4, 4, 4, 4, 4, 0, 4, 4, 4], [1, 0, 0, 0], [0, 1, 0, 0], 4, 2⟩,
         ⟨[4, 4, 4, 4, 4, 0, 4, 4, 4, 4, 4], [1, 0, 0, 0], [0, 1, 0, 0], 2, 2⟩,
         ⟨[4, 4, 4, 0, 4, 4, 4, 4, 4, 4, 4], [1, 0, 0, 0], [0, 1, 0, 0], 2, 2⟩,
         ⟨[4, 0, 4, 4, 4, 4, 4, 4, 4, 4, 4], [1, 0, 0, 0], [0, 1, 0, 0], 4, 2⟩,
         ⟨[0, 4, 4, 4, 4, 4, 4, 4, 4, 4, 4], [1, 0, 0, 0], [0, 1, 0, 0], 5, 2⟩,
         ⟨[4, 4, 4, 4, 4, 4, 4, 4, 4, 4, 1], [0, 1, 0, 0], [1, 0, 0, 0], 90, 2⟩,
         ⟨[4, 4, 4, 4, 4, 4, 4, 4, 4, 1, 4], [0, 1, 0, 0], [1, 0, 0, 0], 80, 2⟩,
         ⟨[4, 4, 4, 4, 4, 4, 4, 1, 4, 4, 4], [0, 1, 0, 0], [1, 0, 0, 0], 60, 2⟩,
         ⟨[4, 4, 4, 4, 4, 1, 4, 4, 4, 4, 4], [0, 1, 0, 0], [1, 0, 0, 0], 40, 2⟩,
         ⟨[4, 4, 4, 1, 4, 4, 4, 4, 4, 4, 4], [0, 1, 0, 0], [1, 0, 0, 0], 20, 2⟩,
         ⟨[4, 1, 4, 4, 4, 4, 4, 4, 4, 4, 4], [0, 1, 0, 0], [1, 0, 0, 0], 20, 2⟩,
         ⟨[1, 4, 4, 4, 4, 4, 4, 4, 4, 4, 4], [0, 1, 0, 0], [1, 0, 0, 0], 30, 2⟩],
        [(⟨[4, 4, 4, 4, 4, 4, 4, 4, 4, 4, 0], [1, 0, 0, 0], [0, 1, 0, 0]⟩, 7),
         (⟨[4, 4, 4, 4, 4, 4, 4, 4, 4, 0, 4], [1, 0, 0, 0], [0, 1, 0, 0]⟩, 6),
         (⟨[4, 4, 4, 4, 4, 4, 4, 0, 4, 4, 4], [1, 0, 0, 0], [0, 1, 0, 0]⟩, 4),
         (⟨[4, 4, 4, 4, 4, 0, 4, 4, 4, 4, 4], [1, 0, 0, 0], [0, 1, 0, 0]⟩, 2),
         (⟨[4, 4, 4, 0, 4, 4, 4, 4, 4, 4, 4], [1, 0, 0, 0], [0, 1, 0, 0]⟩, 2),
         (⟨[4, 0, 4, 4, 4, 4, 4, 4, 4, 4, 4], [1, 0, 0, 0], [0, 1, 0, 0]⟩, 4),
         (⟨[0, 4, 4, 4, 4, 4, 4, 4, 4, 4, 4], [1, 0, 0, 0], [0, 1, 0, 0]⟩, 5),
         (⟨[4, 4, 4, 4, 4, 4, 4, 4, 4, 4, 1], [0, 1, 0, 0], [1, 0, 0, 0]⟩, 90),
         (⟨[4, 4, 4, 4, 4, 4, 4, 4, 4, 1, 4], [0, 1, 0, 0], [1, 0, 0, 0]⟩, 80),
         (⟨[4, 4, 4, 4, 4, 4, 4, 1, 4, 4, 4], [0, 1, 0, 0], [1, 0, 0, 0]⟩, 60),
         (⟨[4, 4, 4, 4, 4, 1, 4, 4, 4, 4, 4], [0, 1, 0, 0], [1, 0, 0, 0]⟩, 40),
         (⟨[4, 4, 4, 1, 4, 4, 4, 4, 4, 4, 4], [0, 1, 0, 0], [1, 0, 0, 0]⟩, 20),
         (⟨[4, 1, 4, 4, 4, 4, 4, 4, 4, 4, 4], [0, 1, 0, 0], [1, 0, 0, 0]⟩, 20),
         (⟨[1, 4, 4, 4, 4, 4, 4, 4, 4, 4, 4], [0, 1, 0, 0], [1, 0, 0, 0]⟩, 30)],
        0⟩ : Globals) with
          stack := [⟨[4, 4, 4, 4, 4, 4, 4, 4, 4, 0, 4], [1, 0, 0, 0], [0, 1, 0, 0], 6, 2⟩,
           ⟨[4, 4, 4, 4, 4, 4, 4, 0, 4, 4, 4], [1, 0, 0, 0], [0, 1, 0, 0], 4, 2⟩,
           ⟨[4, 4, 4, 4, 4, 0, 4, 4, 4, 4, 4], [1, 0, 0, 0], [0, 1, 0, 0], 2, 2⟩,
           ⟨[4, 4, 4, 0, 4, 4, 4, 4, 4, 4, 4], [1, 0, 0, 0], [0, 1, 0, 0], 2, 2⟩,
           ⟨[4, 0, 4, 4, 4, 4, 4, 4, 4, 4, 4], [1, 0, 0, 0], [0, 1, 0, 0], 4, 2⟩,
           ⟨[0, 4, 4, 4, 4, 4, 4, 4, 4, 4, 4], [1, 0, 0, 0], [0, 1, 0, 0], 5, 2⟩,
           ⟨[4, 4, 4, 4, 4, 4, 4, 4, 4, 4, 1], [0, 1, 0, 0], [1, 0, 0, 0], 90, 2⟩,
           ⟨[4, 4, 4, 4, 4, 4, 4, 4, 4, 1, 4], [0, 1, 0, 0], [1, 0, 0, 0], 80, 2⟩,
           ⟨[4, 4, 4, 4, 4, 4, 4, 1, 4, 4, 4], [0, 1, 0, 0], [1, 0, 0, 0], 60, 2⟩,
           ⟨[4, 4, 4, 4, 4, 1, 4, 4, 4, 4, 4], [0, 1, 0, 0], [1, 0, 0, 0], 40, 2⟩,
           ⟨[4, 4, 4, 1, 4, 4, 4, 4, 4, 4, 4], [0, 1, 0, 0], [1, 0, 0, 0], 20, 2⟩,
           ⟨[4, 1, 4, 4, 4, 4, 4, 4, 4, 4, 4], [0, 1, 0, 0], [1, 0, 0, 0], 20, 2⟩,
           ⟨[1, 4, 4, 4, 4, 4, 4, 4, 4, 4, 4], [0, 1, 0, 0], [1, 0, 0, 0], 30, 2⟩],
          target := 56 } ∧
      s1.h.getD src free = v ∧ v < 4 ∧ s1.mobile.getD v 0 = 0 ∧
      pathClear s1 src (2 * (v + 1)) = .ok true ∧ s1.remaining = 1 ∧
      56 = s1.cost + (dist (2 * (v + 1)) src + s1.empty.getD v 0) * weights.getD v 0 :=
  ⟨⟨Or.inl rfl, by decide, by decide, by decide⟩, sample_visits_one, rfl, rfl, by decide,
   last_move_charged.2 [66, 65, 67, 68, 65, 66, 67, 68] 2 ⟨false, [], [], [], 0⟩
     (⟨false, [[1, 0, 2, 3], [0, 1, 2, 3]],
        [⟨[4, 4, 4, 4, 4, 4, 4, 4, 4, 4, 0], [1, 0, 0, 0], [0, 1, 0, 0], 7, 2⟩,
         ⟨[4, 4, 4, 4, 4, 4, 4, 4, 4, 0, 4], [1, 0, 0, 0], [0, 1, 0, 0], 6, 2⟩,
         ⟨[4, 4, 4, 4, 4, 4, 4, 0, 4, 4, 4], [1, 0, 0, 0], [0, 1, 0, 0], 4, 2⟩,
         ⟨[4, 4, 4, 4, 4, 0, 4, 4, 4, 4, 4], [1, 0, 0, 0], [0, 1, 0, 0], 2, 2⟩,
         ⟨[4, 4, 4, 0, 4, 4, 4, 4, 4, 4, 4], [1, 0, 0, 0], [0, 1, 0, 0], 2, 2⟩,
         ⟨[4, 0, 4, 4, 4, 4, 4, 4, 4, 4, 4], [1, 0, 0, 0], [0, 1, 0, 0], 4, 2⟩,
         ⟨[0, 4, 4, 4, 4, 4, 4, 4, 4, 4, 4], [1, 0, 0, 0], [0, 1, 0, 0], 5, 2⟩,
         ⟨[4, 4, 4, 4, 4, 4, 4, 4, 4, 4, 1], [0, 1, 0, 0], [1, 0, 0, 0], 90, 2⟩,
         ⟨[4, 4, 4, 4, 4, 4, 4, 4, 4, 1, 4], [0, 1, 0, 0], [1, 0, 0, 0], 80, 2⟩,
         ⟨[4, 4, 4, 4, 4, 4, 4, 1, 4, 4, 4], [0, 1, 0, 0], [1, 0, 0, 0], 60, 2⟩,
         ⟨[4, 4, 4, 4, 4, 1, 4, 4, 4, 4, 4], [0, 1, 0, 0], [1, 0, 0, 0], 40, 2⟩,
         ⟨[4, 4, 4, 1, 4, 4, 4, 4, 4, 4, 4], [0, 1, 0, 0], [1, 0, 0, 0], 20, 2⟩,
         ⟨[4, 1, 4, 4, 4, 4, 4, 4, 4, 4, 4], [0, 1, 0, 0], [1, 0, 0, 0], 20, 2⟩,
         ⟨[1, 4, 4, 4, 4, 4, 4, 4, 4, 4, 4], [0, 1, 0, 0], [1, 0, 0, 0], 30, 2⟩],
        [(⟨[4, 4, 4, 4, 4, 4, 4, 4, 4, 4, 0], [1, 0, 0, 0], [0, 1, 0, 0]⟩, 7),
         (⟨[4, 4, 4, 4, 4, 4, 4, 4, 4, 0, 4], [1, 0, 0, 0], [0, 1, 0, 0]⟩, 6),
         (⟨[4, 4, 4, 4, 4, 4, 4, 0, 4, 4, 4], [1, 0, 0, 0], [0, 1, 0, 0]⟩, 4),
         (⟨[4, 4, 4, 4, 4, 0, 4, 4, 4, 4, 4], [1, 0, 0, 0], [0, 1, 0, 0]⟩, 2),
         (⟨[4, 4, 4, 0, 4, 4, 4, 4, 4, 4, 4], [1, 0, 0, 0], [0, 1, 0, 0]⟩, 2),
         (⟨[4, 0, 4, 4, 4, 4, 4, 4, 4, 4, 4], [1, 0, 0, 0], [0, 1, 0, 0]⟩, 4),
         (⟨[0, 4, 4, 4, 4, 4, 4, 4, 4, 4, 4], [1, 0, 0, 0], [0, 1, 0, 0]⟩, 5),
         (⟨[4, 4, 4, 4, 4, 4, 4, 4, 4, 4, 1], [0, 1, 0, 0], [1, 0, 0, 0]⟩, 90),
         (⟨[4, 4, 4, 4, 4, 4, 4, 4, 4, 1, 4], [0, 1, 0, 0], [1, 0, 0, 0]⟩, 80),
         (⟨[4, 4, 4, 4, 4, 4, 4, 1, 4, 4, 4], [0, 1, 0, 0], [1, 0, 0, 0]⟩, 60),
         (⟨[4, 4, 4, 4, 4, 1, 4, 4, 4, 4, 4], [0, 1, 0, 0], [1, 0, 0, 0]⟩, 40),
         (⟨[4, 4, 4, 1, 4, 4, 4, 4, 4, 4, 4], [0, 1, 0, 0], [1, 0, 0, 0]⟩, 20),
         (⟨[4, 1, 4, 4, 4, 4, 4, 4, 4, 4, 4], [0, 1, 0, 0], [1, 0, 0, 0]⟩, 20),
         (⟨[1, 4, 4, 4, 4, 4, 4, 4, 4, 4, 4], [0, 1, 0, 0], [1, 0, 0, 0]⟩, 30)],
        0⟩ : Globals)
     (⟨false, [[1, 0, 2, 3], [0, 1, 2, 3]],
        [⟨[4, 4, 4, 4, 4, 4, 4, 4, 4, 0, 4], [1, 0, 0, 0], [0, 1, 0, 0], 6, 2⟩,
         ⟨[4, 4, 4, 4, 4, 4, 4, 0, 4, 4, 4], [1, 0, 0, 0], [0, 1, 0, 0], 4, 2⟩,
         ⟨[4, 4, 4, 4, 4, 0, 4, 4, 4, 4, 4], [1, 0, 0, 0], [0, 1, 0, 0], 2, 2⟩,
         ⟨[4, 4, 4, 0, 4, 4, 4, 4, 4, 4, 4], [1, 0, 0, 0], [0, 1, 0, 0], 2, 2⟩,
         ⟨[4, 0, 4, 4, 4, 4, 4, 4, 4, 4, 4], [1, 0, 0, 0], [0, 1, 0, 0], 4, 2⟩,
         ⟨[0, 4, 4, 4, 4, 4, 4, 4, 4, 4, 4], [1, 0, 0, 0], [0, 1, 0, 0], 5, 2⟩,
         ⟨[4, 4, 4, 4, 4, 4, 4, 4, 4, 4, 1], [0, 1, 0, 0], [1, 0, 0, 0], 90, 2⟩,
         ⟨[4, 4, 4, 4, 4, 4, 4, 4, 4, 1, 4], [0, 1, 0, 0], [1, 0, 0, 0], 80, 2⟩,
         ⟨[4, 4, 4, 4, 4, 4, 4, 1, 4, 4, 4], [0, 1, 0, 0], [1, 0, 0, 0], 60, 2⟩,
         ⟨[4, 4, 4, 4, 4, 1, 4, 4, 4, 4, 4], [0, 1, 0, 0], [1, 0, 0, 0], 40, 2⟩,
         ⟨[4, 4, 4, 1, 4, 4, 4, 4, 4, 4, 4], [0, 1, 0, 0], [1, 0, 0, 0], 20, 2⟩,
         ⟨[4, 1, 4, 4, 4, 4, 4, 4, 4, 4, 4], [0, 1, 0, 0], [1, 0, 0, 0], 20, 2⟩,
         ⟨[1, 4, 4, 4, 4, 4, 4, 4, 4, 4, 4], [0, 1, 0, 0], [1, 0, 0, 0], 30, 2⟩],
        [(⟨[4, 4, 4, 4, 4, 4, 4, 4, 4, 4, 0], [1, 0, 0, 0], [0, 1, 0, 0]⟩, 7),
         (⟨[4, 4, 4, 4, 4, 4, 4, 4, 4, 0, 4], [1, 0, 0, 0], [0, 1, 0, 0]⟩, 6),
         (⟨[4, 4, 4, 4, 4, 4, 4, 0, 4, 4, 4], [1, 0, 0, 0], [0, 1, 0, 0]⟩, 4),
         (⟨[4, 4, 4, 4, 4, 0, 4, 4, 4, 4, 4], [1, 0, 0, 0], [0, 1, 0, 0]⟩, 2),
         (⟨[4, 4, 4, 0, 4, 4, 4, 4, 4, 4, 4], [1, 0, 0, 0], [0, 1, 0, 0]⟩, 2),
         (⟨[4, 0, 4, 4, 4, 4, 4, 4, 4, 4, 4], [1, 0, 0, 0], [0, 1, 0, 0]⟩, 4),
         (⟨[0, 4, 4, 4, 4, 4, 4, 4, 4, 4, 4], [1, 0, 0, 0], [0, 1, 0, 0]⟩, 5),
         (⟨[4, 4, 4, 4, 4, 4, 4, 4, 4, 4, 1], [0, 1, 0, 0], [1, 0, 0, 0]⟩, 90),
         (⟨[4, 4, 4, 4, 4, 4, 4, 4, 4, 1, 4], [0, 1, 0, 0], [1, 0, 0, 0]⟩, 80),
         (⟨[4, 4, 4, 4, 4, 4, 4, 1, 4, 4, 4], [0, 1, 0, 0], [1, 0, 0, 0]⟩, 60),
         (⟨[4, 4, 4, 4, 4, 1, 4, 4, 4, 4, 4], [0, 1, 0, 0], [1, 0, 0, 0]⟩, 40),
         (⟨[4, 4, 4, 1, 4, 4, 4, 4, 4, 4, 4], [0, 1, 0, 0], [1, 0, 0, 0]⟩, 20),
         (⟨[4, 1, 4, 4, 4, 4, 4, 4, 4, 4, 4], [0, 1, 0, 0], [1, 0, 0, 0]⟩, 20),
         (⟨[1, 4, 4, 4, 4, 4, 4, 4, 4, 4, 4], [0, 1, 0, 0], [1, 0, 0, 0]⟩, 30)],
        56⟩ : Globals)
     ⟨[4, 4, 4, 4, 4, 4, 4, 4, 4, 4, 0], [1, 0, 0, 0], [0, 1, 0, 0], 7, 2⟩
     [⟨[4, 4, 4, 4, 4, 4, 4, 4, 4, 0, 4], [1, 0, 0, 0], [0, 1, 0, 0], 6, 2⟩,
     ⟨[4, 4, 4, 4, 4, 4, 4, 0, 4, 4, 4], [1, 0, 0, 0], [0, 1, 0, 0], 4, 2⟩,
     ⟨[4, 4, 4, 4, 4, 0, 4, 4, 4, 4, 4], [1, 0, 0, 0], [0, 1, 0, 0], 2, 2⟩,
     ⟨[4, 4, 4, 0, 4, 4, 4, 4, 4, 4, 4], [1, 0, 0, 0], [0, 1, 0, 0], 2, 2⟩,
     ⟨[4, 0, 4, 4, 4, 4, 4, 4, 4, 4, 4], [1, 0, 0, 0], [0, 1, 0, 0], 4, 2⟩,
     ⟨[0, 4, 4, 4, 4, 4, 4, 4, 4, 4, 4], [1, 0, 0, 0], [0, 1, 0, 0], 5, 2⟩,
     ⟨[4, 4, 4, 4, 4, 4, 4, 4, 4, 4, 1], [0, 1, 0, 0], [1, 0, 0, 0], 90, 2⟩,
     ⟨[4, 4, 4, 4, 4, 4, 4, 4, 4, 1, 4], [0, 1, 0, 0], [1, 0, 0, 0], 80, 2⟩,
     ⟨[4, 4, 4, 4, 4, 4, 4, 1, 4, 4, 4], [0, 1, 0, 0], [1, 0, 0, 0], 60, 2⟩,
     ⟨[4, 4, 4, 4, 4, 1, 4, 4, 4, 4, 4], [0, 1, 0, 0], [1, 0, 0, 0], 40, 2⟩,
     ⟨[4, 4, 4, 1, 4, 4, 4, 4, 4, 4, 4], [0, 1, 0, 0], [1, 0, 0, 0], 20, 2⟩,
     ⟨[4, 1, 4, 4, 4, 4, 4, 4, 4, 4, 4], [0, 1, 0, 0], [1, 0, 0, 0], 20, 2⟩,
     ⟨[1, 4, 4, 4, 4, 4, 4, 4, 4, 4, 4], [0, 1, 0, 0], [1, 0, 0, 0], 30, 2⟩] 5
     ⟨Or.inl rfl, by decide, by decide, by decide⟩ sample_visits_one rfl rfl (by decide)⟩

/-! ## Paths of legal moves -/

theorem Path.concat {n : Nat} {k1 k2 : Nat} {a b d : Config} {c1 c2 : Nat}
    (h1 : Path n k1 a c1 b) (h2 : Path n k2 b c2 d) : Path n (k1 + k2) a (c1 + c2) d := by
  induction h1 with
  | nil => simpa using h2
  | @cons k a' b' d' e1 e2 st _ ih =>
    have := Path.cons st (ih h2)
    have e1' : k + 1 + k2 = (k + k2) + 1 := by omega
    have e2' : e1 + e2 + c2 = e1 + (e2 + c2) := by omega
    rw [e1', e2']
    exact this

theorem Step.keeps_wfc {n : Nat} {a b : Config} {c : Nat} (st : Step n a c b) (wf : WFC n a) :
    WFC n b := by
  obtain ⟨hh, hr, hc⟩ := wf
  refine ⟨?_, ?_, ?_⟩
  · cases st <;> simp [hh]
  · cases st <;> simp [hr]
  · intro v hv
    rw [st.countLabel_eq hh hr hv]
    exact hc v hv

theorem gD_set_ne {α : Type} (l : List α) {i j : Nat} (x d : α) (h : i ≠ j) :
    (l.set i x).getD j d = l.getD j d := by
  simp [List.getElem?_set, h]

theorem gD_set_eq {α : Type} (l : List α) {i : Nat} (x d : α) (h : i < l.length) :
    (l.set i x).getD i d = x := by
  simp [List.getElem?_set, h]

theorem getD_ne_lt {h : List Nat} {i : Nat} (hne : h.getD i free ≠ free) : i < h.length := by
  by_contra hcon
  exact hne (by simp [List.getElem?_eq_none (Nat.le_of_not_lt hcon)])

theorem clearBetween_set_free {h : List Nat} {a b : Nat} (x : Nat)
    (hc : clearBetween h a b) : clearBetween (h.set x free) a b := by
  intro y hy
  by_cases hxy : x = y
  · subst hxy
    by_cases hx : x < h.length
    · exact gD_set_eq h free free hx
    · have : (h.set x free).length ≤ x := by rw [List.length_set]; omega
      rw [List.getD_eq_getElem?_getD, List.getElem?_eq_none this]; rfl
  · rw [gD_set_ne h free free hxy]
    exact hc y hy

theorem count_two {h : List Nat} {i j v : Nat} (hij : i ≠ j) (hv : v ≠ free)
    (hi : h.getD i free = v) (hj : h.getD j free = v) : 2 ≤ h.count v := by
  have hil : i < h.length := getD_ne_lt (by rw [hi]; exact hv)
  have h1 : 1 ≤ (h.set i free).count v := by
    apply getD_mem_count (i := j) _ hv
    rw [gD_set_ne h free free hij]; exact hj
  have hcell : h[i] = v := by simpa [List.getElem?_eq_getElem hil] using hi
  rw [List.count_set _ _ _ _ hil, hcell] at h1
  have hfv : (free == v) = false := by simpa using fun h => hv h.symm
  simp only [beq_self_eq_true, if_true, hfv, Bool.false_eq_true, if_false] at h1
  omega

theorem Solved.hall_free {n : Nat} {a : Config} (h : Solved n a) (x : Nat) :
    a.hall.getD x free = free := by
  by_cases hx : x < a.hall.length
  · have : a.hall.getD x free = a.hall[x] := by simp [List.getElem?_eq_getElem hx]
    rw [this]
    exact h.1 _ (List.getElem_mem hx)
  · simp [List.getElem?_eq_none (Nat.le_of_not_lt hx)]

/-! ## A parked piece that can go home may as well be home already -/

theorem homeCfg_hall_ne (a : Config) {x y : Nat} (v : Nat) (h : x ≠ y) :
    (homeCfg a x v).hall.getD y free = a.hall.getD y free := gD_set_ne _ _ _ h

theorem homeCfg_room_ne (a : Config) (x : Nat) {v c : Nat} (h : v ≠ c) :
    (homeCfg a x v).rooms.getD c [] = a.rooms.getD c [] := gD_set_ne _ _ _ h

theorem homeCfg_room_eq (a : Config) (x : Nat) {v : Nat} (h : v < a.rooms.length) :
    (homeCfg a x v).rooms.getD v [] = v :: a.rooms.getD v [] := gD_set_eq _ _ _ h

theorem cost_split (d n L w : Nat) (h : L < n) :
    (d + (n - L)) * w = (d + (n - (L + 1))) * w + w := by
  rw [show n - L = (n - (L + 1)) + 1 by omega, ← Nat.add_assoc, Nat.add_mul, Nat.one_mul]

theorem sim_home {n : Nat} (x v : Nat) {k : Nat} {a goal : Config} {C : Nat}
    (hp : Path n k a C goal) (hs : Solved n goal) :
    WFC n a → HomeOK n a x v →
    ∃ k' C', Path n k' (homeCfg a x v) C' goal ∧ k' < k ∧
      C' + (dist x (col v) + (n - (a.rooms.getD v []).length)) * weights.getD v 0 ≤ C := by
  induction hp with
  | nil cfg =>
    intro _ hok
    exfalso
    have := hs.hall_free x
    rw [hok.1] at this
    have := hok.2.1
    unfold free at *
    omega
  | @cons k a b d c1 c2 st rest ih =>
    intro wf hok
    have ih' := ih hs (st.keeps_wfc wf)
    obtain ⟨hxv, hv, hall, hlen⟩ := hok
    have hvf : v ≠ free := by unfold free; omega
    have hxl : x < a.hall.length := getD_ne_lt (by rw [hxv]; exact hvf)
    have hvr : v < a.rooms.length := by rw [wf.2.1]; exact hv
    cases st with
    | park c dst p rest' hc hroom hdst hfree hclear =>
      have hxd : x ≠ dst := by
        intro h; subst h; rw [hxv] at hfree; exact hvf hfree
      have hcr : c < a.rooms.length := by rw [wf.2.1]; exact hc
      by_cases hcv : c = v
      · subst hcv
        have hp' : p = c := hall p (by rw [hroom]; exact List.mem_cons_self _ _)
        subst hp'
        have hok' : HomeOK n ⟨a.hall.set dst p, a.rooms.set p rest'⟩ x p := by
          refine ⟨?_, hv, ?_, ?_⟩
          · show (a.hall.set dst p).getD x free = p
            rw [gD_set_ne _ _ _ (Ne.symm hxd)]; exact hxv
          · intro y hy
            rw [show (a.rooms.set p rest').getD p [] = rest' from gD_set_eq _ _ _ hvr] at hy
            exact hall y (by rw [hroom]; exact List.mem_cons_of_mem _ hy)
          · rw [show (a.rooms.set p rest').getD p [] = rest' from gD_set_eq _ _ _ hvr]
            rw [hroom] at hlen
            simp at hlen
            omega
        obtain ⟨k', C', hpath, hk, hcost⟩ := ih' hok'
        have hst := Step.park (n := n) (homeCfg a x p) p dst p (p :: rest') hv
          (by rw [homeCfg_room_eq a x hvr, hroom]) hdst
          (by rw [homeCfg_hall_ne a p hxd]; exact hfree)
          (clearBetween_set_free x hclear)
        have hcfg : homeCfg ⟨a.hall.set dst p, a.rooms.set p rest'⟩ x p =
            ⟨(homeCfg a x p).hall.set dst p, (homeCfg a x p).rooms.set p (p :: rest')⟩ := by
          unfold homeCfg
          simp only
          rw [gD_set_eq _ _ _ hvr, List.set_set, List.set_set, List.set_comm _ _ _ hxd.symm]
        rw [hcfg] at hpath
        refine ⟨k' + 1, _, Path.cons hst hpath, by omega, ?_⟩
        rw [show (a.rooms.set p rest').getD p [] = rest' from gD_set_eq _ _ _ hvr] at hcost
        rw [hroom] at hlen ⊢
        simp only [List.length_cons] at hlen ⊢
        have e1 := cost_split (dist dst (col p)) n rest'.length (weights.getD p 0) (by omega)
        have e2 := cost_split (dist x (col p)) n rest'.length (weights.getD p 0) (by omega)
        omega
      · have hok' : HomeOK n ⟨a.hall.set dst p, a.rooms.set c rest'⟩ x v := by
          refine ⟨?_, hv, ?_, ?_⟩
          · show (a.hall.set dst p).getD x free = v
            rw [gD_set_ne _ _ _ (Ne.symm hxd)]; exact hxv
          · rw [show (a.rooms.set c rest').getD v [] = a.rooms.getD v [] from
              gD_set_ne _ _ _ hcv]
            exact hall
          · rw [show (a.rooms.set c rest').getD v [] = a.rooms.getD v [] from
              gD_set_ne _ _ _ hcv]
            exact hlen
        obtain ⟨k', C', hpath, hk, hcost⟩ := ih' hok'
        have hst := Step.park (n := n) (homeCfg a x v) c dst p rest' hc
          (by rw [homeCfg_room_ne a x (Ne.symm hcv), hroom]) hdst
          (by rw [homeCfg_hall_ne a v hxd]; exact hfree)
          (clearBetween_set_free x hclear)
        have hcfg : homeCfg ⟨a.hall.set dst p, a.rooms.set c rest'⟩ x v =
            ⟨(homeCfg a x v).hall.set dst p, (homeCfg a x v).rooms.set c rest'⟩ := by
          unfold homeCfg
          simp only
          rw [gD_set_ne _ _ _ hcv, List.set_comm _ _ _ hxd.symm, List.set_comm _ _ _ hcv]
        rw [hcfg] at hpath
        refine ⟨k' + 1, _, Path.cons hst hpath, by omega, ?_⟩
        rw [show (a.rooms.set c rest').getD v [] = a.rooms.getD v [] from
          gD_set_ne _ _ _ hcv] at hcost
        omega
    | home src v' hsrc hv' hall' hlen' hclear =>
      by_cases hsx : src = x
      · subst hsx
        have hvv : v' = v := by rw [← hsrc, hxv]
        subst hvv
        refine ⟨k, c2, rest, by omega, ?_⟩
        omega
      · by_cases hvv : v' = v
        · subst hvv
          have hcount := countLabel_ge_hall_room v' a hv
          rw [wf.2.2 v' hv] at hcount
          have h2 := count_two (Ne.symm hsx) hvf hxv hsrc
          have hrc : (a.rooms.getD v' []).count v' = (a.rooms.getD v' []).length := by
            rw [List.count_eq_length]
            intro y hy
            exact (hall y hy).symm
          have hok' : HomeOK n ⟨a.hall.set src free,
              a.rooms.set v' (v' :: a.rooms.getD v' [])⟩ x v' := by
            refine ⟨?_, hv, ?_, ?_⟩
            · show (a.hall.set src free).getD x free = v'
              rw [gD_set_ne _ _ _ hsx]; exact hxv
            · intro y hy
              rw [show (a.rooms.set v' (v' :: a.rooms.getD v' [])).getD v' [] =
                v' :: a.rooms.getD v' [] from gD_set_eq _ _ _ hvr] at hy
              rcases List.mem_cons.mp hy with h | h
              · exact h
              · exact hall y h
            · rw [show (a.rooms.set v' (v' :: a.rooms.getD v' [])).getD v' [] =
                v' :: a.rooms.getD v' [] from gD_set_eq _ _ _ hvr]
              simp only [List.length_cons]
              omega
          obtain ⟨k', C', hpath, hk, hcost⟩ := ih' hok'
          have hst := Step.home (n := n) (homeCfg a x v') src v'
            (by rw [homeCfg_hall_ne a v' (Ne.symm hsx)]; exact hsrc) hv
            (by
              rw [homeCfg_room_eq a x hvr]
              intro y hy
              rcases List.mem_cons.mp hy with h | h
              · exact h
              · exact hall y h)
            (by rw [homeCfg_room_eq a x hvr]; simp only [List.length_cons]; omega)
            (clearBetween_set_free x hclear)
          have hcfg : homeCfg ⟨a.hall.set src free,
              a.rooms.set v' (v' :: a.rooms.getD v' [])⟩ x v' =
              ⟨(homeCfg a x v').hall.set src free, (homeCfg a x v').rooms.set v'
                (v' :: (homeCfg a x v').rooms.getD v' [])⟩ := by
            rw [homeCfg_room_eq a x hvr]
            unfold homeCfg
            simp only
            rw [gD_set_eq _ _ _ hvr, List.set_comm _ _ _ hsx]
          rw [hcfg] at hpath
          refine ⟨k' + 1, _, Path.cons hst hpath, by omega, ?_⟩
          rw [show (a.rooms.set v' (v' :: a.rooms.getD v' [])).getD v' [] =
            v' :: a.rooms.getD v' [] from gD_set_eq _ _ _ hvr] at hcost
          rw [homeCfg_room_eq a x hvr]
          simp only [List.length_cons] at hcost ⊢
          have e1 := cost_split (dist src (col v')) n (a.rooms.getD v' []).length
            (weights.getD v' 0) (by omega)
          have e2 := cost_split (dist x (col v')) n (a.rooms.getD v' []).length
            (weights.getD v' 0) (by omega)
          omega
        · have hok' : HomeOK n ⟨a.hall.set src free,
              a.rooms.set v' (v' :: a.rooms.getD v' [])⟩ x v := by
            refine ⟨?_, hv, ?_, ?_⟩
            · show (a.hall.set src free).getD x free = v
              rw [gD_set_ne _ _ _ hsx]; exact hxv
            · rw [show (a.rooms.set v' (v' :: a.rooms.getD v' [])).getD v [] =
                a.rooms.getD v [] from gD_set_ne _ _ _ hvv]
              exact hall
            · rw [show (a.rooms.set v' (v' :: a.rooms.getD v' [])).getD v [] =
                a.rooms.getD v [] from gD_set_ne _ _ _ hvv]
              exact hlen
          obtain ⟨k', C', hpath, hk, hcost⟩ := ih' hok'
          have hst := Step.home (n := n) (homeCfg a x v) src v'
            (by rw [homeCfg_hall_ne a v (Ne.symm hsx)]; exact hsrc) hv'
            (by rw [homeCfg_room_ne a x (Ne.symm hvv)]; exact hall')
            (by rw [homeCfg_room_ne a x (Ne.symm hvv)]; exact hlen')
            (clearBetween_set_free x hclear)
          have hcfg : homeCfg ⟨a.hall.set src free,
              a.rooms.set v' (v' :: a.rooms.getD v' [])⟩ x v =
              ⟨(homeCfg a x v).hall.set src free, (homeCfg a x v).rooms.set v'
                (v' :: (homeCfg a x v).rooms.getD v' [])⟩ := by
            rw [homeCfg_room_ne a x (Ne.symm hvv)]
            unfold homeCfg
            simp only
            rw [gD_set_ne _ _ _ hvv, List.set_comm _ _ _ hsx, List.set_comm _ _ _ hvv]
          rw [hcfg] at hpath
          refine ⟨k' + 1, _, Path.cons hst hpath, by omega, ?_⟩
          rw [show (a.rooms.set v' (v' :: a.rooms.getD v' [])).getD v [] =
            a.rooms.getD v [] from gD_set_ne _ _ _ hvv] at hcost
          rw [homeCfg_room_ne a x (Ne.symm hvv)]
          omega

/-! ## A room top that can go straight home may as well be home already -/

theorem Solved.room {n : Nat} {a : Config} (h : Solved n a) {c : Nat} (hc : c < 4) :
    a.rooms.getD c [] = List.replicate n c := by
  rw [h.2]
  match c, hc with
  | 0, _ => rfl
  | 1, _ => rfl
  | 2, _ => rfl
  | 3, _ => rfl

theorem countLabel_ge_hall_two_rooms (v : Nat) (cfg : Config) {c d : Nat} (hc : c < 4)
    (hd : d < 4) (hne : c ≠ d) :
    cfg.hall.count v + (cfg.rooms.getD c []).count v + (cfg.rooms.getD d []).count v ≤
      countLabel v cfg := by
  unfold countLabel
  match c, hc, d, hd with
  | 0, _, 0, _ => exact absurd rfl hne
  | 0, _, 1, _ => omega
  | 0, _, 2, _ => omega
  | 0, _, 3, _ => omega
  | 1, _, 0, _ => omega
  | 1, _, 1, _ => exact absurd rfl hne
  | 1, _, 2, _ => omega
  | 1, _, 3, _ => omega
  | 2, _, 0, _ => omega
  | 2, _, 1, _ => omega
  | 2, _, 2, _ => exact absurd rfl hne
  | 2, _, 3, _ => omega
  | 3, _, 0, _ => omega
  | 3, _, 1, _ => omega
  | 3, _, 2, _ => omega
  | 3, _, 3, _ => exact absurd rfl hne

theorem dist_triangle (a b x : Nat) : dist a b ≤ dist x a + dist x b := by
  unfold dist
  split <;> split <;> split <;> omega

theorem crossCfg_room_v (a : Config) {c v : Nat} (restc : List Nat)
    (hv : v < a.rooms.length) :
    (crossCfg a c v restc).rooms.getD v [] = v :: a.rooms.getD v [] :=
  gD_set_eq _ _ _ (by rw [List.length_set]; exact hv)

theorem crossCfg_room_ne (a : Config) {c v c' : Nat} (restc : List Nat) (h1 : c ≠ c')
    (h2 : v ≠ c') : (crossCfg a c v restc).rooms.getD c' [] = a.rooms.getD c' [] := by
  unfold crossCfg
  simp only
  rw [gD_set_ne _ _ _ h2, gD_set_ne _ _ _ h1]

theorem sim_cross {n : Nat} (c v : Nat) (restc : List Nat) {k : Nat} {a goal : Config}
    {C : Nat} (hp : Path n k a C goal) (hs : Solved n goal) :
    WFC n a → CrossOK n a c v restc →
    ∃ k' C', Path n k' (crossCfg a c v restc) C' goal ∧ k' < k ∧
      C' + (dist (col c) (col v) + (n - restc.length) + (n - (a.rooms.getD v []).length)) *
        weights.getD v 0 ≤ C := by
  induction hp with
  | nil cfg =>
    intro _ hok
    exfalso
    obtain ⟨hc, _, hne, hroom, _, _⟩ := hok
    have hr := hs.room hc
    rw [hroom] at hr
    have : v ∈ List.replicate n c := by rw [← hr]; exact List.mem_cons_self _ _
    exact hne (List.mem_replicate.mp this).2
  | @cons k a b d c1 c2 st rest ih =>
    intro wf hok
    have ih' := ih hs (st.keeps_wfc wf)
    obtain ⟨hc, hv, hne, hroomc, hall, hlen⟩ := hok
    have hvf : v ≠ free := by unfold free; omega
    have hvr : v < a.rooms.length := by rw [wf.2.1]; exact hv
    have hcr : c < a.rooms.length := by rw [wf.2.1]; exact hc
    cases st with
    | park c' dst p rest' hc' hroom hdst hfree hclear =>
      have hdl : dst < a.hall.length := by have := mem_spots_le hdst; rw [wf.1]; omega
      by_cases hcc : c' = c
      · subst hcc
        rw [hroomc] at hroom
        cases hroom
        have hokh : HomeOK n ⟨a.hall.set dst v, a.rooms.set c' restc⟩ dst v := by
          refine ⟨gD_set_eq _ _ _ hdl, hv, ?_, ?_⟩
          · rw [show (a.rooms.set c' restc).getD v [] = a.rooms.getD v [] from
              gD_set_ne _ _ _ (Ne.symm hne)]
            exact hall
          · rw [show (a.rooms.set c' restc).getD v [] = a.rooms.getD v [] from
              gD_set_ne _ _ _ (Ne.symm hne)]
            exact hlen
        have hwb : WFC n ⟨a.hall.set dst v, a.rooms.set c' restc⟩ :=
          (Step.park (n := n) a c' dst v restc hc hroomc hdst hfree hclear).keeps_wfc wf
        obtain ⟨k', C', hpath, hk, hcost⟩ := sim_home dst v rest hs hwb hokh
        have hcfg : homeCfg ⟨a.hall.set dst v, a.rooms.set c' restc⟩ dst v =
            crossCfg a c' v restc := by
          unfold homeCfg crossCfg
          simp only
          rw [set_set_free v hfree, gD_set_ne _ _ _ (Ne.symm hne)]
        rw [hcfg] at hpath
        refine ⟨k', C', hpath, by omega, ?_⟩
        rw [show (a.rooms.set c' restc).getD v [] = a.rooms.getD v [] from
          gD_set_ne _ _ _ (Ne.symm hne)] at hcost
        have htri := dist_triangle (col c') (col v) dst
        have hmul : (dist (col c') (col v) + (n - restc.length) +
            (n - (a.rooms.getD v []).length)) * weights.getD v 0 ≤
            (dist dst (col c') + (n - restc.length)) * weights.getD v 0 +
            (dist dst (col v) + (n - (a.rooms.getD v []).length)) * weights.getD v 0 := by
          rw [← Nat.add_mul]
          exact Nat.mul_le_mul_right _ (by omega)
        omega
      · by_cases hcv : c' = v
        · subst hcv
          have hp' : p = c' := hall p (by rw [hroom]; exact List.mem_cons_self _ _)
          subst hp'
          have hok' : CrossOK n ⟨a.hall.set dst p, a.rooms.set p rest'⟩ c p restc := by
            refine ⟨hc, hv, hne, ?_, ?_, ?_⟩
            · rw [show (a.rooms.set p rest').getD c [] = a.rooms.getD c [] from
                gD_set_ne _ _ _ hne]
              exact hroomc
            · intro y hy
              rw [show (a.rooms.set p rest').getD p [] = rest' from gD_set_eq _ _ _ hvr] at hy
              exact hall y (by rw [hroom]; exact List.mem_cons_of_mem _ hy)
            · rw [show (a.rooms.set p rest').getD p [] = rest' from gD_set_eq _ _ _ hvr]
              rw [hroom] at hlen
              simp at hlen
              omega
          obtain ⟨k', C', hpath, hk, hcost⟩ := ih' hok'
          have hst := Step.park (n := n) (crossCfg a c p restc) p dst p (p :: rest') hv
            (by rw [crossCfg_room_v a restc hvr, hroom]) hdst hfree hclear
          have hcfg : crossCfg ⟨a.hall.set dst p, a.rooms.set p rest'⟩ c p restc =
              ⟨(crossCfg a c p restc).hall.set dst p,
                (crossCfg a c p restc).rooms.set p (p :: rest')⟩ := by
            unfold crossCfg
            simp only
            rw [gD_set_eq _ _ _ hvr, List.set_set, List.set_comm _ _ _ hne, List.set_set]
          rw [hcfg] at hpath
          refine ⟨k' + 1, _, Path.cons hst hpath, by omega, ?_⟩
          rw [show (a.rooms.set p rest').getD p [] = rest' from gD_set_eq _ _ _ hvr] at hcost
          rw [hroom] at hlen ⊢
          simp only [List.length_cons] at hlen ⊢
          have e1 := cost_split (dist dst (col p)) n rest'.length (weights.getD p 0) (by omega)
          have e2 := cost_split (dist (col c) (col p) + (n - restc.length)) n rest'.length
            (weights.getD p 0) (by omega)
          omega
        · have hok' : CrossOK n ⟨a.hall.set dst p, a.rooms.set c' rest'⟩ c v restc := by
            refine ⟨hc, hv, hne, ?_, ?_, ?_⟩
            · rw [show (a.rooms.set c' rest').getD c [] = a.rooms.getD c [] from
                gD_set_ne _ _ _ hcc]
              exact hroomc
            · rw [show (a.rooms.set c' rest').getD v [] = a.rooms.getD v [] from
                gD_set_ne _ _ _ hcv]
              exact hall
            · rw [show (a.rooms.set c' rest').getD v [] = a.rooms.getD v [] from
                gD_set_ne _ _ _ hcv]
              exact hlen
          obtain ⟨k', C', hpath, hk, hcost⟩ := ih' hok'
          have hst := Step.park (n := n) (crossCfg a c v restc) c' dst p rest' hc'
            (by rw [crossCfg_room_ne a restc (Ne.symm hcc) (Ne.symm hcv), hroom]) hdst hfree
            hclear
          have hcfg : crossCfg ⟨a.hall.set dst p, a.rooms.set c' rest'⟩ c v restc =
              ⟨(crossCfg a c v restc).hall.set dst p,
                (crossCfg a c v restc).rooms.set c' rest'⟩ := by
            unfold crossCfg
            simp only
            rw [gD_set_ne _ _ _ hcv, List.set_comm _ _ _ hcc, List.set_comm _ _ _ hcv]
          rw [hcfg] at hpath
          refine ⟨k' + 1, _, Path.cons hst hpath, by omega, ?_⟩
          rw [show (a.rooms.set c' rest').getD v [] = a.rooms.getD v [] from
            gD_set_ne _ _ _ hcv] at hcost
          omega
    | home src v' hsrc hv' hall' hlen' hclear =>
      have hvc : v' ≠ c := by
        intro h
        subst h
        exact hne (hall' v (by rw [hroomc]; exact List.mem_cons_self _ _))
      have hv'f : v' ≠ free := by unfold free; omega
      by_cases hvv : v' = v
      · subst hvv
        have hcount := countLabel_ge_hall_two_rooms v' a hc hv (Ne.symm hne)
        rw [wf.2.2 v' hv] at hcount
        have h1 : 1 ≤ a.hall.count v' := getD_mem_count hsrc hvf
        have h2 : 1 ≤ (a.rooms.getD c []).count v' := by
          rw [hroomc, List.count_cons_self]; omega
        have hrc : (a.rooms.getD v' []).count v' = (a.rooms.getD v' []).length := by
          rw [List.count_eq_length]
          intro y hy
          exact (hall y hy).symm
        have hok' : CrossOK n ⟨a.hall.set src free,
            a.rooms.set v' (v' :: a.rooms.getD v' [])⟩ c v' restc := by
          refine ⟨hc, hv, hne, ?_, ?_, ?_⟩
          · rw [show (a.rooms.set v' (v' :: a.rooms.getD v' [])).getD c [] = a.rooms.getD c []
              from gD_set_ne _ _ _ hne]
            exact hroomc
          · intro y hy
            rw [show (a.rooms.set v' (v' :: a.rooms.getD v' [])).getD v' [] =
              v' :: a.rooms.getD v' [] from gD_set_eq _ _ _ hvr] at hy
            rcases List.mem_cons.mp hy with h | h
            · exact h
            · exact hall y h
          · rw [show (a.rooms.set v' (v' :: a.rooms.getD v' [])).getD v' [] =
              v' :: a.rooms.getD v' [] from gD_set_eq _ _ _ hvr]
            simp only [List.length_cons]
            omega
        obtain ⟨k', C', hpath, hk, hcost⟩ := ih' hok'
        have hst := Step.home (n := n) (crossCfg a c v' restc) src v' hsrc hv
          (by
            rw [crossCfg_room_v a restc hvr]
            intro y hy
            rcases List.mem_cons.mp hy with h | h
            · exact h
            · exact hall y h)
          (by rw [crossCfg_room_v a restc hvr]; simp only [List.length_cons]; omega)
          hclear
        have hcfg : crossCfg ⟨a.hall.set src free,
            a.rooms.set v' (v' :: a.rooms.getD v' [])⟩ c v' restc =
            ⟨(crossCfg a c v' restc).hall.set src free, (crossCfg a c v' restc).rooms.set v'
              (v' :: (crossCfg a c v' restc).rooms.getD v' [])⟩ := by
          rw [crossCfg_room_v a restc hvr]
          unfold crossCfg
          simp only
          rw [gD_set_eq _ _ _ hvr, List.set_set, List.set_comm _ _ _ hne, List.set_set]
        rw [hcfg] at hpath
        refine ⟨k' + 1, _, Path.cons hst hpath, by omega, ?_⟩
        rw [show (a.rooms.set v' (v' :: a.rooms.getD v' [])).getD v' [] =
          v' :: a.rooms.getD v' [] from gD_set_eq _ _ _ hvr] at hcost
        rw [crossCfg_room_v a restc hvr]
        simp only [List.length_cons] at hcost ⊢
        have e1 := cost_split (dist src (col v')) n (a.rooms.getD v' []).length
          (weights.getD v' 0) (by omega)
        have e2 := cost_split (dist (col c) (col v') + (n - restc.length)) n
          (a.rooms.getD v' []).length (weights.getD v' 0) (by omega)
        omega
      · have hok' : CrossOK n ⟨a.hall.set src free,
            a.rooms.set v' (v' :: a.rooms.getD v' [])⟩ c v restc := by
          refine ⟨hc, hv, hne, ?_, ?_, ?_⟩
          · rw [show (a.rooms.set v' (v' :: a.rooms.getD v' [])).getD c [] = a.rooms.getD c []
              from gD_set_ne _ _ _ hvc]
            exact hroomc
          · rw [show (a.rooms.set v' (v' :: a.rooms.getD v' [])).getD v [] = a.rooms.getD v []
              from gD_set_ne _ _ _ hvv]
            exact hall
          · rw [show (a.rooms.set v' (v' :: a.rooms.getD v' [])).getD v [] = a.rooms.getD v []
              from gD_set_ne _ _ _ hvv]
            exact hlen
        obtain ⟨k', C', hpath, hk, hcost⟩ := ih' hok'
        have hst := Step.home (n := n) (crossCfg a c v restc) src v' hsrc hv'
          (by rw [crossCfg_room_ne a restc (Ne.symm hvc) (Ne.symm hvv)]; exact hall')
          (by rw [crossCfg_room_ne a restc (Ne.symm hvc) (Ne.symm hvv)]; exact hlen')
          hclear
        have hcfg : crossCfg ⟨a.hall.set src free,
            a.rooms.set v' (v' :: a.rooms.getD v' [])⟩ c v restc =
            ⟨(crossCfg a c v restc).hall.set src free, (crossCfg a c v restc).rooms.set v'
              (v' :: (crossCfg a c v restc).rooms.getD v' [])⟩ := by
          rw [crossCfg_room_ne a restc (Ne.symm hvc) (Ne.symm hvv)]
          unfold crossCfg
          simp only
          rw [gD_set_ne _ _ _ hvv, List.set_comm _ _ _ hvc, List.set_comm _ _ _ hvv]
        rw [hcfg] at hpath
        refine ⟨k' + 1, _, Path.cons hst hpath, by omega, ?_⟩
        rw [show (a.rooms.set v' (v' :: a.rooms.getD v' [])).getD v [] = a.rooms.getD v []
          from gD_set_ne _ _ _ hvv] at hcost
        rw [crossCfg_room_ne a restc (Ne.symm hvc) (Ne.symm hvv)]
        omega

/-! ## In-place moves against an arbitrary solution -/

theorem Inv.wfc {m : List (List Nat)} {n : Nat} {s : State} (inv : Inv m n s) :
    WFC n (cfgOf m n s) :=
  ⟨inv.hlen, rfl, inv.cnt⟩

theorem Inv.homeOK {m : List (List Nat)} {n : Nat} {s : State} (inv : Inv m n s) {src : Nat}
    (hc : CanEnter s src) : HomeOK n (cfgOf m n s) src (s.h.getD src free) := by
  obtain ⟨hne, hmob, _⟩ := hc
  have hv := inv.label_lt hne
  have hpos := inv.enter_empty_pos hne hmob
  have hcap := inv.cap _ hv
  refine ⟨rfl, hv, ?_, ?_⟩
  · rw [cfgOf_room m n s hv, roomOf_settled m n s _ hmob]
    intro y hy
    exact (List.mem_replicate.mp hy).2
  · rw [cfgOf_room m n s hv, roomOf_settled m n s _ hmob, List.length_replicate]
    omega

theorem enter_lower {m : List (List Nat)} {n : Nat} {s : State} (inv : Inv m n s) {src : Nat}
    (hc : CanEnter s src) {k C : Nat} {goal : Config} (hp : Path n k (cfgOf m n s) C goal)
    (hs : Solved n goal) :
    ∃ k' C', Path n k' (cfgOf m n (enterState s src)) C' goal ∧ k' < k ∧
      (enterState s src).cost + C' ≤ s.cost + C := by
  obtain ⟨k', C', hpath, hk, hcost⟩ := sim_home src (s.h.getD src free) hp hs inv.wfc
    (inv.homeOK hc)
  have hcfg : homeCfg (cfgOf m n s) src (s.h.getD src free) = cfgOf m n (enterState s src) :=
    (cfgOf_enterState inv hc).symm
  rw [hcfg] at hpath
  refine ⟨k', C', hpath, hk, ?_⟩
  obtain ⟨hne, hmob, _⟩ := hc
  have hv := inv.label_lt hne
  have hcap := inv.cap _ hv
  rw [cfgOf_room m n s hv, roomOf_settled m n s _ hmob, List.length_replicate,
    show n - (n - s.empty.getD (s.h.getD src free) 0) = s.empty.getD (s.h.getD src free) 0 by
      omega, dist_comm] at hcost
  simp only [enterState, enterCost]
  omega

theorem cfgOf_crossState {m : List (List Nat)} {n : Nat} {s : State} (inv : Inv m n s)
    (tab : TableOK m n) {c : Nat} (hc : c < 4) (hx : CanCross m s c) (dst : Nat) :
    cfgOf m n (crossState m s c) =
      crossCfg (cfgOf m n s) c (topOf m s c) (roomOf m n (parkState m s c dst) c) := by
  obtain ⟨hne, _⟩ := inv.cross_empty_pos tab hc hx.1 hx.2.1
  have hv := inv.top_lt tab hc hx.1
  have hy := toward_mem hc hv hne
  have hpark := hx.canPark hne
  have hyl : toward c (topOf m s c) < s.h.length := by
    have := mem_spots_le hy; rw [inv.hlen]; omega
  have hlab : (parkState m s c (toward c (topOf m s c))).h.getD (toward c (topOf m s c)) free
      = topOf m s c := by
    simp only [parkState]
    exact getD_set_eq _ _ _ hyl
  rw [crossState_eq inv tab hc hx,
    cfgOf_enterState (inv.park tab hc hx.1 hy hpark) (hx.canEnter inv tab hc), hlab,
    cfgOf_parkState inv hc]
  unfold crossCfg
  simp only
  have hrest : roomOf m n (parkState m s c (toward c (topOf m s c))) c =
      roomOf m n (parkState m s c dst) c := by
    have h1 := (inv.room_split hc hx.1 (toward c (topOf m s c))).1
    have h2 := (inv.room_split hc hx.1 dst).1
    rw [h1] at h2
    exact List.tail_eq_of_cons_eq h2
  rw [hrest]
  congr 1
  · exact set_set_free _ hpark.1
  · rw [gD_set_ne _ _ _ (Ne.symm hne)]

theorem cross_lower {m : List (List Nat)} {n : Nat} {s : State} (inv : Inv m n s)
    (tab : TableOK m n) {c : Nat} (hc : c < 4) (hx : CanCross m s c) {k C : Nat}
    {goal : Config} (hp : Path n k (cfgOf m n s) C goal) (hs : Solved n goal) :
    ∃ k' C', Path n k' (cfgOf m n (crossState m s c)) C' goal ∧ k' < k ∧
      (crossState m s c).cost + C' ≤ s.cost + C := by
  obtain ⟨hne, hepos⟩ := inv.cross_empty_pos tab hc hx.1 hx.2.1
  have hv := inv.top_lt tab hc hx.1
  obtain ⟨hsplit, hlen⟩ := inv.room_split hc hx.1 0
  have hcap := inv.cap _ hv
  have hok : CrossOK n (cfgOf m n s) c (topOf m s c) (roomOf m n (parkState m s c 0) c) := by
    refine ⟨hc, hv, hne, ?_, ?_, ?_⟩
    · rw [cfgOf_room m n s hc]; exact hsplit
    · rw [cfgOf_room m n s hv, roomOf_settled m n s _ hx.2.1]
      intro y hy
      exact (List.mem_replicate.mp hy).2
    · rw [cfgOf_room m n s hv, roomOf_settled m n s _ hx.2.1, List.length_replicate]
      omega
  obtain ⟨k', C', hpath, hk, hcost⟩ := sim_cross c (topOf m s c) _ hp hs inv.wfc hok
  rw [← cfgOf_crossState inv tab hc hx 0] at hpath
  refine ⟨k', C', hpath, hk, ?_⟩
  rw [cfgOf_room m n s hv, roomOf_settled m n s _ hx.2.1, List.length_replicate,
    show n - (n - s.empty.getD (topOf m s c) 0) = s.empty.getD (topOf m s c) 0 by omega,
    show n - (roomOf m n (parkState m s c 0) c).length = s.empty.getD c 0 + 1 by omega,
    dist_comm] at hcost
  simp only [crossState, crossCost]
  rw [show dist (col (topOf m s c)) (col c) + s.empty.getD c 0 + 1 +
    s.empty.getD (topOf m s c) 0 = dist (col (topOf m s c)) (col c) + (s.empty.getD c 0 + 1) +
    s.empty.getD (topOf m s c) 0 by omega]
  omega

theorem Reduces.lower {m : List (List Nat)} {n : Nat} (tab : TableOK m n) {s s1 : State}
    (h : Reduces m s s1) :
    Inv m n s → ∀ {k C : Nat} {goal : Config}, Path n k (cfgOf m n s) C goal → Solved n goal →
    ∃ k' C', Path n k' (cfgOf m n s1) C' goal ∧ k' ≤ k ∧ s1.cost + C' ≤ s.cost + C := by
  induction h with
  | refl => intro _ k C goal hp _; exact ⟨k, C, hp, le_refl _, le_refl _⟩
  | enter src hsrc hc _ _ ih =>
    intro inv k C goal hp hs
    obtain ⟨k1, C1, hp1, hk1, hc1⟩ := enter_lower inv hc hp hs
    obtain ⟨k2, C2, hp2, hk2, hc2⟩ := ih (inv.enter tab hsrc hc) hp1 hs
    exact ⟨k2, C2, hp2, by omega, by omega⟩
  | cross c hc hx _ ih =>
    intro inv k C goal hp hs
    obtain ⟨k1, C1, hp1, hk1, hc1⟩ := cross_lower inv tab hc hx hp hs
    obtain ⟨k2, C2, hp2, hk2, hc2⟩ := ih (inv.cross tab hc hx) hp1 hs
    exact ⟨k2, C2, hp2, by omega, by omega⟩

/-! ## Solved configurations and the `remaining` count -/

theorem occupied_zero_free {h : List Nat} (hz : occupied h = 0) : ∀ x, x ∈ h → x = free := by
  intro x hx
  unfold occupied at hz
  rw [List.countP_eq_zero] at hz
  have := hz x hx
  simpa using this

theorem free_occupied_zero {h : List Nat} (hf : ∀ x, x ∈ h → x = free) : occupied h = 0 := by
  unfold occupied
  rw [List.countP_eq_zero]
  intro x hx
  simp [hf x hx]

theorem sum4_zero {l : List Nat} (h : sum4 l = 0) (c : Nat) (hc : c < 4) : l.getD c 0 = 0 := by
  have := getD_le_sum4 l hc
  omega

theorem Inv.solved_of_rem {m : List (List Nat)} {n : Nat} {s : State} (inv : Inv m n s)
    (h : s.remaining = 0) : Solved n (cfgOf m n s) := by
  have hrem := inv.rem
  have hocc := inv.occ
  have hm : sum4 s.mobile = 0 := by omega
  have he : sum4 s.empty = 0 := by omega
  have hh : occupied s.h = 0 := by omega
  refine ⟨occupied_zero_free hh, ?_⟩
  have key : ∀ c, c < 4 → roomOf m n s c = List.replicate n c := by
    intro c hc
    rw [roomOf_settled m n s c (sum4_zero hm c hc), sum4_zero he c hc, Nat.sub_zero]
  unfold cfgOf
  simp only [List.range_succ, List.range_zero, List.nil_append, List.cons_append, List.map_cons,
    List.map_nil]
  rw [key 0 (by omega), key 1 (by omega), key 2 (by omega), key 3 (by omega)]

theorem Inv.mobile_zero_of_all {m : List (List Nat)} {n : Nat} {s : State} (inv : Inv m n s)
    {c : Nat} (hc : c < 4) (hall : ∀ y, y ∈ roomOf m n s c → y = c) :
    s.mobile.getD c 0 = 0 := by
  by_contra hmob
  have hb := inv.bot c hc hmob
  apply hb
  apply hall
  unfold roomOf
  apply List.mem_append_left
  apply List.mem_map.mpr
  refine ⟨s.mobile.getD c 0 - 1, List.mem_range.mpr (by omega), ?_⟩
  rw [show s.empty.getD c 0 + (s.mobile.getD c 0 - 1) =
    s.empty.getD c 0 + s.mobile.getD c 0 - 1 by omega]

theorem Inv.rem_of_solved {m : List (List Nat)} {n : Nat} {s : State} (inv : Inv m n s)
    (h : Solved n (cfgOf m n s)) : s.remaining = 0 := by
  have hocc : occupied s.h = 0 := free_occupied_zero h.1
  have hmob : ∀ c, c < 4 → s.mobile.getD c 0 = 0 := by
    intro c hc
    apply inv.mobile_zero_of_all hc
    intro y hy
    have hr := h.room hc
    rw [cfgOf_room m n s hc] at hr
    rw [hr] at hy
    exact (List.mem_replicate.mp hy).2
  have := inv.rem
  unfold sum4 at this
  rw [hmob 0 (by omega), hmob 1 (by omega), hmob 2 (by omega), hmob 3 (by omega)] at this
  omega

theorem Inv.cross_rem {m : List (List Nat)} {n : Nat} {s : State} (inv : Inv m n s)
    (tab : TableOK m n) {c : Nat} (hc : c < 4) (hx : CanCross m s c) : 2 ≤ s.remaining := by
  obtain ⟨_, hepos⟩ := inv.cross_empty_pos tab hc hx.1 hx.2.1
  have hv := inv.top_lt tab hc hx.1
  have h1 := getD_le_sum4 s.empty hv
  have h2 := getD_le_sum4 s.mobile hc
  have h3 := inv.occ
  have h4 := inv.rem
  have h5 := hx.1
  omega

theorem Reduces.rem_pos {m : List (List Nat)} {n : Nat} (tab : TableOK m n) {s s1 : State}
    (h : Reduces m s s1) : Inv m n s → 1 ≤ s.remaining → 1 ≤ s1.remaining := by
  induction h with
  | refl => intro _ h; exact h
  | enter src hsrc hc hne _ ih =>
    intro inv hpos
    apply ih (inv.enter tab hsrc hc)
    simp only [enterState]
    omega
  | cross c hc hx _ ih =>
    intro inv hpos
    apply ih (inv.cross tab hc hx)
    have := inv.cross_rem tab hc hx
    simp only [crossState]
    omega

theorem cfgOf_key {m : List (List Nat)} {n : Nat} {x y : State} (h : keyOf x = keyOf y) :
    cfgOf m n x = cfgOf m n y ∧ x.h = y.h := by
  unfold keyOf at h
  simp only [Key.mk.injEq] at h
  obtain ⟨h1, h2, h3⟩ := h
  refine ⟨?_, h1⟩
  unfold cfgOf
  rw [h1]
  congr 1
  apply List.map_congr_left
  intro c _
  unfold roomOf
  rw [h2, h3]

/-! ## Lower bound: no solution is cheaper than the final bound -/

theorem occupied_pos_of {h : List Nat} {i : Nat} (hne : h.getD i free ≠ free) :
    1 ≤ occupied h := by
  have hi := getD_ne_lt hne
  have : h.getD i free = h[i] := by simp [List.getElem?_eq_getElem hi]
  rw [this] at hne
  unfold occupied
  apply List.countP_pos_iff.mpr
  exact ⟨h[i], List.getElem_mem hi, by simpa using hne⟩

theorem park_placed {m : List (List Nat)} {n : Nat} {s : State} (inv : Inv m n s)
    {c dst p : Nat} {rest : List Nat} (hc : c < 4) (hmob : s.mobile.getD c 0 = 0)
    (hroom : (cfgOf m n s).rooms.getD c [] = p :: rest)
    (hfree : (cfgOf m n s).hall.getD dst free = free) (hdl : dst < 11) :
    HomeOK n ⟨(cfgOf m n s).hall.set dst p, (cfgOf m n s).rooms.set c rest⟩ dst c ∧
    homeCfg ⟨(cfgOf m n s).hall.set dst p, (cfgOf m n s).rooms.set c rest⟩ dst c =
      cfgOf m n s ∧ p = c := by
  have hr := cfgOf_room m n s hc
  have hcr : c < (cfgOf m n s).rooms.length := by rw [cfgOf_rooms_length]; exact hc
  have hdh : dst < (cfgOf m n s).hall.length := by
    show dst < s.h.length
    rw [inv.hlen]; exact hdl
  rw [hr, roomOf_settled m n s c hmob] at hroom
  have hp : p = c := by
    have : p ∈ List.replicate (n - s.empty.getD c 0) c := by
      rw [hroom]; exact List.mem_cons_self _ _
    exact (List.mem_replicate.mp this).2
  have hrest : ∀ y, y ∈ rest → y = c := by
    intro y hy
    have : y ∈ List.replicate (n - s.empty.getD c 0) c := by
      rw [hroom]; exact List.mem_cons_of_mem _ hy
    exact (List.mem_replicate.mp this).2
  have hlen : rest.length + 1 = n - s.empty.getD c 0 := by
    have := congrArg List.length hroom
    simp only [List.length_replicate, List.length_cons] at this
    omega
  subst hp
  refine ⟨⟨?_, hc, ?_, ?_⟩, ?_, rfl⟩
  · show ((cfgOf m n s).hall.set dst p).getD dst free = p
    exact gD_set_eq _ _ _ hdh
  · intro y hy
    rw [show ((cfgOf m n s).rooms.set p rest).getD p [] = rest from gD_set_eq _ _ _ hcr] at hy
    exact hrest y hy
  · rw [show ((cfgOf m n s).rooms.set p rest).getD p [] = rest from gD_set_eq _ _ _ hcr]
    omega
  · unfold homeCfg
    simp only
    rw [gD_set_eq _ _ _ hcr, List.set_set, List.set_set]
    have e1 : (cfgOf m n s).hall.set dst free = (cfgOf m n s).hall := by
      apply List.ext_getElem
      · simp
      · intro i h1 h2
        by_cases hi : dst = i
        · subst hi
          simp only [List.getElem_set_self]
          have : (cfgOf m n s).hall.getD dst free = (cfgOf m n s).hall[dst] := by
            simp [List.getElem?_eq_getElem h2]
          rw [← this, hfree]
        · simp [List.getElem_set_ne hi]
    have e2 : (cfgOf m n s).rooms.set p (p :: rest) = (cfgOf m n s).rooms := by
      apply List.ext_getElem
      · simp
      · intro i h1 h2
        by_cases hi : p = i
        · subst hi
          simp only [List.getElem_set_self]
          have : (cfgOf m n s).rooms.getD p [] = (cfgOf m n s).rooms[p] := by
            simp [List.getElem?_eq_getElem h2]
          rw [← this, hr, roomOf_settled m n s p hmob, hroom]
        · simp [List.getElem_set_ne hi]
    rw [e1, e2]

theorem branch_bound {m : List (List Nat)} {n : Nat} (tab : TableOK m n) {T : Nat}
    {vis : List (Key × Nat)} (hcl : Closed m n T vis) {K : Nat}
    (hout : ∀ j, j < K → LowerAt m n T vis j) {s1 : State} (inv : Inv m n s1)
    (hno : NoMove m s1)
    (hcov : ∀ c dst, c < 4 → s1.mobile.getD c 0 ≠ 0 → dst ∈ spots → CanPark s1 c dst →
      CovF m n T vis (parkState m s1 c dst))
    (hrem : 1 ≤ s1.remaining) {goal : Config} (hs : Solved n goal) :
    ∀ k, k ≤ K → ∀ C, Path n k (cfgOf m n s1) C goal → T ≠ 0 ∧ T ≤ s1.cost + C := by
  intro k
  induction k using Nat.strong_induction_on with
  | _ k ih =>
    intro hk C hp
    generalize hcfg : cfgOf m n s1 = a at hp
    cases hp with
    | nil =>
      exfalso
      subst hcfg
      have := inv.rem_of_solved hs
      omega
    | @cons k0 _ b _ c1 c2 st rest =>
      subst hcfg
      cases st with
      | home src v hsv hv hall hlen hclear =>
        exfalso
        have hne : s1.h.getD src free ≠ free := by
          have : s1.h.getD src free = v := hsv
          rw [this]; unfold free; omega
        have hsv' : s1.h.getD src free = v := hsv
        apply hno.1 src (inv.hspot src hne)
        refine ⟨hne, ?_, ?_⟩
        · rw [hsv']
          apply inv.mobile_zero_of_all hv
          intro y hy
          apply hall
          rw [cfgOf_room m n s1 hv]
          exact hy
        · rw [hsv']; exact hclear
      | park c dst p rest' hc hroom hdst hfree hclear =>
        by_cases hmob : s1.mobile.getD c 0 = 0
        · have hdl : dst < 11 := by
            have := mem_spots_le hdst
            omega
          obtain ⟨hok, hcfg, _⟩ := park_placed inv hc hmob hroom hfree hdl
          have wfb : WFC n ⟨(cfgOf m n s1).hall.set dst p, (cfgOf m n s1).rooms.set c rest'⟩ :=
            (Step.park (n := n) (cfgOf m n s1) c dst p rest' hc hroom hdst hfree
              hclear).keeps_wfc inv.wfc
          obtain ⟨k', C', hpath, hk', hcost⟩ := sim_home dst c rest hs wfb hok
          rw [hcfg] at hpath
          have := ih k' (by omega) (by omega) C' hpath
          refine ⟨this.1, ?_⟩
          have h2 := this.2
          omega
        · have hpark : CanPark s1 c dst := ⟨hfree, hclear⟩
          have hsplit := inv.room_split hc hmob dst
          rw [cfgOf_room m n s1 hc, hsplit.1] at hroom
          have hp : topOf m s1 c = p := (List.cons.inj hroom).1
          have hrest : roomOf m n (parkState m s1 c dst) c = rest' := (List.cons.inj hroom).2
          have hb : cfgOf m n (parkState m s1 c dst) =
              ⟨(cfgOf m n s1).hall.set dst p, (cfgOf m n s1).rooms.set c rest'⟩ := by
            rw [cfgOf_parkState inv hc dst, hp, hrest]
          have hcost : (parkState m s1 c dst).cost =
              s1.cost + (dist dst (col c) + (n - rest'.length)) * weights.getD p 0 := by
            have h2 := hsplit.2
            rw [hrest] at h2
            show s1.cost + parkCost m s1 c dst = _
            unfold parkCost
            rw [hp, show n - rest'.length = s1.empty.getD c 0 + 1 by omega, Nat.add_assoc]
          have invy := inv.park tab hc hmob hdst hpark
          rw [← hb] at rest
          rcases hcov c dst hc hmob hdst hpark with hcut | ⟨v, hv, hvis⟩
          · refine ⟨hcut.1, ?_⟩
            have := hcut.2 _ _ _ rest hs
            omega
          · obtain ⟨x, invx, hkey, hxc, hex⟩ := hcl _ _ hvis
            have hk2 := cfgOf_key (m := m) (n := n) hkey
            have hkm : x.mobile = (parkState m s1 c dst).mobile := by
              have := hkey
              unfold keyOf at this
              simp only [Key.mk.injEq] at this
              exact this.2.1
            have hpos : 1 ≤ x.remaining := by
              rw [invx.rem, hk2.2]
              have : (parkState m s1 c dst).h.getD dst free ≠ free := by
                show (s1.h.set dst (topOf m s1 c)).getD dst free ≠ free
                rw [gD_set_eq _ _ _ (by rw [inv.hlen]; have := mem_spots_le hdst; omega)]
                have := inv.top_lt tab hc hmob
                unfold free; omega
              have := occupied_pos_of this
              omega
            rw [← hk2.1] at rest
            have := hout k0 (by omega) x c2 goal invx hex hpos rest hs
            refine ⟨this.1, ?_⟩
            have h2 := this.2
            omega

theorem lower_all {m : List (List Nat)} {n : Nat} (tab : TableOK m n) {T : Nat}
    {vis : List (Key × Nat)} (hcl : Closed m n T vis) : ∀ K, LowerAt m n T vis K := by
  intro K
  induction K using Nat.strong_induction_on with
  | _ K ih =>
    intro x C goal inv hex hrem hp hs
    obtain ⟨s1, hred, hcase⟩ := hex
    have inv1 := hred.keeps_inv tab inv
    obtain ⟨k', C', hp', hk', hc'⟩ := hred.lower tab inv hp hs
    rcases hcase with ⟨hT, hcut⟩ | ⟨hno, hcov⟩
    · refine ⟨hT, ?_⟩
      rcases hcut with ⟨src, hsrc, hce, hle⟩ | ⟨c, hc, hx, hle⟩
      · obtain ⟨k2, C2, _, _, hc2⟩ := enter_lower inv1 hce hp' hs
        omega
      · obtain ⟨k2, C2, _, _, hc2⟩ := cross_lower inv1 tab hc hx hp' hs
        omega
    · have := branch_bound tab hcl ih inv1 hno hcov (hred.rem_pos tab inv hrem) hs k' hk' C' hp'
      refine ⟨this.1, ?_⟩
      have h2 := this.2
      omega

/-! ## Reachable states satisfy the invariant -/

theorem Working.sound {m : List (List Nat)} {n : Nat} (tab : TableOK m n) {t : Nat}
    {s w : State} (h : Working m t s w) (inv : Inv m n s) : Inv m n w ∧ Reduces m s w := by
  induction h with
  | start => exact ⟨inv, Reduces.refl _⟩
  | @hall w w1 d d1 src _ hsrc hstep ih =>
    obtain ⟨iw, red⟩ := ih
    rcases hallStep_spec iw tab t d hsrc with ⟨_, e⟩ | ⟨hce, e⟩
    · rw [e] at hstep
      cases hstep
      exact ⟨iw, red⟩
    · rw [e] at hstep
      split at hstep
      · cases hstep
      · split at hstep
        · cases hstep
        · rename_i h1
          cases hstep
          exact ⟨iw.enter tab hsrc hce,
            red.append (Reduces.enter src hsrc hce h1 (Reduces.refl _))⟩
  | @room w w1 d d1 c _ hc hstep ih =>
    obtain ⟨iw, red⟩ := ih
    rcases roomStep_spec iw tab t d hc with ⟨_, e⟩ | ⟨hx, e⟩
    · rw [e] at hstep
      cases hstep
      exact ⟨iw, red⟩
    · rw [e] at hstep
      split at hstep
      · cases hstep
      · cases hstep
        exact ⟨iw.cross tab hc hx, red.append (Reduces.cross c hc hx (Reduces.refl _))⟩

theorem Reach.inv {chars : List Nat} {n : Nat} (wf : WellFormed chars n) {g0 : Globals}
    {w : State} (h : Reach g0 chars w) :
    TableOK (buildRows [] 0 chars) n ∧ Inv (buildRows [] 0 chars) n w := by
  obtain ⟨g, s, t, hv, hs, hw⟩ := h
  obtain ⟨hm, _, tab, hinv⟩ := hv.stack_inv wf
  have e : buildRows [] 0 chars = g.m := by
    rw [hm]; exact startGlobals_m wf g0
  rw [e]
  exact ⟨tab, (hw.sound tab (hinv s hs)).1⟩

theorem reach_init (g0 : Globals) (chars : List Nat) :
    Reach g0 chars (initState chars (buildRows [] 0 chars)) :=
  ⟨startGlobals g0 chars, _, 0, Visits.start, List.mem_singleton.mpr rfl, Working.start⟩
theorem sample_run :
    ∃ g1, run 5 { startGlobals ⟨false, [], [], [], 0⟩ [66, 65, 67, 68, 65, 66, 67, 68] with
                  stack := [] }
        (initState [66, 65, 67, 68, 65, 66, 67, 68]
          (buildRows [] 0 [66, 65, 67, 68, 65, 66, 67, 68])) = .ok g1 ∧
      g1.m = [[1, 0, 2, 3], [0, 1, 2, 3]] ∧
      (⟨[4, 4, 4, 4, 4, 4, 4, 4, 4, 4, 0], [1, 0, 0, 0], [0, 1, 0, 0], 7, 2⟩ : State) ∈
        g1.stack := by
  refine ⟨_, rfl, rfl, ?_⟩
  decide

theorem reach_sample_top :
    Reach ⟨false, [], [], [], 0⟩ [66, 65, 67, 68, 65, 66, 67, 68]
      ⟨[4, 4, 4, 4, 4, 4, 4, 4, 4, 4, 0], [1, 0, 0, 0], [0, 1, 0, 0], 7, 2⟩ := by
  obtain ⟨g1, hrun, _, hmem⟩ := sample_run
  exact ⟨g1, _, 0, Visits.step 5 Visits.start rfl hrun, hmem, Working.start⟩

theorem reach_sample_work :
    Reach ⟨false, [], [], [], 0⟩ [66, 65, 67, 68, 65, 66, 67, 68]
      ⟨[4, 4, 4, 4, 4, 4, 4, 4, 4, 4, 0], [0, 0, 0, 0], [1, 0, 0, 0], 47, 1⟩ := by
  obtain ⟨g1, hrun, hm, hmem⟩ := sample_run
  refine ⟨g1, _, 0, Visits.step 5 Visits.start rfl hrun, hmem, ?_⟩
  rw [hm]
  exact Working.room (d := true) (c := 0) Working.start (by decide) rfl

/-- C11: the cost returned by `processInput` depends only on `chars` and the experimental
flag (and, in this embedding, the step budget): whatever values the globals `m`, `stack`,
`visited` and `target` hold on entry, the result (cost, panic or exhausted budget alike) is
the one obtained from freshly initialised globals with the same flag, because all four are
overwritten before the search starts. -/
theorem processInput_ignores_globals (fuel : Nat) (e : Bool) (m m' : List (List Nat))
    (stack stack' : List State) (visited visited' : List (Key × Nat)) (target target' : Nat)
    (chars : List Nat) :
    processInput fuel ⟨e, m, stack, visited, target⟩ chars =
      processInput fuel ⟨e, m', stack', visited', target'⟩ chars ∧
    startGlobals ⟨e, m, stack, visited, target⟩ chars =
      ⟨e, buildRows [] 0 chars, [initState chars (buildRows [] 0 chars)], [], 0⟩ :=
  ⟨rfl, rfl⟩

/-- C12: in every state reachable during a search from a well-formed input (the initial
state, every state on the stack, every working state of `run` after an in-place move),
`remaining` is the sum of the four `mobile` counts plus the number of non-free hallway
cells. -/
theorem remaining_counts (chars : List Nat) (n : Nat) (wf : WellFormed chars n)
    (g0 : Globals) (w : State) (hr : Reach g0 chars w) :
    w.remaining = w.mobile.getD 0 0 + w.mobile.getD 1 0 + w.mobile.getD 2 0 +
      w.mobile.getD 3 0 + (w.h.filter (fun x => x != free)).length := by
  have inv := (hr.inv wf).2
  have := inv.rem
  unfold sum4 occupied at this
  rw [List.countP_eq_length_filter] at this
  exact this

/-- Witness for C12: the initial state of the input `BACDABCD`. -/
theorem remaining_counts_witness :
    Reach ⟨false, [], [], [], 0⟩ [66, 65, 67, 68, 65, 66, 67, 68]
        (initState [66, 65, 67, 68, 65, 66, 67, 68]
          (buildRows [] 0 [66, 65, 67, 68, 65, 66, 67, 68])) ∧
    (initState [66, 65, 67, 68, 65, 66, 67, 68]
        (buildRows [] 0 [66, 65, 67, 68, 65, 66, 67, 68])).remaining =
      (initState [66, 65, 67, 68, 65, 66, 67, 68]
        (buildRows [] 0 [66, 65, 67, 68, 65, 66, 67, 68])).mobile.getD 0 0 +
      (initState [66, 65, 67, 68, 65, 66, 67, 68]
        (buildRows [] 0 [66, 65, 67, 68, 65, 66, 67, 68])).mobile.getD 1 0 +
      (initState [66, 65, 67, 68, 65, 66, 67, 68]
        (buildRows [] 0 [66, 65, 67, 68, 65, 66, 67, 68])).mobile.getD 2 0 +
      (initState [66, 65, 67, 68, 65, 66, 67, 68]
        (buildRows [] 0 [66, 65, 67, 68, 65, 66, 67, 68])).mobile.getD 3 0 +
      ((initState [66, 65, 67, 68, 65, 66, 67, 68]
        (buildRows [] 0 [66, 65, 67, 68, 65, 66, 67, 68])).h.filter
          (fun x => x != free)).length :=
  ⟨reach_init _ _,
   remaining_counts [66, 65, 67, 68, 65, 66, 67, 68] 2
     ⟨Or.inl rfl, by decide, by decide, by decide⟩ ⟨false, [], [], [], 0⟩ _ (reach_init _ _)⟩

/-- The forecast of the branching phase, computed without wrap-around. -/
theorem forecastOf_on (dst v : Nat) (hd : dst ∈ spots) (hv : v < 4) :
    1 ≤ absDiff dst (u8 ((v + 1) * 2)) ∧
    absDiff dst (u8 ((v + 1) * 2)) = dist dst (2 * (v + 1)) ∧
    sub32 (absDiff dst (u8 ((v + 1) * 2))) 1 = dist dst (2 * (v + 1)) - 1 ∧
    idx weights v = .ok (weights.getD v 0) ∧
    forecastOf true dst v (weights.getD v 0) =
      (dist dst (2 * (v + 1)) - 1) * weights.getD v 0 := by
  simp only [spots, List.mem_cons, List.mem_singleton, List.not_mem_nil, or_false] at hd
  rcases hd with rfl | rfl | rfl | rfl | rfl | rfl | rfl <;> interval_cases v <;>
    exact ⟨by decide, by decide, by decide, rfl, by decide⟩

/-- C20: for every parking cell `dst` and every label `v < 4`, `absDiff(dst, 2*(v+1))` is
at least 1 and equals `|dst - 2*(v+1)|`, so the `uint32` subtraction of 1 in the forecast
does not wrap, and the forecast computed with the flag on is exactly
`(|dst - 2*(v+1)| - 1) * weights[v]`. -/
theorem forecast_exact (dst v : Nat) (hd : dst ∈ spots) (hv : v < 4) :
    1 ≤ absDiff dst (u8 ((v + 1) * 2)) ∧
    absDiff dst (u8 ((v + 1) * 2)) = dist dst (2 * (v + 1)) ∧
    sub32 (absDiff dst (u8 ((v + 1) * 2))) 1 = dist dst (2 * (v + 1)) - 1 ∧
    idx weights v = .ok (weights.getD v 0) ∧
    forecastOf true dst v (weights.getD v 0) =
      (dist dst (2 * (v + 1)) - 1) * weights.getD v 0 :=
  forecastOf_on dst v hd hv

/-- Witness for C20: parking cell 0 and label D. -/
theorem forecast_exact_witness :
    (0 ∈ spots ∧ 3 < 4) ∧ forecastOf true 0 3 (weights.getD 3 0) = 7000 :=
  ⟨⟨by decide, by decide⟩, (forecast_exact 0 3 (by decide) (by decide)).2.2.2.2⟩

theorem canEnter_iff {m : List (List Nat)} {n : Nat} {s : State} (inv : Inv m n s)
    {src : Nat} (hsrc : src ∈ spots) (hne : s.h.getD src free ≠ free) :
    CanEnter s src ↔ (s.mobile.getD (s.h.getD src free) 0 = 0 ∧
      pathClear s src (2 * (s.h.getD src free + 1)) = .ok true) := by
  have hv := inv.label_lt hne
  have hp := pathClear_of_inv s src (col (s.h.getD src free)) inv.hlen (mem_spots_le hsrc)
    (Nat.le_trans (col_le hv) (by omega))
  have hcol : col (s.h.getD src free) = 2 * (s.h.getD src free + 1) := rfl
  rw [hcol] at hp
  constructor
  · intro hc
    refine ⟨hc.2.1, ?_⟩
    rcases hp with ⟨h1, _⟩ | ⟨_, h2⟩
    · exact h1
    · exact absurd hc.2.2 h2
  · intro hc
    refine ⟨hne, hc.1, ?_⟩
    rcases hp with ⟨_, h2⟩ | ⟨h1, _⟩
    · exact h2
    · rw [h1] at hc
      exact absurd hc.2 (by simp)

/-- C13: on every reachable state `w` and parking cell `src`, the body of the in-place
hallway -> room loop leaves the state alone when `src` is free; for a piece `v` parked at
`src` it fires exactly when `mobile[v] = 0` and `pathClear(src, 2*(v+1))` holds, and leaves
the state and the `done` flag alone otherwise. When it fires, `empty[v] ≥ 1`, the new cost is
`cost + (|2*(v+1) - src| + empty[v]) * weights[v]` with the old `empty[v]`; `run` returns
when that cost reaches a non-zero `target` (abort) or when `remaining = 1` (the cost is
written to `target`); otherwise the state gets the new cost, `h[src] = free`, `empty[v]` and
`remaining` one less, all other fields unchanged, and `done` is reset. -/
theorem hall_rule (chars : List Nat) (n : Nat) (wf : WellFormed chars n) (g0 : Globals)
    (w : State) (hr : Reach g0 chars w) (t : Nat) (d : Bool) (src : Nat)
    (hsrc : src ∈ spots) :
    (w.h.getD src free = free → hallStep t w d src = .ok (.go w d)) ∧
    (∀ v, w.h.getD src free = v → v ≠ free →
      (¬ (w.mobile.getD v 0 = 0 ∧ pathClear w src (2 * (v + 1)) = .ok true) →
        hallStep t w d src = .ok (.go w d)) ∧
      (w.mobile.getD v 0 = 0 ∧ pathClear w src (2 * (v + 1)) = .ok true →
        1 ≤ w.empty.getD v 0 ∧ 1 ≤ w.remaining ∧
        hallStep t w d src = .ok (
          if w.cost + (dist (2 * (v + 1)) src + w.empty.getD v 0) * weights.getD v 0 ≥ t ∧
              t ≠ 0 then .ret t
          else if w.remaining = 1 then
            .ret (w.cost + (dist (2 * (v + 1)) src + w.empty.getD v 0) * weights.getD v 0)
          else .go { h := w.h.set src free, mobile := w.mobile,
                     empty := w.empty.set v (w.empty.getD v 0 - 1),
                     cost := w.cost +
                       (dist (2 * (v + 1)) src + w.empty.getD v 0) * weights.getD v 0,
                     remaining := w.remaining - 1 } false))) := by
  obtain ⟨tab, inv⟩ := hr.inv wf
  have spec := hallStep_spec inv tab t d hsrc
  constructor
  · intro hfree
    rcases spec with ⟨_, e⟩ | ⟨hce, _⟩
    · exact e
    · exact absurd hfree hce.1
  · intro v hv hne
    subst hv
    have hiff := canEnter_iff inv hsrc hne
    constructor
    · intro hnot
      rcases spec with ⟨_, e⟩ | ⟨hce, _⟩
      · exact e
      · exact absurd (hiff.mp hce) hnot
    · intro hfire
      have hce := hiff.mpr hfire
      refine ⟨inv.enter_empty_pos hne hfire.1, ?_, ?_⟩
      · have := occupied_pos_of hne
        have := inv.rem
        omega
      · rcases spec with ⟨hn, _⟩ | ⟨_, e⟩
        · exact absurd hce hn
        · exact e

theorem canCross_iff {m : List (List Nat)} {n : Nat} {s : State} (inv : Inv m n s)
    (tab : TableOK m n) {c : Nat} (hc : c < 4) (hmob : s.mobile.getD c 0 ≠ 0) :
    CanCross m s c ↔ (s.mobile.getD (topOf m s c) 0 = 0 ∧
      pathClear s (2 * (c + 1)) (2 * (topOf m s c + 1)) = .ok true) := by
  have hv := inv.top_lt tab hc hmob
  have hp := pathClear_of_inv s (col c) (col (topOf m s c)) inv.hlen
    (Nat.le_trans (col_le hc) (by omega)) (Nat.le_trans (col_le hv) (by omega))
  have hcol : ∀ x, col x = 2 * (x + 1) := fun _ => rfl
  rw [hcol, hcol] at hp
  constructor
  · intro hx
    refine ⟨hx.2.1, ?_⟩
    rcases hp with ⟨h1, _⟩ | ⟨_, h2⟩
    · exact h1
    · exact absurd hx.2.2 h2
  · intro hx
    refine ⟨hmob, hx.1, ?_⟩
    rcases hp with ⟨_, h2⟩ | ⟨h1, _⟩
    · exact h2
    · rw [h1] at hx
      exact absurd hx.2 (by simp)

/-- C14: on every reachable state `w` and room `c`, the body of the in-place room -> room
loop leaves the state alone when `mobile[c] = 0`; when `mobile[c] > 0`, the lookup of the top
piece `v = m[empty[c]][c]` succeeds and the rule fires exactly when `mobile[v] = 0` and
`pathClear(2*(c+1), 2*(v+1))` holds, leaving the state and the `done` flag alone otherwise.
When it fires, `v ≠ c`, `empty[v] ≥ 1`, the new cost is
`cost + (|2*(v+1) - 2*(c+1)| + empty[c] + 1 + empty[v]) * weights[v]` with the old counts;
`run` returns when that cost reaches a non-zero `target`; otherwise the state gets the new
cost, `empty[c]` one more, `mobile[c]`, `empty[v]` and `remaining` one less, the hallway is
unchanged, and `done` is reset. -/
theorem room_rule (chars : List Nat) (n : Nat) (wf : WellFormed chars n) (g0 : Globals)
    (w : State) (hr : Reach g0 chars w) (t : Nat) (d : Bool) (c : Nat) (hc : c < 4) :
    (w.mobile.getD c 0 = 0 → roomStep (buildRows [] 0 chars) t w d c = .ok (.go w d)) ∧
    (0 < w.mobile.getD c 0 →
      ∀ v, ((buildRows [] 0 chars).getD (w.empty.getD c 0) []).getD c 0 = v →
      cell (buildRows [] 0 chars) (w.empty.getD c 0) c = .ok v ∧
      (¬ (w.mobile.getD v 0 = 0 ∧ pathClear w (2 * (c + 1)) (2 * (v + 1)) = .ok true) →
        roomStep (buildRows [] 0 chars) t w d c = .ok (.go w d)) ∧
      (w.mobile.getD v 0 = 0 ∧ pathClear w (2 * (c + 1)) (2 * (v + 1)) = .ok true →
        v ≠ c ∧ 1 ≤ w.empty.getD v 0 ∧ 2 ≤ w.remaining ∧
        roomStep (buildRows [] 0 chars) t w d c = .ok (
          if w.cost + (dist (2 * (v + 1)) (2 * (c + 1)) + w.empty.getD c 0 + 1 +
              w.empty.getD v 0) * weights.getD v 0 ≥ t ∧ t ≠ 0 then .ret t
          else .go { h := w.h, mobile := w.mobile.set c (w.mobile.getD c 0 - 1),
                     empty := (w.empty.set c (w.empty.getD c 0 + 1)).set v
                       (w.empty.getD v 0 - 1),
                     cost := w.cost + (dist (2 * (v + 1)) (2 * (c + 1)) + w.empty.getD c 0 +
                       1 + w.empty.getD v 0) * weights.getD v 0,
                     remaining := w.remaining - 1 } false))) := by
  obtain ⟨tab, inv⟩ := hr.inv wf
  have spec := roomStep_spec inv tab t d hc
  constructor
  · intro h0
    rcases spec with ⟨_, e⟩ | ⟨hx, _⟩
    · exact e
    · exact absurd h0 hx.1
  · intro hpos v hv
    have hmob : w.mobile.getD c 0 ≠ 0 := by omega
    have hiff := canCross_iff inv tab hc hmob
    have htop : topOf (buildRows [] 0 chars) w c = v := hv
    rw [htop] at hiff
    refine ⟨?_, ?_, ?_⟩
    · rw [← hv]
      exact (tab.cell_ok (inv.top_row_lt hc hmob) hc).1
    · intro hnot
      rcases spec with ⟨_, e⟩ | ⟨hx, _⟩
      · exact e
      · exact absurd (hiff.mp hx) hnot
    · intro hfire
      have hx := hiff.mpr hfire
      have hep := inv.cross_empty_pos tab hc hmob hx.2.1
      rw [htop] at hep
      refine ⟨hep.1, hep.2, inv.cross_rem tab hc hx, ?_⟩
      rcases spec with ⟨hn, _⟩ | ⟨_, e⟩
      · exact absurd hx hn
      · rw [e]
        subst hv
        rfl

/-- Witness for C13: input `BACDABCD`, after A was parked at cell 10 and B went from room A
to room B; the A parked at cell 10 makes the last move, of cost 9. -/
theorem hall_rule_witness :
    Reach ⟨false, [], [], [], 0⟩ [66, 65, 67, 68, 65, 66, 67, 68]
        ⟨[4, 4, 4, 4, 4, 4, 4, 4, 4, 4, 0], [0, 0, 0, 0], [1, 0, 0, 0], 47, 1⟩ ∧
    10 ∈ spots ∧
    hallStep 0 ⟨[4, 4, 4, 4, 4, 4, 4, 4, 4, 4, 0], [0, 0, 0, 0], [1, 0, 0, 0], 47, 1⟩ true 10 =
      .ok (.ret 56) :=
  ⟨reach_sample_work, by decide,
   (((hall_rule [66, 65, 67, 68, 65, 66, 67, 68] 2
      ⟨Or.inl rfl, by decide, by decide, by decide⟩ ⟨false, [], [], [], 0⟩
      ⟨[4, 4, 4, 4, 4, 4, 4, 4, 4, 4, 0], [0, 0, 0, 0], [1, 0, 0, 0], 47, 1⟩
      reach_sample_work 0 true 10 (by decide)).2 0 rfl (by decide)).2 ⟨rfl, rfl⟩).2.2⟩

/-- Witness for C14: input `BACDABCD`, after A was parked at cell 10; the B on top of room A
goes to room B at cost 40. -/
theorem room_rule_witness :
    Reach ⟨false, [], [], [], 0⟩ [66, 65, 67, 68, 65, 66, 67, 68]
        ⟨[4, 4, 4, 4, 4, 4, 4, 4, 4, 4, 0], [1, 0, 0, 0], [0, 1, 0, 0], 7, 2⟩ ∧
    0 < 4 ∧
    roomStep (buildRows [] 0 [66, 65, 67, 68, 65, 66, 67, 68]) 0
        ⟨[4, 4, 4, 4, 4, 4, 4, 4, 4, 4, 0], [1, 0, 0, 0], [0, 1, 0, 0], 7, 2⟩ true 0 =
      .ok (.go ⟨[4, 4, 4, 4, 4, 4, 4, 4, 4, 4, 0], [0, 0, 0, 0], [1, 0, 0, 0], 47, 1⟩ false) :=
  ⟨reach_sample_top, by decide,
   ((((room_rule [66, 65, 67, 68, 65, 66, 67, 68] 2
      ⟨Or.inl rfl, by decide, by decide, by decide⟩ ⟨false, [], [], [], 0⟩
      ⟨[4, 4, 4, 4, 4, 4, 4, 4, 4, 4, 0], [1, 0, 0, 0], [0, 1, 0, 0], 7, 2⟩
      reach_sample_top 0 true 0 (by decide)).2 (by decide) 1 rfl).2.2 ⟨rfl, rfl⟩).2.2.2)⟩

theorem inplace_ok_of_eq {m : List (List Nat)} {n : Nat} (tab : TableOK m n) {t : Nat}
    {fuel : Nat} {s : State} (inv : Inv m n s) {r : Flow}
    (h : inplace m t fuel s = .ok r) : InplaceOK m n t s r := by
  obtain ⟨r', hr', ok⟩ := inplace_ok tab t (fuel + (s.remaining + 1)) s inv (by omega)
  have := inplace_mono m t fuel s r h (s.remaining + 1)
  rw [this] at hr'
  cases hr'
  exact ok

theorem run_cases {n : Nat} {g g1 : Globals} (tab : TableOK g.m n) {s : State}
    (inv : Inv g.m n s) {fuel : Nat} (h : run fuel g s = .ok g1) :
    (∃ t, inplace g.m g.target fuel s = .ok (.ret t) ∧ g1 = { g with target := t }) ∨
    (∃ s1 d, inplace g.m g.target fuel s = .ok (.go s1 d) ∧ Inv g.m n s1 ∧
      Reduces g.m s s1 ∧ NoMove g.m s1 ∧ Grow s1 28 g g1) := by
  unfold run at h
  cases hin : inplace g.m g.target fuel s with
  | error e => rw [hin] at h; cases h
  | ok r =>
    rw [hin] at h
    have ok := inplace_ok_of_eq tab inv hin
    cases r with
    | ret t =>
      simp only at h
      cases h
      exact Or.inl ⟨t, rfl, rfl⟩
    | go s1 d =>
      obtain ⟨_, i1, red, nm⟩ := ok
      obtain ⟨b, hb⟩ := minBound_ok i1 tab g.experimental g.target
      simp only at h
      rw [hb] at h
      simp only at h
      obtain ⟨g1', h1, gr, _⟩ := branchRooms_ok b [0, 1, 2, 3] g i1 tab
        (fun x hx => by simp at hx; omega)
      rw [h1] at h
      cases h
      exact Or.inr ⟨s1, d, rfl, i1, red, nm, gr⟩

/-- C15: in an iteration of the work-list loop on a well-formed input, every state `x` that
`run` pushes comes from the state `s1` with which the in-place loop ended (the fully reduced
parent), a room `c` with `mobile[c] > 0`, its top piece `v = m[empty[c]][c]` and a parking
cell `dst` that is free in `s1` with `pathClear(2*(c+1), dst)`: `x` is `s1` with `h[dst]`
set to `v`, `empty[c]` one more, `mobile[c]` one less and the cost raised by
`(|dst - 2*(c+1)| + empty[c] + 1) * weights[v]` (the parent's `empty[c]`); `remaining`, the
other hallway cells and the other rooms' counts are those of `s1`. -/
theorem pushed_successor (chars : List Nat) (n : Nat) (wf : WellFormed chars n)
    (g0 g g1 : Globals) (s : State) (rest : List State) (fuel : Nat)
    (hv : Visits (startGlobals g0 chars) g) (hs : g.stack = s :: rest)
    (hrun : run fuel { g with stack := rest } s = .ok g1) :
    ∃ new, g1.stack = new ++ rest ∧
      ∀ x, x ∈ new → ∃ s1 d c dst v,
        inplace g.m g.target fuel s = .ok (.go s1 d) ∧
        c < 4 ∧ 0 < s1.mobile.getD c 0 ∧ cell g.m (s1.empty.getD c 0) c = .ok v ∧ v < 4 ∧
        dst ∈ spots ∧ s1.h.getD dst free = free ∧
        pathClear s1 (2 * (c + 1)) dst = .ok true ∧
        x.h = s1.h.set dst v ∧ x.h.getD dst free = v ∧
        x.empty = s1.empty.set c (s1.empty.getD c 0 + 1) ∧
        x.empty.getD c 0 = s1.empty.getD c 0 + 1 ∧
        x.mobile = s1.mobile.set c (s1.mobile.getD c 0 - 1) ∧
        x.mobile.getD c 0 + 1 = s1.mobile.getD c 0 ∧
        x.cost = s1.cost +
          (dist dst (2 * (c + 1)) + s1.empty.getD c 0 + 1) * weights.getD v 0 ∧
        x.remaining = s1.remaining := by
  obtain ⟨_, _, tab, hinv⟩ := hv.stack_inv wf
  have invs : Inv g.m n s := hinv s (by rw [hs]; exact List.mem_cons_self _ _)
  rcases run_cases (g := { g with stack := rest }) tab invs hrun with
    ⟨t, _, e⟩ | ⟨s1, d, hin, i1, _, _, gr⟩
  · refine ⟨[], by rw [e]; rfl, ?_⟩
    intro x hx
    exact absurd hx (List.not_mem_nil _)
  · obtain ⟨new, hstk, _, hnew, _⟩ := gr.stk
    refine ⟨new, hstk, ?_⟩
    intro x hx
    obtain ⟨c, dst, hc, hm, hd, hp, e⟩ := hnew x hx
    simp only at e hin
    have hcell := tab.cell_ok (i1.top_row_lt hc hm) hc
    have hpc := pathClear_of_inv s1 (col c) dst i1.hlen (Nat.le_trans (col_le hc) (by omega))
      (mem_spots_le hd)
    have hdl : dst < s1.h.length := by rw [i1.hlen]; have := mem_spots_le hd; omega
    have hcm : c < s1.mobile.length := by rw [i1.mlen]; exact hc
    have hce : c < s1.empty.length := by rw [i1.elen]; exact hc
    refine ⟨s1, d, c, dst, topOf g.m s1 c, hin, hc, by omega, hcell.1, hcell.2, hd, hp.1, ?_,
      ?_, ?_, ?_, ?_, ?_, ?_, ?_, ?_⟩
    · rcases hpc with ⟨h1, _⟩ | ⟨_, h2⟩
      · exact h1
      · exact absurd hp.2 h2
    · rw [e]; rfl
    · rw [e]; exact gD_set_eq _ _ _ hdl
    · rw [e]; rfl
    · rw [e]; exact gD_set_eq _ _ _ hce
    · rw [e]; rfl
    · rw [e]
      show (s1.mobile.set c (s1.mobile.getD c 0 - 1)).getD c 0 + 1 = _
      rw [gD_set_eq _ _ _ hcm]
      omega
    · rw [e]
      show s1.cost + parkCost g.m s1 c dst = _
      rfl
    · rw [e]; rfl

/-- Witness for C15: the first iteration of the work-list loop on the input `BACDABCD`,
which pushes the fourteen ways of parking the B of room A or the A of room B. -/
theorem pushed_successor_witness :
    Visits (startGlobals ⟨false, [], [], [], 0⟩ [66, 65, 67, 68, 65, 66, 67, 68])
      (startGlobals ⟨false, [], [], [], 0⟩ [66, 65, 67, 68, 65, 66, 67, 68]) ∧
    (startGlobals ⟨false, [], [], [], 0⟩ [66, 65, 67, 68, 65, 66, 67, 68]).stack =
      ⟨[4, 4, 4, 4, 4, 4, 4, 4, 4, 4, 4], [1, 1, 0, 0], [0, 0, 0, 0], 0, 2⟩ :: [] ∧
    run 5 { startGlobals ⟨false, [], [], [], 0⟩ [66, 65, 67, 68, 65, 66, 67, 68] with stack := [] }
        ⟨[4, 4, 4, 4, 4, 4, 4, 4, 4, 4, 4], [1, 1, 0, 0], [0, 0, 0, 0], 0, 2⟩ =
      .ok (⟨false, [[1, 0, 2, 3], [0, 1, 2, 3]],
        [⟨[4, 4, 4, 4, 4, 4, 4, 4, 4, 4, 0], [1, 0, 0, 0], [0, 1, 0, 0], 7, 2⟩,
         ⟨[4, 4, 4, 4, 4, 4, 4, 4, 4, 0, 4], [1, 0, 0, 0], [0, 1, 0, 0], 6, 2⟩,
         ⟨[4, 4, 4, 4, 4, 4, 4, 0, 4, 4, 4], [1, 0, 0, 0], [0, 1, 0, 0], 4, 2⟩,
         ⟨[4, 4, 4, 4, 4, 0, 4, 4, 4, 4, 4], [1, 0, 0, 0], [0, 1, 0, 0], 2, 2⟩,
         ⟨[4, 4, 4, 0, 4, 4, 4, 4, 4, 4, 4], [1, 0, 0, 0], [0, 1, 0, 0], 2, 2⟩,
         ⟨[4, 0, 4, 4, 4, 4, 4, 4, 4, 4, 4], [1, 0, 0, 0], [0, 1, 0, 0], 4, 2⟩,
         ⟨[0, 4, 4, 4, 4, 4, 4, 4, 4, 4, 4], [1, 0, 0, 0], [0, 1, 0, 0], 5, 2⟩,
         ⟨[4, 4, 4, 4, 4, 4, 4, 4, 4, 4, 1], [0, 1, 0, 0], [1, 0, 0, 0], 90, 2⟩,
         ⟨[4, 4, 4, 4, 4, 4, 4, 4, 4, 1, 4], [0, 1, 0, 0], [1, 0, 0, 0], 80, 2⟩,
         ⟨[4, 4, 4, 4, 4, 4, 4, 1, 4, 4, 4], [0, 1, 0, 0], [1, 0, 0, 0], 60, 2⟩,
         ⟨[4, 4, 4, 4, 4, 1, 4, 4, 4, 4, 4], [0, 1, 0, 0], [1, 0, 0, 0], 40, 2⟩,
         ⟨[4, 4, 4, 1, 4, 4, 4, 4, 4, 4, 4], [0, 1, 0, 0], [1, 0, 0, 0], 20, 2⟩,
         ⟨[4, 1, 4, 4, 4, 4, 4, 4, 4, 4, 4], [0, 1, 0, 0], [1, 0, 0, 0], 20, 2⟩,
         ⟨[1, 4, 4, 4, 4, 4, 4, 4, 4, 4, 4], [0, 1, 0, 0], [1, 0, 0, 0], 30, 2⟩],
        [(⟨[4, 4, 4, 4, 4, 4, 4, 4, 4, 4, 0], [1, 0, 0, 0], [0, 1, 0, 0]⟩, 7),
         (⟨[4, 4, 4, 4, 4, 4, 4, 4, 4, 0, 4], [1, 0, 0, 0], [0, 1, 0, 0]⟩, 6),
         (⟨[4, 4, 4, 4, 4, 4, 4, 0, 4, 4, 4], [1, 0, 0, 0], [0, 1, 0, 0]⟩, 4),
         (⟨[4, 4, 4, 4, 4, 0, 4, 4, 4, 4, 4], [1, 0, 0, 0], [0, 1, 0, 0]⟩, 2),
         (⟨[4, 4, 4, 0, 4, 4, 4, 4, 4, 4, 4], [1, 0, 0, 0], [0, 1, 0, 0]⟩, 2),
         (⟨[4, 0, 4, 4, 4, 4, 4, 4, 4, 4, 4], [1, 0, 0, 0], [0, 1, 0, 0]⟩, 4),
         (⟨[0, 4, 4, 4, 4, 4, 4, 4, 4, 4, 4], [1, 0, 0, 0], [0, 1, 0, 0]⟩, 5),
         (⟨[4, 4, 4, 4, 4, 4, 4, 4, 4, 4, 1], [0, 1, 0, 0], [1, 0, 0, 0]⟩, 90),
         (⟨[4, 4, 4, 4, 4, 4, 4, 4, 4, 1, 4], [0, 1, 0, 0], [1, 0, 0, 0]⟩, 80),
         (⟨[4, 4, 4, 4, 4, 4, 4, 1, 4, 4, 4], [0, 1, 0, 0], [1, 0, 0, 0]⟩, 60),
         (⟨[4, 4, 4, 4, 4, 1, 4, 4, 4, 4, 4], [0, 1, 0, 0], [1, 0, 0, 0]⟩, 40),
         (⟨[4, 4, 4, 1, 4, 4, 4, 4, 4, 4, 4], [0, 1, 0, 0], [1, 0, 0, 0]⟩, 20),
         (⟨[4, 1, 4, 4, 4, 4, 4, 4, 4, 4, 4], [0, 1, 0, 0], [1, 0, 0, 0]⟩, 20),
         (⟨[1, 4, 4, 4, 4, 4, 4, 4, 4, 4, 4], [0, 1, 0, 0], [1, 0, 0, 0]⟩, 30)],
        0⟩ : Globals) ∧
    ∃ new, (⟨false, [[1, 0, 2, 3], [0, 1, 2, 3]],
        [⟨[4, 4, 4, 4, 4, 4, 4, 4, 4, 4, 0], [1, 0, 0, 0], [0, 1, 0, 0], 7, 2⟩,
         ⟨[4, 4, 4, 4, 4, 4, 4, 4, 4, 0, 4], [1, 0, 0, 0], [0, 1, 0, 0], 6, 2⟩,
         ⟨[4, 4, 4, 4, 4, 4, 4, 0, 4, 4, 4], [1, 0, 0, 0], [0, 1, 0, 0], 4, 2⟩,
         ⟨[4, 4, 4, 4, 4, 0, 4, 4, 4, 4, 4], [1, 0, 0, 0], [0, 1, 0, 0], 2, 2⟩,
         ⟨[4, 4, 4, 0, 4, 4, 4, 4, 4, 4, 4], [1, 0, 0, 0], [0, 1, 0, 0], 2, 2⟩,
         ⟨[4, 0, 4, 4, 4, 4, 4, 4, 4, 4, 4], [1, 0, 0, 0], [0, 1, 0, 0], 4, 2⟩,
         ⟨[0, 4, 4, 4, 4, 4, 4, 4, 4, 4, 4], [1, 0, 0, 0], [0, 1, 0, 0], 5, 2⟩,
         ⟨[4, 4, 4, 4, 4, 4, 4, 4, 4, 4, 1], [0, 1, 0, 0], [1, 0, 0, 0], 90, 2⟩,
         ⟨[4, 4, 4, 4, 4, 4, 4, 4, 4, 1, 4], [0, 1, 0, 0], [1, 0, 0, 0], 80, 2⟩,
         ⟨[4, 4, 4, 4, 4, 4, 4, 1, 4, 4, 4], [0, 1, 0, 0], [1, 0, 0, 0], 60, 2⟩,
         ⟨[4, 4, 4, 4, 4, 1, 4, 4, 4, 4, 4], [0, 1, 0, 0], [1, 0, 0, 0], 40, 2⟩,
         ⟨[4, 4, 4, 1, 4, 4, 4, 4, 4, 4, 4], [0, 1, 0, 0], [1, 0, 0, 0], 20, 2⟩,
         ⟨[4, 1, 4, 4, 4, 4, 4, 4, 4, 4, 4], [0, 1, 0, 0], [1, 0, 0, 0], 20, 2⟩,
         ⟨[1, 4, 4, 4, 4, 4, 4, 4, 4, 4, 4], [0, 1, 0, 0], [1, 0, 0, 0], 30, 2⟩],
        [(⟨[4, 4, 4, 4, 4, 4, 4, 4, 4, 4, 0], [1, 0, 0, 0], [0, 1, 0, 0]⟩, 7),
         (⟨[4, 4, 4, 4, 4, 4, 4, 4, 4, 0, 4], [1, 0, 0, 0], [0, 1, 0, 0]⟩, 6),
         (⟨[4, 4, 4, 4, 4, 4, 4, 0, 4, 4, 4], [1, 0, 0, 0], [0, 1, 0, 0]⟩, 4),
         (⟨[4, 4, 4, 4, 4, 0, 4, 4, 4, 4, 4], [1, 0, 0, 0], [0, 1, 0, 0]⟩, 2),
         (⟨[4, 4, 4, 0, 4, 4, 4, 4, 4, 4, 4], [1, 0, 0, 0], [0, 1, 0, 0]⟩, 2),
         (⟨[4, 0, 4, 4, 4, 4, 4, 4, 4, 4, 4], [1, 0, 0, 0], [0, 1, 0, 0]⟩, 4),
         (⟨[0, 4, 4, 4, 4, 4, 4, 4, 4, 4, 4], [1, 0, 0, 0], [0, 1, 0, 0]⟩, 5),
         (⟨[4, 4, 4, 4, 4, 4, 4, 4, 4, 4, 1], [0, 1, 0, 0], [1, 0, 0, 0]⟩, 90),
         (⟨[4, 4, 4, 4, 4, 4, 4, 4, 4, 1, 4], [0, 1, 0, 0], [1, 0, 0, 0]⟩, 80),
         (⟨[4, 4, 4, 4, 4, 4, 4, 1, 4, 4, 4], [0, 1, 0, 0], [1, 0, 0, 0]⟩, 60),
         (⟨[4, 4, 4, 4, 4, 1, 4, 4, 4, 4, 4], [0, 1, 0, 0], [1, 0, 0, 0]⟩, 40),
         (⟨[4, 4, 4, 1, 4, 4, 4, 4, 4, 4, 4], [0, 1, 0, 0], [1, 0, 0, 0]⟩, 20),
         (⟨[4, 1, 4, 4, 4, 4, 4, 4, 4, 4, 4], [0, 1, 0, 0], [1, 0, 0, 0]⟩, 20),
         (⟨[1, 4, 4, 4, 4, 4, 4, 4, 4, 4, 4], [0, 1, 0, 0], [1, 0, 0, 0]⟩, 30)],
        0⟩ : Globals).stack = new ++ [] ∧
      ∀ x, x ∈ new → ∃ s1 d c dst v,
        inplace (startGlobals ⟨false, [], [], [], 0⟩ [66, 65, 67, 68, 65, 66, 67, 68]).m
            (startGlobals ⟨false, [], [], [], 0⟩ [66, 65, 67, 68, 65, 66, 67, 68]).target 5
            ⟨[4, 4, 4, 4, 4, 4, 4, 4, 4, 4, 4], [1, 1, 0, 0], [0, 0, 0, 0], 0, 2⟩ = .ok (.go s1 d) ∧
        c < 4 ∧ 0 < s1.mobile.getD c 0 ∧
        cell (startGlobals ⟨false, [], [], [], 0⟩ [66, 65, 67, 68, 65, 66, 67, 68]).m
          (s1.empty.getD c 0) c = .ok v ∧ v < 4 ∧
        dst ∈ spots ∧ s1.h.getD dst free = free ∧
        pathClear s1 (2 * (c + 1)) dst = .ok true ∧
        x.h = s1.h.set dst v ∧ x.h.getD dst free = v ∧
        x.empty = s1.empty.set c (s1.empty.getD c 0 + 1) ∧
        x.empty.getD c 0 = s1.empty.getD c 0 + 1 ∧
        x.mobile = s1.mobile.set c (s1.mobile.getD c 0 - 1) ∧
        x.mobile.getD c 0 + 1 = s1.mobile.getD c 0 ∧
        x.cost = s1.cost +
          (dist dst (2 * (c + 1)) + s1.empty.getD c 0 + 1) * weights.getD v 0 ∧
        x.remaining = s1.remaining :=
  ⟨Visits.start, rfl, rfl,
   pushed_successor [66, 65, 67, 68, 65, 66, 67, 68] 2
     ⟨Or.inl rfl, by decide, by decide, by decide⟩ ⟨false, [], [], [], 0⟩
     (startGlobals ⟨false, [], [], [], 0⟩ [66, 65, 67, 68, 65, 66, 67, 68]) _
     ⟨[4, 4, 4, 4, 4, 4, 4, 4, 4, 4, 4], [1, 1, 0, 0], [0, 0, 0, 0], 0, 2⟩ [] 5
     Visits.start rfl rfl⟩

/-- C16: in an iteration of the work-list loop on a well-formed input, if the in-place loop of
`run` ends without returning (so `run` goes on to its branching phase) with the state `s1`,
then `done` is set and `s1` is a fixed point of the in-place rules: no piece `v` parked at a
parking cell `src` has `mobile[v] = 0` together with `pathClear(src, 2*(v+1))`, and no room
`c` with `mobile[c] > 0` has a top piece `v = m[empty[c]][c]` with `mobile[v] = 0` together
with `pathClear(2*(c+1), 2*(v+1))`. -/
theorem branching_fixed_point (chars : List Nat) (n : Nat) (wf : WellFormed chars n)
    (g0 g : Globals) (s : State) (rest : List State) (fuel : Nat) (s1 : State) (d : Bool)
    (hv : Visits (startGlobals g0 chars) g) (hs : g.stack = s :: rest)
    (hin : inplace g.m g.target fuel s = .ok (.go s1 d)) :
    d = true ∧
    (∀ src, src ∈ spots → ∀ v, s1.h.getD src free = v → v ≠ free →
      ¬ (s1.mobile.getD v 0 = 0 ∧ pathClear s1 src (2 * (v + 1)) = .ok true)) ∧
    (∀ c, c < 4 → 0 < s1.mobile.getD c 0 → ∀ v, cell g.m (s1.empty.getD c 0) c = .ok v →
      ¬ (s1.mobile.getD v 0 = 0 ∧
        pathClear s1 (2 * (c + 1)) (2 * (v + 1)) = .ok true)) := by
  obtain ⟨_, _, tab, hinv⟩ := hv.stack_inv wf
  have invs : Inv g.m n s := hinv s (by rw [hs]; exact List.mem_cons_self _ _)
  obtain ⟨hd, i1, _, nm⟩ := inplace_ok_of_eq tab invs hin
  refine ⟨hd, ?_, ?_⟩
  · intro src hsrc v hv hne hfire
    subst hv
    exact nm.1 src hsrc ((canEnter_iff i1 hsrc hne).mpr hfire)
  · intro c hc hpos v hcell hfire
    have hmob : s1.mobile.getD c 0 ≠ 0 := by omega
    have h1 := (tab.cell_ok (i1.top_row_lt hc hmob) hc).1
    rw [h1] at hcell
    cases hcell
    exact nm.2 c hc ((canCross_iff i1 tab hc hmob).mpr hfire)

/-- Witness for C16: the first iteration on the input `BACDABCD`, where no in-place move
applies to the initial state. -/
theorem branching_fixed_point_witness :
    Visits (startGlobals ⟨false, [], [], [], 0⟩ [66, 65, 67, 68, 65, 66, 67, 68])
      (startGlobals ⟨false, [], [], [], 0⟩ [66, 65, 67, 68, 65, 66, 67, 68]) ∧
    (startGlobals ⟨false, [], [], [], 0⟩ [66, 65, 67, 68, 65, 66, 67, 68]).stack =
      ⟨[4, 4, 4, 4, 4, 4, 4, 4, 4, 4, 4], [1, 1, 0, 0], [0, 0, 0, 0], 0, 2⟩ :: [] ∧
    inplace (startGlobals ⟨false, [], [], [], 0⟩ [66, 65, 67, 68, 65, 66, 67, 68]).m
        (startGlobals ⟨false, [], [], [], 0⟩ [66, 65, 67, 68, 65, 66, 67, 68]).target 3
        ⟨[4, 4, 4, 4, 4, 4, 4, 4, 4, 4, 4], [1, 1, 0, 0], [0, 0, 0, 0], 0, 2⟩ =
      .ok (.go ⟨[4, 4, 4, 4, 4, 4, 4, 4, 4, 4, 4], [1, 1, 0, 0], [0, 0, 0, 0], 0, 2⟩ true) ∧
    ∀ c, c < 4 →
      0 < (⟨[4, 4, 4, 4, 4, 4, 4, 4, 4, 4, 4], [1, 1, 0, 0], [0, 0, 0, 0], 0, 2⟩ :
        State).mobile.getD c 0 →
      ∀ v, cell (startGlobals ⟨false, [], [], [], 0⟩ [66, 65, 67, 68, 65, 66, 67, 68]).m
          ((⟨[4, 4, 4, 4, 4, 4, 4, 4, 4, 4, 4], [1, 1, 0, 0], [0, 0, 0, 0], 0, 2⟩ :
            State).empty.getD c 0) c = .ok v →
      ¬ ((⟨[4, 4, 4, 4, 4, 4, 4, 4, 4, 4, 4], [1, 1, 0, 0], [0, 0, 0, 0], 0, 2⟩ :
            State).mobile.getD v 0 = 0 ∧
        pathClear ⟨[4, 4, 4, 4, 4, 4, 4, 4, 4, 4, 4], [1, 1, 0, 0], [0, 0, 0, 0], 0, 2⟩
          (2 * (c + 1)) (2 * (v + 1)) = .ok true) :=
  ⟨Visits.start, rfl, rfl,
   (branching_fixed_point [66, 65, 67, 68, 65, 66, 67, 68] 2
     ⟨Or.inl rfl, by decide, by decide, by decide⟩ ⟨false, [], [], [], 0⟩
     (startGlobals ⟨false, [], [], [], 0⟩ [66, 65, 67, 68, 65, 66, 67, 68])
     ⟨[4, 4, 4, 4, 4, 4, 4, 4, 4, 4, 4], [1, 1, 0, 0], [0, 0, 0, 0], 0, 2⟩ [] 3
     ⟨[4, 4, 4, 4, 4, 4, 4, 4, 4, 4, 4], [1, 1, 0, 0], [0, 0, 0, 0], 0, 2⟩ true
     Visits.start rfl rfl).2.2⟩

/-- C17: in every reachable state `w` of a search on a well-formed input: a room `c` with
`mobile[c] > 0` whose top piece `v = m[empty[c]][c]` has `mobile[v] = 0` only occurs with
`remaining ≥ 2`, so with `remaining = 1` the in-place room -> room rule never fires, every
`mobile` count is 0 and exactly one hallway cell is occupied (the last misplaced piece is
parked). An iteration of either in-place loop that goes on leaves the state alone or leaves
`remaining ≥ 1` (it is never lowered to 0); the room -> room rule never writes `target`, and
the hallway -> room rule writes it only when `remaining = 1`. -/
theorem last_piece_parked (chars : List Nat) (n : Nat) (wf : WellFormed chars n)
    (g0 : Globals) (w : State) (hr : Reach g0 chars w) :
    (∀ c, c < 4 → 0 < w.mobile.getD c 0 →
      ∀ v, cell (buildRows [] 0 chars) (w.empty.getD c 0) c = .ok v →
      w.mobile.getD v 0 = 0 → 2 ≤ w.remaining) ∧
    (w.remaining = 1 →
      (∀ (t : Nat) (d : Bool) (c : Nat), c < 4 →
        roomStep (buildRows [] 0 chars) t w d c = .ok (.go w d)) ∧
      (∀ c, c < 4 → w.mobile.getD c 0 = 0) ∧
      (w.h.filter (fun x => x != free)).length = 1) ∧
    (∀ (t : Nat) (d : Bool) (c : Nat) (w1 : State) (d1 : Bool), c < 4 →
      roomStep (buildRows [] 0 chars) t w d c = .ok (.go w1 d1) →
      (w1 = w ∧ d1 = d) ∨ 1 ≤ w1.remaining) ∧
    (∀ (t : Nat) (d : Bool) (src : Nat) (w1 : State) (d1 : Bool), src ∈ spots →
      hallStep t w d src = .ok (.go w1 d1) → (w1 = w ∧ d1 = d) ∨ 1 ≤ w1.remaining) ∧
    (∀ (t : Nat) (d : Bool) (c : Nat) (t' : Nat), c < 4 →
      roomStep (buildRows [] 0 chars) t w d c = .ok (.ret t') → t' = t) ∧
    (∀ (t : Nat) (d : Bool) (src : Nat) (t' : Nat), src ∈ spots →
      hallStep t w d src = .ok (.ret t') → t' = t ∨ w.remaining = 1) := by
  obtain ⟨tab, inv⟩ := hr.inv wf
  have key : ∀ c, c < 4 → w.mobile.getD c 0 ≠ 0 →
      w.mobile.getD (topOf (buildRows [] 0 chars) w c) 0 = 0 → 2 ≤ w.remaining := by
    intro c hc hmob hmv
    obtain ⟨_, hepos⟩ := inv.cross_empty_pos tab hc hmob hmv
    have hv := inv.top_lt tab hc hmob
    have h1 := getD_le_sum4 w.empty hv
    have h2 := getD_le_sum4 w.mobile hc
    have h3 := inv.occ
    have h4 := inv.rem
    omega
  have hmob0 : w.remaining = 1 → ∀ c, c < 4 → w.mobile.getD c 0 = 0 := by
    intro h1 c hc
    by_contra hmob
    have hb := inv.bot c hc hmob
    have hrem := inv.rem
    have hle := getD_le_sum4 w.mobile hc
    have hone : w.mobile.getD c 0 = 1 := by omega
    have hsum : sum4 w.mobile = 1 := by omega
    rw [hone] at hb
    have htop : topOf (buildRows [] 0 chars) w c ≠ c := by
      unfold topOf
      simpa using hb
    have hv := inv.top_lt tab hc hmob
    have hmv : w.mobile.getD (topOf (buildRows [] 0 chars) w c) 0 = 0 := by
      generalize topOf (buildRows [] 0 chars) w c = v at htop hv
      unfold sum4 at hsum
      have : v = 0 ∨ v = 1 ∨ v = 2 ∨ v = 3 := by omega
      have : c = 0 ∨ c = 1 ∨ c = 2 ∨ c = 3 := by omega
      rcases ‹v = 0 ∨ v = 1 ∨ v = 2 ∨ v = 3› with rfl | rfl | rfl | rfl <;>
        rcases ‹c = 0 ∨ c = 1 ∨ c = 2 ∨ c = 3› with rfl | rfl | rfl | rfl <;>
        first | exact absurd rfl htop | omega
    have := key c hc hmob hmv
    omega
  refine ⟨?_, ?_, ?_, ?_, ?_, ?_⟩
  · intro c hc hpos v hcell hmv
    have hmob : w.mobile.getD c 0 ≠ 0 := by omega
    have h1 := (tab.cell_ok (inv.top_row_lt hc hmob) hc).1
    rw [h1] at hcell
    cases hcell
    exact key c hc hmob hmv
  · intro h1
    refine ⟨?_, hmob0 h1, ?_⟩
    · intro t d c hc
      rcases roomStep_spec inv tab t d hc with ⟨_, e⟩ | ⟨hx, _⟩
      · exact e
      · exact absurd (hmob0 h1 c hc) hx.1
    · have hrem := inv.rem
      have hs : sum4 w.mobile = 0 := by
        unfold sum4
        rw [hmob0 h1 0 (by omega), hmob0 h1 1 (by omega), hmob0 h1 2 (by omega),
          hmob0 h1 3 (by omega)]
      unfold occupied at hrem
      rw [List.countP_eq_length_filter] at hrem
      omega
  · intro t d c w1 d1 hc hstep
    rcases roomStep_spec inv tab t d hc with ⟨_, e⟩ | ⟨hx, e⟩
    · rw [e] at hstep
      cases hstep
      exact Or.inl ⟨rfl, rfl⟩
    · rw [e] at hstep
      split at hstep
      · cases hstep
      · cases hstep
        right
        have := inv.cross_rem tab hc hx
        show 1 ≤ w.remaining - 1
        omega
  · intro t d src w1 d1 hsrc hstep
    rcases hallStep_spec inv tab t d hsrc with ⟨_, e⟩ | ⟨hce, e⟩
    · rw [e] at hstep
      cases hstep
      exact Or.inl ⟨rfl, rfl⟩
    · rw [e] at hstep
      split at hstep
      · cases hstep
      · split at hstep
        · cases hstep
        · cases hstep
          right
          have := occupied_pos_of hce.1
          have := inv.rem
          show 1 ≤ w.remaining - 1
          omega
  · intro t d c t' hc hstep
    rcases roomStep_spec inv tab t d hc with ⟨_, e⟩ | ⟨hx, e⟩
    · rw [e] at hstep
      cases hstep
    · rw [e] at hstep
      split at hstep
      · cases hstep
        rfl
      · cases hstep
  · intro t d src t' hsrc hstep
    rcases hallStep_spec inv tab t d hsrc with ⟨_, e⟩ | ⟨hce, e⟩
    · rw [e] at hstep
      cases hstep
    · rw [e] at hstep
      split at hstep
      · cases hstep
        exact Or.inl rfl
      · split at hstep
        · rename_i h1
          exact Or.inr h1
        · cases hstep

/-- Witness for C17: input `BACDABCD`, after A was parked at cell 10 and B went home:
`remaining = 1` and the only misplaced piece is the parked A. -/
theorem last_piece_parked_witness :
    Reach ⟨false, [], [], [], 0⟩ [66, 65, 67, 68, 65, 66, 67, 68]
        ⟨[4, 4, 4, 4, 4, 4, 4, 4, 4, 4, 0], [0, 0, 0, 0], [1, 0, 0, 0], 47, 1⟩ ∧
    ((⟨[4, 4, 4, 4, 4, 4, 4, 4, 4, 4, 0], [0, 0, 0, 0], [1, 0, 0, 0], 47, 1⟩ :
        State).h.filter (fun x => x != free)).length = 1 :=
  ⟨reach_sample_work,
   ((last_piece_parked [66, 65, 67, 68, 65, 66, 67, 68] 2
      ⟨Or.inl rfl, by decide, by decide, by decide⟩ ⟨false, [], [], [], 0⟩
      ⟨[4, 4, 4, 4, 4, 4, 4, 4, 4, 4, 0], [0, 0, 0, 0], [1, 0, 0, 0], 47, 1⟩
      reach_sample_work).2.1 rfl).2.2⟩


/-- C18: in every reachable state `w` of a search on a well-formed input, the `uint8`
decrements of `run` do not wrap. For a piece `v` parked at `src` with `mobile[v] = 0`
(hallway -> room rule): `empty[v] ≥ 1` and `remaining ≥ 1`. For a room `c` with
`mobile[c] > 0` whose top piece `v` has `mobile[v] = 0` (room -> room rule): `v ≠ c`, so
`empty[v]` is not touched by `empty[c]++`, and `empty[v] ≥ 1`, `mobile[c] ≥ 1`,
`remaining ≥ 1`. All counts are below 256, so each wrapped decrement is the true
predecessor. -/
theorem decrements_safe (chars : List Nat) (n : Nat) (wf : WellFormed chars n)
    (g0 : Globals) (w : State) (hr : Reach g0 chars w) :
    (∀ src, src ∈ spots → ∀ v, w.h.getD src free = v → v ≠ free → w.mobile.getD v 0 = 0 →
      1 ≤ w.empty.getD v 0 ∧ 1 ≤ w.remaining ∧
      sub8 (w.empty.getD v 0) 1 + 1 = w.empty.getD v 0 ∧
      sub8 w.remaining 1 + 1 = w.remaining) ∧
    (∀ c, c < 4 → 0 < w.mobile.getD c 0 →
      ∀ v, cell (buildRows [] 0 chars) (w.empty.getD c 0) c = .ok v →
      w.mobile.getD v 0 = 0 →
      v ≠ c ∧
      (w.empty.set c (u8 (w.empty.getD c 0 + 1))).getD v 0 = w.empty.getD v 0 ∧
      1 ≤ w.empty.getD v 0 ∧ 1 ≤ w.mobile.getD c 0 ∧ 1 ≤ w.remaining ∧
      sub8 (w.empty.getD v 0) 1 + 1 = w.empty.getD v 0 ∧
      sub8 (w.mobile.getD c 0) 1 + 1 = w.mobile.getD c 0 ∧
      sub8 w.remaining 1 + 1 = w.remaining) := by
  obtain ⟨tab, inv⟩ := hr.inv wf
  have hrem := inv.remaining_lt tab
  have hsub : ∀ a, 1 ≤ a → a ≤ 27 → sub8 a 1 + 1 = a := by
    intro a h1 h2
    unfold sub8
    omega
  have hn4 := tab.2.1
  constructor
  · intro src hsrc v hv hne hmob
    subst hv
    have h1 := inv.enter_empty_pos hne hmob
    have h2 := occupied_pos_of hne
    have h3 := inv.rem
    have h4 := inv.cap _ (inv.label_lt hne)
    exact ⟨h1, by omega, hsub _ h1 (by omega), hsub _ (by omega) (by omega)⟩
  · intro c hc hpos v hcell hmv
    have hmob : w.mobile.getD c 0 ≠ 0 := by omega
    have h1 := (tab.cell_ok (inv.top_row_lt hc hmob) hc).1
    rw [h1] at hcell
    cases hcell
    obtain ⟨hne, hepos⟩ := inv.cross_empty_pos tab hc hmob hmv
    have hv := inv.top_lt tab hc hmob
    have h3 := inv.rem
    have h4 := getD_le_sum4 w.mobile hc
    have h5 := inv.cap _ hv
    have h6 := inv.cap _ hc
    unfold topOf at hne hepos hv h5
    refine ⟨hne, gD_set_ne _ _ _ (Ne.symm hne), hepos, by omega, by omega,
      hsub _ hepos (by omega), hsub _ (by omega) (by omega), hsub _ (by omega) (by omega)⟩

/-- Witness for C18: input `BACDABCD`, after A was parked at cell 10; the B on top of room
A may go home, and room B has one free cell. -/
theorem decrements_safe_witness :
    Reach ⟨false, [], [], [], 0⟩ [66, 65, 67, 68, 65, 66, 67, 68]
        ⟨[4, 4, 4, 4, 4, 4, 4, 4, 4, 4, 0], [1, 0, 0, 0], [0, 1, 0, 0], 7, 2⟩ ∧
    (1 : Nat) ≠ 0 ∧
    1 ≤ (⟨[4, 4, 4, 4, 4, 4, 4, 4, 4, 4, 0], [1, 0, 0, 0], [0, 1, 0, 0], 7, 2⟩ :
      State).empty.getD 1 0 :=
  ⟨reach_sample_top, by decide,
   ((decrements_safe [66, 65, 67, 68, 65, 66, 67, 68] 2
      ⟨Or.inl rfl, by decide, by decide, by decide⟩ ⟨false, [], [], [], 0⟩
      ⟨[4, 4, 4, 4, 4, 4, 4, 4, 4, 4, 0], [1, 0, 0, 0], [0, 1, 0, 0], 7, 2⟩
      reach_sample_top).2 0 (by decide) (by decide) 1 rfl rfl).2.2.1⟩

/-- C19: in every reachable state `w` of a search on a well-formed input with `n` rows
(`n ≤ 4`, and `m` has `n` rows), `empty[c] + mobile[c] ≤ n` for every room `c`; hence when
`mobile[c] > 0` the row index `empty[c]` is below `n` and the lookup `m[empty[c]][c]`
succeeds with a label below 4, and the index `mobile[c] + empty[c]` into `minCosts[c]` is
at most 4, so that lookup succeeds as well. -/
theorem indices_in_range (chars : List Nat) (n : Nat) (wf : WellFormed chars n)
    (g0 : Globals) (w : State) (hr : Reach g0 chars w) (c : Nat) (hc : c < 4) :
    n ≤ 4 ∧ (buildRows [] 0 chars).length = n ∧
    w.empty.getD c 0 + w.mobile.getD c 0 ≤ n ∧
    (0 < w.mobile.getD c 0 → w.empty.getD c 0 < n ∧
      ∃ v, cell (buildRows [] 0 chars) (w.empty.getD c 0) c = .ok v ∧ v < 4) ∧
    u8 (w.mobile.getD c 0 + w.empty.getD c 0) ≤ 4 ∧
    (∃ b, roomBound w c = .ok b) ∧
    idx w.mobile c = .ok (w.mobile.getD c 0) ∧ idx w.empty c = .ok (w.empty.getD c 0) := by
  obtain ⟨tab, inv⟩ := hr.inv wf
  have hcap := inv.cap c hc
  have hn4 := tab.2.1
  refine ⟨hn4, tab.2.2.1, hcap, ?_, ?_, roomBound_ok inv tab hc, ?_, ?_⟩
  · intro hpos
    have hmob : w.mobile.getD c 0 ≠ 0 := by omega
    have h1 := tab.cell_ok (inv.top_row_lt hc hmob) hc
    exact ⟨inv.top_row_lt hc hmob, _, h1.1, h1.2⟩
  · unfold u8
    omega
  · exact idx_of_lt (by rw [inv.mlen]; exact hc) 0
  · exact idx_of_lt (by rw [inv.elen]; exact hc) 0

/-- Witness for C19: input `BACDABCD`, after A was parked at cell 10, room A. -/
theorem indices_in_range_witness :
    Reach ⟨false, [], [], [], 0⟩ [66, 65, 67, 68, 65, 66, 67, 68]
        ⟨[4, 4, 4, 4, 4, 4, 4, 4, 4, 4, 0], [1, 0, 0, 0], [0, 1, 0, 0], 7, 2⟩ ∧
    0 < 4 ∧
    (⟨[4, 4, 4, 4, 4, 4, 4, 4, 4, 4, 0], [1, 0, 0, 0], [0, 1, 0, 0], 7, 2⟩ :
        State).empty.getD 0 0 +
      (⟨[4, 4, 4, 4, 4, 4, 4, 4, 4, 4, 0], [1, 0, 0, 0], [0, 1, 0, 0], 7, 2⟩ :
        State).mobile.getD 0 0 ≤ 2 :=
  ⟨reach_sample_top, by decide,
   (indices_in_range [66, 65, 67, 68, 65, 66, 67, 68] 2
      ⟨Or.inl rfl, by decide, by decide, by decide⟩ ⟨false, [], [], [], 0⟩
      ⟨[4, 4, 4, 4, 4, 4, 4, 4, 4, 4, 0], [1, 0, 0, 0], [0, 1, 0, 0], 7, 2⟩
      reach_sample_top 0 (by decide)).2.2.1⟩

/-! ## The bound `pot` never exceeds the cost of a solution -/

theorem tri_mono {a b : Nat} (h : a ≤ b) : tri a ≤ tri b := by
  induction h with
  | refl => exact le_refl _
  | step _ ih => exact Nat.le_trans ih (Nat.le_add_right _ _)

theorem tri_pred {k : Nat} (h : 1 ≤ k) : tri k = tri (k - 1) + k := by
  cases k with
  | zero => omega
  | succ j => rfl

theorem hallPot_set (v p : Nat) : ∀ (l : List Nat) (i j : Nat), j < l.length →
    hallPot v i (l.set j p) + (if l.getD j free = v then dist (i + j) (col v) else 0) =
      hallPot v i l + (if p = v then dist (i + j) (col v) else 0) := by
  intro l
  induction l with
  | nil => intro i j h; simp at h
  | cons x rest ih =>
    intro i j h
    cases j with
    | zero =>
      simp only [List.set_cons_zero, hallPot, List.getD_cons_zero, Nat.add_zero]
      omega
    | succ j =>
      have := ih (i + 1) j (by simpa using h)
      simp only [List.set_cons_succ, hallPot, List.getD_cons_succ]
      rw [show i + (j + 1) = i + 1 + j by omega]
      omega

theorem settledLen_all (v : Nat) : ∀ (l : List Nat), (∀ y, y ∈ l → y = v) →
    settledLen v l = l.length := by
  intro l
  induction l with
  | nil => intro _; rfl
  | cons x rest ih =>
    intro h
    have hx : x = v := h x (List.mem_cons_self _ _)
    have hr : ∀ y, y ∈ rest → y = v := fun y hy => h y (List.mem_cons_of_mem _ hy)
    have hall : rest.all (fun y => y == v) = true := by
      rw [List.all_eq_true]
      intro y hy
      simp [hr y hy]
    simp [settledLen, hx, hall]

theorem settledLen_le (v : Nat) : ∀ (l : List Nat), settledLen v l ≤ l.length := by
  intro l
  induction l with
  | nil => simp [settledLen]
  | cons x rest ih =>
    simp only [settledLen, List.length_cons]
    split <;> omega

theorem roomPot_all (n v c : Nat) : ∀ (l : List Nat), (∀ y, y ∈ l → y = c) →
    roomPot n v c l = 0 := by
  intro l
  induction l with
  | nil => intro _; rfl
  | cons x rest ih =>
    intro h
    have hx : x = c := h x (List.mem_cons_self _ _)
    have hr : ∀ y, y ∈ rest → y = c := fun y hy => h y (List.mem_cons_of_mem _ hy)
    have hall : rest.all (fun y => y == c) = true := by
      rw [List.all_eq_true]
      intro y hy
      simp [hr y hy]
    simp only [roomPot, ih hr, Nat.add_zero]
    rw [if_neg]
    intro ⟨h1, h2⟩
    rcases h2 with h2 | h2
    · exact h2 (by rw [← hx, h1])
    · rw [← h1, hx, hall] at h2
      cases h2

theorem roomsPot_set (n v : Nat) (rooms : List (List Nat)) (hr : rooms.length = 4) {c : Nat}
    (hc : c < 4) (L : List Nat) :
    (roomPot n v 0 ((rooms.set c L).getD 0 []) + roomPot n v 1 ((rooms.set c L).getD 1 []) +
      roomPot n v 2 ((rooms.set c L).getD 2 []) + roomPot n v 3 ((rooms.set c L).getD 3 [])) +
      roomPot n v c (rooms.getD c []) =
    (roomPot n v 0 (rooms.getD 0 []) + roomPot n v 1 (rooms.getD 1 []) +
      roomPot n v 2 (rooms.getD 2 []) + roomPot n v 3 (rooms.getD 3 [])) +
      roomPot n v c L := by
  have e : ∀ c', c' < 4 → (rooms.set c L).getD c' [] = if c' = c then L else rooms.getD c' [] := by
    intro c' hc'
    by_cases h : c' = c
    · subst h
      rw [if_pos rfl]
      exact gD_set_eq _ _ _ (by omega)
    · rw [if_neg h]
      exact gD_set_ne _ _ _ (Ne.symm h)
  rw [e 0 (by omega), e 1 (by omega), e 2 (by omega), e 3 (by omega)]
  interval_cases c <;> simp <;> omega

theorem spot_dist_pos {dst q : Nat} (hd : dst ∈ spots) (hq : q < 4) : 1 ≤ dist dst (col q) := by
  simp only [spots, List.mem_cons, List.mem_singleton, List.not_mem_nil, or_false] at hd
  unfold dist col
  split <;> omega

theorem labelPot_park {n : Nat} (a : Config) {c dst p : Nat} {rest : List Nat} (hc : c < 4)
    (hroom : a.rooms.getD c [] = p :: rest) (hdst : dst ∈ spots)
    (hfree : a.hall.getD dst free = free) (hl : a.hall.length = 11)
    (hr : a.rooms.length = 4) {q : Nat} (hq : q < 4) :
    labelPot n q a ≤ (if p = q then dist dst (col c) + (n - rest.length) else 0) +
      labelPot n q ⟨a.hall.set dst p, a.rooms.set c rest⟩ := by
  have hh := hallPot_set q p a.hall 0 dst (by rw [hl]; have := mem_spots_le hdst; omega)
  have hfq : free ≠ q := by unfold free; omega
  rw [hfree, if_neg hfq, Nat.zero_add, Nat.add_zero] at hh
  have hd1 := spot_dist_pos hdst hq
  have htri := dist_triangle (col c) (col q) dst
  have hrs := roomsPot_set n q a.rooms hr hc rest
  rw [hroom] at hrs
  have hR : roomPot n q c (p :: rest) =
      (if p = q ∧ (c ≠ q ∨ rest.all (fun y => y == q) = false) then
        (n - rest.length) + (if c = q then 2 else dist (col c) (col q)) else 0) +
      roomPot n q c rest := rfl
  rw [hR] at hrs
  unfold labelPot
  simp only
  by_cases hqc : q = c
  · subst hqc
    rw [gD_set_eq _ _ _ (by omega), hroom]
    have hS : settledLen q (p :: rest) =
        if p = q ∧ rest.all (fun y => y == q) = true then rest.length + 1
        else settledLen q rest := rfl
    rw [hS]
    have hsl := settledLen_le q rest
    by_cases hp : p = q
    · subst hp
      rw [if_pos rfl] at hh
      rw [if_pos rfl]
      by_cases hall : rest.all (fun y => y == p) = true
      · have hsr : settledLen p rest = rest.length := by
          apply settledLen_all
          intro y hy
          have := List.all_eq_true.mp hall y hy
          simpa using this
        have ht := tri_mono (show n - (rest.length + 1) ≤ n - settledLen p rest by omega)
        rw [if_pos ⟨rfl, hall⟩]
        rw [if_neg (by
          intro h
          rcases h.2 with h2 | h2
          · exact h2 rfl
          · rw [hall] at h2; cases h2)] at hrs
        omega
      · have hall' : rest.all (fun y => y == p) = false := by
          cases h : rest.all (fun y => y == p)
          · rfl
          · exact absurd h hall
        rw [if_neg (fun h => hall h.2)]
        rw [if_pos ⟨rfl, Or.inr hall'⟩, if_pos rfl] at hrs
        omega
    · rw [if_neg hp] at hh
      rw [if_neg hp, if_neg (fun h => hp h.1)]
      rw [if_neg (fun h => hp h.1)] at hrs
      omega
  · rw [gD_set_ne _ _ _ (Ne.symm hqc)]
    have hcq : c ≠ q := Ne.symm hqc
    by_cases hp : p = q
    · subst hp
      rw [if_pos rfl] at hh
      rw [if_pos rfl]
      rw [if_pos ⟨rfl, Or.inl hcq⟩, if_neg hcq] at hrs
      omega
    · rw [if_neg hp] at hh
      rw [if_neg hp]
      rw [if_neg (fun h => hp h.1)] at hrs
      omega

theorem labelPot_home {n : Nat} (a : Config) {src v : Nat} (hsv : a.hall.getD src free = v)
    (hv : v < 4) (hall : ∀ x, x ∈ a.rooms.getD v [] → x = v)
    (hlen : (a.rooms.getD v []).length < n) (hr : a.rooms.length = 4) {q : Nat} :
    labelPot n q a ≤
      (if v = q then dist src (col v) + (n - (a.rooms.getD v []).length) else 0) +
      labelPot n q ⟨a.hall.set src free, a.rooms.set v (v :: a.rooms.getD v [])⟩ := by
  have hvf : v ≠ free := by unfold free; omega
  have hsl : src < a.hall.length := getD_ne_lt (by rw [hsv]; exact hvf)
  have hh := hallPot_set q free a.hall 0 src hsl
  rw [hsv, Nat.zero_add] at hh
  have hrs := roomsPot_set n q a.rooms hr hv (v :: a.rooms.getD v [])
  rw [roomPot_all n q v _ hall] at hrs
  rw [roomPot_all n q v (v :: a.rooms.getD v []) (by
    intro y hy
    rcases List.mem_cons.mp hy with h | h
    · exact h
    · exact hall y h)] at hrs
  unfold labelPot
  simp only
  by_cases hqv : q = v
  · subst hqv
    rw [gD_set_eq _ _ _ (by omega)]
    rw [settledLen_all q _ hall]
    rw [settledLen_all q (q :: a.rooms.getD q []) (by
      intro y hy
      rcases List.mem_cons.mp hy with h | h
      · exact h
      · exact hall y h)]
    rw [if_pos rfl] at hh
    rw [if_pos rfl]
    have ht := tri_pred (show 1 ≤ n - (a.rooms.getD q []).length by omega)
    rw [show n - (a.rooms.getD q []).length - 1 = n - (q :: a.rooms.getD q []).length by
      simp only [List.length_cons]; omega] at ht
    by_cases hf : free = q
    · exact absurd hf.symm hvf
    · rw [if_neg hf] at hh
      omega
  · rw [gD_set_ne _ _ _ (Ne.symm hqv)]
    have hvq : v ≠ q := Ne.symm hqv
    rw [if_neg hvq] at hh
    rw [if_neg hvq]
    by_cases hf : free = q
    · rw [if_pos hf] at hh
      omega
    · rw [if_neg hf] at hh
      omega

theorem pot_step {n : Nat} {a b : Config} {c : Nat} (st : Step n a c b) (wf : WFC n a) :
    pot n a ≤ c + pot n b := by
  obtain ⟨hl, hr, _⟩ := wf
  cases st with
  | park c dst p rest hc hroom hdst hfree hclear =>
    have h0 := labelPot_park (n := n) a hc hroom hdst hfree hl hr (show 0 < 4 by omega)
    have h1 := labelPot_park (n := n) a hc hroom hdst hfree hl hr (show 1 < 4 by omega)
    have h2 := labelPot_park (n := n) a hc hroom hdst hfree hl hr (show 2 < 4 by omega)
    have h3 := labelPot_park (n := n) a hc hroom hdst hfree hl hr (show 3 < 4 by omega)
    unfold pot
    generalize dist dst (col c) + (n - rest.length) = mv at h0 h1 h2 h3 ⊢
    rcases Nat.lt_or_ge p 4 with hp | hp
    · interval_cases p <;> simp [weights] at h0 h1 h2 h3 ⊢ <;> omega
    · have e0 : p ≠ 0 := by omega
      have e1 : p ≠ 1 := by omega
      have e2 : p ≠ 2 := by omega
      have e3 : p ≠ 3 := by omega
      rw [if_neg e0] at h0
      rw [if_neg e1] at h1
      rw [if_neg e2] at h2
      rw [if_neg e3] at h3
      omega
  | home src v hsv hv hall hlen hclear =>
    have h0 := labelPot_home (n := n) (q := 0) a hsv hv hall hlen hr
    have h1 := labelPot_home (n := n) (q := 1) a hsv hv hall hlen hr
    have h2 := labelPot_home (n := n) (q := 2) a hsv hv hall hlen hr
    have h3 := labelPot_home (n := n) (q := 3) a hsv hv hall hlen hr
    unfold pot
    generalize dist src (col v) + (n - (a.rooms.getD v []).length) = mv at h0 h1 h2 h3 ⊢
    interval_cases v <;> simp [weights] at h0 h1 h2 h3 ⊢ <;> omega

theorem hallPot_free (v : Nat) (hv : v < 4) : ∀ (l : List Nat) (i : Nat),
    (∀ x, x ∈ l → x = free) → hallPot v i l = 0 := by
  intro l
  induction l with
  | nil => intro _ _; rfl
  | cons x rest ih =>
    intro i h
    have hx : x = free := h x (List.mem_cons_self _ _)
    have hne : x ≠ v := by rw [hx]; unfold free; omega
    simp only [hallPot, if_neg hne, Nat.zero_add]
    exact ih (i + 1) (fun y hy => h y (List.mem_cons_of_mem _ hy))

theorem labelPot_solved {n : Nat} {a : Config} (hs : Solved n a) {v : Nat} (hv : v < 4) :
    labelPot n v a = 0 := by
  have hroom : ∀ c, c < 4 → ∀ y, y ∈ a.rooms.getD c [] → y = c := by
    intro c hc y hy
    rw [hs.room hc] at hy
    exact (List.mem_replicate.mp hy).2
  unfold labelPot
  rw [hallPot_free v hv _ 0 hs.1, roomPot_all n v 0 _ (hroom 0 (by omega)),
    roomPot_all n v 1 _ (hroom 1 (by omega)), roomPot_all n v 2 _ (hroom 2 (by omega)),
    roomPot_all n v 3 _ (hroom 3 (by omega)), settledLen_all v _ (hroom v hv), hs.room hv]
  simp [tri]

theorem pot_le_cost {n k : Nat} {a goal : Config} {C : Nat} (hp : Path n k a C goal)
    (hs : Solved n goal) : WFC n a → pot n a ≤ C := by
  induction hp with
  | nil cfg =>
    intro _
    unfold pot
    rw [labelPot_solved hs (show 0 < 4 by omega), labelPot_solved hs (show 1 < 4 by omega),
      labelPot_solved hs (show 2 < 4 by omega), labelPot_solved hs (show 3 < 4 by omega)]
  | cons st _ ih =>
    intro wf
    have h1 := pot_step st wf
    have h2 := ih hs (st.keeps_wfc wf)
    omega

/-! ## A deadlocked configuration cannot be sorted -/

theorem Deadlock.step {n : Nat} {a b : Config} {C v : Nat} (st : Step n a C b) (hv : v < 4)
    (hd : Deadlock v a) : Deadlock v b := by
  obtain ⟨h1, h2, x, hx, hxv⟩ := hd
  have hvf : v ≠ free := by unfold free; omega
  cases st with
  | park c dst p rest hc hroom hdst hfree hclear =>
    have hd1 : dst ≠ col v - 1 := by
      intro h; rw [h, h1] at hfree; exact hvf hfree
    have hd2 : dst ≠ col v + 1 := by
      intro h; rw [h, h2] at hfree; exact hvf hfree
    have hcv : c ≠ v := by
      intro h
      subst h
      have hcol : dst ≠ col c := by
        simp only [spots, List.mem_cons, List.mem_singleton, List.not_mem_nil, or_false] at hdst
        unfold col
        omega
      have hcpos : 2 ≤ col c := by unfold col; omega
      rcases Nat.lt_or_ge dst (col c) with hlt | hge
      · have := hclear (col c - 1) (Or.inr ⟨by omega, by omega⟩)
        rw [h1] at this
        exact hvf this
      · have := hclear (col c + 1) (Or.inl ⟨by omega, by omega⟩)
        rw [h2] at this
        exact hvf this
    refine ⟨?_, ?_, x, ?_, hxv⟩
    · show (a.hall.set dst p).getD (col v - 1) free = v
      rw [gD_set_ne _ _ _ hd1]; exact h1
    · show (a.hall.set dst p).getD (col v + 1) free = v
      rw [gD_set_ne _ _ _ hd2]; exact h2
    · show x ∈ (a.rooms.set c rest).getD v []
      rw [gD_set_ne _ _ _ hcv]; exact hx
  | home src w hsw hw hall hlen hclear =>
    have hwv : w ≠ v := by
      intro h
      subst h
      exact hxv (hall x hx)
    have hs1 : src ≠ col v - 1 := by
      intro h; rw [h, h1] at hsw; exact hwv hsw.symm
    have hs2 : src ≠ col v + 1 := by
      intro h; rw [h, h2] at hsw; exact hwv hsw.symm
    refine ⟨?_, ?_, x, ?_, hxv⟩
    · show (a.hall.set src free).getD (col v - 1) free = v
      rw [gD_set_ne _ _ _ hs1]; exact h1
    · show (a.hall.set src free).getD (col v + 1) free = v
      rw [gD_set_ne _ _ _ hs2]; exact h2
    · show x ∈ (a.rooms.set w (w :: a.rooms.getD w [])).getD v []
      rw [gD_set_ne _ _ _ hwv]; exact hx

theorem Deadlock.unsolvable {n k : Nat} {a goal : Config} {C v : Nat}
    (hp : Path n k a C goal) (hv : v < 4) : WFC n a → Deadlock v a → ¬ Solved n goal := by
  induction hp with
  | nil cfg =>
    intro _ hd hs
    have := hs.hall_free (col v - 1)
    rw [hd.1] at this
    unfold free at this
    omega
  | cons st _ ih =>
    intro wf hd
    exact ih (st.keeps_wfc wf) (hd.step st hv)

/-! ## The estimate of the experimental pruning is below `pot` -/

theorem list11 (l : List Nat) (h : l.length = 11) :
    ∃ a0 a1 a2 a3 a4 a5 a6 a7 a8 a9 a10, l = [a0, a1, a2, a3, a4, a5, a6, a7, a8, a9, a10] := by
  match l, h with
  | [a0, a1, a2, a3, a4, a5, a6, a7, a8, a9, a10], _ =>
    exact ⟨a0, a1, a2, a3, a4, a5, a6, a7, a8, a9, a10, rfl⟩

theorem ind_mul (x v d : Nat) : (if x = v then d else 0) = d * (if x = v then 1 else 0) := by
  split <;> simp

theorem ind_le (x v : Nat) : (if x = v then 1 else 0) ≤ 1 := by
  split <;> omega

theorem count_ind (v : Nat) : ∀ (l : List Nat),
    l.count v = (l.map (fun x => if x = v then 1 else 0)).sum := by
  intro l
  induction l with
  | nil => rfl
  | cons x rest ih =>
    rw [List.count_cons, ih, List.map_cons, List.sum_cons]
    by_cases h : x = v
    · simp [h]; omega
    · have : (x == v) = false := by simpa using h
      simp [h, this]

theorem minCosts_eq {v k : Nat} (hv : v < 4) (hk : k ≤ 4) :
    ∃ H, ((v = 0 ∨ v = 3) → (H = k ∨ H + 2 = 2 * k ∨ H + 5 = 3 * k)) ∧
      ((v = 1 ∨ v = 2) → (H = k ∨ H + 4 = 3 * k)) ∧
      (minCosts.getD v []).getD k 0 = weights.getD v 0 * (tri k + H) := by
  refine ⟨(([0, 1, 2, 4, 7] : List Nat).getD k 0) + (if (v = 1 ∨ v = 2) ∧ 3 ≤ k then 1 else 0),
    ?_, ?_, ?_⟩
  · intro h
    rcases h with rfl | rfl <;> interval_cases k <;> simp
  · intro h
    rcases h with rfl | rfl <;> interval_cases k <;> simp
  · interval_cases v <;> interval_cases k <;> decide

theorem hall_core {h : List Nat} (hlen : h.length = 11)
    (hspot : ∀ i, h.getD i free ≠ free → i ∈ spots) {v : Nat} (hv : v < 4) (r k : Nat)
    (hk : h.count v + r = k) (H : Nat)
    (hA : (v = 0 ∨ v = 3) → (H = k ∨ H + 2 = 2 * k ∨ H + 5 = 3 * k))
    (hB : (v = 1 ∨ v = 2) → (H = k ∨ H + 4 = 3 * k)) :
    H ≤ hallPot v 0 h + 3 * r ∧
    ∀ dst, dst ∈ spots → h.getD dst free = v →
      ¬ (h.getD (col v - 1) free = v ∧ h.getD (col v + 1) free = v) →
      H + (dist dst (col v) - 1) ≤ hallPot v 0 h + 3 * r := by
  obtain ⟨a0, a1, a2, a3, a4, a5, a6, a7, a8, a9, a10, rfl⟩ := list11 h hlen
  have hvf : free ≠ v := by unfold free; omega
  have f2 : a2 = free := by
    by_contra hne; have := hspot 2 hne; simp [spots] at this
  have f4 : a4 = free := by
    by_contra hne; have := hspot 4 hne; simp [spots] at this
  have f6 : a6 = free := by
    by_contra hne; have := hspot 6 hne; simp [spots] at this
  have f8 : a8 = free := by
    by_contra hne; have := hspot 8 hne; simp [spots] at this
  subst f2 f4 f6 f8
  have two : ∀ x y : Nat, ¬ (x = v ∧ y = v) →
      (if x = v then 1 else 0) + (if y = v then 1 else 0) ≤ 1 := by
    intro x y hxy
    by_cases hx : x = v
    · by_cases hy : y = v
      · exact absurd ⟨hx, hy⟩ hxy
      · rw [if_pos hx, if_neg hy]
    · rw [if_neg hx]
      have := ind_le y v
      omega
  have n0 : v = 0 → ¬ (a1 = v ∧ a3 = v) →
      (if a1 = v then 1 else 0) + (if a3 = v then 1 else 0) ≤ 1 := fun _ => two a1 a3
  have n1 : v = 1 → ¬ (a3 = v ∧ a5 = v) →
      (if a3 = v then 1 else 0) + (if a5 = v then 1 else 0) ≤ 1 := fun _ => two a3 a5
  have n2 : v = 2 → ¬ (a5 = v ∧ a7 = v) →
      (if a5 = v then 1 else 0) + (if a7 = v then 1 else 0) ≤ 1 := fun _ => two a5 a7
  have n3 : v = 3 → ¬ (a7 = v ∧ a9 = v) →
      (if a7 = v then 1 else 0) + (if a9 = v then 1 else 0) ≤ 1 := fun _ => two a7 a9
  have d0 : a0 = v → (if a0 = v then 1 else 0) = 1 := fun e => if_pos e
  have d1 : a1 = v → (if a1 = v then 1 else 0) = 1 := fun e => if_pos e
  have d3 : a3 = v → (if a3 = v then 1 else 0) = 1 := fun e => if_pos e
  have d5 : a5 = v → (if a5 = v then 1 else 0) = 1 := fun e => if_pos e
  have d7 : a7 = v → (if a7 = v then 1 else 0) = 1 := fun e => if_pos e
  have d9 : a9 = v → (if a9 = v then 1 else 0) = 1 := fun e => if_pos e
  have d10 : a10 = v → (if a10 = v then 1 else 0) = 1 := fun e => if_pos e
  rw [count_ind] at hk
  simp only [List.map_cons, List.map_nil, List.sum_cons, List.sum_nil, if_neg hvf] at hk
  simp only [hallPot, Nat.zero_add, Nat.reduceAdd, if_neg hvf]
  rw [ind_mul a0, ind_mul a1, ind_mul a3, ind_mul a5, ind_mul a7, ind_mul a9, ind_mul a10]
  have b0 := ind_le a0 v
  have b1 := ind_le a1 v
  have b3 := ind_le a3 v
  have b5 := ind_le a5 v
  have b7 := ind_le a7 v
  have b9 := ind_le a9 v
  have b10 := ind_le a10 v
  generalize (if a0 = v then 1 else 0) = x0 at hk b0 d0 ⊢
  generalize (if a1 = v then 1 else 0) = x1 at hk b1 d1 n0 ⊢
  generalize (if a3 = v then 1 else 0) = x3 at hk b3 d3 n0 n1 ⊢
  generalize (if a5 = v then 1 else 0) = x5 at hk b5 d5 n1 n2 ⊢
  generalize (if a7 = v then 1 else 0) = x7 at hk b7 d7 n2 n3 ⊢
  generalize (if a9 = v then 1 else 0) = x9 at hk b9 d9 n3 ⊢
  generalize (if a10 = v then 1 else 0) = x10 at hk b10 d10 ⊢
  have dA : ∀ x : Nat, dist x 2 = if x < 2 then 2 - x else x - 2 := fun _ => rfl
  have dB : ∀ x : Nat, dist x 4 = if x < 4 then 4 - x else x - 4 := fun _ => rfl
  have dC : ∀ x : Nat, dist x 6 = if x < 6 then 6 - x else x - 6 := fun _ => rfl
  have dD : ∀ x : Nat, dist x 8 = if x < 8 then 8 - x else x - 8 := fun _ => rfl
  have cA : col 0 = 2 := rfl
  have cB : col 1 = 4 := rfl
  have cC : col 2 = 6 := rfl
  have cD : col 3 = 8 := rfl
  constructor
  · interval_cases v
    · have hH := hA (Or.inl rfl)
      simp only [cA, dA, Nat.reduceLT, Nat.reduceSub, if_true, if_false]
      omega
    · have hH := hB (Or.inl rfl)
      simp only [cB, dB, Nat.reduceLT, Nat.reduceSub, if_true, if_false]
      omega
    · have hH := hB (Or.inr rfl)
      simp only [cC, dC, Nat.reduceLT, Nat.reduceSub, if_true, if_false]
      omega
    · have hH := hA (Or.inr rfl)
      simp only [cD, dD, Nat.reduceLT, Nat.reduceSub, if_true, if_false]
      omega
  · intro dst hd hdv hnd
    simp only [spots, List.mem_cons, List.mem_singleton, List.not_mem_nil, or_false] at hd
    interval_cases v
    · have hH := hA (Or.inl rfl)
      have n := n0 rfl hnd
      simp only [cA, dA, Nat.reduceLT, Nat.reduceSub, if_true, if_false]
      rcases hd with rfl | rfl | rfl | rfl | rfl | rfl | rfl
      · have d := d0 hdv; simp only [Nat.reduceLT, Nat.reduceSub, if_true, if_false]; omega
      · have d := d1 hdv; simp only [Nat.reduceLT, Nat.reduceSub, if_true, if_false]; omega
      · have d := d3 hdv; simp only [Nat.reduceLT, Nat.reduceSub, if_true, if_false]; omega
      · have d := d5 hdv; simp only [Nat.reduceLT, Nat.reduceSub, if_true, if_false]; omega
      · have d := d7 hdv; simp only [Nat.reduceLT, Nat.reduceSub, if_true, if_false]; omega
      · have d := d9 hdv; simp only [Nat.reduceLT, Nat.reduceSub, if_true, if_false]; omega
      · have d := d10 hdv; simp only [Nat.reduceLT, Nat.reduceSub, if_true, if_false]; omega
    · have hH := hB (Or.inl rfl)
      have n := n1 rfl hnd
      simp only [cB, dB, Nat.reduceLT, Nat.reduceSub, if_true, if_false]
      rcases hd with rfl | rfl | rfl | rfl | rfl | rfl | rfl
      · have d := d0 hdv; simp only [Nat.reduceLT, Nat.reduceSub, if_true, if_false]; omega
      · have d := d1 hdv; simp only [Nat.reduceLT, Nat.reduceSub, if_true, if_false]; omega
      · have d := d3 hdv; simp only [Nat.reduceLT, Nat.reduceSub, if_true, if_false]; omega
      · have d := d5 hdv; simp only [Nat.reduceLT, Nat.reduceSub, if_true, if_false]; omega
      · have d := d7 hdv; simp only [Nat.reduceLT, Nat.reduceSub, if_true, if_false]; omega
      · have d := d9 hdv; simp only [Nat.reduceLT, Nat.reduceSub, if_true, if_false]; omega
      · have d := d10 hdv; simp only [Nat.reduceLT, Nat.reduceSub, if_true, if_false]; omega
    · have hH := hB (Or.inr rfl)
      have n := n2 rfl hnd
      simp only [cC, dC, Nat.reduceLT, Nat.reduceSub, if_true, if_false]
      rcases hd with rfl | rfl | rfl | rfl | rfl | rfl | rfl
      · have d := d0 hdv; simp only [Nat.reduceLT, Nat.reduceSub, if_true, if_false]; omega
      · have d := d1 hdv; simp only [Nat.reduceLT, Nat.reduceSub, if_true, if_false]; omega
      · have d := d3 hdv; simp only [Nat.reduceLT, Nat.reduceSub, if_true, if_false]; omega
      · have d := d5 hdv; simp only [Nat.reduceLT, Nat.reduceSub, if_true, if_false]; omega
      · have d := d7 hdv; simp only [Nat.reduceLT, Nat.reduceSub, if_true, if_false]; omega
      · have d := d9 hdv; simp only [Nat.reduceLT, Nat.reduceSub, if_true, if_false]; omega
      · have d := d10 hdv; simp only [Nat.reduceLT, Nat.reduceSub, if_true, if_false]; omega
    · have hH := hA (Or.inr rfl)
      have n := n3 rfl hnd
      simp only [cD, dD, Nat.reduceLT, Nat.reduceSub, if_true, if_false]
      rcases hd with rfl | rfl | rfl | rfl | rfl | rfl | rfl
      · have d := d0 hdv; simp only [Nat.reduceLT, Nat.reduceSub, if_true, if_false]; omega
      · have d := d1 hdv; simp only [Nat.reduceLT, Nat.reduceSub, if_true, if_false]; omega
      · have d := d3 hdv; simp only [Nat.reduceLT, Nat.reduceSub, if_true, if_false]; omega
      · have d := d5 hdv; simp only [Nat.reduceLT, Nat.reduceSub, if_true, if_false]; omega
      · have d := d7 hdv; simp only [Nat.reduceLT, Nat.reduceSub, if_true, if_false]; omega
      · have d := d9 hdv; simp only [Nat.reduceLT, Nat.reduceSub, if_true, if_false]; omega
      · have d := d10 hdv; simp only [Nat.reduceLT, Nat.reduceSub, if_true, if_false]; omega

/-! ## The room part of `pot` in a search state -/

theorem all_false_of_mem {v z : Nat} {l : List Nat} (hz : z ∈ l) (hne : z ≠ v) :
    l.all (fun y => y == v) = false := by
  cases h : l.all (fun y => y == v)
  · rfl
  · have := List.all_eq_true.mp h z hz
    exact absurd (by simpa using this) hne

theorem settledLen_mobile (v z r : Nat) (hz : z ≠ v) : ∀ (B : List Nat),
    settledLen v (B ++ z :: List.replicate r v) = r := by
  have hR : settledLen v (List.replicate r v) = r := by
    rw [settledLen_all v _ (fun y hy => (List.mem_replicate.mp hy).2), List.length_replicate]
  intro B
  induction B with
  | nil =>
    show settledLen v (z :: List.replicate r v) = r
    unfold settledLen
    rw [if_neg (fun h => hz h.1)]
    exact hR
  | cons x B ih =>
    show settledLen v (x :: (B ++ z :: List.replicate r v)) = r
    unfold settledLen
    rw [if_neg]
    · exact ih
    · intro h
      have := all_false_of_mem (v := v) (z := z) (l := B ++ z :: List.replicate r v)
        (List.mem_append_right _ (List.mem_cons_self _ _)) hz
      rw [this] at h
      exact absurd h.2 (by simp)

theorem col_dist_ge {c v : Nat} (h : c ≠ v) : 2 ≤ dist (col c) (col v) := by
  unfold dist col
  split <;> omega

theorem roomPot_other (n v c r : Nat) (hcv : c ≠ v) : ∀ (A : List Nat),
    A.length + r ≤ n → 3 * A.count v ≤ roomPot n v c (A ++ List.replicate r c) := by
  intro A
  induction A with
  | nil => intro _; simp
  | cons x A ih =>
    intro hlen
    simp only [List.length_cons] at hlen
    have ih' := ih (by omega)
    show 3 * (x :: A).count v ≤ roomPot n v c (x :: (A ++ List.replicate r c))
    unfold roomPot
    have hl : (A ++ List.replicate r c).length = A.length + r := by simp
    rw [hl]
    by_cases hx : x = v
    · subst hx
      rw [List.count_cons_self, if_pos ⟨rfl, Or.inl hcv⟩, if_neg hcv]
      have := col_dist_ge hcv
      omega
    · rw [List.count_cons_of_ne (Ne.symm hx), if_neg (fun h => hx h.1)]
      omega

theorem roomPot_own (n v z r : Nat) (hz : z ≠ v) : ∀ (B : List Nat),
    B.length + 1 + r ≤ n →
    3 * (B ++ [z]).count v ≤ roomPot n v v (B ++ z :: List.replicate r v) := by
  intro B
  induction B with
  | nil =>
    intro _
    rw [List.nil_append, List.count_cons_of_ne (Ne.symm hz)]
    simp
  | cons x B ih =>
    intro hlen
    simp only [List.length_cons] at hlen
    have ih' := ih (by omega)
    show 3 * (x :: (B ++ [z])).count v ≤ roomPot n v v (x :: (B ++ z :: List.replicate r v))
    unfold roomPot
    have hl : (B ++ z :: List.replicate r v).length = B.length + 1 + r := by
      simp; omega
    rw [hl]
    by_cases hx : x = v
    · subst hx
      have hf := all_false_of_mem (v := x) (z := z) (l := B ++ z :: List.replicate r x)
        (List.mem_append_right _ (List.mem_cons_self _ _)) hz
      rw [List.count_cons_self, if_pos ⟨rfl, Or.inr hf⟩, if_pos rfl]
      omega
    · rw [List.count_cons_of_ne (Ne.symm hx), if_neg (fun h => hx h.1)]
      omega

theorem room_facts {m : List (List Nat)} {n : Nat} {s : State} (inv : Inv m n s) {c v : Nat}
    (hc : c < 4) :
    ∃ a, (roomOf m n s c).count v =
        a + (if c = v then n - s.empty.getD c 0 - s.mobile.getD c 0 else 0) ∧
      3 * a ≤ roomPot n v c (roomOf m n s c) ∧
      (c = v → settledLen v (roomOf m n s c) = n - s.empty.getD c 0 - s.mobile.getD c 0) := by
  have hcap := inv.cap c hc
  unfold roomOf
  generalize hf : (fun j => (m.getD (s.empty.getD c 0 + j) []).getD c 0) = f
  by_cases hcv : c = v
  · subst hcv
    rw [if_pos rfl]
    by_cases hmob : s.mobile.getD c 0 = 0
    · rw [hmob]
      refine ⟨0, ?_, Nat.zero_le _, fun _ => ?_⟩
      · simp
      · simp only [List.range_zero, List.map_nil, List.nil_append]
        rw [settledLen_all c _ (fun y hy => (List.mem_replicate.mp hy).2),
          List.length_replicate]
    · have hb := inv.bot c hc hmob
      obtain ⟨k, hk⟩ : ∃ k, s.mobile.getD c 0 = k + 1 := ⟨s.mobile.getD c 0 - 1, by omega⟩
      rw [hk] at hb hcap ⊢
      have hz : f k ≠ c := by
        rw [← hf]
        simpa using hb
      have e : (List.range (k + 1)).map f ++ List.replicate (n - s.empty.getD c 0 - (k + 1)) c =
          (List.range k).map f ++ f k :: List.replicate (n - s.empty.getD c 0 - (k + 1)) c := by
        rw [List.range_succ, List.map_append, List.map_singleton, List.append_assoc,
          List.singleton_append]
      rw [e]
      refine ⟨((List.range k).map f ++ [f k]).count c, ?_, ?_, fun _ => ?_⟩
      · rw [List.count_append, List.count_append, List.count_cons_of_ne (Ne.symm hz),
          List.count_cons_of_ne (Ne.symm hz), List.count_replicate_self, List.count_nil]
        omega
      · apply roomPot_own n c (f k) _ hz
        simp only [List.length_map, List.length_range]
        omega
      · exact settledLen_mobile c (f k) _ hz _
  · rw [if_neg hcv]
    refine ⟨((List.range (s.mobile.getD c 0)).map f).count v, ?_, ?_, fun h => absurd h hcv⟩
    · rw [List.count_append, List.count_replicate, if_neg (by simpa using hcv)]
    · apply roomPot_other n v c _ hcv
      simp only [List.length_map, List.length_range]
      omega

theorem labelPot_ge {m : List (List Nat)} {n : Nat} {s : State} (inv : Inv m n s) {v : Nat}
    (hv : v < 4) :
    ∃ r, s.h.count v + r = s.mobile.getD v 0 + s.empty.getD v 0 ∧
      hallPot v 0 s.h + 3 * r + tri (s.mobile.getD v 0 + s.empty.getD v 0) ≤
        labelPot n v (cfgOf m n s) := by
  obtain ⟨a0, c0, p0, s0⟩ := room_facts (v := v) inv (show 0 < 4 by omega)
  obtain ⟨a1, c1, p1, s1⟩ := room_facts (v := v) inv (show 1 < 4 by omega)
  obtain ⟨a2, c2, p2, s2⟩ := room_facts (v := v) inv (show 2 < 4 by omega)
  obtain ⟨a3, c3, p3, s3⟩ := room_facts (v := v) inv (show 3 < 4 by omega)
  have hcnt := inv.cnt v hv
  have hcap := inv.cap v hv
  unfold countLabel at hcnt
  rw [cfgOf_room m n s (show 0 < 4 by omega), cfgOf_room m n s (show 1 < 4 by omega),
    cfgOf_room m n s (show 2 < 4 by omega), cfgOf_room m n s (show 3 < 4 by omega),
    c0, c1, c2, c3] at hcnt
  have hh : (cfgOf m n s).hall = s.h := rfl
  rw [hh] at hcnt
  refine ⟨a0 + a1 + a2 + a3, ?_, ?_⟩
  · interval_cases v <;> simp +decide only [if_true, if_false] at hcnt <;> omega
  · unfold labelPot
    rw [cfgOf_room m n s (show 0 < 4 by omega), cfgOf_room m n s (show 1 < 4 by omega),
      cfgOf_room m n s (show 2 < 4 by omega), cfgOf_room m n s (show 3 < 4 by omega),
      cfgOf_room m n s hv, hh]
    have ht : n - settledLen v (roomOf m n s v) = s.mobile.getD v 0 + s.empty.getD v 0 := by
      interval_cases v
      · rw [s0 rfl]; omega
      · rw [s1 rfl]; omega
      · rw [s2 rfl]; omega
      · rw [s3 rfl]; omega
    rw [ht]
    omega

theorem est_label {m : List (List Nat)} {n : Nat} {y : State} (inv : Inv m n y)
    (tab : TableOK m n) {v : Nat} (hv : v < 4) :
    (minCosts.getD v []).getD (y.mobile.getD v 0 + y.empty.getD v 0) 0 ≤
      weights.getD v 0 * labelPot n v (cfgOf m n y) ∧
    ∀ dst, dst ∈ spots → y.h.getD dst free = v →
      ¬ (y.h.getD (col v - 1) free = v ∧ y.h.getD (col v + 1) free = v) →
      (minCosts.getD v []).getD (y.mobile.getD v 0 + y.empty.getD v 0) 0 +
        (dist dst (col v) - 1) * weights.getD v 0 ≤
      weights.getD v 0 * labelPot n v (cfgOf m n y) := by
  obtain ⟨r, hr, hle⟩ := labelPot_ge inv hv
  have hcap := inv.cap v hv
  have hn4 := tab.2.1
  obtain ⟨H, hA, hB, hH⟩ := minCosts_eq hv
    (show y.mobile.getD v 0 + y.empty.getD v 0 ≤ 4 by omega)
  obtain ⟨c1, c2⟩ := hall_core inv.hlen inv.hspot hv r _ hr H hA hB
  rw [hH]
  constructor
  · apply Nat.mul_le_mul_left
    omega
  · intro dst hd hdv hnd
    have := c2 dst hd hdv hnd
    rw [Nat.mul_comm (dist dst (col v) - 1), ← Nat.mul_add]
    apply Nat.mul_le_mul_left
    omega

theorem parkState_k {m : List (List Nat)} {n : Nat} {s : State} (inv : Inv m n s) {c : Nat}
    (hc : c < 4) (hmob : s.mobile.getD c 0 ≠ 0) (dst v : Nat) :
    (parkState m s c dst).mobile.getD v 0 + (parkState m s c dst).empty.getD v 0 =
      s.mobile.getD v 0 + s.empty.getD v 0 := by
  show (s.mobile.set c (s.mobile.getD c 0 - 1)).getD v 0 +
    (s.empty.set c (s.empty.getD c 0 + 1)).getD v 0 = _
  by_cases h : c = v
  · subst h
    rw [gD_set_eq _ _ _ (by rw [inv.mlen]; exact hc), gD_set_eq _ _ _ (by rw [inv.elen]; exact hc)]
    omega
  · rw [gD_set_ne _ _ _ h, gD_set_ne _ _ _ h]

theorem park_deadlock {m : List (List Nat)} {n : Nat} {s : State} (inv : Inv m n s)
    (tab : TableOK m n) (nm : NoMove m s) {c dst : Nat} (hc : c < 4)
    (hmob : s.mobile.getD c 0 ≠ 0) (hdst : dst ∈ spots) (hp : CanPark s c dst)
    (h1 : (parkState m s c dst).h.getD (col (topOf m s c) - 1) free = topOf m s c)
    (h2 : (parkState m s c dst).h.getD (col (topOf m s c) + 1) free = topOf m s c)
    (hd : 2 ≤ dist dst (col (topOf m s c))) :
    Deadlock (topOf m s c) (cfgOf m n (parkState m s c dst)) := by
  have hv := inv.top_lt tab hc hmob
  have invy := inv.park tab hc hmob hdst hp
  generalize hv0 : topOf m s c = v at h1 h2 hd hv ⊢
  have hvf : v ≠ free := by unfold free; omega
  have hne1 : dst ≠ col v - 1 := by
    intro e; rw [e] at hd; unfold dist col at hd; split at hd <;> omega
  have hne2 : dst ≠ col v + 1 := by
    intro e; rw [e] at hd; unfold dist col at hd; split at hd <;> omega
  have g1 : s.h.getD (col v - 1) free = v := by
    have : (s.h.set dst (topOf m s c)).getD (col v - 1) free = v := h1
    rwa [gD_set_ne _ _ _ hne1] at this
  have g2 : s.h.getD (col v + 1) free = v := by
    have : (s.h.set dst (topOf m s c)).getD (col v + 1) free = v := h2
    rwa [gD_set_ne _ _ _ hne2] at this
  have hsp : col v - 1 ∈ spots := by
    unfold col
    interval_cases v <;> decide
  have hms : s.mobile.getD v 0 ≠ 0 := by
    intro h0
    apply nm.1 (col v - 1) hsp
    refine ⟨by rw [g1]; exact hvf, by rw [g1]; exact h0, ?_⟩
    rw [g1]
    intro x hx
    unfold col at hx
    omega
  have hcv : c ≠ v := by
    intro e
    subst e
    have hcl := hp.2
    have hcol : 2 ≤ col c := by unfold col; omega
    rcases Nat.lt_or_ge dst (col c) with hlt | hge
    · have := hcl (col c - 1) (Or.inr ⟨by omega, by omega⟩)
      rw [g1] at this
      exact hvf this
    · have hne : dst ≠ col c := by
        intro e; rw [e] at hd; unfold dist at hd; simp at hd
      have := hcl (col c + 1) (Or.inl ⟨by omega, by omega⟩)
      rw [g2] at this
      exact hvf this
  refine ⟨h1, h2, ?_⟩
  by_contra hall
  have hall' : ∀ x, x ∈ roomOf m n (parkState m s c dst) v → x = v := by
    intro x hx
    by_contra hxv
    exact hall ⟨x, by rw [cfgOf_room m n _ hv]; exact hx, hxv⟩
  have := invy.mobile_zero_of_all hv hall'
  have e : (parkState m s c dst).mobile.getD v 0 = s.mobile.getD v 0 := by
    show (s.mobile.set c (s.mobile.getD c 0 - 1)).getD v 0 = _
    exact gD_set_ne _ _ _ hcv
  rw [e] at this
  exact hms this

theorem est_le_pot {m : List (List Nat)} {n : Nat} {s : State} (inv : Inv m n s)
    (tab : TableOK m n) (nm : NoMove m s) {c dst : Nat} (hc : c < 4)
    (hmob : s.mobile.getD c 0 ≠ 0) (hdst : dst ∈ spots) (hp : CanPark s c dst) :
    (minCosts.getD 0 []).getD (s.mobile.getD 0 0 + s.empty.getD 0 0) 0 +
      (minCosts.getD 1 []).getD (s.mobile.getD 1 0 + s.empty.getD 1 0) 0 +
      (minCosts.getD 2 []).getD (s.mobile.getD 2 0 + s.empty.getD 2 0) 0 +
      (minCosts.getD 3 []).getD (s.mobile.getD 3 0 + s.empty.getD 3 0) 0 +
      (dist dst (col (topOf m s c)) - 1) * weights.getD (topOf m s c) 0 ≤
        pot n (cfgOf m n (parkState m s c dst)) ∨
    Deadlock (topOf m s c) (cfgOf m n (parkState m s c dst)) := by
  have hv := inv.top_lt tab hc hmob
  have invy := inv.park tab hc hmob hdst hp
  have k0 := parkState_k inv hc hmob dst 0
  have k1 := parkState_k inv hc hmob dst 1
  have k2 := parkState_k inv hc hmob dst 2
  have k3 := parkState_k inv hc hmob dst 3
  obtain ⟨a0, b0⟩ := est_label invy tab (show 0 < 4 by omega)
  obtain ⟨a1, b1⟩ := est_label invy tab (show 1 < 4 by omega)
  obtain ⟨a2, b2⟩ := est_label invy tab (show 2 < 4 by omega)
  obtain ⟨a3, b3⟩ := est_label invy tab (show 3 < 4 by omega)
  rw [k0] at a0 b0
  rw [k1] at a1 b1
  rw [k2] at a2 b2
  rw [k3] at a3 b3
  have hyd : (parkState m s c dst).h.getD dst free = topOf m s c := by
    show (s.h.set dst (topOf m s c)).getD dst free = _
    exact gD_set_eq _ _ _ (by rw [inv.hlen]; have := mem_spots_le hdst; omega)
  have w0 : weights.getD 0 0 = 1 := rfl
  have w1 : weights.getD 1 0 = 10 := rfl
  have w2 : weights.getD 2 0 = 100 := rfl
  have w3 : weights.getD 3 0 = 1000 := rfl
  rw [w0] at a0 b0
  rw [w1] at a1 b1
  rw [w2] at a2 b2
  rw [w3] at a3 b3
  by_cases hd : 2 ≤ dist dst (col (topOf m s c))
  · by_cases hboth : (parkState m s c dst).h.getD (col (topOf m s c) - 1) free = topOf m s c ∧
        (parkState m s c dst).h.getD (col (topOf m s c) + 1) free = topOf m s c
    · exact Or.inr (park_deadlock inv tab nm hc hmob hdst hp hboth.1 hboth.2 hd)
    · left
      unfold pot
      generalize topOf m s c = v at hv hyd hboth ⊢
      interval_cases v
      · have := b0 dst hdst hyd hboth
        rw [w0]
        omega
      · have := b1 dst hdst hyd hboth
        rw [w1]
        omega
      · have := b2 dst hdst hyd hboth
        rw [w2]
        omega
      · have := b3 dst hdst hyd hboth
        rw [w3]
        omega
  · left
    have hz : dist dst (col (topOf m s c)) - 1 = 0 := by omega
    rw [hz, Nat.zero_mul]
    unfold pot
    omega

/-! ## A pruned successor cannot lead to a cheaper solution -/

theorem minCosts_le {v k : Nat} (hv : v < 4) (hk : k ≤ 4) :
    (minCosts.getD v []).getD k 0 ≤ 17000 := by
  interval_cases v <;> interval_cases k <;> decide

theorem roomBound_eq {m : List (List Nat)} {n : Nat} {s : State} (inv : Inv m n s)
    (tab : TableOK m n) {c : Nat} (hc : c < 4) :
    roomBound s c = .ok ((minCosts.getD c []).getD (s.mobile.getD c 0 + s.empty.getD c 0) 0) := by
  have hcap := inv.cap c hc
  have hn4 := tab.2.1
  unfold roomBound
  rw [idx_of_lt (show c < s.mobile.length by rw [inv.mlen]; exact hc) 0,
    idx_of_lt (show c < s.empty.length by rw [inv.elen]; exact hc) 0]
  simp only
  have hu : u8 (s.mobile.getD c 0 + s.empty.getD c 0) =
      s.mobile.getD c 0 + s.empty.getD c 0 := u8_of_lt (by omega)
  rw [hu]
  have hk : s.mobile.getD c 0 + s.empty.getD c 0 ≤ 4 := by omega
  generalize s.mobile.getD c 0 + s.empty.getD c 0 = k at hk
  interval_cases c <;> interval_cases k <;> rfl

theorem minBound_on {m : List (List Nat)} {n : Nat} {s : State} (inv : Inv m n s)
    (tab : TableOK m n) {t : Nat} (ht : t ≠ 0) :
    minBound true t s = .ok (
      (minCosts.getD 0 []).getD (s.mobile.getD 0 0 + s.empty.getD 0 0) 0 +
      (minCosts.getD 1 []).getD (s.mobile.getD 1 0 + s.empty.getD 1 0) 0 +
      (minCosts.getD 2 []).getD (s.mobile.getD 2 0 + s.empty.getD 2 0) 0 +
      (minCosts.getD 3 []).getD (s.mobile.getD 3 0 + s.empty.getD 3 0) 0) := by
  have hn4 := tab.2.1
  have c0 := inv.cap 0 (by omega)
  have c1 := inv.cap 1 (by omega)
  have c2 := inv.cap 2 (by omega)
  have c3 := inv.cap 3 (by omega)
  have b0 := minCosts_le (show 0 < 4 by omega)
    (show s.mobile.getD 0 0 + s.empty.getD 0 0 ≤ 4 by omega)
  have b1 := minCosts_le (show 1 < 4 by omega)
    (show s.mobile.getD 1 0 + s.empty.getD 1 0 ≤ 4 by omega)
  have b2 := minCosts_le (show 2 < 4 by omega)
    (show s.mobile.getD 2 0 + s.empty.getD 2 0 ≤ 4 by omega)
  have b3 := minCosts_le (show 3 < 4 by omega)
    (show s.mobile.getD 3 0 + s.empty.getD 3 0 ≤ 4 by omega)
  unfold minBound
  rw [if_pos ⟨rfl, ht⟩, roomBound_eq inv tab (show 0 < 4 by omega),
    roomBound_eq inv tab (show 1 < 4 by omega), roomBound_eq inv tab (show 2 < 4 by omega),
    roomBound_eq inv tab (show 3 < 4 by omega)]
  simp only
  generalize (minCosts.getD 0 []).getD (s.mobile.getD 0 0 + s.empty.getD 0 0) 0 = x0 at b0
  generalize (minCosts.getD 1 []).getD (s.mobile.getD 1 0 + s.empty.getD 1 0) 0 = x1 at b1
  generalize (minCosts.getD 2 []).getD (s.mobile.getD 2 0 + s.empty.getD 2 0) 0 = x2 at b2
  generalize (minCosts.getD 3 []).getD (s.mobile.getD 3 0 + s.empty.getD 3 0) 0 = x3 at b3
  have e1 : u32 (x0 + x1) = x0 + x1 := u32_of_lt (by omega)
  rw [e1]
  have e2 : u32 (x0 + x1 + x2) = x0 + x1 + x2 := u32_of_lt (by omega)
  rw [e2]
  have e3 : u32 (x0 + x1 + x2 + x3) = x0 + x1 + x2 + x3 := u32_of_lt (by omega)
  rw [e3]

/-! ## The loop invariant of the search with the experimental flag off -/

theorem CovF.relax {m : List (List Nat)} {n : Nat} {T T' : Nat} {vis vis' : List (Key × Nat)}
    {y : State}
    (hT : T ≠ 0 → T' ≠ 0 ∧ T' ≤ T)
    (hv : ∀ K v, visitedGet vis K = some v → ∃ v', v' ≤ v ∧ visitedGet vis' K = some v')
    (h : CovF m n T vis y) : CovF m n T' vis' y := by
  rcases h with ⟨h0, hle⟩ | ⟨v, hle, hget⟩
  · exact Or.inl ⟨(hT h0).1, fun k C goal hp hs => Nat.le_trans (hT h0).2 (hle k C goal hp hs)⟩
  · obtain ⟨v', hle', hget'⟩ := hv _ _ hget
    exact Or.inr ⟨v', Nat.le_trans hle' hle, hget'⟩

theorem Expl.persist {m : List (List Nat)} {n : Nat} {T T' : Nat} {vis vis' : List (Key × Nat)}
    {x : State}
    (hT : T ≠ 0 → T' ≠ 0 ∧ T' ≤ T)
    (hv : ∀ K v, visitedGet vis K = some v → ∃ v', v' ≤ v ∧ visitedGet vis' K = some v')
    (h : Expl m n T vis x) : Expl m n T' vis' x := by
  obtain ⟨s1, hred, hcase⟩ := h
  refine ⟨s1, hred, ?_⟩
  rcases hcase with ⟨h0, hcut⟩ | ⟨hno, hcov⟩
  · refine Or.inl ⟨(hT h0).1, ?_⟩
    rcases hcut with ⟨src, hsrc, hce, hle⟩ | ⟨c, hc, hx, hle⟩
    · exact Or.inl ⟨src, hsrc, hce, Nat.le_trans (hT h0).2 hle⟩
    · exact Or.inr ⟨c, hc, hx, Nat.le_trans (hT h0).2 hle⟩
  · exact Or.inr ⟨hno, fun c dst hc hm hd hp => (hcov c dst hc hm hd hp).relax hT hv⟩

theorem Reduces.path {m : List (List Nat)} {n : Nat} (tab : TableOK m n) {s s1 : State}
    (h : Reduces m s s1) :
    Inv m n s → ∀ {a : Config} {k : Nat}, Path n k a s.cost (cfgOf m n s) →
    ∃ k', Path n k' a s1.cost (cfgOf m n s1) := by
  induction h with
  | refl => intro _ a k hp; exact ⟨k, hp⟩
  | enter src hsrc hc _ _ ih =>
    intro inv a k hp
    exact ih (inv.enter tab hsrc hc)
      (hp.concat (Path.cons (enter_step inv hc) (Path.nil _)))
  | cross c hc hx _ ih =>
    intro inv a k hp
    exact ih (inv.cross tab hc hx) (hp.concat (cross_path inv tab hc hx))

theorem pruned_cut {n : Nat} {g : Globals} {s : State} (tab : TableOK g.m n)
    (inv : Inv g.m n s) (nm : NoMove g.m s) {c dst : Nat} (hc : c < 4)
    (hmob : s.mobile.getD c 0 ≠ 0) (hdst : dst ∈ spots) (hp : CanPark s c dst) {min : Nat}
    (hmin : minBound g.experimental g.target s = .ok min) (h : Pruned g min s c dst) :
    g.target ≠ 0 ∧ ∀ (k C : Nat) (goal : Config),
      Path n k (cfgOf g.m n (parkState g.m s c dst)) C goal → Solved n goal →
      g.target ≤ (parkState g.m s c dst).cost + C := by
  have invy := inv.park tab hc hmob hdst hp
  have hcost := invy.cost_le
  unfold Pruned at h
  have ht : g.target ≠ 0 := fun e => h (Or.inr e)
  refine ⟨ht, ?_⟩
  intro k C goal hpath hs
  cases hexp : g.experimental with
  | false =>
    rw [hexp] at h hmin
    have hm : min = 0 := by
      simp [minBound] at hmin
      exact hmin.symm
    subst hm
    simp only [forecastOf, Nat.add_zero, Bool.false_eq_true, if_false] at h
    rw [u32_of_lt (by rw [u32_of_lt (by omega)]; omega), u32_of_lt (by omega)] at h
    omega
  | true =>
    rw [hexp] at h hmin
    rw [minBound_on inv tab ht] at hmin
    have hv := inv.top_lt tab hc hmob
    have hfc := (forecastOf_on dst (topOf g.m s c) hdst hv).2.2.2.2
    rw [hfc] at h
    have hd10 : dist dst (2 * (topOf g.m s c + 1)) ≤ 10 :=
      dist_le (mem_spots_le hdst) (by omega)
    have hw := weights_getD_le (v := topOf g.m s c)
    have hfb : (dist dst (2 * (topOf g.m s c + 1)) - 1) * weights.getD (topOf g.m s c) 0 ≤
        10000 := by
      calc (dist dst (2 * (topOf g.m s c + 1)) - 1) * weights.getD (topOf g.m s c) 0
          ≤ 10 * 1000 := Nat.mul_le_mul (by omega) hw
        _ = 10000 := rfl
    have hn4 := tab.2.1
    have c0 := inv.cap 0 (by omega)
    have c1 := inv.cap 1 (by omega)
    have c2 := inv.cap 2 (by omega)
    have c3 := inv.cap 3 (by omega)
    have b0 := minCosts_le (show 0 < 4 by omega)
      (show s.mobile.getD 0 0 + s.empty.getD 0 0 ≤ 4 by omega)
    have b1 := minCosts_le (show 1 < 4 by omega)
      (show s.mobile.getD 1 0 + s.empty.getD 1 0 ≤ 4 by omega)
    have b2 := minCosts_le (show 2 < 4 by omega)
      (show s.mobile.getD 2 0 + s.empty.getD 2 0 ≤ 4 by omega)
    have b3 := minCosts_le (show 3 < 4 by omega)
      (show s.mobile.getD 3 0 + s.empty.getD 3 0 ≤ 4 by omega)
    cases hmin
    rcases est_le_pot inv tab nm hc hmob hdst hp with hle | hdead
    · have hpot := pot_le_cost hpath hs invy.wfc
      have hcol : col (topOf g.m s c) = 2 * (topOf g.m s c + 1) := rfl
      rw [hcol] at hle
      rw [u32_of_lt (by rw [u32_of_lt (by omega)]; omega), u32_of_lt (by omega)] at h
      omega
    · exact absurd hs (hdead.unsolvable hpath hv invy.wfc)

theorem Inv.stuck_of_rem {m : List (List Nat)} {n : Nat} {s : State} (inv : Inv m n s)
    (h : s.remaining = 0) :
    (∀ src, ¬ CanEnter s src) ∧ ∀ c, c < 4 → s.mobile.getD c 0 = 0 := by
  have hrem := inv.rem
  constructor
  · intro src hce
    have := occupied_pos_of hce.1
    omega
  · intro c hc
    exact sum4_zero (by omega) c hc

theorem Reduces.eq_of_rem {m : List (List Nat)} {n : Nat} {s s1 : State}
    (h : Reduces m s s1) (inv : Inv m n s) (hr : s.remaining = 0) : s1 = s := by
  have hst := inv.stuck_of_rem hr
  cases h with
  | refl => rfl
  | enter src _ hce _ _ => exact (hst.1 src hce).elim
  | cross c hc hx _ => exact (hx.1 (hst.2 c hc)).elim

theorem search_step {n : Nat} {start : Config} {s0 : State} (g : Globals) (s : State)
    (rest : List State) (g1 : Globals) (hP : SearchInv n start s0 g) (tab : TableOK g.m n)
    (hs : g.stack = s :: rest) (hinv : ∀ x, x ∈ g.stack → Inv g.m n x)
    (ok : RunOK n { g with stack := rest } s g1) : SearchInv n start s0 g1 := by
  obtain ⟨h0, hvis, htgt, hpath, hz⟩ := hP
  have hmem : s ∈ g.stack := by rw [hs]; exact List.mem_cons_self _ _
  have invs : Inv g.m n s := hinv s hmem
  obtain ⟨ks, hps⟩ := hpath s hmem
  rcases ok with ⟨t', s1, hg1, inv1, hred, hret⟩ | ⟨s1, min, inv1, hred, hno, hmin, hgrow, hcov⟩
  · simp only at inv1 hred hret
    obtain ⟨k1, hp1⟩ := hred.path tab invs hps
    have hT : g.target ≠ 0 → t' ≠ 0 ∧ t' ≤ g.target := by
      intro hne
      rcases hret with ⟨e, _, _⟩ | ⟨src, hsrc, hce, _, e, hlt⟩
      · rw [e]; exact ⟨hne, le_refl _⟩
      · have := enterCost_pos inv1 hsrc hce.1
        have e2 : (enterState s1 src).cost = s1.cost + enterCost s1 src := rfl
        omega
    have hid : ∀ K v, visitedGet g.visited K = some v →
        ∃ v', v' ≤ v ∧ visitedGet g.visited K = some v' := fun K v h => ⟨v, le_refl _, h⟩
    have hexs : Expl g.m n t' g.visited s := by
      refine ⟨s1, hred, Or.inl ?_⟩
      rcases hret with ⟨e, hne, hcut⟩ | ⟨src, hsrc, hce, _, e, _⟩
      · rw [e]; exact ⟨hne, hcut⟩
      · have := enterCost_pos inv1 hsrc hce.1
        have e2 : (enterState s1 src).cost = s1.cost + enterCost s1 src := rfl
        exact ⟨by omega, Or.inl ⟨src, hsrc, hce, by omega⟩⟩
    have hpend : ∀ x, (x ∈ g.stack ∨ Expl g.m n g.target g.visited x) →
        (x ∈ rest ∨ Expl g.m n t' g.visited x) := by
      intro x hx
      rcases hx with hx | hx
      · rw [hs] at hx
        rcases List.mem_cons.mp hx with e | hx
        · rw [e]; exact Or.inr hexs
        · exact Or.inl hx
      · exact Or.inr (hx.persist hT hid)
    have hstuck : s0.remaining = 0 → False := by
      intro hr0
      have e0 : s = s0 := (hz hr0).2 s hmem
      rw [← e0] at hr0
      have e1 := hred.eq_of_rem invs hr0
      rw [e1] at hret
      have hst := invs.stuck_of_rem hr0
      rcases hret with ⟨_, _, ⟨src, _, hce, _⟩ | ⟨c, hc, hx, _⟩⟩ | ⟨src, _, hce, _⟩
      · exact hst.1 src hce
      · exact hx.1 (hst.2 c hc)
      · exact hst.1 src hce
    subst hg1
    refine ⟨hpend s0 h0, ?_, ?_, ?_, fun hr0 => (hstuck hr0).elim⟩
    · intro K v hget
      obtain ⟨x, invx, hk, hc, hx⟩ := hvis K v hget
      exact ⟨x, invx, hk, hc, hpend x hx⟩
    · intro hne
      show SolvableAt n start t'
      rcases hret with ⟨e, hne', _⟩ | ⟨src, hsrc, hce, hrem, e, _⟩
      · rw [e]; exact htgt hne'
      · have inv2 := inv1.enter tab hsrc hce
        have hsol : Solved n (cfgOf g.m n (enterState s1 src)) := by
          apply inv2.solved_of_rem
          show s1.remaining - 1 = 0
          omega
        have hp2 := hp1.concat (Path.cons (enter_step inv1 hce) (Path.nil _))
        rw [e]
        exact ⟨_, _, hp2, hsol⟩
    · intro x hx
      exact hpath x (by rw [hs]; exact List.mem_cons_of_mem _ hx)
  · simp only at inv1 hred hno hmin hcov
    obtain ⟨k1, hp1⟩ := hred.path tab invs hps
    obtain ⟨ge, gm, gt, ⟨new, hstk, _, hnew, hprov⟩, gmono⟩ := hgrow
    simp only at ge gm gt hstk hnew hprov gmono
    have hT : g.target ≠ 0 → g.target ≠ 0 ∧ g.target ≤ g.target := fun h => ⟨h, le_refl _⟩
    have hexs : Expl g.m n g.target g1.visited s := by
      refine ⟨s1, hred, Or.inr ⟨hno, ?_⟩⟩
      intro c dst hc hm hd hp
      have invy := inv1.park tab hc hm hd hp
      rcases hcov c dst hc hm hd hp with hpr | ⟨v, hle, hget⟩
      · exact Or.inl (pruned_cut (g := { g with stack := rest }) tab inv1 hno hc hm hd hp hmin
          hpr)
      · exact Or.inr ⟨v, hle, hget⟩
    have hpend : ∀ x, (x ∈ g.stack ∨ Expl g.m n g.target g.visited x) →
        (x ∈ g1.stack ∨ Expl g.m n g.target g1.visited x) := by
      intro x hx
      rcases hx with hx | hx
      · rw [hs] at hx
        rcases List.mem_cons.mp hx with e | hx
        · rw [e]; exact Or.inr hexs
        · exact Or.inl (by rw [hstk]; exact List.mem_append_right _ hx)
      · exact Or.inr (hx.persist hT gmono)
    have hnew' : ∀ x, x ∈ new → Inv g.m n x ∧ ∃ k, Path n k start x.cost (cfgOf g.m n x) := by
      intro x hx
      obtain ⟨c, dst, hc, hm, hd, hp, e⟩ := hnew x hx
      rw [e]
      refine ⟨inv1.park tab hc hm hd hp, ?_⟩
      exact ⟨_, hp1.concat (Path.cons (park_step inv1 hc hm hd hp) (Path.nil _))⟩
    refine ⟨?_, ?_, ?_, ?_, ?_⟩
    · rw [gm, gt]; exact hpend s0 h0
    · intro K v hget
      rw [gm, gt]
      rcases hprov K v hget with hold | ⟨x, hx, hk, hc⟩
      · obtain ⟨x, invx, hk, hc, hx⟩ := hvis K v hold
        exact ⟨x, invx, hk, hc, hpend x hx⟩
      · exact ⟨x, (hnew' x hx).1, hk, hc,
          Or.inl (by rw [hstk]; exact List.mem_append_left _ hx)⟩
    · rw [gt]; exact htgt
    · intro x hx
      rw [gm]
      rw [hstk] at hx
      rcases List.mem_append.mp hx with hx | hx
      · exact (hnew' x hx).2
      · exact hpath x (by rw [hs]; exact List.mem_cons_of_mem _ hx)
    · intro hr0
      have e0 : s = s0 := (hz hr0).2 s hmem
      refine ⟨by rw [gt]; exact (hz hr0).1, ?_⟩
      intro x hx
      rw [hstk] at hx
      rcases List.mem_append.mp hx with hx | hx
      · exfalso
        obtain ⟨c, dst, hc, hm, _, _, _⟩ := hnew x hx
        rw [← e0] at hr0
        have e1 := hred.eq_of_rem invs hr0
        rw [e1] at hm
        exact hm ((invs.stuck_of_rem hr0).2 c hc)
      · exact (hz hr0).2 x (by rw [hs]; exact List.mem_cons_of_mem _ hx)

/-- With either value of the experimental flag, `processInput` returns the minimum cost of
a solution when there is one, and 0 otherwise. -/
theorem processInput_min (chars : List Nat) (n : Nat) (wf : WellFormed chars n)
    (g : Globals) (fuel : Nat) (hfuel : wt 16 + 28 ≤ fuel) :
    ∃ t, processInput fuel g chars = .ok t ∧
      ((∃ t', SolvableAt n (startConfig chars n) t') → IsMinCost n (startConfig chars n) t) ∧
      ((¬ ∃ t', SolvableAt n (startConfig chars n) t') → t = 0) := by
  have hwork : work (startGlobals g chars).stack + 28 ≤ fuel := by
    rw [startGlobals_stack wf g]
    have := wt_mono (sum4_init_le wf)
    simp only [work, List.map_cons, List.map_nil, List.sum_cons, List.sum_nil]
    omega
  have inv0 := inv_init wf.bounds.1 wf.bounds.2 wf.2.1 wf.2.2.1 wf.2.2.2
  have hcfg0 := cfgOf_init wf.bounds.1 wf.bounds.2 wf.2.1 wf.2.2.1
  have hcost0 : (initState chars (rowsOf chars)).cost = 0 := by
    have := (initState_fields chars n wf.bounds.1 wf.bounds.2 wf.2.1 wf.2.2.1).2.2.1
    rw [← startGlobals_m wf g]
    exact this
  have hstart : SearchInv n (startConfig chars n) (initState chars (rowsOf chars))
      (startGlobals g chars) := by
    refine ⟨Or.inl ?_, ?_, ?_, ?_, ?_⟩
    · rw [startGlobals_stack wf g]; exact List.mem_singleton.mpr rfl
    · intro K v h
      exact absurd h (by simp [startGlobals, visitedGet])
    · intro h
      exact absurd rfl h
    · intro x hx
      rw [startGlobals_stack wf g] at hx
      rw [List.mem_singleton.mp hx, startGlobals_m wf g, hcfg0, hcost0]
      exact ⟨0, Path.nil _⟩
    · intro _
      refine ⟨rfl, ?_⟩
      intro x hx
      rw [startGlobals_stack wf g] at hx
      exact List.mem_singleton.mp hx
  obtain ⟨g1, hd, hP, hstk, hm, _⟩ := drain_induct (n := n)
    (SearchInv n (startConfig chars n) (initState chars (rowsOf chars)))
    (fun g s rest g1 hP tab hs hinv ok => search_step g s rest g1 hP tab hs hinv ok)
    fuel (startGlobals g chars) (start_tableOK wf g) (start_inv wf g) hstart hwork
  refine ⟨g1.target, ?_, ?_⟩
  · unfold processInput processGlobals
    rw [hd]
  obtain ⟨h0, hvis, htgt, _, hz⟩ := hP
  rw [hstk] at h0 hvis hz
  rw [hm, startGlobals_m wf g] at h0 hvis
  have tab := tableOK_of_wf wf.bounds.1 wf.bounds.2 wf.2.1 wf.2.2.1
  have hex0 : Expl (rowsOf chars) n g1.target g1.visited
      (initState chars (rowsOf chars)) := by
    rcases h0 with h | h
    · exact absurd h (List.not_mem_nil _)
    · exact h
  have hcl : Closed (rowsOf chars) n g1.target g1.visited := by
    intro K v h
    obtain ⟨x, invx, hk, hc, hx⟩ := hvis K v h
    rcases hx with hx | hx
    · exact absurd hx (List.not_mem_nil _)
    · exact ⟨x, invx, hk, hc, hx⟩
  by_cases hr : (initState chars (rowsOf chars)).remaining = 0
  · have ht : g1.target = 0 := (hz hr).1
    rw [ht]
    refine ⟨fun _ => ⟨⟨0, _, Path.nil _, ?_⟩, fun _ _ => Nat.zero_le _⟩, fun _ => rfl⟩
    rw [← hcfg0]
    exact inv0.solved_of_rem hr
  · have low : ∀ t', SolvableAt n (startConfig chars n) t' →
        g1.target ≠ 0 ∧ g1.target ≤ t' := by
      intro t' hsol
      obtain ⟨k, goal, hp, hs⟩ := hsol
      rw [← hcfg0] at hp
      have := lower_all tab hcl k _ t' goal inv0 hex0 (by omega) hp hs
      rw [hcost0, Nat.zero_add] at this
      exact this
    constructor
    · intro hsol
      obtain ⟨t', ht'⟩ := hsol
      exact ⟨htgt (low t' ht').1, fun t'' h => (low t'' h).2⟩
    · intro hno
      by_contra hne
      exact hno ⟨_, htgt hne⟩

/-- C1: for every well-formed input (`4 * n` tokens, `n` in `{2, 4}`, each label `n` times),
with the experimental flag off and a step budget of at least `wt 16 + 28`, `processInput`
returns a cost `t` such that: if some sequence of legal moves sorts the initial
configuration, `t` is the minimum total cost over all such sequences; and if none does,
`t = 0`. -/
theorem processInput_optimal (chars : List Nat) (n : Nat) (wf : WellFormed chars n)
    (g : Globals) (fuel : Nat) (hfuel : wt 16 + 28 ≤ fuel) :
    ∃ t, processInput fuel { g with experimental := false } chars = .ok t ∧
      ((∃ t', SolvableAt n (startConfig chars n) t') → IsMinCost n (startConfig chars n) t) ∧
      ((¬ ∃ t', SolvableAt n (startConfig chars n) t') → t = 0) :=
  processInput_min chars n wf { g with experimental := false } fuel hfuel

/-- Witness for C1: the input `BACDABCD`, flag off. -/
theorem processInput_optimal_witness :
    ∃ t, processInput (wt 16 + 28) { (⟨true, [], [], [], 7⟩ : Globals) with
          experimental := false } [66, 65, 67, 68, 65, 66, 67, 68] = .ok t ∧
      ((∃ t', SolvableAt 2 (startConfig [66, 65, 67, 68, 65, 66, 67, 68] 2) t') →
        IsMinCost 2 (startConfig [66, 65, 67, 68, 65, 66, 67, 68] 2) t) ∧
      ((¬ ∃ t', SolvableAt 2 (startConfig [66, 65, 67, 68, 65, 66, 67, 68] 2) t') → t = 0) :=
  processInput_optimal [66, 65, 67, 68, 65, 66, 67, 68] 2
    ⟨Or.inl rfl, by decide, by decide, by decide⟩ ⟨true, [], [], [], 7⟩ (wt 16 + 28)
    (le_refl _)

/-- C2: for every well-formed input, `processInput` returns the same cost with the
experimental flag on as with the flag off (given step budgets of at least `wt 16 + 28`,
and whatever the other globals hold): the `minCosts` room bound and the forecast term never
change the returned value. -/
theorem experimental_same_cost (chars : List Nat) (n : Nat) (wf : WellFormed chars n)
    (g g' : Globals) (fuel fuel' : Nat) (hfuel : wt 16 + 28 ≤ fuel)
    (hfuel' : wt 16 + 28 ≤ fuel') :
    ∃ t, processInput fuel { g with experimental := true } chars = .ok t ∧
      processInput fuel' { g' with experimental := false } chars = .ok t := by
  obtain ⟨t, ht, hs, hn⟩ :=
    processInput_min chars n wf { g with experimental := true } fuel hfuel
  obtain ⟨t', ht', hs', hn'⟩ :=
    processInput_min chars n wf { g' with experimental := false } fuel' hfuel'
  refine ⟨t, ht, ?_⟩
  rw [ht']
  by_cases hsol : ∃ u, SolvableAt n (startConfig chars n) u
  · have h1 := hs hsol
    have h2 := hs' hsol
    have := Nat.le_antisymm (h1.2 t' h2.1) (h2.2 t h1.1)
    rw [this]
  · rw [hn hsol, hn' hsol]

/-- Witness for C2: the input `BACDABCD`. -/
theorem experimental_same_cost_witness :
    ∃ t, processInput (wt 16 + 28) { (⟨false, [], [], [], 0⟩ : Globals) with
          experimental := true } [66, 65, 67, 68, 65, 66, 67, 68] = .ok t ∧
      processInput (wt 16 + 28) { (⟨false, [], [], [], 0⟩ : Globals) with
          experimental := false } [66, 65, 67, 68, 65, 66, 67, 68] = .ok t :=
  experimental_same_cost [66, 65, 67, 68, 65, 66, 67, 68] 2
    ⟨Or.inl rfl, by decide, by decide, by decide⟩ ⟨false, [], [], [], 0⟩ ⟨false, [], [], [], 0⟩
    (wt 16 + 28) (wt 16 + 28) (le_refl _) (le_refl _)

end Day23
